import Mathlib

/-!
Verification development for the `prosemirror` Go package

A shallow embedding of the document model (`utf16.go`, `node.go`, `fragment.go`,
`resolvepos.go`, `slice.go`) followed by theorems about it.

Modelling conventions

* Go `int` is modelled by `Int`; no size or position in this development comes near `2^63`.
* A Go `string` is its byte sequence, a `List Nat` (`GoString`); indexing and slicing a
  string are byte operations, ranging over it decodes UTF-8.
* A run-time panic (index out of range, nil dereference, explicit `panic`) is the result
  `Except.error (Err.panic _)`; an `error` return value is `Except.error (Err.error _)`.
* Values behind `map[string]any` are scalars (`AttrValue`).
-/

namespace Prosemirror

/-! ## Go strings -/

/-- A Go string: a read-only sequence of bytes. -/
abbrev GoString := List Nat

/-- The bytes of an ASCII string literal. -/
def ascii (s : String) : GoString := s.toList.map Char.toNat

/-- The replacement rune `utf8.RuneError`, yielded for every invalid byte. -/
def RuneError : Nat := 0xFFFD

/-- Whether `b` is a UTF-8 continuation byte (`locb <= b <= hicb`). -/
def isCont (b : Nat) : Bool := 0x80 ≤ b && b ≤ 0xBF

/-- One step of `for _, r := range s` (the same as `utf8.DecodeRuneInString`): the rune at
the front of `s` and the number of bytes it occupies.  Invalid or truncated encodings give
`(RuneError, 1)`; the accepted ranges of the second byte are those of the Go tables
(`0xE0` needs `0xA0..0xBF`, `0xED` needs `0x80..0x9F`, `0xF0` needs `0x90..0xBF`, `0xF4`
needs `0x80..0x8F`). -/
def decodeRune : GoString → Nat × Nat
  | [] => (RuneError, 0)
  | b0 :: rest =>
    if b0 < 0x80 then (b0, 1)
    else if b0 < 0xC2 then (RuneError, 1)
    else if b0 < 0xE0 then
      match rest with
      | b1 :: _ =>
        if isCont b1 then ((b0 % 0x20) * 0x40 + b1 % 0x40, 2) else (RuneError, 1)
      | _ => (RuneError, 1)
    else if b0 < 0xF0 then
      match rest with
      | b1 :: b2 :: _ =>
        let lo := if b0 = 0xE0 then 0xA0 else 0x80
        let hi := if b0 = 0xED then 0x9F else 0xBF
        if lo ≤ b1 && b1 ≤ hi && isCont b2 then
          ((b0 % 0x10) * 0x1000 + (b1 % 0x40) * 0x40 + b2 % 0x40, 3)
        else (RuneError, 1)
      | _ => (RuneError, 1)
    else if b0 < 0xF5 then
      match rest with
      | b1 :: b2 :: b3 :: _ =>
        let lo := if b0 = 0xF0 then 0x90 else 0x80
        let hi := if b0 = 0xF4 then 0x8F else 0xBF
        if lo ≤ b1 && b1 ≤ hi && isCont b2 && isCont b3 then
          ((b0 % 0x08) * 0x40000 + (b1 % 0x40) * 0x1000 + (b2 % 0x40) * 0x40 + b3 % 0x40, 4)
        else (RuneError, 1)
      | _ => (RuneError, 1)
    else (RuneError, 1)

/-- The conversion `[]rune(s)`: the runes a `range` loop over `s` yields, in order.  The
fuel bounds the number of iterations; every iteration consumes at least one byte. -/
def runesLoop : Nat → GoString → List Nat
  | 0, _ => []
  | fuel + 1, s =>
    match s with
    | [] => []
    | _ :: _ =>
      let (r, w) := decodeRune s
      r :: runesLoop fuel (s.drop w)

/-- The conversion `[]rune(s)`. -/
def runes (s : GoString) : List Nat := runesLoop s.length s

/-- The constant `surrSelf` of `utf16Len`. -/
def surrSelf : Nat := 0x10000

/-- The loop of `utf16Len`: `l` is the running count. -/
def utf16LenLoop : Nat → GoString → Int → Int
  | 0, _, l => l
  | fuel + 1, s, l =>
    match s with
    | [] => l
    | _ :: _ =>
      let (r, w) := decodeRune s
      if r ≥ surrSelf then utf16LenLoop fuel (s.drop w) (l + 2)
      else utf16LenLoop fuel (s.drop w) (l + 1)

/-- The function `utf16Len` of `utf16.go`: the length of `s` in UTF-16 code units. -/
def utf16Len (s : GoString) : Int := utf16LenLoop s.length s 0

/-- The standard library's `utf16.Encode`: a rune below `0xD800` or in `0xE000..0xFFFF` is
one unit, a rune in `0x10000..0x10FFFF` is a surrogate pair, anything else is the
replacement character. -/
def utf16Encode : List Nat → List Nat
  | [] => []
  | v :: vs =>
    if v < 0xD800 || (0xE000 ≤ v && v < 0x10000) then v :: utf16Encode vs
    else if 0x10000 ≤ v && v ≤ 0x10FFFF then
      (0xD800 + ((v - 0x10000) / 0x400) % 0x400) :: (0xDC00 + (v - 0x10000) % 0x400)
        :: utf16Encode vs
    else 0xFFFD :: utf16Encode vs

/-- The number of UTF-16 code units the counting rule assigns to one rune. -/
def unitsOf (r : Nat) : Int := if r ≥ 0x10000 then 2 else 1

/-! ## Results, maps, marks and node types -/

/-- How a call that does not return a value ends: with an `error` value, or in a panic. -/
inductive Err where
  | error (msg : String)
  | panic (msg : String)
deriving DecidableEq, Repr

deriving instance DecidableEq for Except

/-- A value stored behind `any` in an attribute map. -/
inductive AttrValue where
  | null
  | bool (b : Bool)
  | int (i : Int)
  | str (s : String)
deriving DecidableEq, Repr

/-- A Go `map[string]V`, as an association list read by first match; a nil map and an
empty map are both the empty list. -/
abbrev GoMap (V : Type) := List (String × V)

/-- The lookup `m[k]` with its presence flag. -/
def GoMap.get {V : Type} (m : GoMap V) (k : String) : Option V :=
  (m.find? (fun e => e.1 == k)).map (fun e => e.2)

/-- The standard library's `maps.Equal`: the two maps have the same keys and equal values
under every key. -/
def mapsEqual {V : Type} [DecidableEq V] (m1 m2 : GoMap V) : Bool :=
  (m1.map (fun e => e.1) ++ m2.map (fun e => e.1)).all
    (fun k => decide (GoMap.get m1 k = GoMap.get m2 k))

/-- The standard library's `slices.EqualFunc`. -/
def slicesEqualFunc {α β : Type} (eq : α → β → Bool) : List α → List β → Bool
  | [], [] => true
  | a :: as, b :: bs => eq a b && slicesEqualFunc eq as bs
  | _, _ => false

/-- The type `Attribute` of `nodetype.go`; a nil `Default` is `AttrValue.null`. -/
structure Attribute where
  Default : AttrValue := AttrValue.null
deriving DecidableEq, Repr

/-- The type `MarkType` of `marktype.go` (the fields the model reads). -/
structure MarkType where
  Name : String
  Attrs : GoMap Attribute := []
deriving DecidableEq, Repr

/-- The method `MarkType.Eq`. -/
def MarkType.Eq (m other : MarkType) : Bool :=
  m.Name == other.Name && mapsEqual m.Attrs other.Attrs

/-- The type `Mark` of `mark.go`. -/
structure Mark where
  Typ : MarkType
  Attrs : GoMap AttrValue := []
deriving DecidableEq, Repr

/-- The method `Mark.Eq`. -/
def Mark.Eq (m other : Mark) : Bool :=
  m.Typ.Eq other.Typ && mapsEqual m.Attrs other.Attrs

/-- An out-edge of a `ContentMatch`: the name and block flag of the node type that labels
it, and the address of the state it leads to. -/
structure contentMatchNode where
  TypName : String
  TypBlock : Bool := true
  Next : Nat := 0
deriving DecidableEq, Repr

/-- The type `ContentMatch` of `content.go`; `Next = none` is the nil slice of the zero
value. -/
structure ContentMatch where
  Next : Option (List contentMatchNode) := none
  ValidEnd : Bool := false
deriving DecidableEq, Repr

/-- The method `ContentMatch.Empty`. -/
def ContentMatch.Empty (c : ContentMatch) : Bool :=
  c.Next.isNone && !c.ValidEnd

/-- The type `NodeType` of `nodetype.go` (the fields the model reads); `Marks = none` is
the nil slice, which allows every mark, and `Atom`, `SpecContent` and `SpecMarks` are
`Spec.Atom`, `Spec.Content` and `Spec.Marks` (`none` is the nil pointer).  `States` is the part
of the heap that the `Next` pointers of the out-edges of `ContentMatch` point into: the
pointer stored in an edge is the index of a state in this list. -/
structure NodeType where
  Name : String
  Block : Bool := true
  Text : Bool := false
  Groups : List String := []
  Marks : Option (List MarkType) := none
  Attrs : GoMap Attribute := []
  ContentMatch : ContentMatch := {}
  InlineContent : Bool := false
  Atom : Bool := false
  States : List Prosemirror.ContentMatch := []
  SpecContent : String := ""
  SpecMarks : Option String := none
deriving DecidableEq, Repr

/-- The method `NodeType.Eq`. -/
def NodeType.Eq (n other : NodeType) : Bool := n.Name == other.Name

/-- The method `NodeType.isText`. -/
def NodeType.isText (n : NodeType) : Bool := n.Text

/-- The method `NodeType.isLeaf`. -/
def NodeType.isLeaf (n : NodeType) : Bool := n.ContentMatch.Empty

/-- The method `NodeType.isInline`. -/
def NodeType.isInline (n : NodeType) : Bool := !n.Block

/-- The method `NodeType.isAtom`. -/
def NodeType.isAtom (n : NodeType) : Bool := n.isLeaf || n.Atom

/-- The method `NodeType.AllowsMarkType`. -/
def NodeType.AllowsMarkType (n : NodeType) (markType : MarkType) : Bool :=
  match n.Marks with
  | none => true
  | some ms => ms.any (fun other => other.Name == markType.Name)

/-- The loop of `NodeType.validMarks`: the first mark that is not allowed is an error. -/
def NodeType.validMarks (n : NodeType) : List Mark → Except Err Unit
  | [] => .ok ()
  | mark :: rest =>
    if !n.AllowsMarkType mark.Typ then .error (.error "mark not allowed in node type")
    else n.validMarks rest

/-- The method `ContentMatch.matchType` on a state whose edges point into `store`; `none`
is the nil pointer. -/
def ContentMatch.matchType (store : List ContentMatch) (c : ContentMatch) (t : NodeType) :
    Option ContentMatch :=
  match (c.Next.getD []).find? (fun m => m.TypName == t.Name) with
  | some m => store.get? m.Next
  | none => none

/-- The method `ContentMatch.compatible`. -/
def ContentMatch.compatible (c other : ContentMatch) : Bool :=
  (c.Next.getD []).any (fun n => (other.Next.getD []).any (fun o => n.TypName == o.TypName))

/-- The method `NodeType.compatibleContent`. -/
def NodeType.compatibleContent (t other : NodeType) : Bool :=
  t.Eq other || t.ContentMatch.compatible other.ContentMatch

/-! ## Nodes and fragments -/

mutual
/-- The type `Node` of `node.go`. -/
inductive Node where
  | mk (Typ : NodeType) (Attrs : GoMap AttrValue) (Marks : List Mark) (Text : GoString)
      (Content : Fragment)
/-- The type `Fragment` of `fragment.go`: the children and their cached total size. -/
inductive Fragment where
  | mk (Size : Int) (Content : List Node)
end

/-- Field `Type` of a node. -/
def Node.Typ : Node → NodeType
  | .mk t _ _ _ _ => t

/-- Field `Attrs` of a node. -/
def Node.Attrs : Node → GoMap AttrValue
  | .mk _ a _ _ _ => a

/-- Field `Marks` of a node. -/
def Node.Marks : Node → List Mark
  | .mk _ _ m _ _ => m

/-- Field `Text` of a node. -/
def Node.Text : Node → GoString
  | .mk _ _ _ t _ => t

/-- Field `Content` of a node. -/
def Node.Content : Node → Fragment
  | .mk _ _ _ _ c => c

/-- Field `Size` of a fragment. -/
def Fragment.Size : Fragment → Int
  | .mk s _ => s

/-- Field `Content` of a fragment. -/
def Fragment.Content : Fragment → List Node
  | .mk _ c => c

/-- The zero value `Fragment{}`. -/
def Fragment.zero : Fragment := .mk 0 []

/-- The method `Node.IsText`. -/
def Node.IsText (n : Node) : Bool := n.Typ.isText

/-- The method `Node.IsLeaf`. -/
def Node.IsLeaf (n : Node) : Bool := n.Typ.isLeaf

/-- The method `Node.textLen`. -/
def Node.textLen (n : Node) : Int := utf16Len n.Text

/-- The method `Node.NodeSize`. -/
def Node.NodeSize (n : Node) : Int :=
  if n.IsText then n.textLen
  else if n.IsLeaf then 1
  else 2 + n.Content.Size

/-- The loop of `NewFragment`: `size` is the running total. -/
def sumSizes : List Node → Int → Int
  | [], size => size
  | node :: rest, size => sumSizes rest (size + node.NodeSize)

/-- The function `NewFragment`. -/
def NewFragment (nodes : List Node) : Fragment :=
  .mk (sumSizes nodes 0) nodes

/-- Indexing `xs[i]` of a Go slice, which panics outside `0 <= i < len(xs)`. -/
def goIndex {α : Type} (xs : List α) (i : Int) : Except Err α :=
  if i < 0 then .error (.panic "index out of range")
  else match xs.get? i.toNat with
    | some x => .ok x
    | none => .error (.panic "index out of range")

/-- The slice expression `s[lo:hi]` of a Go string, which panics unless
`0 <= lo <= hi <= len(s)`. -/
def goSlice (s : GoString) (lo hi : Int) : Except Err GoString :=
  if lo < 0 || hi < lo || hi > s.length then .error (.panic "slice bounds out of range")
  else .ok ((s.take hi.toNat).drop lo.toNat)

/-- The method `Fragment.Child`. -/
def Fragment.Child (f : Fragment) (index : Int) : Except Err Node :=
  goIndex f.Content index

/-- The method `Fragment.maybeChild`; `none` is the nil pointer. -/
def Fragment.maybeChild (f : Fragment) (index : Int) : Option Node :=
  if index < 0 || index ≥ f.Content.length then none else f.Content.get? index.toNat

/-- The method `Fragment.ChildCount`. -/
def Fragment.ChildCount (f : Fragment) : Int := f.Content.length

/-- The method `Fragment.firstChild`; `none` is the nil pointer. -/
def Fragment.firstChild (f : Fragment) : Option Node := f.Content.head?

/-- The method `Fragment.lastChild`; `none` is the nil pointer. -/
def Fragment.lastChild (f : Fragment) : Option Node := f.Content.getLast?

/-- The method `Node.Child`. -/
def Node.Child (n : Node) (index : Int) : Except Err Node := n.Content.Child index

/-- The method `Node.ChildCount`. -/
def Node.ChildCount (n : Node) : Int := n.Content.ChildCount

/-- The method `Node.withText`; cloning the attrs, marks and content leaves their values
as they are. -/
def Node.withText (n : Node) (s : GoString) : Node :=
  if n.Text = s then n else .mk n.Typ n.Attrs n.Marks s n.Content

/-- The method `Node.copy`. -/
def Node.copy (n : Node) (f : Fragment) : Node :=
  .mk n.Typ n.Attrs n.Marks n.Text f

/-- The method `Node.hasMarkup`. -/
def Node.hasMarkup (n : Node) (t : NodeType) (attrs : GoMap AttrValue) (marks : List Mark) :
    Bool :=
  n.Typ.Eq t && mapsEqual n.Attrs attrs && slicesEqualFunc Mark.Eq n.Marks marks

/-- The method `Node.sameMarkup`. -/
def Node.sameMarkup (n other : Node) : Bool :=
  n.hasMarkup other.Typ other.Attrs other.Marks

/-! ## Fragment operations -/

/-- The loop of `Fragment.findIndex` over the children from index `i` on, `curPos` being
the position at which child `i` starts.  Reading a child past the last one panics. -/
def findIndexLoop : List Node → Int → Int → Int → Except Err (Int × Int)
  | [], _, _, _ => .error (.panic "index out of range")
  | cur :: rest, i, curPos, pos =>
    let end_ := curPos + cur.NodeSize
    if end_ ≥ pos then
      if end_ = pos then .ok (i + 1, end_) else .ok (i, curPos)
    else findIndexLoop rest (i + 1) end_ pos

/-- The method `Fragment.findIndex`. -/
def Fragment.findIndex (f : Fragment) (pos : Int) : Except Err (Int × Int) :=
  if pos = 0 then .ok (0, pos)
  else if pos = f.Size then .ok (f.Content.length, pos)
  else if pos > f.Size || pos < 0 then .error (.panic "position out of bounds")
  else findIndexLoop f.Content 0 0 pos

mutual
/-- The method `Node.cut`; `to_ = -1` stands for the end of the node. -/
def Node.cut : Node → Int → Int → Except Err Node
  | .mk typ attrs marks text content, from_, to_ =>
    let n := Node.mk typ attrs marks text content
    if n.IsText then
      let to_ := if to_ = -1 then n.textLen else to_
      if from_ = 0 && to_ = n.textLen then .ok n
      else do
        let s ← goSlice text from_ to_
        pure (n.withText s)
    else
      let to_ := if to_ = -1 then content.Size else to_
      if from_ = 0 && to_ = content.Size then .ok n
      else do
        let c ← content.cut from_ to_
        pure (n.copy c)
/-- The method `Fragment.cut`; `to_ = -1` stands for the end of the fragment. -/
def Fragment.cut : Fragment → Int → Int → Except Err Fragment
  | .mk size content, from_, to_ =>
    let to_ := if to_ = -1 then size else to_
    if from_ = 0 && to_ = size then .ok (.mk size content)
    else if to_ ≤ from_ then .ok Fragment.zero
    else do
      let (result, sz) ← cutLoop content 0 from_ to_
      pure (.mk sz result)
/-- The loop of `Fragment.cut` over the children not yet visited, `pos` being the position
at which the first of them starts; it returns the children kept and their total size. -/
def cutLoop : List Node → Int → Int → Int → Except Err (List Node × Int)
  | [], pos, _, to_ =>
    if pos < to_ then .error (.panic "index out of range") else .ok ([], 0)
  | child :: rest, pos, from_, to_ =>
    if pos < to_ then
      let end_ := pos + child.NodeSize
      if end_ ≤ from_ then cutLoop rest end_ from_ to_
      else do
        let child2 ←
          if pos < from_ || end_ > to_ then
            if child.IsText then
              child.cut (max 0 (from_ - pos)) (min child.textLen (to_ - pos))
            else
              child.cut (max 0 (from_ - pos - 1)) (min child.Content.Size (to_ - pos - 1))
          else pure child
        let (result, sz) ← cutLoop rest end_ from_ to_
        pure (child2 :: result, child2.NodeSize + sz)
    else .ok ([], 0)
end

/-- The method `Fragment.append`.  Dereferencing the nil `lastChild` or `firstChild` of a
fragment without children panics. -/
def Fragment.append (f other : Fragment) : Except Err Fragment :=
  if other.Size = 0 then .ok f
  else if f.Size = 0 then .ok other
  else
    match f.lastChild, other.firstChild with
    | some last, some first =>
      if last.IsText && last.sameMarkup first then
        .ok (.mk (f.Size + other.Size)
          (f.Content.dropLast ++ [last.withText (last.Text ++ first.Text)]
            ++ other.Content.drop 1))
      else .ok (.mk (f.Size + other.Size) (f.Content ++ other.Content))
    | _, _ => .error (.panic "nil pointer dereference")

/-! ## Resolved positions -/

/-- The type `ResolvedPos` of `resolvepos.go`. -/
structure ResolvedPos where
  Depth : Int := 0
  Pos : Int := 0
  ParentOffset : Int := 0
  NodePath : List Node := []
  IndexPath : List Int := []
  OffsetPath : List Int := []

mutual
/-- The number of levels of a node: one more than that of its tallest child. -/
def Node.height : Node → Nat
  | .mk _ _ _ _ c => c.height + 1
/-- The number of levels of the children of a fragment. -/
def Fragment.height : Fragment → Nat
  | .mk _ c => heightList c
/-- The number of levels of the tallest node of a list. -/
def heightList : List Node → Nat
  | [] => 0
  | n :: ns => max n.height (heightList ns)
end

/-- The loop of `resolve`, entered at `node` with the paths built so far in `r` and the
absolute position `start` of the content of `node`.  Each iteration steps from a node into
one of its children, so the loop body runs at most `node.height` times, which is the fuel
`resolve` passes. -/
def resolveLoop : Nat → Node → ResolvedPos → Int → Except Err ResolvedPos
  | 0, _, _, _ => .error (.panic "resolve: descended below the leaves")
  | fuel + 1, node, r, start => do
    let (index, offset) ← node.Content.findIndex r.ParentOffset
    let r := { r with
      NodePath := r.NodePath ++ [node]
      IndexPath := r.IndexPath ++ [index]
      OffsetPath := r.OffsetPath ++ [start + offset] }
    let rem := r.ParentOffset - offset
    if rem = 0 then pure r
    else do
      let node ← node.Child index
      if node.IsText then pure r
      else resolveLoop fuel node { r with ParentOffset := rem - 1 } (start + offset + 1)

/-- The function `resolve` of `resolvepos.go`. -/
def resolve (doc : Node) (pos : Int) : Except Err ResolvedPos :=
  if pos < 0 || pos > doc.Content.Size then .error (.error "position out of bounds")
  else do
    let r ← resolveLoop doc.height doc { Pos := pos, ParentOffset := pos } 0
    pure { r with Depth := (r.NodePath.length : Int) - 1 }

/-- The method `Node.Resolve`. -/
def Node.Resolve (n : Node) (pos : Int) : Except Err ResolvedPos := resolve n pos

/-- The method `ResolvedPos.resolveDepth`. -/
def ResolvedPos.resolveDepth (r : ResolvedPos) (depth : Int) : Int :=
  if depth < 0 then r.Depth + depth else depth

/-- The method `ResolvedPos.Node`. -/
def ResolvedPos.Node (r : ResolvedPos) (depth : Int) : Except Err Prosemirror.Node :=
  goIndex r.NodePath (r.resolveDepth depth)

/-- The method `ResolvedPos.Index`. -/
def ResolvedPos.Index (r : ResolvedPos) (depth : Int) : Except Err Int :=
  goIndex r.IndexPath (r.resolveDepth depth)

/-- The method `ResolvedPos.Parent`. -/
def ResolvedPos.Parent (r : ResolvedPos) : Except Err Prosemirror.Node := r.Node r.Depth

/-- The method `ResolvedPos.TextOffset`. -/
def ResolvedPos.TextOffset (r : ResolvedPos) : Except Err Bool := do
  let o ← goIndex r.OffsetPath ((r.OffsetPath.length : Int) - 1)
  pure (r.Pos - o != 0)

/-- The method `ResolvedPos.Start`: below depth 0 it reads the second-to-last entry of the
offset path, whatever the depth asked for. -/
def ResolvedPos.Start (r : ResolvedPos) (depth : Int) : Except Err Int :=
  let depth := r.resolveDepth depth
  if depth = 0 then .ok 0
  else do
    let last := (r.OffsetPath.length : Int) - 1
    let o ← goIndex r.OffsetPath (last - 1)
    pure (o + 1)

/-- The method `ResolvedPos.End`. -/
def ResolvedPos.End (r : ResolvedPos) (depth : Int) : Except Err Int := do
  let depth := r.resolveDepth depth
  let s ← r.Start depth
  let n ← r.Node depth
  pure (s + n.Content.Size)

/-- The loop of `ResolvedPos.SharedDepth`: it tries `depth = r.Depth - k` for
`k = 0, 1, ...` while `depth > 0`; the fuel is the number of depths left to try. -/
def sharedDepthLoop (r : ResolvedPos) (pos : Int) : Nat → Int → Except Err Int
  | 0, _ => .ok 0
  | fuel + 1, depth =>
    if depth > 0 then do
      let s ← r.Start depth
      if s ≤ pos then do
        let e ← r.End depth
        if e ≥ pos then pure depth
        else sharedDepthLoop r pos fuel (depth - 1)
      else sharedDepthLoop r pos fuel (depth - 1)
    else .ok 0

/-- The method `ResolvedPos.SharedDepth`. -/
def ResolvedPos.SharedDepth (r : ResolvedPos) (pos : Int) : Except Err Int :=
  sharedDepthLoop r pos r.Depth.toNat r.Depth

/-! ## Slices -/

/-- The type `Slice` of `slice.go`. -/
structure Slice where
  Content : Fragment := Fragment.zero
  OpenStart : Int := 0
  OpenEnd : Int := 0

/-- The method `Node.Slice`. -/
def Node.Slice (n : Node) (from_ to_ : Int) (includeParents : Bool) : Except Err Slice :=
  let to_ := if to_ = -1 then n.Content.Size else to_
  if from_ = to_ then .ok {}
  else do
    let fromNode ← n.Resolve from_
    let toNode ← n.Resolve to_
    let depth ← if !includeParents then fromNode.SharedDepth to_ else pure 0
    let start ← fromNode.Start depth
    let node ← fromNode.Node depth
    let content ← node.Content.cut (fromNode.Pos - start) (toNode.Pos - start)
    pure { Content := content, OpenStart := fromNode.Depth - depth,
           OpenEnd := toNode.Depth - depth }

/-! ## Well-formed values -/

mutual
/-- Every fragment inside the node caches the sum of the sizes of its children. -/
def Node.WellSized : Node → Bool
  | .mk _ _ _ _ c => c.WellSized
/-- The fragment and every fragment inside it caches the sum of the sizes of its
children. -/
def Fragment.WellSized : Fragment → Bool
  | .mk size content => decide (size = sumSizes content 0) && wellSizedList content
/-- Every node of the list is well sized. -/
def wellSizedList : List Node → Bool
  | [] => true
  | n :: ns => n.WellSized && wellSizedList ns
end

/-! ## Content checks and node equality -/

/-- The loop of `ContentMatch.matchFragment` from child `i` up to `end_`, at the state
`cur` (`none` is the nil pointer, which ends the loop); the fuel is `end_ - i`. -/
def matchFragmentLoop (store : List ContentMatch) :
    Nat → Option ContentMatch → Fragment → Int → Int → Except Err (Option ContentMatch)
  | 0, cur, _, _, _ => .ok cur
  | fuel + 1, cur, frag, i, end_ =>
    match cur with
    | none => .ok none
    | some c =>
      if i < end_ then do
        let child ← frag.Child i
        matchFragmentLoop store fuel (c.matchType store child.Typ) frag (i + 1) end_
      else .ok cur

/-- The method `ContentMatch.matchFragment`; `-1` stands for the first and for the last
child. -/
def ContentMatch.matchFragment (store : List ContentMatch) (c : ContentMatch)
    (frag : Fragment) (start end_ : Int) : Except Err (Option ContentMatch) :=
  let start := if start = -1 then 0 else start
  let end_ := if end_ = -1 then frag.ChildCount else end_
  matchFragmentLoop store (end_ - start).toNat (some c) frag start end_

/-- The loop of `NodeType.CheckContent` over the marks of the children. -/
def checkMarksLoop (n : NodeType) : List Node → Except Err Unit
  | [] => .ok ()
  | child :: rest => do
    n.validMarks child.Marks
    checkMarksLoop n rest

/-- The method `NodeType.CheckContent`. -/
def NodeType.CheckContent (n : NodeType) (f : Fragment) : Except Err Unit := do
  let result ← n.ContentMatch.matchFragment n.States f (-1) (-1)
  match result with
  | none => .error (.error "content does not match node type, no content match found")
  | some r =>
    if !r.ValidEnd then
      .error (.error "content does not match node type, invalid end position")
    else checkMarksLoop n f.Content

/-- The method `NodeType.Create`. -/
def NodeType.Create (n : NodeType) (attrs : GoMap AttrValue) (marks : List Mark)
    (content : List Node) : Except Err Node :=
  if n.isText then .error (.error "cannot create text node through NodeType")
  else do
    let f := NewFragment content
    n.CheckContent f
    pure (.mk n attrs marks [] f)

/-- The method `Node.IsAtom`. -/
def Node.IsAtom (n : Node) : Bool := n.Typ.isAtom

/-- The method `Node.IsInline`. -/
def Node.IsInline (n : Node) : Bool := n.Typ.isInline

/-- The method `Node.Clone`; a clone has the value of the original. -/
def Node.Clone (n : Node) : Node := .mk n.Typ n.Attrs n.Marks n.Text n.Content

/-- The method `Node.WithMarks`. -/
def Node.WithMarks (n : Node) (m : List Mark) : Node :=
  .mk n.Clone.Typ n.Clone.Attrs m n.Clone.Text n.Clone.Content

/-- The method `Node.close`. -/
def Node.close (n : Node) (f : Fragment) : Except Err Node := do
  n.Typ.CheckContent f
  pure (n.copy f)

/-- The method `Node.MaybeChild`. -/
def Node.MaybeChild (n : Node) (index : Int) : Option Node := n.Content.maybeChild index

/-- The method `Node.FirstChild`. -/
def Node.FirstChild (n : Node) : Option Node := n.Content.firstChild

mutual
/-- The method `Node.eq`. -/
def Node.eq : Node → Node → Bool
  | .mk typ attrs marks text content, other =>
    let n := Node.mk typ attrs marks text content
    if n.Typ.isText then n.sameMarkup other && decide (n.Text = other.Text)
    else
      n.Typ.Eq other.Typ && mapsEqual n.Attrs other.Attrs &&
        slicesEqualFunc Mark.Eq n.Marks other.Marks && decide (n.Text = other.Text) &&
        content.eqChildren other.Content.Content
/-- The children of the fragment equal the given nodes, pairwise under `Node.eq`. -/
def Fragment.eqChildren : Fragment → List Node → Bool
  | .mk _ content, others => eqList content others
/-- The call `slices.EqualFunc(a, b, Node.eq)`. -/
def eqList : List Node → List Node → Bool
  | [], [] => true
  | a :: as, b :: bs => a.eq b && eqList as bs
  | _, _ => false
end

/-- The method `Fragment.replaceChild`. -/
def Fragment.replaceChild (f : Fragment) (index : Int) (n : Node) : Except Err Fragment := do
  let curr ← goIndex f.Content index
  if curr.eq n then pure f
  else pure (.mk (f.Size - curr.NodeSize + n.NodeSize) (f.Content.set index.toNat n))

/-! ## Accessors of resolved positions used by the replace engine -/

/-- The method `ResolvedPos.IndexAfter`. -/
def ResolvedPos.IndexAfter (r : ResolvedPos) (depth : Int) : Except Err Int := do
  let depth := r.resolveDepth depth
  let i ← r.Index depth
  if depth != r.Depth then pure (i + 1)
  else do
    let t ← r.TextOffset
    if t then pure (i + 1) else pure i

/-- The method `ResolvedPos.NodeAfter`; `none` is the nil pointer. -/
def ResolvedPos.NodeAfter (r : ResolvedPos) : Except Err (Option Prosemirror.Node) := do
  let parent ← r.Parent
  let index ← r.Index r.Depth
  if index = parent.ChildCount then pure none
  else do
    let o ← goIndex r.OffsetPath ((r.OffsetPath.length : Int) - 1)
    let dOff := r.Pos - o
    if dOff ≠ 0 then do
      let c ← parent.Child index
      let n ← c.cut dOff (-1)
      pure (some n)
    else do
      let c ← parent.Child index
      pure (some c)

/-- The method `ResolvedPos.NodeBefore`; `none` is the nil pointer. -/
def ResolvedPos.NodeBefore (r : ResolvedPos) : Except Err (Option Prosemirror.Node) := do
  let index ← r.Index r.Depth
  let o ← goIndex r.OffsetPath ((r.OffsetPath.length : Int) - 1)
  let dOff := r.Pos - o
  if dOff ≠ 0 then do
    let parent ← r.Parent
    let c ← parent.Child index
    let n ← c.cut 0 dOff
    pure (some n)
  else if index = 0 then pure none
  else do
    let parent ← r.Parent
    let c ← parent.Child (index - 1)
    pure (some c)

/-- The function `checkJoin`. -/
def checkJoin (main sub : Node) : Except Err Unit :=
  if !sub.Typ.compatibleContent main.Typ then
    .error (.error "can't join incompatible nodes")
  else .ok ()

/-- The function `joinable`; it returns the node of `before` at `depth`. -/
def joinable (before after : ResolvedPos) (depth : Int) : Except Err Node := do
  let node ← before.Node depth
  let sub ← after.Node depth
  checkJoin node sub
  pure node

/-! ## The replace engine -/

/-- The function `appendNode`. -/
def appendNode (content : List Node) (child : Node) : List Node :=
  match content.getLast? with
  | some last =>
    if child.IsText && child.sameMarkup last then
      content.dropLast ++ [child.withText (last.Text ++ child.Text)]
    else content ++ [child]
  | none => content ++ [child]

/-- Dereferencing a pointer to a node, which panics on nil. -/
def derefNode : Option Node → Except Err Node
  | some n => .ok n
  | none => .error (.panic "nil pointer dereference")

/-- The loop `for i := startIndex; i < endIndex; i++` of `appendRange`; the fuel is
`endIndex - i`. -/
def appendRangeLoop (node : Node) :
    Nat → List Node → Int → Int → Except Err (List Node)
  | 0, content, _, _ => .ok content
  | fuel + 1, content, i, endIndex =>
    if i < endIndex then do
      let c ← node.Child i
      appendRangeLoop node fuel (appendNode content c) (i + 1) endIndex
    else .ok content

/-- The function `appendRange`; `none` is a nil `start` or `end`. -/
def appendRange (content : List Node) (start end_ : Option ResolvedPos) (depth : Int) :
    Except Err (List Node) := do
  let node ←
    match start, end_ with
    | some s, _ => s.Node depth
    | none, some e => e.Node depth
    | none, none => pure (Node.mk { Name := "" } [] [] [] Fragment.zero)
  let endIndex ←
    match end_ with
    | some e => e.Index depth
    | none => pure node.ChildCount
  let (content, startIndex) ←
    match start with
    | none => pure (content, (0 : Int))
    | some s => do
      let startIndex ← s.Index depth
      if s.Depth > depth then pure (content, startIndex + 1)
      else do
        let t ← s.TextOffset
        if t then do
          let after ← s.NodeAfter
          let n ← derefNode after
          pure (appendNode content n, startIndex + 1)
        else pure (content, startIndex)
  let content ← appendRangeLoop node (endIndex - startIndex).toNat content startIndex endIndex
  match end_ with
  | none => pure content
  | some e =>
    if e.Depth = depth then do
      let t ← e.TextOffset
      if t then do
        let before ← e.NodeBefore
        let n ← derefNode before
        pure (appendNode content n)
      else pure content
    else pure content

/-- The function `replaceTwoWay`, with fuel for its recursion: each call goes one level
deeper along the node path of `from_`, and `joinable` panics below the end of that path. -/
def replaceTwoWayLoop : Nat → ResolvedPos → ResolvedPos → Int → Except Err Fragment
  | 0, _, _, _ => .error (.panic "replaceTwoWay: recursion below the node path")
  | fuel + 1, from_, to_, depth => do
    let content ← appendRange [] none (some from_) depth
    let content ←
      if from_.Depth > depth then do
        let nodeType ← joinable from_ to_ (depth + 1)
        let r ← replaceTwoWayLoop fuel from_ to_ (depth + 1)
        let node ← nodeType.close r
        pure (appendNode content node)
      else pure content
    let content ← appendRange content (some to_) none depth
    pure (NewFragment content)

/-- The function `replaceTwoWay`. -/
def replaceTwoWay (from_ to_ : ResolvedPos) (depth : Int) : Except Err Fragment :=
  replaceTwoWayLoop (from_.NodePath.length + 1) from_ to_ depth

/-- The function `replaceThreeWay`, with fuel for its recursion: the recursive call is made
after `joinable(from, start, depth+1)`, which panics below the end of the node path of
`from_`. -/
def replaceThreeWayLoop :
    Nat → ResolvedPos → ResolvedPos → ResolvedPos → ResolvedPos → Int → Except Err Fragment
  | 0, _, _, _, _, _ => .error (.panic "replaceThreeWay: recursion below the node path")
  | fuel + 1, from_, start, end_, to_, depth => do
    let openStart ←
      if from_.Depth > depth then do
        let n ← joinable from_ start (depth + 1)
        pure (some n)
      else pure none
    let openEnd ←
      if to_.Depth > depth then do
        let n ← joinable end_ to_ (depth + 1)
        pure (some n)
      else pure none
    let content ← appendRange [] none (some from_) depth
    let thin ←
      match openStart, openEnd with
      | some _, some _ => do
        let si ← start.Index depth
        let ei ← end_.Index depth
        pure (decide (si = ei))
      | _, _ => pure false
    match openStart, openEnd, thin with
    | some os, some oe, true => do
      checkJoin os oe
      let r ← replaceThreeWayLoop fuel from_ start end_ to_ (depth + 1)
      let node ← os.close r
      let content := appendNode content node
      let content ← appendRange content (some to_) none depth
      pure (NewFragment content)
    | _, _, _ => do
      let content ←
        match openStart with
        | some os => do
          let r ← replaceTwoWay from_ start (depth + 1)
          let node ← os.close r
          pure (appendNode content node)
        | none => pure content
      let content ← appendRange content (some start) (some end_) depth
      let content ←
        match openEnd with
        | some oe => do
          let r ← replaceTwoWay end_ to_ (depth + 1)
          let node ← oe.close r
          pure (appendNode content node)
        | none => pure content
      let content ← appendRange content (some to_) none depth
      pure (NewFragment content)

/-- The function `replaceThreeWay`. -/
def replaceThreeWay (from_ start end_ to_ : ResolvedPos) (depth : Int) : Except Err Fragment :=
  replaceThreeWayLoop (from_.NodePath.length + 1) from_ start end_ to_ depth

/-- The loop `for i := extra - 1; i >= 0; i--` of `prepareSliceForReplace`; the fuel is
`i + 1`. -/
def wrapLoop (along : ResolvedPos) : Nat → Int → Node → Except Err Node
  | 0, _, node => .ok node
  | fuel + 1, i, node =>
    if i ≥ 0 then do
      let a ← along.Node i
      wrapLoop along fuel (i - 1) (a.copy (NewFragment [node]))
    else .ok node

/-- An error of `resolve` turned into the panic of `panic(err)`. -/
def orPanic {α : Type} : Except Err α → Except Err α
  | .ok a => .ok a
  | .error (.error msg) => .error (.panic msg)
  | .error (.panic msg) => .error (.panic msg)

/-- The function `prepareSliceForReplace`. -/
def prepareSliceForReplace (slice : Slice) (along : ResolvedPos) :
    Except Err (ResolvedPos × ResolvedPos) := do
  let extra := along.Depth - slice.OpenStart
  let parent ← along.Node extra
  let node := parent.copy slice.Content
  let node ← wrapLoop along extra.toNat (extra - 1) node
  let start ← orPanic (resolve node (slice.OpenStart + extra))
  let end_ ← orPanic (resolve node (node.Content.Size - slice.OpenEnd - extra))
  pure (start, end_)

/-- The function `replaceOuter`, with fuel for its recursion: each call reads
`from.Index(depth)`, which panics below the end of the index path of `from_`. -/
def replaceOuterLoop : Nat → ResolvedPos → ResolvedPos → Slice → Int → Except Err Node
  | 0, _, _, _, _ => .error (.panic "replaceOuter: recursion below the index path")
  | fuel + 1, from_, to_, slice, depth => do
    let index ← from_.Index depth
    let node ← from_.Node depth
    let toIndex ← to_.Index depth
    if index = toIndex && depth < from_.Depth - slice.OpenStart then do
      let inner ← replaceOuterLoop fuel from_ to_ slice (depth + 1)
      let c ← node.Content.replaceChild index inner
      pure (node.copy c)
    else if slice.Content.Size = 0 then do
      let r ← replaceTwoWay from_ to_ depth
      node.close r
    else if slice.OpenStart = 0 && slice.OpenEnd = 0 && from_.Depth = depth
        && to_.Depth = depth then do
      let parent ← from_.Parent
      let content := parent.Content
      let cut1 ← content.cut 0 from_.ParentOffset
      let append1 ← cut1.append slice.Content
      let cut2 ← content.cut to_.ParentOffset (-1)
      let append2 ← append1.append cut2
      parent.close append2
    else do
      let (start, end_) ← prepareSliceForReplace slice from_
      let r ← replaceThreeWay from_ start end_ to_ depth
      node.close r

/-- The function `replaceOuter`. -/
def replaceOuter (from_ to_ : ResolvedPos) (slice : Slice) (depth : Int) : Except Err Node :=
  replaceOuterLoop (from_.IndexPath.length + 1) from_ to_ slice depth

/-- The function `replace` of `replace.go`. -/
def replace (from_ to_ : ResolvedPos) (slice : Slice) : Except Err Node :=
  if slice.OpenStart > from_.Depth then
    .error (.error "inserted content deeper than insertion position")
  else if from_.Depth - slice.OpenStart ≠ to_.Depth - slice.OpenEnd then
    .error (.error "inconsistent open depths")
  else replaceOuter from_ to_ slice 0

/-- An error wrapped by `fmt.Errorf(prefix + ": %w", err)`; a panic passes through. -/
def wrapErr {α : Type} (pfx : String) : Except Err α → Except Err α
  | .ok a => .ok a
  | .error (.error msg) => .error (.error (pfx ++ ": " ++ msg))
  | .error (.panic msg) => .error (.panic msg)

/-- The method `Node.Replace`. -/
def Node.Replace (n : Node) (from_ to_ : Int) (s : Prosemirror.Slice) : Except Err Node := do
  let fromNode ← wrapErr "error resolving from" (resolve n from_)
  let toNode ← wrapErr "error resolving to" (resolve n to_)
  replace fromNode toNode s

/-! ## `Slice.InsertAt` -/

/-- The method `Node.contentMatchAt`; `none` is the nil pointer. -/
def Node.contentMatchAt (n : Node) (index : Int) : Except Err (Option ContentMatch) :=
  n.Typ.ContentMatch.matchFragment n.Typ.States n.Content 0 index

/-- The loop over the marks of the inserted children in `Node.canReplace`; the fuel is
`end_ - i`. -/
def canReplaceMarksLoop (n : Node) (replacement : Fragment) : Nat → Int → Int → Except Err Bool
  | 0, _, _ => .ok true
  | fuel + 1, i, end_ =>
    if i < end_ then do
      let c ← replacement.Child i
      match n.Typ.validMarks c.Marks with
      | .error _ => pure false
      | .ok _ => canReplaceMarksLoop n replacement fuel (i + 1) end_
    else .ok true

/-- The method `Node.canReplace`. -/
def Node.canReplace (n : Node) (from_ to_ : Int) (replacement : Fragment) (start end_ : Int) :
    Except Err Bool := do
  let start := if start = -1 then 0 else start
  let end_ := if end_ = -1 then replacement.ChildCount else end_
  let at_ ← n.contentMatchAt from_
  let one ← matchFragmentLoop n.Typ.States (end_ - start).toNat at_ replacement start end_
  match one with
  | none => pure false
  | some o => do
    let two ← o.matchFragment n.Typ.States n.Content to_ (-1)
    match two with
    | none => pure false
    | some t =>
      if !t.ValidEnd then pure false
      else canReplaceMarksLoop n replacement (end_ - start).toNat start end_

/-- The function `insertInto`; `none` as a result is the nil pointer.  Each recursive call
works on the content of a child, so the fuel `InsertAt` passes is the height of the
content. -/
def insertIntoLoop :
    Nat → Fragment → Int → Fragment → Option Node → Except Err (Option Fragment)
  | 0, _, _, _, _ => .error (.panic "insertInto: descended below the leaves")
  | fuel + 1, content, dist, insert, parent => do
    let (index, offset) ← content.findIndex dist
    let child := content.maybeChild index
    let isText := match child with
      | some c => c.IsText
      | none => false
    if offset = dist || isText then do
      let refused ←
        match parent with
        | some p => do
          let ok ← p.canReplace index index insert (-1) (-1)
          pure (!ok)
        | none => pure false
      if refused then pure none
      else do
        let c ← content.cut 0 dist
        let c ← c.append insert
        let subc ← content.cut dist (-1)
        let c ← c.append subc
        pure (some c)
    else do
      let ch ← derefNode child
      let inner ← insertIntoLoop fuel ch.Content (dist - offset - 1) insert none
      match inner with
      | some i => do
        let r ← content.replaceChild index (ch.copy i)
        pure (some r)
      | none => pure none

/-- The function `insertInto`. -/
def insertInto (content : Fragment) (dist : Int) (insert : Fragment) (parent : Option Node) :
    Except Err (Option Fragment) :=
  insertIntoLoop (content.height + 1) content dist insert parent

/-- The method `Slice.InsertAt`; `none` as a result is the nil pointer. -/
def Slice.InsertAt (s : Slice) (pos : Int) (frag : Fragment) : Except Err (Option Slice) := do
  let content ← insertInto s.Content (pos + s.OpenStart) frag none
  match content with
  | none => pure none
  | some c => pure (some { Content := c, OpenStart := s.OpenStart, OpenEnd := s.OpenEnd })

/-! ## Transform steps -/

mutual
/-- The function `mapFragments` of `transform/marks.go`. -/
def mapFragments (fn : Node → Node → Int → Node) : Fragment → Node → Fragment
  | .mk _ content, parent => NewFragment (mapChildren fn content parent 0)
/-- The loop of `mapFragments` over the children from index `i` on. -/
def mapChildren (fn : Node → Node → Int → Node) : List Node → Node → Int → List Node
  | [], _, _ => []
  | .mk typ attrs marks text content :: rest, parent, i =>
    let child := (Node.mk typ attrs marks text content).Clone
    let child :=
      if content.Size > 0 then Node.mk typ attrs marks text (mapFragments fn content child)
      else child
    let child := if child.IsInline then fn child parent i else child
    child :: mapChildren fn rest parent (i + 1)
end

/-- The type `ReplaceStep`. -/
structure ReplaceStep where
  From : Int
  To : Int
  Slice : Slice := {}
  Structure : Bool := false

/-- The type `ReplaceAroundStep`. -/
structure ReplaceAroundStep where
  From : Int
  To : Int
  GapFrom : Int
  GapTo : Int
  Insert : Int
  Slice : Slice := {}
  Structure : Bool := false

/-- The type `MarkStep`; `remove` tells `removeMark` from `addMark`. -/
structure MarkStep where
  From : Int
  To : Int
  Mark : Mark
  remove : Bool := false

/-- The method `ReplaceStep.Apply`. -/
def ReplaceStep.Apply (s : ReplaceStep) (doc : Node) : Except Err Node :=
  wrapErr "failed to replace" (doc.Replace s.From s.To s.Slice)

/-- The method `MarkStep.addMark`. -/
def MarkStep.addMark (s : MarkStep) (doc : Node) : Except Err Node := do
  let oldSlice ← wrapErr "failed to slice document" (doc.Slice s.From s.To false)
  let from_ ← wrapErr "failed to resolve document" (doc.Resolve s.From)
  let depth ← from_.SharedDepth s.To
  let parent ← from_.Node depth
  let slice := mapFragments
    (fun node parent _ =>
      if !node.IsAtom || !parent.Typ.AllowsMarkType s.Mark.Typ then node
      else node.WithMarks (node.Marks ++ [s.Mark]))
    oldSlice.Content parent
  doc.Replace s.From s.To
    { Content := slice, OpenStart := oldSlice.OpenStart, OpenEnd := oldSlice.OpenEnd }

/-- The method `MarkStep.removeMark`. -/
def MarkStep.removeMark (s : MarkStep) (doc : Node) : Except Err Node := do
  let oldSlice ← wrapErr "failed to slice document" (doc.Slice s.From s.To false)
  let slice := mapFragments
    (fun node _ _ => node.WithMarks (node.Marks.filter (fun m => !m.Eq s.Mark)))
    oldSlice.Content doc
  doc.Replace s.From s.To
    { Content := slice, OpenStart := oldSlice.OpenStart, OpenEnd := oldSlice.OpenEnd }

/-- The method `MarkStep.Apply`. -/
def MarkStep.Apply (s : MarkStep) (doc : Node) : Except Err Node :=
  if s.remove then s.removeMark doc else s.addMark doc

/-- The first loop of `contentBetween`: it climbs while the position is at the end of its
ancestor; the fuel is `depth`.  It returns the depth and distance left. -/
def climbLoop (fromNode : ResolvedPos) : Nat → Int → Int → Except Err (Int × Int)
  | 0, depth, dist => .ok (depth, dist)
  | fuel + 1, depth, dist =>
    if dist > 0 && depth > 0 then do
      let ia ← fromNode.IndexAfter depth
      let n ← fromNode.Node depth
      if ia = n.ChildCount then climbLoop fromNode fuel (depth - 1) (dist - 1)
      else pure (depth, dist)
    else .ok (depth, dist)

/-- The second loop of `contentBetween`: it descends along first children; the fuel is
`dist`. -/
def descendLoop : Nat → Option Node → Int → Bool
  | 0, _, _ => false
  | fuel + 1, next, dist =>
    if dist > 0 then
      match next with
      | none => true
      | some n => if n.IsLeaf then true else descendLoop fuel n.FirstChild (dist - 1)
    else false

/-- The function `contentBetween` of `transform/replaceAround.go`; an error of `Resolve` is
dropped and leaves the zero `ResolvedPos`. -/
def contentBetween (doc : Node) (from_ to_ : Int) : Except Err Bool := do
  let fromNode : ResolvedPos ←
    match doc.Resolve from_ with
    | .ok r => pure r
    | .error (.error _) => pure {}
    | .error (.panic msg) => .error (.panic msg)
  let dist := to_ - from_
  let depth := fromNode.Depth
  let (depth, dist) ← climbLoop fromNode depth.toNat depth dist
  if dist > 0 then do
    let n ← fromNode.Node depth
    let ia ← fromNode.IndexAfter depth
    pure (descendLoop dist.toNat (n.MaybeChild ia) dist)
  else pure false

/-- The method `ReplaceAroundStep.Apply`. -/
def ReplaceAroundStep.Apply (s : ReplaceAroundStep) (doc : Node) : Except Err Node := do
  let overwrite ←
    if s.Structure then do
      let before ← contentBetween doc s.From s.GapFrom
      if before then pure true else contentBetween doc s.GapTo s.To
    else pure false
  if overwrite then .error (.error "structure gap-replace would overwrite content")
  else do
    let gap ← wrapErr "failed to slice gap" (doc.Slice s.GapFrom s.GapTo false)
    if gap.OpenStart ≠ 0 || gap.OpenEnd ≠ 0 then .error (.error "gap is not a flat range")
    else do
      let inserted ← s.Slice.InsertAt s.Insert gap.Content
      match inserted with
      | none => .error (.error "failed to insert slice")
      | some ins => doc.Replace s.From s.To ins

/-! ## Content expressions: parsing (`content.go`) -/

/-- The zero value `NodeType{}`. -/
def NodeType.zero : NodeType := { Name := "", Block := false }

/-- The class `\s` of the regular expressions of Go: tab, line feed, form feed, carriage
return and space. -/
def isSpaceRune (c : Char) : Bool :=
  c = '\t' || c = '\n' || c = Char.ofNat 12 || c = '\r' || c = ' '

/-- The class `\d`: the ASCII digits. -/
def isDigitRune (c : Char) : Bool := '0'.toNat ≤ c.toNat && c.toNat ≤ '9'.toNat

/-- The class `[\w\-]`: the ASCII letters and digits, `_` and `-`. -/
def isNameRune (c : Char) : Bool :=
  ('0'.toNat ≤ c.toNat && c.toNat ≤ '9'.toNat) || ('A'.toNat ≤ c.toNat && c.toNat ≤ 'Z'.toNat) ||
    ('a'.toNat ≤ c.toNat && c.toNat ≤ 'z'.toNat) || c = '_' || c = '-'

/-- One way through `\d?,?\d\}` after the opening brace: with or without the optional digit,
with or without the optional comma, then one digit and the closing brace.  The result is
the text matched, the brace included. -/
def matchBraceBody (s : List Char) (digit comma : Bool) : Option (List Char) :=
  match digit, comma, s with
  | true, true, d :: ',' :: e :: '}' :: _ =>
    if isDigitRune d && isDigitRune e then some ['{', d, ',', e, '}'] else none
  | true, false, d :: e :: '}' :: _ =>
    if isDigitRune d && isDigitRune e then some ['{', d, e, '}'] else none
  | false, true, ',' :: e :: '}' :: _ =>
    if isDigitRune e then some ['{', ',', e, '}'] else none
  | false, false, e :: '}' :: _ =>
    if isDigitRune e then some ['{', e, '}'] else none
  | _, _, _ => none

/-- The alternative `\{\d?,?\d\}` at the front of `s`: both optional parts are greedy, so
the matcher tries digit and comma, digit alone, comma alone, neither, in this order. -/
def matchBraces (s : List Char) : Option (List Char) :=
  match s with
  | '{' :: rest =>
    (matchBraceBody rest true true).orElse fun _ =>
    (matchBraceBody rest true false).orElse fun _ =>
    (matchBraceBody rest false true).orElse fun _ =>
    matchBraceBody rest false false
  | _ => none

/-- The group `(\?|\*|\+|\{\d?,?\d\}|\|)` at the front of `s`: the text of the first
alternative that matches. -/
def matchQuantGroup (s : List Char) : Option (List Char) :=
  match s with
  | '?' :: _ => some ['?']
  | '*' :: _ => some ['*']
  | '+' :: _ => some ['+']
  | '{' :: _ => matchBraces s
  | '|' :: _ => some ['|']
  | _ => none

/-- The match of `contentMatchRegex`, `\s*([\w\-]+)(\?|\*|\+|\{\d?,?\d\}|\|)?\s*`, that
starts at the front of `s`, as the leftmost-first matcher of the package `regexp` finds it:
the whole match and the two groups.  Every repetition is greedy and what follows a
repetition never starts with a rune of its class, so the first way through the expression
is the one that takes each run whole; the second group is optional and greedy, so it is
taken when one of its alternatives matches and is the empty string otherwise.  The classes
are ASCII, so a rune outside ASCII belongs to none of them. -/
def regexMatchAt (s : List Char) : Option (List Char × List Char × List Char) :=
  let ws1 := s.takeWhile isSpaceRune
  let s1 := s.dropWhile isSpaceRune
  let name := s1.takeWhile isNameRune
  let s2 := s1.dropWhile isNameRune
  if name = [] then none
  else
    let quant := (matchQuantGroup s2).getD []
    let s3 := s2.drop quant.length
    let ws2 := s3.takeWhile isSpaceRune
    some (ws1 ++ name ++ quant ++ ws2, name, quant)

/-- The call `contentMatchRegex.FindStringSubmatch(s)`: the leftmost match, tried from each
start in turn; `none` is the nil slice of no match. -/
def regexFind : List Char → Option (List Char × List Char × List Char)
  | [] => none
  | c :: cs =>
    match regexMatchAt (c :: cs) with
    | some m => some m
    | none => regexFind cs

/-- The type `Expr` of `content.go`; `Expr = none` is the nil pointer. -/
inductive Expr where
  | mk (Typ : String) (Exprs : List Expr) (Value : NodeType) (Expr : Option Expr)
      (Min Max : Int)

/-- Field `Type` of an expression. -/
def Expr.Typ : Expr → String
  | .mk t _ _ _ _ _ => t

/-- Field `Exprs` of an expression. -/
def Expr.Exprs : Expr → List Expr
  | .mk _ es _ _ _ _ => es

/-- Field `Value` of an expression. -/
def Expr.Value : Expr → NodeType
  | .mk _ _ v _ _ _ => v

/-- Field `Expr` of an expression, which cannot have the name of the type here. -/
def Expr.Sub : Expr → Option Expr
  | .mk _ _ _ e _ _ => e

/-- Field `Min` of an expression. -/
def Expr.Min : Expr → Int
  | .mk _ _ _ _ m _ => m

/-- Field `Max` of an expression. -/
def Expr.Max : Expr → Int
  | .mk _ _ _ _ _ m => m

/-- The zero value `Expr{}`. -/
def Expr.zero : Expr := .mk "" [] NodeType.zero none 0 0

/-- The constant `choiceExpr`. -/
def choiceExpr : String := "choice"
/-- The constant `starExpr`. -/
def starExpr : String := "star"
/-- The constant `plusExpr`. -/
def plusExpr : String := "plus"
/-- The constant `optExpr`. -/
def optExpr : String := "opt"
/-- The constant `nameExpr`. -/
def nameExpr : String := "name"
/-- The constant `rangeExpr`. -/
def rangeExpr : String := "range"

/-- The function `resolveName`: the type of that name, or else the types of that group, in
the order in which the `range` over the map yields them (the order of the list). -/
def resolveName (name : String) (types : GoMap NodeType) : List NodeType :=
  match GoMap.get types name with
  | some typ => [typ]
  | none => (types.filter (fun e => e.2.Groups.contains name)).map (fun e => e.2)

/-- The function `parseAtom`; indexing the empty slice panics. -/
def parseAtom (name : String) (types : GoMap NodeType) : Except Err Expr :=
  let exprs := (resolveName name types).map (fun v => Expr.mk nameExpr [] v none 0 0)
  if exprs.length > 1 then .ok (.mk choiceExpr exprs NodeType.zero none 0 0)
  else
    match exprs with
    | e :: _ => .ok e
    | [] => .error (.panic "index out of range [0] with length 0")

/-- The value of a run of ASCII digits, most significant first; `none` on any other rune. -/
def digitsValue : List Char → Nat → Option Nat
  | [], acc => some acc
  | c :: cs, acc => if isDigitRune c then digitsValue cs (acc * 10 + (c.toNat - 48)) else none

/-- The standard library's `strconv.Atoi`: an optional sign and at least one ASCII digit,
the value within the range of a 64-bit `int`; `none` is a non-nil error. -/
def atoi (s : List Char) : Option Int :=
  let (neg, ds) :=
    match s with
    | '-' :: r => (true, r)
    | '+' :: r => (false, r)
    | r => (false, r)
  if ds = [] then none
  else
    match digitsValue ds 0 with
    | none => none
    | some v =>
      if neg then (if v ≤ 2 ^ 63 then some (-(v : Int)) else none)
      else (if v < 2 ^ 63 then some (v : Int) else none)

/-- The standard library's `strings.Cut(s, ",")`. -/
def cutComma : List Char → List Char × List Char × Bool
  | [] => ([], [], false)
  | c :: cs =>
    if c = ',' then ([], cs, true)
    else
      let (b, a, f) := cutComma cs
      (c :: b, a, f)

/-- The function `parseQuantifier`: the expression type and the two bounds; `none` is a
non-nil error. -/
def parseQuantifier (m : List Char) : Option (String × Int × Int) :=
  if m = [] then some ("", 1, 1)
  else if m = ['?'] then some (optExpr, 0, 1)
  else if m = ['*'] then some (starExpr, 0, -1)
  else if m = ['+'] then some (plusExpr, 1, -1)
  else if m.head? = some '{' then
    if m.getLast? = some '}' then
      let m := (m.drop 1).dropLast
      let (minQs, maxQs, ok) := cutComma m
      match atoi minQs with
      | none => none
      | some minQ =>
        if !ok then some (rangeExpr, minQ, minQ)
        else if maxQs = [] then some (rangeExpr, minQ, -1)
        else
          match atoi maxQs with
          | none => none
          | some maxQ =>
            if maxQ = 0 then none
            else if minQ > maxQ then none
            else some (rangeExpr, minQ, maxQ)
    else none
  else none

/-- The function `parseNodespecContent`.  A match is a substring of `s`, so it has the
length of `s` exactly when it is `s`; the message of the error is
`invalid content expression: ` followed by `s`. -/
def parseNodespecContent (s : String) (types : GoMap NodeType) : Except Err Expr :=
  if s = "" then .ok Expr.zero
  else
    match regexFind s.toList with
    | none => .error (.error ("invalid content expression: " ++ s))
    | some (whole, name, quant) =>
      if whole.length ≠ s.toList.length then
        .error (.error ("invalid content expression: " ++ s))
      else do
        let nameE ← parseAtom (String.mk name) types
        match parseQuantifier quant with
        | none => .error (.error ("invalid content expression: " ++ s))
        | some (typ, minQ, maxQ) => pure (.mk typ [] NodeType.zero (some nameE) minQ maxQ)

/-! ## Content expressions: the automaton (`content.go`) -/

/-- The type `Edge` of `content.go`; `none` is the nil pointer, and a pointer to an `int`
is the value it points to, which nothing writes after the edge is made. -/
structure Edge where
  Term : Option NodeType
  To : Option Int
deriving DecidableEq

/-- The closure `node` of `nfa`: it appends a row to the table and returns the old length
less one. -/
def nfaNode (nfa : List (List Edge)) : List (List Edge) × Int :=
  (nfa ++ [[]], (nfa.length : Int) - 1)

/-- The closure `edge` of `nfa`: it appends the edge to row `from` of the table and returns
a copy of it. -/
def nfaEdge (nfa : List (List Edge)) (from_ : Int) (to_ : Option Int) (term : Option NodeType) :
    Except Err (List (List Edge) × Edge) := do
  let row ← goIndex nfa from_
  pure (nfa.set from_.toNat (row ++ [{ Term := term, To := to_ }]), { Term := term, To := to_ })

/-- The closure `connect` of `nfa`: it writes `to` into the edges of the slice it is given.
Every slice it is given is the fresh slice a `compile` returned, whose elements are copies
of the edges in the table, so the table does not change. -/
def nfaConnect (edges : List Edge) (to_ : Int) : List Edge :=
  edges.map (fun e => { e with To := some to_ })

/-- The first loop of the `range` case of `compile`, `k` iterations from node `cur`; `sub`
is `compile` on the inner expression. -/
def compileRequired (sub : Int → List (List Edge) → Except Err (List (List Edge) × List Edge)) :
    Nat → Int → List (List Edge) → Except Err (List (List Edge) × Int)
  | 0, cur, nfa => .ok (nfa, cur)
  | k + 1, cur, nfa => do
    let (nfa, next) := nfaNode nfa
    let (nfa, edges) ← sub cur nfa
    let _ := nfaConnect edges next
    compileRequired sub k next nfa

/-- The second loop of the `range` case of `compile`, `k` iterations from node `cur`. -/
def compileOptional (sub : Int → List (List Edge) → Except Err (List (List Edge) × List Edge)) :
    Nat → Int → List (List Edge) → Except Err (List (List Edge) × Int)
  | 0, cur, nfa => .ok (nfa, cur)
  | k + 1, cur, nfa => do
    let (nfa, next) := nfaNode nfa
    let (nfa, _) ← nfaEdge nfa cur (some next) none
    let (nfa, edges) ← sub cur nfa
    let _ := nfaConnect edges next
    compileOptional sub k next nfa

/-- The loop of the `choice` case of `compile`. -/
def compileChoice (sub : Expr → Int → List (List Edge) → Except Err (List (List Edge) × List Edge))
    (from_ : Int) : List Expr → List (List Edge) → List Edge →
    Except Err (List (List Edge) × List Edge)
  | [], nfa, edges => .ok (nfa, edges)
  | e :: rest, nfa, edges => do
    let (nfa, es) ← sub e from_ nfa
    compileChoice sub from_ rest nfa (edges ++ es)

/-- The closure `compile` of `nfa`, with fuel for its recursion into the expression; the
table is passed through.  `sub` is `compile` on `*expr.Expr`, which panics when the pointer
is nil; an expression type that is none of the six constants panics. -/
def compile : Nat → Expr → Int → List (List Edge) → Except Err (List (List Edge) × List Edge)
  | 0, _, _, _ => .error (.panic "compile: recursion below the expression")
  | fuel + 1, expr, from_, nfa =>
    let sub : Int → List (List Edge) → Except Err (List (List Edge) × List Edge) :=
      match expr.Sub with
      | none => fun _ _ => .error (.panic "nil pointer dereference")
      | some e => compile fuel e
    if expr.Typ = choiceExpr then
      compileChoice (compile fuel) from_ expr.Exprs nfa []
    else if expr.Typ = starExpr then do
      let (nfa, loop) := nfaNode nfa
      let (nfa, _) ← nfaEdge nfa from_ (some loop) none
      let (nfa, edges) ← sub loop nfa
      let _ := nfaConnect edges loop
      let (nfa, e) ← nfaEdge nfa loop none none
      pure (nfa, [e])
    else if expr.Typ = plusExpr then do
      let (nfa, loop) := nfaNode nfa
      let (nfa, edges) ← sub from_ nfa
      let _ := nfaConnect edges loop
      let (nfa, edges) ← sub loop nfa
      let _ := nfaConnect edges loop
      let (nfa, e) ← nfaEdge nfa loop none none
      pure (nfa, [e])
    else if expr.Typ = optExpr then do
      let (nfa, e) ← nfaEdge nfa from_ none none
      let (nfa, edges) ← sub from_ nfa
      pure (nfa, [e] ++ edges)
    else if expr.Typ = rangeExpr then do
      let (nfa, cur) ← compileRequired sub expr.Min.toNat from_ nfa
      if expr.Max = -1 then do
        let (nfa, edges) ← sub cur nfa
        let _ := nfaConnect edges cur
        let (nfa, e) ← nfaEdge nfa cur none none
        pure (nfa, [e])
      else do
        let (nfa, cur) ← compileOptional sub (expr.Max - expr.Min).toNat cur nfa
        let (nfa, e) ← nfaEdge nfa cur none none
        pure (nfa, [e])
    else if expr.Typ = nameExpr then do
      let (nfa, e) ← nfaEdge nfa from_ none (some expr.Value)
      pure (nfa, [e])
    else .error (.panic ("invalid expression type: " ++ expr.Typ))

mutual
/-- The number of levels of an expression. -/
def Expr.height : Expr → Nat
  | .mk _ es _ e _ _ => max (heightExprs es) (heightSub e) + 1
/-- The height of the tallest expression of a list. -/
def heightExprs : List Expr → Nat
  | [] => 0
  | e :: es => max e.height (heightExprs es)
/-- The height of the expression behind a pointer. -/
def heightSub : Option Expr → Nat
  | none => 0
  | some e => e.height
end

/-- The function `nfa`: the table starts with one empty row, `compile` runs from node 0, and
`node()` is called after it.  The second parameter of the source, `types`, is not used by
its body.  The recursion of `compile` follows the expression, so the height of the
expression is fuel enough. -/
def nfa (expr : Expr) : Except Err (List (List Edge)) := do
  let (table, edges) ← compile expr.height expr 0 [[]]
  let (table, n) := nfaNode table
  let _ := nfaConnect edges n
  pure table

/-- The closure `scan` of `nullFrom`, with fuel for its recursion; `result` is passed
through.  A node whose only edge is an ε-edge is skipped for the target of that edge,
whose nil pointer panics; any other node is appended, and `scan` runs on the target of
each ε-edge that has one and is not in `result` yet. -/
def scan (nfa : List (List Edge)) : Nat → Int → List Int → Except Err (List Int)
  | 0, _, _ => .error (.panic "scan: recursion without end")
  | fuel + 1, node, result => do
    let edges ← goIndex nfa node
    let single : Option Edge :=
      match edges with
      | [e] => if e.Term.isNone then some e else none
      | _ => none
    match single with
    | some e =>
      match e.To with
      | none => .error (.panic "nil pointer dereference")
      | some t => scan nfa fuel t result
    | none =>
      edges.foldlM
        (fun result edge =>
          match edge.Term, edge.To with
          | none, some t => if !result.contains t then scan nfa fuel t result else pure result
          | _, _ => pure result)
        (result ++ [node])

/-- The function `nullFrom`: the nodes `scan` collects from `n`, or from node 0 when `n` is
nil, sorted.  The fuel bounds the depth of the recursion of `scan`. -/
def nullFrom (nfa : List (List Edge)) (n : Option Int) : Except Err (List Int) := do
  let result ← scan nfa ((nfa.length + 1) * (nfa.length + 1)) (n.getD 0) []
  pure (result.insertionSort (fun a b => a ≤ b))

/-- The function `join` with the separator `,`. -/
def join (ints : List Int) : String :=
  ",".intercalate (ints.map (fun i => toString i))

/-- The local type `edgeTuple` of `dfa`; `Set` is never nil. -/
structure edgeTuple where
  Term : NodeType
  Set : List Int

/-- The loop of `explore` over the nodes `nullFrom` gives for the target of one labeled edge:
`out` gets a new tuple when `set` is nil, and `set`, a local copy, gets the node. -/
def exploreTargets (term : NodeType) :
    List Int → List edgeTuple → Option (List Int) → List edgeTuple × Option (List Int)
  | [], out, set => (out, set)
  | node :: rest, out, set =>
    let out := if set.isNone then out ++ [{ Term := term, Set := [] }] else out
    let set := if !(set.getD []).contains node then some (set.getD [] ++ [node]) else set
    exploreTargets term rest out set

/-- The loop of `explore` over the edges of one node. -/
def exploreEdges (nfa : List (List Edge)) :
    List Edge → List edgeTuple → Except Err (List edgeTuple)
  | [], out => .ok out
  | edge :: rest, out =>
    match edge.Term with
    | none => exploreEdges nfa rest out
    | some term => do
      let set : Option (List Int) :=
        (out.find? (fun o => term.Name == o.Term.Name)).map (fun o => o.Set)
      let nodes ← nullFrom nfa edge.To
      let (out, _) := exploreTargets term nodes out set
      exploreEdges nfa rest out

/-- The loop of `explore` over the nodes of `states`. -/
def exploreStates (nfa : List (List Edge)) :
    List Int → List edgeTuple → Except Err (List edgeTuple)
  | [], out => .ok out
  | node :: rest, out => do
    let edges ← goIndex nfa node
    let out ← exploreEdges nfa edges out
    exploreStates nfa rest out

/-- One `append` to `state.Next`, where `state` is the state at address `i` of the heap. -/
def appendNext (heap : List ContentMatch) (i : Nat) (e : contentMatchNode) : List ContentMatch :=
  match heap.get? i with
  | some st => heap.set i { st with Next := some (st.Next.getD [] ++ [e]) }
  | none => heap

/-- The loop of `explore` over the tuples of `out`: each gives `state`, the state at address
`state` of the heap, an edge to the state `labeled` has under `labeledKey`, or else to the
one `again`, the recursive call of `explore`, returns. -/
def exploreItems
    (again : List ContentMatch → GoMap Nat → Except Err (List ContentMatch × GoMap Nat × Nat))
    (labeledKey : String) (state : Nat) :
    List edgeTuple → List ContentMatch → GoMap Nat → Except Err (List ContentMatch × GoMap Nat)
  | [], heap, labeled => .ok (heap, labeled)
  | item :: rest, heap, labeled => do
    let (heap, labeled, next) ←
      match GoMap.get labeled labeledKey with
      | some nx => pure (heap, labeled, nx)
      | none => again heap labeled
    exploreItems again labeledKey state rest
      (appendNext heap state
        { TypName := item.Term.Name, TypBlock := item.Term.Block, Next := next })
      labeled

/-- The closure `explore` of `dfa`, with fuel for its recursion.  The states it allocates
live in `heap`, and a pointer to a state is its address there; `labeled` maps a key to
such an address.  It returns the address of the state of `states`.  Sorting the `Set` of a
tuple changes nothing the function reads. -/
def explore (nfa : List (List Edge)) :
    Nat → List Int → List ContentMatch → GoMap Nat →
    Except Err (List ContentMatch × GoMap Nat × Nat)
  | 0, _, _, _ => .error (.panic "explore: recursion without end")
  | fuel + 1, states, heap, labeled => do
    let out ← exploreStates nfa states []
    let labeledKey := join states
    let (heap, labeled, state) : List ContentMatch × GoMap Nat × Nat :=
      match GoMap.get labeled labeledKey with
      | some st => (heap, labeled, st)
      | none => (heap ++ [({ ValidEnd := true } : ContentMatch)],
          labeled ++ [(labeledKey, heap.length)], heap.length)
    let (heap, labeled) ← exploreItems (explore nfa fuel states) labeledKey state out heap labeled
    pure (heap, labeled, state)

/-- The function `dfa`: the heap of the states it allocates and the address of the state it
returns.  `explore` calls itself only for a key that is not in `labeled`, and it looks up
the key it has just stored, so one unit of fuel is enough. -/
def dfa (nfa : List (List Edge)) : Except Err (List ContentMatch × Nat) := do
  let states ← nullFrom nfa none
  let (heap, _, state) ← explore nfa 1 states [] []
  pure (heap, state)

/-! ## Schema compilation (`schema.go`, `nodetype.go`, `marktype.go`)

Go leaves the order in which a `range` loop visits a map unspecified.  A map is an
association list here and every such loop visits it in the order of the list, so a
statement for every list holds whatever order a run takes. -/

/-- The method `ContentMatch.InlineContent`. -/
def ContentMatch.InlineContent (c : ContentMatch) : Bool :=
  match c.Next.getD [] with
  | [] => true
  | m :: _ => !(!m.TypBlock)

/-- The assignment `m[k] = v`: the entry under `k` is replaced where it stands, a new key
goes to the end. -/
def GoMap.set {V : Type} : GoMap V → String → V → GoMap V
  | [], k, v => [(k, v)]
  | e :: rest, k, v => if e.1 == k then (k, v) :: rest else e :: GoMap.set rest k v

/-- The type `NodeSpec` of `nodetype.go` (the fields the model reads); `Marks = none` is
the nil pointer. -/
structure NodeSpec where
  Content : String := ""
  Marks : Option String := none
  Group : String := ""
  Inline : Bool := false
  Atom : Bool := false
  Attrs : GoMap Attribute := []
deriving DecidableEq, Repr

/-- The type `MarkSpec` of `marktype.go` (the field the model reads). -/
structure MarkSpec where
  Attrs : GoMap Attribute := []
deriving DecidableEq, Repr

/-- The type `SchemaSpec` of `schema.go`. -/
structure SchemaSpec where
  Nodes : GoMap NodeSpec := []
  Marks : GoMap MarkSpec := []
  TopNode : String := ""
  DontRegister : Bool := false
deriving DecidableEq, Repr

/-- The type `Schema` of `schema.go`; `TopNodeType = none` is the nil pointer. -/
structure Schema where
  Spec : SchemaSpec := {}
  TopNodeType : Option NodeType := none
  Nodes : GoMap NodeType := []
  Marks : GoMap MarkType := []
deriving DecidableEq, Repr

/-- The zero value `MarkType{}`. -/
def MarkType.zero : MarkType := { Name := "" }

/-- The loop of `strings.Split(s, " ")` on a string that is not empty; `cur` is the piece
read so far. -/
def splitSpaceLoop : List Char → List Char → List String
  | [], cur => [String.mk cur]
  | c :: cs, cur =>
    if c = ' ' then String.mk cur :: splitSpaceLoop cs [] else splitSpaceLoop cs (cur ++ [c])

/-- The standard library's `strings.Split(s, " ")`: the pieces between the spaces, so one
empty piece for the empty string. -/
def splitSpace (s : String) : List String := splitSpaceLoop s.toList []

/-- The function `newNodeType`, which has no failing path; `initAttrs` copies the map. -/
def newNodeType (name : String) (spec : NodeSpec) : NodeType :=
  { Name := name
    Block := !spec.Inline && name != "text"
    Text := name == "text"
    Groups := splitSpace spec.Group
    Marks := none
    Attrs := spec.Attrs
    ContentMatch := {}
    InlineContent := false
    Atom := spec.Atom
    States := []
    SpecContent := spec.Content
    SpecMarks := spec.Marks }

/-- The loop of `compileNodeTypeSet` that fills `out`. -/
def compileNodeTypes : GoMap NodeSpec → GoMap NodeType → GoMap NodeType
  | [], out => out
  | (name, spec) :: rest, out => compileNodeTypes rest (GoMap.set out name (newNodeType name spec))

/-- The value `cmp.Or(spec.TopNode, "doc")`: `TopNode`, or `doc` when that is empty. -/
def SchemaSpec.topNode (spec : SchemaSpec) : String :=
  if spec.TopNode ≠ "" then spec.TopNode else "doc"

/-- The function `compileNodeTypeSet`; a missing key reads as the zero value. -/
def compileNodeTypeSet (schema : Schema) (nodeSet : GoMap NodeSpec) :
    Except Err (GoMap NodeType) :=
  let out := compileNodeTypes nodeSet []
  let topNode := schema.Spec.topNode
  if ((GoMap.get out topNode).getD NodeType.zero).Eq NodeType.zero then
    .error (.error ("no top level node \"" ++ topNode ++ "\" defined in node set"))
  else if ((GoMap.get out "text").getD NodeType.zero).Eq NodeType.zero then
    .error (.error "no text node type defined in node set")
  else if ((GoMap.get out "text").getD NodeType.zero).Attrs.length > 0 then
    .error (.error "text node type should not have attributes")
  else .ok out

/-- The function `NewMarkType`. -/
def NewMarkType (name : String) (spec : MarkSpec) : MarkType :=
  { Name := name, Attrs := spec.Attrs }

/-- The loop of `compileMarkTypeSet`. -/
def compileMarkTypes : GoMap MarkSpec → GoMap MarkType → GoMap MarkType
  | [], result => result
  | (name, spec) :: rest, result =>
    compileMarkTypes rest (GoMap.set result name (NewMarkType name spec))

/-- The function `compileMarkTypeSet`, which returns no error. -/
def compileMarkTypeSet (spec : GoMap MarkSpec) : GoMap MarkType := compileMarkTypes spec []

/-- The loop of the second case of the switch of `compileContentMatch`: the mark type of
each name that is not empty, the zero value for a name `schema.Marks` does not have. -/
def lookupMarks (marks : GoMap MarkType) : List String → List MarkType → List MarkType
  | [], acc => acc
  | markName :: rest, acc =>
    if markName = "" then lookupMarks marks rest acc
    else lookupMarks marks rest (acc ++ [(GoMap.get marks markName).getD MarkType.zero])

/-- The switch of `compileContentMatch`: the value it gives `typ.Marks`. -/
def compileMarks (typ : NodeType) (schema : Schema) : Option (List MarkType) :=
  match typ.SpecMarks with
  | none => none
  | some m =>
    if m = "_" then none
    else if m ≠ "" then some (lookupMarks schema.Marks (splitSpace m) [])
    else some []

/-- The function `compileContentMatch`: the node type and the cache as it leaves them.  A
cached `ContentMatch` comes with the part of the heap its pointers point into.  The
message of the wrapped error leaves out the formatted node type. -/
def compileContentMatch (typ : NodeType) (schema : Schema)
    (contentExprCache : GoMap (ContentMatch × List ContentMatch)) :
    Except Err (NodeType × GoMap (ContentMatch × List ContentMatch)) :=
  let typ := { typ with Marks := compileMarks typ schema }
  match GoMap.get contentExprCache typ.SpecContent with
  | some ce => .ok ({ typ with ContentMatch := ce.1, States := ce.2 }, contentExprCache)
  | none =>
    if typ.SpecContent = "" then .ok (typ, contentExprCache)
    else
      match parseNodespecContent typ.SpecContent schema.Nodes with
      | .error (.error msg) => .error (.error ("error parsing content for node: " ++ msg))
      | .error (.panic msg) => .error (.panic msg)
      | .ok cm => do
        let table ← nfa cm
        let (heap, state) ← dfa table
        let ce ← goIndex heap (state : Int)
        pure ({ typ with ContentMatch := ce, States := heap, InlineContent := ce.InlineContent },
          GoMap.set contentExprCache typ.SpecContent (ce, heap))

/-- The loop of `NewSchema` over the keys of `nodes`: `s.Nodes` is the same map as `nodes`,
so each call of `compileContentMatch` reads the node types as the calls before it left
them. -/
def compileAll (s : Schema) :
    List String → GoMap NodeType → GoMap (ContentMatch × List ContentMatch) →
    Except Err (GoMap NodeType)
  | [], nodes, _ => .ok nodes
  | k :: rest, nodes, cache => do
    let node := (GoMap.get nodes k).getD NodeType.zero
    let (node, cache) ← compileContentMatch node { s with Nodes := nodes } cache
    compileAll s rest (GoMap.set nodes k node) cache

/-- The function `NewSchema`.  `RegisterSchema` writes the global stores of types, which the
result does not depend on. -/
def NewSchema (spec : SchemaSpec) : Except Err Schema :=
  let s : Schema := { Spec := spec }
  match compileNodeTypeSet s spec.Nodes with
  | .error (.error msg) => .error (.error ("error compiling nodes: " ++ msg))
  | .error (.panic msg) => .error (.panic msg)
  | .ok nodes =>
    let marks := compileMarkTypeSet spec.Marks
    let s := { s with Nodes := nodes, Marks := marks }
    match compileAll s (nodes.map (fun e => e.1)) nodes [] with
    | .error e => .error e
    | .ok nodes =>
      let s := { s with Nodes := nodes }
      let topnodeT := (GoMap.get s.Nodes spec.TopNode).getD NodeType.zero
      .ok { s with TopNodeType := some topnodeT }

/-- The schema spec `DefaultSpec` of `schema/default.go`, its maps in the order of the
source. -/
def DefaultSpec : SchemaSpec :=
  { Nodes := [
      ("doc", { Content := "block+" }),
      ("paragraph", { Content := "inline*", Group := "block" }),
      ("blockquote", { Content := "block+", Group := "block" }),
      ("horizontal_rule", { Group := "block" }),
      ("heading",
        { Content := "inline*", Group := "block",
          Attrs := [("level", { Default := AttrValue.int 1 })] }),
      ("code_block",
        { Content := "text*", Group := "block", Marks := some "",
          Attrs := [("language", { Default := AttrValue.null })] }),
      ("text", { Group := "inline" }),
      ("image",
        { Inline := true, Group := "inline",
          Attrs := [("src", {}), ("alt", {}), ("title", {})] }),
      ("hard_break", { Inline := true, Group := "inline" })]
    TopNode := "doc"
    Marks := [("link", {}), ("em", {}), ("strong", {}), ("code", {})] }

/-! ## The step registry and the step decoder (`transform/transform.go`)

The calls into the JSON library (`json.Unmarshal` on the envelope, and the `UnmarshalJSON`
of the implementation, which calls it on the payload) are parameters of the model. -/

/-- The interface `Applier`: the step types of the package that implement it. -/
inductive Applier where
  | replace (s : ReplaceStep)
  | replaceAround (s : ReplaceAroundStep)
  | mark (s : MarkStep)

/-- The method `Apply` of an `Applier`. -/
def Applier.Apply : Applier → Node → Except Err Node
  | .replace s, doc => s.Apply doc
  | .replaceAround s, doc => s.Apply doc
  | .mark s, doc => s.Apply doc

/-- The type `Step`; `none` is the nil `Impl`. -/
structure Step where
  Impl : Option Applier := none

/-- The method `Step.Apply`; calling a method of the nil interface panics. -/
def Step.Apply (s : Step) (n : Node) : Except Err Node :=
  match s.Impl with
  | some impl => impl.Apply n
  | none => .error (.panic "nil pointer dereference")

/-- The function `RegisterTransformer` on the map `transformers`; the constructor `f` is
kept as the value it returns. -/
def RegisterTransformer (transformers : GoMap Applier) (name : String) (f : Applier) :
    Except Err (GoMap Applier) :=
  match GoMap.get transformers name with
  | some _ => .error (.panic ("transformer " ++ name ++ " already registered"))
  | none => .ok (GoMap.set transformers name f)

/-- The `init` functions of the package, run on the empty map `transformers` in the order
of their files: `marks.go`, `replace.go`, `replaceAround.go`. -/
def initTransformers : Except Err (GoMap Applier) := do
  let t ← RegisterTransformer [] "addMark"
    (.mark { From := 0, To := 0, Mark := { Typ := MarkType.zero } })
  let t ← RegisterTransformer t "removeMark"
    (.mark { From := 0, To := 0, Mark := { Typ := MarkType.zero }, remove := true })
  let t ← RegisterTransformer t "replace" (.replace { From := 0, To := 0 })
  RegisterTransformer t "replaceAround"
    (.replaceAround { From := 0, To := 0, GapFrom := 0, GapTo := 0, Insert := 0 })

/-- The method `Step.UnmarshalJSON` with the map `transformers` as it is after the `init`
functions.  `jsonType data` is `json.Unmarshal(data, &aux)` followed by reading `aux.Type`,
and `implUnmarshal impl data` is `impl.UnmarshalJSON(data)`, giving the decoded
implementation.  The result is the step after the call and the error returned, if any. -/
def Step.UnmarshalJSON (transformers : GoMap Applier) (jsonType : GoString → Except Err String)
    (implUnmarshal : Applier → GoString → Except Err Applier) (s : Step) (data : GoString) :
    Step × Option Err :=
  match wrapErr "failed to decode step" (jsonType data) with
  | .error e => (s, some e)
  | .ok typ =>
    match GoMap.get transformers typ with
    | none => (s, some (.error ("unknown step type: " ++ typ)))
    | some f =>
      match wrapErr "failed to unmarshal step" (implUnmarshal f data) with
      | .error e => (s, some e)
      | .ok impl => ({ s with Impl := some impl }, none)

/-! ## The node types and builders used by the tests

The node types below are those `NewSchema` gives for the spec of `schema/default.go`: they
carry the names, flags and groups that `newNodeType` sets.  A type with a content
expression gets from `dfa` a matcher with out-edges and `ValidEnd` set; a type without one
keeps the zero matcher.  The order of the out-edges follows map iteration and is one of the
possible ones; no operation of the document model reads it. -/

/-- The out-edges of a matcher for the group `inline`. -/
def inlineEdges : List contentMatchNode :=
  [{ TypName := "text", TypBlock := false }, { TypName := "image", TypBlock := false },
   { TypName := "hard_break", TypBlock := false }]

/-- The out-edges of a matcher for the group `block`. -/
def blockEdges : List contentMatchNode :=
  [{ TypName := "paragraph" }, { TypName := "blockquote" }, { TypName := "horizontal_rule" },
   { TypName := "heading" }, { TypName := "code_block" }]

/-- The node type `text`. -/
def textT : NodeType := { Name := "text", Block := false, Text := true, Groups := ["inline"] }

/-- The matcher `dfa` builds for `inline*`: one state, every edge leading back to it. -/
def inlineMatch : ContentMatch := { Next := some inlineEdges, ValidEnd := true }

/-- The matcher `dfa` builds for `block+`: one state, every edge leading back to it. -/
def blockMatch : ContentMatch := { Next := some blockEdges, ValidEnd := true }

/-- The matcher `dfa` builds for `text*`: one state, its edge leading back to it. -/
def textMatch : ContentMatch :=
  { Next := some [{ TypName := "text", TypBlock := false }], ValidEnd := true }

/-- The node type `paragraph`, with content `inline*`. -/
def paragraphT : NodeType :=
  { Name := "paragraph", Groups := ["block"], ContentMatch := inlineMatch,
    States := [inlineMatch], SpecContent := "inline*" }

/-- The node type `blockquote`, with content `block+`, compiled after `doc`: its matcher
comes from the cache, and `InlineContent` is left as it was. -/
def blockquoteT : NodeType :=
  { Name := "blockquote", Groups := ["block"], ContentMatch := blockMatch,
    States := [blockMatch], SpecContent := "block+" }

/-- The node type `doc`, with content `block+`. -/
def docT : NodeType :=
  { Name := "doc", Groups := [""], ContentMatch := blockMatch, States := [blockMatch],
    InlineContent := true, SpecContent := "block+" }

/-- The node type `code_block`, with content `text*` and the marks spec `""`, which allows
no mark. -/
def codeBlockT : NodeType :=
  { Name := "code_block", Groups := ["block"], Marks := some [],
    Attrs := [("language", { Default := AttrValue.null })], ContentMatch := textMatch,
    States := [textMatch], SpecContent := "text*", SpecMarks := some "" }

/-- The node type `horizontal_rule`, a leaf. -/
def horizontalRuleT : NodeType := { Name := "horizontal_rule", Groups := ["block"] }

/-- The mark type `em`. -/
def emT : MarkType := { Name := "em" }

/-- The method `Schema.Text`: a text node with the given marks. -/
def SchemaText (text : GoString) (marks : List Mark) : Node :=
  .mk textT [] marks text Fragment.zero

/-- The builder's `Text`. -/
def Text (text : GoString) : Node := SchemaText text []

/-- The builder's `Em`. -/
def Em (content : GoString) : Node := SchemaText content [{ Typ := emT }]

/-- The builder's `P`. -/
def P (content : List Node) : Node := .mk paragraphT [] [] [] (NewFragment content)

/-- The builder's `PText`. -/
def PText (text : GoString) : Node := P [Text text]

/-- The builder's `Doc`. -/
def Doc (content : List Node) : Node := .mk docT [] [] [] (NewFragment content)

/-- A blockquote around the given children. -/
def Blockquote (content : List Node) : Node := .mk blockquoteT [] [] [] (NewFragment content)

/-- The document of `TestNodeCalcSize`. -/
def sevenParagraphs : Node :=
  Doc [PText (ascii "Crazy?"), PText (ascii "I was crazy once."),
       PText (ascii "They put me in a room."), PText (ascii "A rubber room."),
       PText (ascii "A rubber room with rats."), PText (ascii "Rubber rats."),
       PText (ascii "I hate rats.")]

/-- The document of `TestNodeResolveExample`. -/
def crazyDoc : Node := Doc [PText (ascii "Crazy")]

/-- The document of `TestResolvedPos`. -/
def threeParagraphs : Node :=
  Doc [PText (ascii "Hello "), PText (ascii "Man this is epic."),
       PText (ascii "Does this still work.")]

/-- The fragment of the case `basic doc` of `TestFragment_findIndex`. -/
def threeParagraphFragment : Fragment :=
  NewFragment [PText (ascii "Crazy?"), PText (ascii "I was crazy once."),
               PText (ascii "They put me in a room.")]

/-- A document with two paragraphs inside a blockquote: positions 2..4 are the content of
the first paragraph, 6..8 that of the second, 1..9 that of the blockquote. -/
def quotedDoc : Node :=
  Doc [Blockquote [PText (ascii "ab"), PText (ascii "cd")]]

/-! ## Notions the statements use -/

/-- The total size of the first `k` nodes of a list: the offset at which child `k` starts. -/
def prefixSize (cs : List Node) (k : Nat) : Int := ((cs.take k).map Node.NodeSize).sum

/-- The cached size of the fragment is the sum of the sizes of its children. -/
def Fragment.SizeOk (f : Fragment) : Prop := f.Size = (f.Content.map Node.NodeSize).sum

instance (f : Fragment) : Decidable f.SizeOk :=
  inferInstanceAs (Decidable (f.Size = (f.Content.map Node.NodeSize).sum))

/-- The paths of `r` end in a node whose content starts at the absolute position `s` read
off the offset path (0 at the root, one past the previous entry below it), the parent
offset of `r` lies inside that content, and `s` plus the parent offset is `total`. -/
def ResolvedPos.EndsAt (r : ResolvedPos) (total : Int) : Prop :=
  ∃ (n : Prosemirror.Node) (npre : List Prosemirror.Node) (pre : List Int) (o s : Int),
    r.NodePath = npre ++ [n] ∧ r.OffsetPath = pre ++ [o] ∧ npre.length = pre.length ∧
    ((pre = [] ∧ s = 0) ∨ ∃ pre2 p, pre = pre2 ++ [p] ∧ s = p + 1) ∧
    s + r.ParentOffset = total ∧ 0 ≤ r.ParentOffset ∧ r.ParentOffset ≤ n.Content.Size

/-- Two neighbours are text nodes with identical node type, attrs and marks. -/
def adjacentText (a b : Node) : Bool := a.IsText && b.IsText && a.sameMarkup b

/-- No two adjacent nodes of the list are text nodes with identical markup. -/
def coalesced : List Node → Bool
  | [] => true
  | [_] => true
  | a :: b :: rest => !adjacentText a b && coalesced (b :: rest)

/-- The node types of the nodes come from one schema: a name stands for one node type, as
in the table `Schema.Nodes`. -/
def SameSchema (nodes : List Node) : Prop :=
  ∀ a ∈ nodes, ∀ b ∈ nodes, a.Typ.Name = b.Typ.Name → a.Typ = b.Typ

instance (nodes : List Node) : Decidable (SameSchema nodes) :=
  inferInstanceAs (Decidable (∀ a ∈ nodes, ∀ b ∈ nodes, a.Typ.Name = b.Typ.Name → a.Typ = b.Typ))

/-- The error a call ended with, if it did not return a value. -/
def errorOf {α : Type} : Except Err α → Option Err
  | .ok _ => none
  | .error e => some e

/-- The texts of the children of each child of a node: for a document of paragraphs, the
texts of each paragraph. -/
def Node.childTexts (d : Node) : List (List GoString) :=
  d.Content.Content.map (fun p => p.Content.Content.map Node.Text)

/-- The texts and the names of the marks of the children of each child of a node. -/
def Node.childTextsMarks (d : Node) : List (List (GoString × List String)) :=
  d.Content.Content.map
    (fun p => p.Content.Content.map (fun n => (n.Text, n.Marks.map (fun m => m.Typ.Name))))

/-- The call `doc.Replace(from, to, doc.Slice(from, to, false))`. -/
def sliceThenReplace (doc : Node) (from_ to_ : Int) : Except Err Node := do
  let s ← doc.Slice from_ to_ false
  doc.Replace from_ to_ s

/-- A paragraph without content, as decoded from `{"type":"paragraph"}`. -/
def emptyParagraph : Node := .mk paragraphT [] [] [] Fragment.zero

/-- The slice of the paragraph-split test: two empty paragraphs, open by one on each
side. -/
def splitSlice : Slice :=
  { Content := NewFragment [emptyParagraph, emptyParagraph], OpenStart := 1, OpenEnd := 1 }

/-- The mark `em` without attributes, as decoded from `{"type":"em"}`. -/
def emMark : Mark := { Typ := emT }

/-- The bytes of the text `éab`: `é` is two bytes and one UTF-16 code unit. -/
def eAcuteAB : GoString := [0xC3, 0xA9, 0x61, 0x62]

/-- The node type `title`, with content `text*`; it belongs to no group. -/
def titleT : NodeType :=
  { Name := "title", ContentMatch := textMatch, States := [textMatch] }

/-- A node of a given type without attributes, marks or content. -/
def emptyNode (t : NodeType) : Node := .mk t [] [] [] Fragment.zero

/-- The step of the re-wrapping test: the node at `[p, p + s)` keeps its content and gets
the markup of `t0`. -/
def rewrapStep (p s : Int) (t0 : Node) : ReplaceAroundStep :=
  { From := p, To := p + s, GapFrom := p + 1, GapTo := p + s - 1, Insert := 1,
    Slice := { Content := NewFragment [t0] }, Structure := true }

mutual
/-- Schema validity of a node and of everything inside it: the children of every node that
is neither text nor a leaf pass `CheckContent` of its node type (the child sequence is
accepted in a state with `ValidEnd`, and the marks of every child are allowed). -/
def Node.Valid : Node → Bool
  | .mk typ _ _ _ content =>
    (typ.isText || typ.isLeaf || decide (typ.CheckContent content = .ok ())) &&
      content.AllValid
/-- Every child of the fragment is valid. -/
def Fragment.AllValid : Fragment → Bool
  | .mk _ content => validList content
/-- Every node of the list is valid. -/
def validList : List Node → Bool
  | [] => true
  | n :: ns => n.Valid && validList ns
end

/-- The trace of the loop of `resolve` entered at `node` with parent offset `po`, the
content of `node` starting at `start`: the nodes stepped into, the index and the offset
recorded at every level, and the parent offset at the last level. -/
inductive Walk : Node → Int → Int → List Node → List Int → List Int → Int → Prop
  | stop (node : Node) (po start i off : Int)
      (hfi : node.Content.findIndex po = .ok (i, off))
      (htext : po - off ≠ 0 → ∃ c, node.Child i = .ok c ∧ c.IsText = true) :
      Walk node po start [] [i] [start + off] po
  | step (node : Node) (po start i off : Int) (c : Node) (nodes : List Node)
      (idxs offs : List Int) (fpo : Int)
      (hfi : node.Content.findIndex po = .ok (i, off)) (hrem : po - off ≠ 0)
      (hc : node.Child i = .ok c) (ht : c.IsText = false)
      (hrest : Walk c (po - off - 1) (start + off + 1) nodes idxs offs fpo) :
      Walk node po start (c :: nodes) (i :: idxs) ((start + off) :: offs) fpo

/-- The position `p` inside a list of children falls on a boundary between children or
inside a text child. -/
def AtomicAt (cs : List Node) (p : Int) : Prop :=
  ∀ j c, cs.get? j = some c → prefixSize cs j < p → p < prefixSize cs (j + 1) →
    c.IsText = true

/-- From depth `k` on, the nodes on the path of a resolved position have valid children,
and a position that is not on a boundary of its parent is inside a text child. -/
def ResolvedPos.Good (r : ResolvedPos) (k : Int) : Prop :=
  k ≤ r.Depth ∧
  (∀ d n, k ≤ d → 0 ≤ d → r.Node d = .ok n → n.Content.AllValid = true) ∧
  (∀ o p i c, goIndex r.OffsetPath ((r.OffsetPath.length : Int) - 1) = .ok o →
    r.Pos - o ≠ 0 → r.Parent = .ok p → r.Index r.Depth = .ok i → p.Child i = .ok c →
    c.IsText = true)

/-- What schema validity asks of a slice: its nodes are valid and its open depths lie
between 0 and the size of its content. -/
def Slice.Valid (s : Slice) : Prop :=
  s.Content.AllValid = true ∧ 0 ≤ s.OpenStart ∧ s.OpenStart ≤ s.Content.Size ∧
    0 ≤ s.OpenEnd ∧ s.OpenEnd ≤ s.Content.Size

instance (s : Slice) : Decidable s.Valid :=
  inferInstanceAs (Decidable (s.Content.AllValid = true ∧ 0 ≤ s.OpenStart ∧
    s.OpenStart ≤ s.Content.Size ∧ 0 ≤ s.OpenEnd ∧ s.OpenEnd ≤ s.Content.Size))

/-- The paths of `r` are the trace of a walk from the root `doc` to the position of `r`. -/
def ResolvedPos.Traces (r : ResolvedPos) (doc : Prosemirror.Node) : Prop :=
  ∃ (nodes : List Prosemirror.Node) (idxs offs : List Int),
    r.NodePath = doc :: nodes ∧ r.IndexPath = idxs ∧ r.OffsetPath = offs ∧
    r.Depth = (nodes.length : Int) ∧ Walk doc r.Pos 0 nodes idxs offs r.ParentOffset

mutual
/-- The node and every node inside it. -/
def Node.subnodes : Node → List Node
  | .mk typ attrs marks text content => .mk typ attrs marks text content :: content.subnodes
/-- Every node inside the fragment. -/
def Fragment.subnodes : Fragment → List Node
  | .mk _ content => subnodesList content
/-- Every node of the list and every node inside one of them. -/
def subnodesList : List Node → List Node
  | [] => []
  | n :: ns => n.subnodes ++ subnodesList ns
end

/-- The child sequence of the fragment is accepted by the content match of the node type,
ending in a state with `ValidEnd`. -/
def NodeType.Accepts (t : NodeType) (f : Fragment) : Prop :=
  ∃ st, t.ContentMatch.matchFragment t.States f (-1) (-1) = .ok (some st) ∧ st.ValidEnd = true

/-- Every mark on every child of the fragment is allowed by the node type. -/
def NodeType.MarksAllowed (t : NodeType) (f : Fragment) : Prop :=
  ∀ c ∈ f.Content, ∀ m ∈ c.Marks, t.AllowsMarkType m.Typ = true

/-- Schema validity in the words of the specification: the child sequence of every
composite node (neither text nor a leaf) inside the node, the node included, is accepted by
the content match of its node type in a state with `ValidEnd`, and every mark on every
child is allowed by the node type of the parent. -/
def Node.SchemaValid (n : Node) : Prop :=
  ∀ c ∈ n.subnodes, c.IsText = false → c.IsLeaf = false →
    c.Typ.Accepts c.Content ∧ c.Typ.MarksAllowed c.Content

/-- A slice is schema-valid when its nodes are and its open depths lie between 0 and the
size of its content. -/
def Slice.SchemaValid (s : Slice) : Prop :=
  (∀ n ∈ s.Content.Content, n.SchemaValid) ∧ 0 ≤ s.OpenStart ∧
    s.OpenStart ≤ s.Content.Size ∧ 0 ≤ s.OpenEnd ∧ s.OpenEnd ≤ s.Content.Size

/-- A text node with a non-empty ASCII text and no content of its own. -/
def Node.PlainText (c : Node) : Prop :=
  c.IsText = true ∧ c.Text ≠ [] ∧ (∀ b ∈ c.Text, b < 128) ∧ c.Content.Size = 0

instance (c : Node) : Decidable c.PlainText :=
  inferInstanceAs (Decidable (c.IsText = true ∧ c.Text ≠ [] ∧ (∀ b ∈ c.Text, b < 128) ∧
    c.Content.Size = 0))

/-- The node with another text. -/
def Node.setText (c : Node) (s : GoString) : Node := .mk c.Typ c.Attrs c.Marks s c.Content

/-- The part of a list of text nodes before position `p`: the nodes that end by `p`, and
the start of the node `p` falls into. -/
def leftOf : List Node → Int → List Node
  | [], _ => []
  | c :: rest, p =>
    if p ≤ 0 then []
    else if p ≥ c.NodeSize then c :: leftOf rest (p - c.NodeSize)
    else [c.setText (c.Text.take p.toNat)]

/-- The part of a list of text nodes from position `p` on: the end of the node `p` falls
into, and the nodes that start at or after `p`. -/
def rightOf : List Node → Int → List Node
  | [], _ => []
  | c :: rest, p =>
    if p ≤ 0 then c :: rest
    else if p ≥ c.NodeSize then rightOf rest (p - c.NodeSize)
    else c.setText (c.Text.drop p.toNat) :: rest

/-- The children `Fragment.append` gives two fragments that both have children: the two
lists joined, the last node of the first merged with the first node of the second when the
former is text and both have the same markup. -/
def listAppend (l r : List Node) : List Node :=
  match l.getLast?, r.head? with
  | some last, some first =>
    if last.IsText && last.sameMarkup first then
      l.dropLast ++ [last.withText (last.Text ++ first.Text)] ++ r.drop 1
    else l ++ r
  | _, _ => l ++ r

/-- The sum of the sizes of the nodes of a list. -/
def totalSize (l : List Node) : Int := (l.map Node.NodeSize).sum

/-! ## Fixtures of the mark step on a node that allows no mark -/

/-- A code block with the text `abcd`. -/
def abcdBlock : Node := .mk codeBlockT [] [] [] (NewFragment [Text (ascii "abcd")])

/-- The document `doc[code_block["abcd"]]`. -/
def codeBlockDoc : Node := Doc [abcdBlock]

/-- A node type `plain_quote` with content `block+` and the marks spec `""`, which allows no
mark. -/
def plainQuoteT : NodeType :=
  { Name := "plain_quote", Groups := ["block"], Marks := some [], ContentMatch := blockMatch,
    States := [blockMatch] }

/-- The document `doc[plain_quote[paragraph["ab"]]]`. -/
def plainQuoteDoc : Node := Doc [.mk plainQuoteT [] [] [] (NewFragment [PText (ascii "ab")])]

/-! ## Schema specs the statements on schema compilation use -/

/-- A schema spec with the node types `doc`, `paragraph` (content `text*`, group `block`)
and `text`, where `doc` has the given content expression. -/
def docSpec (content : String) : SchemaSpec :=
  { Nodes := [("doc", { Content := content }),
      ("paragraph", { Content := "text*", Group := "block" }),
      ("text", {})] }

/-- A schema spec whose `paragraph` names the marks `em` and `bogus`, of which the spec
declares `em` only. -/
def bogusMarkSpec : SchemaSpec :=
  { Nodes := [("doc", { Content := "paragraph+" }),
      ("paragraph", { Content := "text*", Group := "block", Marks := some "em bogus" }),
      ("text", {})]
    Marks := [("em", {})] }

/-- The node type `paragraph` that `NewSchema` gives for `docSpec`. -/
def plainParagraphT : NodeType :=
  { Name := "paragraph", Groups := ["block"], ContentMatch := textMatch,
    States := [textMatch], SpecContent := "text*" }

/-- A paragraph of `docSpec` without content. -/
def plainParagraph : Node := .mk plainParagraphT [] [] [] Fragment.zero

/-- Whether the node type under `name` in the schema accepts the children: the result of
`matchFragment` from the start state of its `ContentMatch` is not nil and has `ValidEnd`. -/
def Schema.accepts (s : Schema) (name : String) (children : List Node) : Except Err Bool := do
  let t := (GoMap.get s.Nodes name).getD NodeType.zero
  let r ← t.ContentMatch.matchFragment t.States (NewFragment children) (-1) (-1)
  pure (match r with
    | some st => st.ValidEnd
    | none => false)

/-- A name the regular expression takes as an atom: not empty, every rune in `[\w\-]`. -/
def IsAtomName (a : String) : Prop := a.toList ≠ [] ∧ ∀ c ∈ a.toList, isNameRune c = true

instance (a : String) : Decidable (IsAtomName a) :=
  inferInstanceAs (Decidable (a.toList ≠ [] ∧ ∀ c ∈ a.toList, isNameRune c = true))

/-- The decimal digit of a number below ten, as a string. -/
def digitString (n : Nat) : String := String.mk [Char.ofNat (48 + n)]

mutual
/-- Whether the unit at offset `q` of the node, counted from its start, is content: a unit
of a text node or a leaf node.  The opening and the closing position of any other node are
not content, and the units between them are those of its children. -/
def Node.contentAt : Node → Int → Bool
  | .mk typ _ _ _ content, q =>
    if typ.isText || typ.isLeaf then true else content.contentAt (q - 1)
/-- Whether the unit at offset `q` of the fragment is content. -/
def Fragment.contentAt : Fragment → Int → Bool
  | .mk _ cs, q => contentAtList cs q
/-- Whether the unit at offset `q` of a list of children is content: the unit belongs to
the child whose span holds `q`, and there is none outside the list. -/
def contentAtList : List Node → Int → Bool
  | [], _ => false
  | c :: rest, q =>
    if q < 0 then false
    else if q < c.NodeSize then c.contentAt q
    else contentAtList rest (q - c.NodeSize)
end

/-- The range `[from_, to_)` of the document covers content: one of its units belongs to a
text node or a leaf node. -/
def Node.CoversContent (doc : Node) (from_ to_ : Int) : Prop :=
  ∃ q, from_ ≤ q ∧ q < to_ ∧ doc.Content.contentAt q = true

/-- The first loop of `contentBetween` over the node path and the index path of a resolved
position of depth `D`, entered at depth `d` with the distance `dist`; `t` tells whether the
position is inside a text node, which is what `IndexAfter` asks at the last depth. -/
def climbNat (path : List Node) (idxs : List Int) (t : Bool) (D : Nat) : Nat → Int → Nat × Int
  | 0, dist => (0, dist)
  | d + 1, dist =>
    match path.get? (d + 1), idxs.get? (d + 1) with
    | some n, some i =>
      if 0 < dist ∧ (if d + 1 ≠ D ∨ t = true then i + 1 else i) = n.ChildCount then
        climbNat path idxs t D d (dist - 1)
      else (d + 1, dist)
    | _, _ => (d + 1, dist)

/-- The document `doc[paragraph["ab"]]`. -/
def abDoc : Node := Doc [PText (ascii "ab")]

/-- A structure step on `abDoc` that replaces the range `[2, 3)`, the second letter, by
nothing, with an empty gap at its end. -/
def dropLetterStep : ReplaceAroundStep :=
  { From := 2, To := 3, GapFrom := 3, GapTo := 3, Insert := 0,
    Slice := { Content := Fragment.zero }, Structure := true }

/-- A structure step on `abDoc` that replaces the range `[1, 3)`, both letters, by nothing,
with an empty gap at its end. -/
def dropTextStep : ReplaceAroundStep :=
  { From := 1, To := 3, GapFrom := 3, GapTo := 3, Insert := 0,
    Slice := { Content := Fragment.zero }, Structure := true }

/-! ## Fixtures of the evaluations on text that is not ASCII and on open slices -/

/-- The text `"éa"`, of UTF-8 bytes `C3 A9 61` and UTF-16 length 2. -/
def eAcuteA : GoString := [0xC3, 0xA9, 0x61]

/-- The text `"ééé"`, of UTF-8 bytes `C3 A9 C3 A9 C3 A9` and UTF-16 length 3. -/
def threeEAcute : GoString := [0xC3, 0xA9, 0xC3, 0xA9, 0xC3, 0xA9]

/-- The slice `{content: [text "x"], openStart: 1, openEnd: 1}`, whose open depths exceed
the depth of its content: a text node has no content to be open into. -/
def openTextSlice : Slice :=
  { Content := NewFragment [Text (ascii "x")], OpenStart := 1, OpenEnd := 1 }

/-- The step `addMark{from: 1, to: 3, mark: em}`. -/
def emStep : MarkStep := { From := 1, To := 3, Mark := emMark }

/-- What `Step.UnmarshalJSON` returns once it has dispatched to the value `f` of a
constructor: the step with the implementation `f` decoded from the data, or the step as it
was and the wrapped error of that decoding. -/
def Step.dispatched (implUnmarshal : Applier → GoString → Except Err Applier) (s : Step)
    (data : GoString) (f : Applier) : Step × Option Err :=
  match wrapErr "failed to unmarshal step" (implUnmarshal f data) with
  | .error e => (s, some e)
  | .ok impl => ({ s with Impl := some impl }, none)

/-- The position is within the document: `0 <= pos <= doc.Content.Size`. -/
def Node.InBounds (doc : Node) (pos : Int) : Prop := 0 ≤ pos ∧ pos ≤ doc.Content.Size

instance (doc : Node) (pos : Int) : Decidable (doc.InBounds pos) :=
  inferInstanceAs (Decidable (0 ≤ pos ∧ pos ≤ doc.Content.Size))

/-- The end of the gap of a `replaceAround` step as `Node.Slice` reads it: -1 stands for
the end of the document. -/
def ReplaceAroundStep.gapEnd (s : ReplaceAroundStep) (doc : Node) : Int :=
  if s.GapTo = -1 then doc.Content.Size else s.GapTo

/-- A step on `abDoc`, of content size 4, with the empty gap `[5, 5)` beyond the end of the
document, that replaces the empty range at position 1 by nothing. -/
def farGapStep : ReplaceAroundStep :=
  { From := 1, To := 1, GapFrom := 5, GapTo := 5, Insert := 0 }

/-- A step on `abDoc` whose range starts before the document. -/
def beforeStartStep : ReplaceAroundStep :=
  { From := -1, To := 2, GapFrom := 1, GapTo := 2, Insert := 0 }

/-- A step on `abDoc`, of content size 4, whose range ends at 9, beyond the document, with
an empty gap and the empty slice, that asks for the insertion at position 3 of that slice. -/
def badInsertStep : ReplaceAroundStep :=
  { From := 1, To := 9, GapFrom := 1, GapTo := 1, Insert := 3 }

/-- The step `beforeStartStep` with `structure` true. -/
def structureBeforeStartStep : ReplaceAroundStep :=
  { From := -1, To := 2, GapFrom := 1, GapTo := 2, Insert := 0, Structure := true }

/-! ## Notions of the size law of `replace` -/

/-- What the size law asks of one node: its node type is the one the table `T` holds under
its name, its text is ASCII when it is a text node, and its content caches the sum of the
sizes of its children. -/
def Node.Local (T : String → NodeType) (n : Node) : Prop :=
  n.Typ = T n.Typ.Name ∧ (n.IsText = true → ∀ b ∈ n.Text, b < 128) ∧ n.Content.SizeOk

/-- Every node inside the node, the node included, is as `Node.Local` asks. -/
def Node.Tidy (T : String → NodeType) (n : Node) : Prop := ∀ m ∈ n.subnodes, m.Local T

/-- The position at which the content of the node at depth `d` of the path of `r` starts:
0 at the root, and below it one past the offset recorded at the depth above. -/
def ResolvedPos.startOf (r : ResolvedPos) : Nat → Int
  | 0 => 0
  | d + 1 => r.OffsetPath.getD d 0 + 1

/-- The size of the part of the content of the node at depth `d` that lies before the
position. -/
def ResolvedPos.before (r : ResolvedPos) (d : Int) : Int := r.Pos - r.startOf d.toNat

/-- The size of the part of the content of the node at depth `d` that lies after the
position. -/
def ResolvedPos.after (r : ResolvedPos) (d : Int) : Int :=
  match r.NodePath.get? d.toNat with
  | some n => n.Content.Size - r.before d
  | none => 0

/-- The fragment is open to depth `k` at its start: it has a first child that is neither
text nor a leaf, whose content is open to depth `k - 1` at its start. -/
def openAtStart : Nat → Fragment → Bool
  | 0, _ => true
  | k + 1, f =>
    match f.Content.head? with
    | some c => !c.IsText && !c.IsLeaf && openAtStart k c.Content
    | none => false

/-- The fragment is open to depth `k` at its end: it has a last child that is neither text
nor a leaf, whose content is open to depth `k - 1` at its end. -/
def openAtEnd : Nat → Fragment → Bool
  | 0, _ => true
  | k + 1, f =>
    match f.Content.getLast? with
    | some c => !c.IsText && !c.IsLeaf && openAtEnd k c.Content
    | none => false

/-- The open depths of the slice count nodes its content has: they are not negative, the
content is open to depth `OpenStart` at its start and to depth `OpenEnd` at its end. -/
def Slice.OpenOk (s : Slice) : Prop :=
  0 ≤ s.OpenStart ∧ 0 ≤ s.OpenEnd ∧ openAtStart s.OpenStart.toNat s.Content = true ∧
    openAtEnd s.OpenEnd.toNat s.Content = true

instance (s : Slice) : Decidable s.OpenOk :=
  inferInstanceAs (Decidable (0 ≤ s.OpenStart ∧ 0 ≤ s.OpenEnd ∧
    openAtStart s.OpenStart.toNat s.Content = true ∧
    openAtEnd s.OpenEnd.toNat s.Content = true))

/-- The text of every text node of the list is ASCII. -/
def AsciiText (nodes : List Node) : Prop :=
  ∀ m ∈ nodes, m.IsText = true → ∀ b ∈ m.Text, b < 128

instance (nodes : List Node) : Decidable (AsciiText nodes) :=
  inferInstanceAs (Decidable (∀ m ∈ nodes, m.IsText = true → ∀ b ∈ m.Text, b < 128))

/-- A slice without content that claims one open node on each side. -/
def emptyOpenSlice : Slice := { Content := Fragment.zero, OpenStart := 1, OpenEnd := 1 }

/-- The document `doc[blockquote[paragraph["ab"], paragraph["cd"]]]`, of content size 10. -/
def quotedPair : Node := Doc [Blockquote [PText (ascii "ab"), PText (ascii "cd")]]

/-- The slice `[blockquote[horizontal_rule]]` that claims two open nodes at its end, where
its content has one: the last child of the blockquote is a leaf. -/
def ruleQuoteSlice : Slice :=
  { Content := NewFragment [Blockquote [.mk horizontalRuleT [] [] [] Fragment.zero]],
    OpenStart := 0, OpenEnd := 2 }

/-- The document `doc[paragraph["Crazy?"]]`, of content size 8. -/
def crazyQDoc : Node := Doc [PText (ascii "Crazy?")]

/-! ## The memory of a run (`namespace Mem`)

The definitions above take a Go slice for the list of its elements, which leaves no room for
a write through one slice to show in another.  The definitions of this section embed the same
functions of `node.go`, `fragment.go`, `resolvepos.go`, `replace.go`, `slice.go`, `nodetype.go`,
`content.go` and of the package `transform` over an explicit memory: a slice is a header
(address, length, capacity), the arrays of nodes, marks and ints live in a heap, and every
`append`, `slices.Clone`, `slices.DeleteFunc` and indexed assignment of the source is a step on
that heap.  Strings and maps stay values: the source writes to no map on these paths, and Go
strings are immutable.  The schema data inside a `NodeType` stays a value as well.

A function of the source that only reads memory is a reader (`R`); one that allocates or
writes is a state transformer (`M`) whose final heap is kept also when it fails.  Recursion
and open-ended descent take a `fuel`: a run that needs more ends in `outOfFuel`. -/

namespace Mem

/-- A slice header: the address of the backing array, the length and the capacity.  The nil
slice and the empty slice literal are the header with length and capacity 0. -/
structure Ref where
  loc : Nat := 0
  len : Nat := 0
  cap : Nat := 0
deriving DecidableEq, Repr

/-- A non-nil `*Node`: the address of an array of nodes and the index of a cell in it.  A
variable whose address is taken is an array of one cell. -/
structure Ptr where
  loc : Nat
  idx : Nat
deriving DecidableEq, Repr

/-- The type `Fragment` of `fragment.go`. -/
structure Fragment where
  Size : Int := 0
  Content : Ref := {}
deriving DecidableEq, Repr

/-- The type `Node` of `node.go`. -/
structure Node where
  Typ : NodeType := NodeType.zero
  Attrs : GoMap AttrValue := []
  Marks : Ref := {}
  Text : GoString := []
  Content : Fragment := {}
deriving DecidableEq, Repr

/-- The type `ResolvedPos` of `resolvepos.go`. -/
structure ResolvedPos where
  Depth : Int := 0
  Pos : Int := 0
  ParentOffset : Int := 0
  NodePath : Ref := {}
  IndexPath : Ref := {}
  OffsetPath : Ref := {}
deriving DecidableEq, Repr

/-- The type `Slice` of `slice.go`. -/
structure Slice where
  Content : Fragment := {}
  OpenStart : Int := 0
  OpenEnd : Int := 0
deriving DecidableEq, Repr

/-- The arrays of one element type, by address: the array at address `l` is entry `l`, with
all its cells up to its capacity. -/
abbrev Store (α : Type) := List (List α)

/-- The elements of a slice: the first `len` cells of its array. -/
def Store.cells {α : Type} (s : Store α) (r : Ref) : List α :=
  ((s.get? r.loc).getD []).take r.len

/-- The store with cell `i` of the array at `loc` overwritten. -/
def Store.write {α : Type} (s : Store α) (loc i : Nat) (x : α) : Store α :=
  match s.get? loc with
  | some arr => s.set loc (arr.set i x)
  | none => s

/-- The store with the first cells of the array at `loc` overwritten by `xs`. -/
def Store.writeCells {α : Type} (s : Store α) (loc : Nat) (xs : List α) : Store α :=
  match s.get? loc with
  | some arr => s.set loc (xs ++ arr.drop xs.length)
  | none => s

/-- The built-in `append(r, x)`: in place when capacity is left, else into a new array, of
the capacity that the growth policy `grow` of the runtime picks, with the elements copied
over.  It returns the new header and the store. -/
def Store.append {α : Type} (s : Store α) (zero : α) (grow : Nat → Nat → Nat) (r : Ref)
    (x : α) : Ref × Store α :=
  if r.len < r.cap then ({ r with len := r.len + 1 }, s.write r.loc r.len x)
  else
    let cap := max (r.len + 1) (grow r.cap (r.len + 1))
    ({ loc := s.length, len := r.len + 1, cap := cap },
      s ++ [s.cells r ++ [x] ++ List.replicate (cap - (r.len + 1)) zero])

/-- The standard library's `slices.Clone(r)`, which is `append(r[:0:0], r...)`: a slice
without elements gives the header with capacity 0, and else the elements go to a new
array. -/
def Store.clone {α : Type} (s : Store α) (zero : α) (grow : Nat → Nat → Nat) (r : Ref) :
    Ref × Store α :=
  if r.len = 0 then ({ r with len := 0, cap := 0 }, s)
  else
    let cap := max r.len (grow 0 r.len)
    ({ loc := s.length, len := r.len, cap := cap },
      s ++ [s.cells r ++ List.replicate (cap - r.len) zero])

/-- The heap: the arrays of nodes, of marks and of ints, and the growth policy of `append`
(from the old capacity and the length needed to the new capacity). -/
structure Heap where
  nodes : Store Node := []
  marks : Store Mark := []
  ints : Store Int := []
  grow : Nat → Nat → Nat := fun _ n => n

/-- A computation that reads the heap. -/
def R (α : Type) : Type := Heap → Except Err α

/-- A computation that may allocate and write: it returns its result, or how it failed, and
the heap it leaves. -/
def M (α : Type) : Type := Heap → Except Err α × Heap

/-- Sequencing of readers. -/
def R.bind {α β : Type} (m : R α) (f : α → R β) : R β :=
  fun h => match m h with
    | .ok a => f a h
    | .error e => .error e

/-- Sequencing of state transformers; a failure keeps the heap reached. -/
def M.bind {α β : Type} (m : M α) (f : α → M β) : M β :=
  fun h => match m h with
    | (.ok a, h1) => f a h1
    | (.error e, h1) => (.error e, h1)

instance : Monad R where
  pure a := fun _ => .ok a
  bind := R.bind

instance : Monad M where
  pure a := fun h => (.ok a, h)
  bind := M.bind

/-- A reader run as a state transformer: the heap stays as it is. -/
def M.read {α : Type} (x : R α) : M α := fun h => (x h, h)

/-- A result or failure that does not depend on the heap. -/
def R.of {α : Type} (x : Except Err α) : R α := fun _ => x

instance : MonadLift (Except Err) R := ⟨R.of⟩

instance : MonadLift R M := ⟨M.read⟩

/-- A state transformer that fails with `e`. -/
def fail {α : Type} (e : Err) : M α := fun h => (.error e, h)

/-- The end of a run that needs more fuel than it was given. -/
def outOfFuel : Err := .panic "out of fuel"

/-- The zero value `Mark{}`. -/
def zeroMark : Mark := { Typ := MarkType.zero }

/-- The elements of a slice of nodes, as `range` or `slices.EqualFunc` reads them. -/
def rangeNodes (r : Ref) : R (List Node) := fun h => .ok (h.nodes.cells r)

/-- The elements of a slice of marks. -/
def rangeMarks (r : Ref) : R (List Mark) := fun h => .ok (h.marks.cells r)

/-- The index expression `r[i]` on a slice of nodes. -/
def indexNode (r : Ref) (i : Int) : R Node := fun h => goIndex (h.nodes.cells r) i

/-- The index expression `r[i]` on a slice of ints. -/
def indexInt (r : Ref) (i : Int) : R Int := fun h => goIndex (h.ints.cells r) i

/-- The dereference `*p` of a `*Node`; `none` is the nil pointer. -/
def deref (p : Option Ptr) : R Node := fun h =>
  match p with
  | none => .error (.panic "nil pointer dereference")
  | some p =>
    match (h.nodes.get? p.loc).bind (fun arr => arr.get? p.idx) with
    | some n => .ok n
    | none => .error (.panic "invalid memory address")

/-- The assignment `r[i] = x` on a slice of nodes. -/
def assignNode (r : Ref) (i : Int) (x : Node) : M Unit := fun h =>
  if i < 0 ∨ (r.len : Int) ≤ i then (.error (.panic "index out of range"), h)
  else (.ok (), { h with nodes := h.nodes.write r.loc i.toNat x })

/-- The built-in `append(r, x)` on a slice of nodes. -/
def goAppendNode (r : Ref) (x : Node) : M Ref := fun h =>
  (.ok (h.nodes.append {} h.grow r x).1, { h with nodes := (h.nodes.append {} h.grow r x).2 })

/-- The built-in `append(r, x)` on a slice of marks. -/
def goAppendMark (r : Ref) (x : Mark) : M Ref := fun h =>
  (.ok (h.marks.append zeroMark h.grow r x).1,
    { h with marks := (h.marks.append zeroMark h.grow r x).2 })

/-- The built-in `append(r, x)` on a slice of ints. -/
def goAppendInt (r : Ref) (x : Int) : M Ref := fun h =>
  (.ok (h.ints.append 0 h.grow r x).1, { h with ints := (h.ints.append 0 h.grow r x).2 })

/-- The call `slices.Clone(r)` on a slice of nodes. -/
def cloneNodes (r : Ref) : M Ref := fun h =>
  (.ok (h.nodes.clone {} h.grow r).1, { h with nodes := (h.nodes.clone {} h.grow r).2 })

/-- The call `slices.Clone(r)` on a slice of marks. -/
def cloneMarks (r : Ref) : M Ref := fun h =>
  (.ok (h.marks.clone zeroMark h.grow r).1,
    { h with marks := (h.marks.clone zeroMark h.grow r).2 })

/-- The call `slices.DeleteFunc(r, del)` on a slice of marks: without an element to delete
the slice comes back as it is; else the elements kept are moved to the front of the same
array, the cells they leave are zeroed, and the header is shortened. -/
def deleteFuncMarks (r : Ref) (del : Mark → Bool) : M Ref := fun h =>
  let cells := h.marks.cells r
  let kept := cells.filter (fun m => !del m)
  if kept.length = cells.length then (.ok r, h)
  else
    (.ok { r with len := kept.length },
      { h with marks := (h.marks.writeCells r.loc
          (kept ++ List.replicate (cells.length - kept.length) zeroMark)) })

/-- The address `&x` of a local node that outlives the call: a new array of one cell. -/
def boxNode (x : Node) : M (Option Ptr) := fun h =>
  (.ok (some { loc := h.nodes.length, idx := 0 }), { h with nodes := h.nodes ++ [[x]] })

/-- The slice of the arguments of a variadic call with one node, as in `NewFragment(node)`:
a new array of one cell. -/
def oneNode (x : Node) : M Ref := fun h =>
  (.ok { loc := h.nodes.length, len := 1, cap := 1 }, { h with nodes := h.nodes ++ [[x]] })

/-- An error wrapped by `fmt.Errorf(prefix + ": %w", err)`; a panic passes through. -/
def wrapErr {α : Type} (pfx : String) (m : M α) : M α := fun h =>
  (Prosemirror.wrapErr pfx (m h).1, (m h).2)

/-- An error turned into the panic of `panic(err)`. -/
def orPanic {α : Type} (m : M α) : M α := fun h =>
  (Prosemirror.orPanic (m h).1, (m h).2)

/-! ### `node.go` and `fragment.go` -/

/-- The method `Node.IsText`. -/
def Node.IsText (n : Node) : Bool := n.Typ.isText

/-- The method `Node.IsLeaf`. -/
def Node.IsLeaf (n : Node) : Bool := n.Typ.isLeaf

/-- The method `Node.IsAtom`. -/
def Node.IsAtom (n : Node) : Bool := n.Typ.isAtom

/-- The method `Node.IsInline`. -/
def Node.IsInline (n : Node) : Bool := n.Typ.isInline

/-- The method `Node.textLen`. -/
def Node.textLen (n : Node) : Int := utf16Len n.Text

/-- The method `Node.NodeSize`. -/
def Node.NodeSize (n : Node) : Int :=
  if n.IsText then n.textLen
  else if n.IsLeaf then 1
  else 2 + n.Content.Size

/-- The method `Fragment.ChildCount`. -/
def Fragment.ChildCount (f : Fragment) : Int := f.Content.len

/-- The method `Node.ChildCount`. -/
def Node.ChildCount (n : Node) : Int := n.Content.ChildCount

/-- The method `Fragment.Child`: the address `&f.Content[index]`, after the bounds check
of the index expression. -/
def Fragment.Child (f : Fragment) (index : Int) : Except Err (Option Ptr) :=
  if index < 0 ∨ (f.Content.len : Int) ≤ index then .error (.panic "index out of range")
  else .ok (some { loc := f.Content.loc, idx := index.toNat })

/-- The method `Fragment.maybeChild`; `none` is the nil pointer. -/
def Fragment.maybeChild (f : Fragment) (index : Int) : Option Ptr :=
  if index < 0 ∨ (f.Content.len : Int) ≤ index then none
  else some { loc := f.Content.loc, idx := index.toNat }

/-- The method `Fragment.firstChild`; `none` is the nil pointer. -/
def Fragment.firstChild (f : Fragment) : Option Ptr :=
  if f.Content.len = 0 then none else some { loc := f.Content.loc, idx := 0 }

/-- The method `Fragment.lastChild`; `none` is the nil pointer. -/
def Fragment.lastChild (f : Fragment) : Option Ptr :=
  if f.Content.len = 0 then none else some { loc := f.Content.loc, idx := f.Content.len - 1 }

/-- The method `Node.Child`. -/
def Node.Child (n : Node) (index : Int) : Except Err (Option Ptr) := n.Content.Child index

/-- The method `Node.MaybeChild`. -/
def Node.MaybeChild (n : Node) (index : Int) : Option Ptr := n.Content.maybeChild index

/-- The method `Node.FirstChild`. -/
def Node.FirstChild (n : Node) : Option Ptr := n.Content.firstChild

/-- The loop of `NewFragment`: `size` is the running total. -/
def sumSizes : List Node → Int → Int
  | [], size => size
  | node :: rest, size => sumSizes rest (size + node.NodeSize)

/-- The function `NewFragment` on the slice of its arguments, which the fragment keeps. -/
def NewFragment (nodes : Ref) : R Fragment := do
  let cs ← rangeNodes nodes
  pure { Size := sumSizes cs 0, Content := nodes }

/-- The method `Fragment.clone`. -/
def Fragment.clone (f : Fragment) : M Fragment := do
  let c ← cloneNodes f.Content
  pure { Size := f.Size, Content := c }

/-- The method `Node.withText`. -/
def Node.withText (n : Node) (s : GoString) : M Node :=
  if n.Text = s then pure n
  else do
    let marks ← cloneMarks n.Marks
    let content ← n.Content.clone
    pure { Typ := n.Typ, Text := s, Attrs := n.Attrs, Marks := marks, Content := content }

/-- The method `Node.copy`. -/
def Node.copy (n : Node) (f : Fragment) : M Node := do
  let marks ← cloneMarks n.Marks
  let content ← f.clone
  pure { Typ := n.Typ, Text := n.Text, Attrs := n.Attrs, Marks := marks, Content := content }

/-- The method `Node.Clone`. -/
def Node.Clone (n : Node) : M Node := do
  let marks ← cloneMarks n.Marks
  let content ← n.Content.clone
  pure { Typ := n.Typ, Attrs := n.Attrs, Marks := marks, Text := n.Text, Content := content }

/-- The method `Node.WithMarks`. -/
def Node.WithMarks (n : Node) (m : Ref) : M Node := do
  let n ← n.Clone
  pure { n with Marks := m }

/-- The method `Node.hasMarkup`. -/
def Node.hasMarkup (n : Node) (t : NodeType) (attrs : GoMap AttrValue) (marks : Ref) :
    R Bool :=
  if n.Typ.Eq t && mapsEqual n.Attrs attrs then do
    let a ← rangeMarks n.Marks
    let b ← rangeMarks marks
    pure (slicesEqualFunc Mark.Eq a b)
  else pure false

/-- The method `Node.sameMarkup`. -/
def Node.sameMarkup (n other : Node) : R Bool :=
  n.hasMarkup other.Typ other.Attrs other.Marks

/-- The loop of `slices.EqualFunc` over two slices of nodes of the same length. -/
def eqLoop (eq : Node → Node → R Bool) : List Node → List Node → R Bool
  | a :: as, b :: bs => do
    let same ← eq a b
    if same then eqLoop eq as bs else pure false
  | _, _ => pure true

/-- The method `Node.eq`. -/
def Node.eq : Nat → Node → Node → R Bool
  | 0, _, _ => R.of (.error outOfFuel)
  | fuel + 1, n, other =>
    if n.Typ.isText then do
      let same ← n.sameMarkup other
      pure (same && decide (n.Text = other.Text))
    else if n.Typ.Eq other.Typ && mapsEqual n.Attrs other.Attrs then do
      let a ← rangeMarks n.Marks
      let b ← rangeMarks other.Marks
      if slicesEqualFunc Mark.Eq a b && decide (n.Text = other.Text) then do
        let cs ← rangeNodes n.Content.Content
        let ds ← rangeNodes other.Content.Content
        if cs.length ≠ ds.length then pure false
        else eqLoop (Node.eq fuel) cs ds
      else pure false
    else pure false

/-- The method `Fragment.replaceChild`. -/
def Fragment.replaceChild (fuel : Nat) (f : Fragment) (index : Int) (n : Node) :
    M Fragment := do
  let curr ← indexNode f.Content index
  let same ← curr.eq fuel n
  if same then pure f
  else do
    let content ← cloneNodes f.Content
    assignNode content index n
    pure { Size := f.Size - curr.NodeSize + n.NodeSize, Content := content }

/-- The loop of `Fragment.findIndex` from child `i` on, `curPos` being the position at
which child `i` starts; the fuel is one more than the number of children left, and
`f.Child(i)` panics past the last child. -/
def findIndexLoop (f : Fragment) (pos : Int) : Nat → Int → Int → R (Int × Int)
  | 0, _, _ => R.of (.error (.panic "index out of range"))
  | k + 1, i, curPos => do
    let p ← f.Child i
    let cur ← deref p
    let end_ := curPos + cur.NodeSize
    if end_ ≥ pos then
      if end_ = pos then pure (i + 1, end_) else pure (i, curPos)
    else findIndexLoop f pos k (i + 1) end_

/-- The method `Fragment.findIndex`. -/
def Fragment.findIndex (f : Fragment) (pos : Int) : R (Int × Int) :=
  if pos = 0 then pure (0, pos)
  else if pos = f.Size then pure ((f.Content.len : Int), pos)
  else if pos > f.Size || pos < 0 then R.of (.error (.panic "position out of bounds"))
  else findIndexLoop f pos (f.Content.len + 1) 0 0

/-- The loop of `Fragment.cut` from child `i` on, `pos` being the position at which child
`i` starts, with the slice `result` and the total `size` built so far; `cutNode` is
`Node.cut`.  The fuel is one more than the number of children left, and `f.Content[i]`
panics past the last child. -/
def cutLoop (cutNode : Node → Int → Int → M Node) (f : Fragment) (from_ to_ : Int) :
    Nat → Int → Int → Ref → Int → M (Ref × Int)
  | 0, _, pos, result, size =>
    if pos < to_ then fail (.panic "index out of range") else pure (result, size)
  | k + 1, i, pos, result, size =>
    if pos < to_ then do
      let child ← indexNode f.Content i
      let end_ := pos + child.NodeSize
      if end_ ≤ from_ then cutLoop cutNode f from_ to_ k (i + 1) end_ result size
      else do
        let child ←
          (if pos < from_ || end_ > to_ then
            if child.IsText then
              cutNode child (max 0 (from_ - pos)) (min child.textLen (to_ - pos))
            else
              cutNode child (max 0 (from_ - pos - 1)) (min child.Content.Size (to_ - pos - 1))
          else pure child : M Node)
        let result ← goAppendNode result child
        cutLoop cutNode f from_ to_ k (i + 1) end_ result (size + child.NodeSize)
    else pure (result, size)

/-- The body of `Fragment.cut`, `cutNode` being `Node.cut`; `to_ = -1` stands for the end
of the fragment, and `make([]Node, 0)` is the header without an array. -/
def Fragment.cutWith (cutNode : Node → Int → Int → M Node) (f : Fragment) (from_ to_ : Int) :
    M Fragment :=
  let to_ := if to_ = -1 then f.Size else to_
  if from_ = 0 && to_ = f.Size then pure f
  else if to_ ≤ from_ then pure {}
  else do
    let res ← cutLoop cutNode f from_ to_ (f.Content.len + 1) 0 0 {} 0
    pure { Size := res.2, Content := res.1 }

/-- The body of `Node.cut`, `cutFrag` being `Fragment.cut`; `to_ = -1` stands for the end
of the node. -/
def Node.cutWith (cutFrag : Fragment → Int → Int → M Fragment) (n : Node) (from_ to_ : Int) :
    M Node :=
  if n.IsText then
    let to_ := if to_ = -1 then n.textLen else to_
    if from_ = 0 && to_ = n.textLen then pure n
    else do
      let s ← goSlice n.Text from_ to_
      n.withText s
  else
    let to_ := if to_ = -1 then n.Content.Size else to_
    if from_ = 0 && to_ = n.Content.Size then pure n
    else do
      let c ← cutFrag n.Content from_ to_
      n.copy c

/-- The method `Fragment.cut`, which recurses through `Node.cut`. -/
def Fragment.cut : Nat → Fragment → Int → Int → M Fragment
  | 0, _, _, _ => fail outOfFuel
  | fuel + 1, f, from_, to_ => Fragment.cutWith (Node.cutWith (Fragment.cut fuel)) f from_ to_

/-- The method `Node.cut`. -/
def Node.cut (fuel : Nat) (n : Node) (from_ to_ : Int) : M Node :=
  Node.cutWith (Fragment.cut fuel) n from_ to_

/-- The loop `for ; i < len(other.Content); i++` of `Fragment.append`; the fuel is the
number of children of `other`. -/
def appendLoop (other : Fragment) : Nat → Int → Ref → M Ref
  | 0, _, content => pure content
  | k + 1, i, content =>
    if i < other.Content.len then do
      let x ← indexNode other.Content i
      let content ← goAppendNode content x
      appendLoop other k (i + 1) content
    else pure content

/-- The method `Fragment.append`. -/
def Fragment.append (f other : Fragment) : M Fragment :=
  if other.Size = 0 then pure f
  else if f.Size = 0 then pure other
  else do
    let last ← deref f.lastChild
    let first ← deref other.firstChild
    let content ← cloneNodes f.Content
    let merge ← (if last.IsText then last.sameMarkup first else pure false : R Bool)
    if merge then do
      let n ← last.withText (last.Text ++ first.Text)
      assignNode content ((content.len : Int) - 1) n
      let content ← appendLoop other other.Content.len 1 content
      pure { Size := f.Size + other.Size, Content := content }
    else do
      let content ← appendLoop other other.Content.len 0 content
      pure { Size := f.Size + other.Size, Content := content }

/-! ### `content.go` and `nodetype.go` -/

/-- The loop of `ContentMatch.matchFragment` from child `i` up to `end_`, at the state
`cur` (`none` is the nil pointer, which ends the loop); the fuel is `end_ - i`. -/
def matchFragmentLoop (store : List ContentMatch) :
    Nat → Option ContentMatch → Fragment → Int → Int → R (Option ContentMatch)
  | 0, cur, _, _, _ => pure cur
  | fuel + 1, cur, frag, i, end_ =>
    match cur with
    | none => pure none
    | some c =>
      if i < end_ then do
        let p ← frag.Child i
        let child ← deref p
        matchFragmentLoop store fuel (c.matchType store child.Typ) frag (i + 1) end_
      else pure cur

/-- The method `ContentMatch.matchFragment`; `-1` stands for the first and for the last
child. -/
def matchFragment (store : List ContentMatch) (c : ContentMatch) (frag : Fragment)
    (start end_ : Int) : R (Option ContentMatch) :=
  let start := if start = -1 then 0 else start
  let end_ := if end_ = -1 then frag.ChildCount else end_
  matchFragmentLoop store (end_ - start).toNat (some c) frag start end_

/-- The loop of `NodeType.CheckContent` over the marks of the children. -/
def checkMarksLoop (n : NodeType) : List Node → R Unit
  | [] => pure ()
  | child :: rest => do
    let ms ← rangeMarks child.Marks
    R.of (n.validMarks ms)
    checkMarksLoop n rest

/-- The method `NodeType.CheckContent`. -/
def CheckContent (n : NodeType) (f : Fragment) : R Unit := do
  let result ← matchFragment n.States n.ContentMatch f (-1) (-1)
  match result with
  | none => R.of (.error (.error "content does not match node type, no content match found"))
  | some r =>
    if !r.ValidEnd then
      R.of (.error (.error "content does not match node type, invalid end position"))
    else do
      let cs ← rangeNodes f.Content
      checkMarksLoop n cs

/-- The method `Node.close`. -/
def Node.close (n : Node) (f : Fragment) : M Node := do
  CheckContent n.Typ f
  n.copy f

/-- The method `Node.contentMatchAt`; `none` is the nil pointer. -/
def Node.contentMatchAt (n : Node) (index : Int) : R (Option ContentMatch) :=
  matchFragment n.Typ.States n.Typ.ContentMatch n.Content 0 index

/-- The loop over the marks of the inserted children in `Node.canReplace`; the fuel is
`end_ - i`. -/
def canReplaceMarksLoop (n : Node) (replacement : Fragment) : Nat → Int → Int → R Bool
  | 0, _, _ => pure true
  | fuel + 1, i, end_ =>
    if i < end_ then do
      let p ← replacement.Child i
      let c ← deref p
      let ms ← rangeMarks c.Marks
      match n.Typ.validMarks ms with
      | .error _ => pure false
      | .ok _ => canReplaceMarksLoop n replacement fuel (i + 1) end_
    else pure true

/-- The method `Node.canReplace`. -/
def Node.canReplace (n : Node) (from_ to_ : Int) (replacement : Fragment) (start end_ : Int) :
    R Bool := do
  let start := if start = -1 then 0 else start
  let end_ := if end_ = -1 then replacement.ChildCount else end_
  let at_ ← n.contentMatchAt from_
  let one ← matchFragmentLoop n.Typ.States (end_ - start).toNat at_ replacement start end_
  match one with
  | none => pure false
  | some o => do
    let two ← matchFragment n.Typ.States o n.Content to_ (-1)
    match two with
    | none => pure false
    | some t =>
      if !t.ValidEnd then pure false
      else canReplaceMarksLoop n replacement (end_ - start).toNat start end_

/-! ### `resolvepos.go` -/

/-- The loop of `resolve`, entered at `node` with the paths built so far in `r` and the
absolute position `start` of the content of `node`; each iteration steps from a node into
one of its children and takes one unit of fuel. -/
def resolveLoop : Nat → Node → ResolvedPos → Int → M ResolvedPos
  | 0, _, _, _ => fail outOfFuel
  | fuel + 1, node, r, start => do
    let found ← node.Content.findIndex r.ParentOffset
    let nodePath ← goAppendNode r.NodePath node
    let indexPath ← goAppendInt r.IndexPath found.1
    let offsetPath ← goAppendInt r.OffsetPath (start + found.2)
    let r := { r with NodePath := nodePath, IndexPath := indexPath, OffsetPath := offsetPath }
    let rem := r.ParentOffset - found.2
    if rem = 0 then pure r
    else do
      let p ← node.Child found.1
      let node ← deref p
      if node.IsText then pure r
      else resolveLoop fuel node { r with ParentOffset := rem - 1 } (start + found.2 + 1)

/-- The function `resolve` of `resolvepos.go`. -/
def resolve (fuel : Nat) (doc : Node) (pos : Int) : M ResolvedPos :=
  if pos < 0 || pos > doc.Content.Size then fail (.error "position out of bounds")
  else do
    let r ← resolveLoop fuel doc { Pos := pos, ParentOffset := pos } 0
    pure { r with Depth := (r.NodePath.len : Int) - 1 }

/-- The method `Node.Resolve`. -/
def Node.Resolve (fuel : Nat) (n : Node) (pos : Int) : M ResolvedPos := resolve fuel n pos

/-- The method `ResolvedPos.resolveDepth`. -/
def ResolvedPos.resolveDepth (r : ResolvedPos) (depth : Int) : Int :=
  if depth < 0 then r.Depth + depth else depth

/-- The method `ResolvedPos.Node`. -/
def ResolvedPos.Node (r : ResolvedPos) (depth : Int) : R Mem.Node :=
  indexNode r.NodePath (r.resolveDepth depth)

/-- The method `ResolvedPos.Index`. -/
def ResolvedPos.Index (r : ResolvedPos) (depth : Int) : R Int :=
  indexInt r.IndexPath (r.resolveDepth depth)

/-- The method `ResolvedPos.Parent`. -/
def ResolvedPos.Parent (r : ResolvedPos) : R Mem.Node := r.Node r.Depth

/-- The method `ResolvedPos.TextOffset`. -/
def ResolvedPos.TextOffset (r : ResolvedPos) : R Bool := do
  let o ← indexInt r.OffsetPath ((r.OffsetPath.len : Int) - 1)
  pure (r.Pos - o != 0)

/-- The method `ResolvedPos.Start`. -/
def ResolvedPos.Start (r : ResolvedPos) (depth : Int) : R Int :=
  let depth := r.resolveDepth depth
  if depth = 0 then pure 0
  else do
    let last := (r.OffsetPath.len : Int) - 1
    let o ← indexInt r.OffsetPath (last - 1)
    pure (o + 1)

/-- The method `ResolvedPos.End`. -/
def ResolvedPos.End (r : ResolvedPos) (depth : Int) : R Int := do
  let depth := r.resolveDepth depth
  let s ← r.Start depth
  let n ← r.Node depth
  pure (s + n.Content.Size)

/-- The loop of `ResolvedPos.SharedDepth`: it tries `depth = r.Depth - k` for
`k = 0, 1, ...` while `depth > 0`; the fuel is the number of depths left to try. -/
def sharedDepthLoop (r : ResolvedPos) (pos : Int) : Nat → Int → R Int
  | 0, _ => pure 0
  | fuel + 1, depth =>
    if depth > 0 then do
      let s ← r.Start depth
      if s ≤ pos then do
        let e ← r.End depth
        if e ≥ pos then pure depth
        else sharedDepthLoop r pos fuel (depth - 1)
      else sharedDepthLoop r pos fuel (depth - 1)
    else pure 0

/-- The method `ResolvedPos.SharedDepth`. -/
def ResolvedPos.SharedDepth (r : ResolvedPos) (pos : Int) : R Int :=
  sharedDepthLoop r pos r.Depth.toNat r.Depth

/-- The method `ResolvedPos.IndexAfter`. -/
def ResolvedPos.IndexAfter (r : ResolvedPos) (depth : Int) : R Int := do
  let depth := r.resolveDepth depth
  let i ← r.Index depth
  if depth != r.Depth then pure (i + 1)
  else do
    let t ← r.TextOffset
    if t then pure (i + 1) else pure i

/-- The method `ResolvedPos.NodeAfter`; `none` is the nil pointer. -/
def ResolvedPos.NodeAfter (fuel : Nat) (r : ResolvedPos) : M (Option Ptr) := do
  let parent ← r.Parent
  let index ← r.Index r.Depth
  if index = parent.ChildCount then pure none
  else do
    let o ← indexInt r.OffsetPath ((r.OffsetPath.len : Int) - 1)
    let dOff := r.Pos - o
    if dOff ≠ 0 then do
      let p ← parent.Child index
      let c ← deref p
      let n ← c.cut fuel dOff (-1)
      boxNode n
    else do
      let p ← parent.Child index
      pure p

/-- The method `ResolvedPos.NodeBefore`; `none` is the nil pointer. -/
def ResolvedPos.NodeBefore (fuel : Nat) (r : ResolvedPos) : M (Option Ptr) := do
  let index ← r.Index r.Depth
  let o ← indexInt r.OffsetPath ((r.OffsetPath.len : Int) - 1)
  let dOff := r.Pos - o
  if dOff ≠ 0 then do
    let parent ← r.Parent
    let p ← parent.Child index
    let c ← deref p
    let n ← c.cut fuel 0 dOff
    boxNode n
  else if index = 0 then pure none
  else do
    let parent ← r.Parent
    let p ← parent.Child (index - 1)
    pure p

/-- The function `checkJoin`. -/
def checkJoin (main sub : Node) : Except Err Unit :=
  if !sub.Typ.compatibleContent main.Typ then
    .error (.error "can't join incompatible nodes")
  else .ok ()

/-- The function `joinable`: the address of its copy of the node of `before` at
`depth`. -/
def joinable (before after : ResolvedPos) (depth : Int) : M (Option Ptr) := do
  let node ← before.Node depth
  let sub ← after.Node depth
  checkJoin node sub
  boxNode node

/-- The method `Node.Slice`. -/
def Node.Slice (fuel : Nat) (n : Node) (from_ to_ : Int) (includeParents : Bool) : M Slice :=
  let to_ := if to_ = -1 then n.Content.Size else to_
  if from_ = to_ then pure {}
  else do
    let fromNode ← wrapErr "error resolving from" (n.Resolve fuel from_)
    let toNode ← wrapErr "error resolving to" (n.Resolve fuel to_)
    let depth ← (if !includeParents then fromNode.SharedDepth to_ else pure 0 : R Int)
    let start ← fromNode.Start depth
    let node ← fromNode.Node depth
    let content ← node.Content.cut fuel (fromNode.Pos - start) (toNode.Pos - start)
    pure { Content := content, OpenStart := fromNode.Depth - depth,
           OpenEnd := toNode.Depth - depth }

/-! ### `replace.go` -/

/-- The function `appendNode`. -/
def appendNode (content : Ref) (child : Node) : M Ref := do
  let last : Int := (content.len : Int) - 1
  let merge ←
    (if last ≥ 0 && child.IsText then do
      let l ← indexNode content last
      child.sameMarkup l
    else pure false : R Bool)
  if merge then do
    let l ← indexNode content last
    let n ← child.withText (l.Text ++ child.Text)
    assignNode content last n
    pure content
  else goAppendNode content child

/-- The loop `for i := startIndex; i < endIndex; i++` of `appendRange`; the fuel is
`endIndex - i`. -/
def appendRangeLoop (node : Node) : Nat → Ref → Int → Int → M Ref
  | 0, content, _, _ => pure content
  | fuel + 1, content, i, endIndex =>
    if i < endIndex then do
      let p ← node.Child i
      let c ← deref p
      let content ← appendNode content c
      appendRangeLoop node fuel content (i + 1) endIndex
    else pure content

/-- The part of `appendRange` before its loop: the content after the text node that
`start` cuts, if any, and the index of the first child to append. -/
def appendRangeStart (fuel : Nat) (content : Ref) (start : Option ResolvedPos) (depth : Int) :
    M (Ref × Int) :=
  match start with
  | none => pure (content, 0)
  | some s => do
    let startIndex ← s.Index depth
    if s.Depth > depth then pure (content, startIndex + 1)
    else do
      let t ← s.TextOffset
      if t then do
        let after ← s.NodeAfter fuel
        let n ← deref after
        let content ← appendNode content n
        pure (content, startIndex + 1)
      else pure (content, startIndex)

/-- The part of `appendRange` after its loop: the content with the text node that `end_`
cuts, if any. -/
def appendRangeEnd (fuel : Nat) (content : Ref) (end_ : Option ResolvedPos) (depth : Int) :
    M Ref :=
  match end_ with
  | none => pure content
  | some e =>
    if e.Depth = depth then do
      let t ← e.TextOffset
      if t then do
        let before ← e.NodeBefore fuel
        let n ← deref before
        appendNode content n
      else pure content
    else pure content

/-- The function `appendRange`; `none` is a nil `start` or `end`. -/
def appendRange (fuel : Nat) (content : Ref) (start end_ : Option ResolvedPos) (depth : Int) :
    M Ref := do
  let node ←
    (match start, end_ with
    | some s, _ => s.Node depth
    | none, some e => e.Node depth
    | none, none => pure {} : R Node)
  let endIndex ←
    (match end_ with
    | some e => e.Index depth
    | none => pure node.ChildCount : R Int)
  let started ← appendRangeStart fuel content start depth
  let content ← appendRangeLoop node (endIndex - started.2).toNat started.1 started.2 endIndex
  appendRangeEnd fuel content end_ depth

/-- The function `replaceTwoWay`. -/
def replaceTwoWay : Nat → ResolvedPos → ResolvedPos → Int → M Fragment
  | 0, _, _, _ => fail outOfFuel
  | fuel + 1, from_, to_, depth => do
    let content ← appendRange fuel {} none (some from_) depth
    let content ←
      (if from_.Depth > depth then do
        let nodeType ← joinable from_ to_ (depth + 1)
        let r ← replaceTwoWay fuel from_ to_ (depth + 1)
        let t ← deref nodeType
        let node ← t.close r
        appendNode content node
      else pure content : M Ref)
    let content ← appendRange fuel content (some to_) none depth
    NewFragment content

/-- The tail of `replaceThreeWay` when the two open nodes are not joined. -/
def replaceThreeWayWide (fuel : Nat) (from_ start end_ to_ : ResolvedPos) (depth : Int)
    (openStart openEnd : Option Ptr) (content : Ref) : M Fragment := do
  let content ←
    (match openStart with
    | some _ => do
      let r ← replaceTwoWay fuel from_ start (depth + 1)
      let os ← deref openStart
      let node ← os.close r
      appendNode content node
    | none => pure content : M Ref)
  let content ← appendRange fuel content (some start) (some end_) depth
  let content ←
    (match openEnd with
    | some _ => do
      let r ← replaceTwoWay fuel end_ to_ (depth + 1)
      let oe ← deref openEnd
      let node ← oe.close r
      appendNode content node
    | none => pure content : M Ref)
  let content ← appendRange fuel content (some to_) none depth
  NewFragment content

/-- The function `replaceThreeWay`. -/
def replaceThreeWay : Nat → ResolvedPos → ResolvedPos → ResolvedPos → ResolvedPos → Int →
    M Fragment
  | 0, _, _, _, _, _ => fail outOfFuel
  | fuel + 1, from_, start, end_, to_, depth => do
    let openStart ←
      (if from_.Depth > depth then joinable from_ start (depth + 1) else pure none :
        M (Option Ptr))
    let openEnd ←
      (if to_.Depth > depth then joinable end_ to_ (depth + 1) else pure none :
        M (Option Ptr))
    let content ← appendRange fuel {} none (some from_) depth
    let thin ←
      (match openStart, openEnd with
      | some _, some _ => do
        let si ← start.Index depth
        let ei ← end_.Index depth
        pure (decide (si = ei))
      | _, _ => pure false : R Bool)
    if thin then do
      let os ← deref openStart
      let oe ← deref openEnd
      checkJoin os oe
      let r ← replaceThreeWay fuel from_ start end_ to_ (depth + 1)
      let os ← deref openStart
      let node ← os.close r
      let content ← appendNode content node
      let content ← appendRange fuel content (some to_) none depth
      NewFragment content
    else replaceThreeWayWide fuel from_ start end_ to_ depth openStart openEnd content

/-- The loop `for i := extra - 1; i >= 0; i--` of `prepareSliceForReplace`; the fuel is
`i + 1`. -/
def wrapLoop (along : ResolvedPos) : Nat → Int → Node → M Node
  | 0, _, node => pure node
  | fuel + 1, i, node =>
    if i ≥ 0 then do
      let a ← along.Node i
      let args ← oneNode node
      let f ← NewFragment args
      let node ← a.copy f
      wrapLoop along fuel (i - 1) node
    else pure node

/-- The function `prepareSliceForReplace`. -/
def prepareSliceForReplace (fuel : Nat) (slice : Slice) (along : ResolvedPos) :
    M (ResolvedPos × ResolvedPos) := do
  let extra := along.Depth - slice.OpenStart
  let parent ← along.Node extra
  let node ← parent.copy slice.Content
  let node ← wrapLoop along extra.toNat (extra - 1) node
  let start ← orPanic (resolve fuel node (slice.OpenStart + extra))
  let end_ ← orPanic (resolve fuel node (node.Content.Size - slice.OpenEnd - extra))
  pure (start, end_)

/-- The function `replaceOuter`. -/
def replaceOuter : Nat → ResolvedPos → ResolvedPos → Slice → Int → M Node
  | 0, _, _, _, _ => fail outOfFuel
  | fuel + 1, from_, to_, slice, depth => do
    let index ← from_.Index depth
    let node ← from_.Node depth
    let toIndex ← to_.Index depth
    if index = toIndex && depth < from_.Depth - slice.OpenStart then do
      let inner ← replaceOuter fuel from_ to_ slice (depth + 1)
      let c ← node.Content.replaceChild fuel index inner
      node.copy c
    else if slice.Content.Size = 0 then do
      let r ← replaceTwoWay fuel from_ to_ depth
      node.close r
    else if slice.OpenStart = 0 && slice.OpenEnd = 0 && from_.Depth = depth
        && to_.Depth = depth then do
      let parent ← from_.Parent
      let content := parent.Content
      let cut1 ← content.cut fuel 0 from_.ParentOffset
      let append1 ← cut1.append slice.Content
      let cut2 ← content.cut fuel to_.ParentOffset (-1)
      let append2 ← append1.append cut2
      parent.close append2
    else do
      let ends ← prepareSliceForReplace fuel slice from_
      let r ← replaceThreeWay fuel from_ ends.1 ends.2 to_ depth
      node.close r

/-- The function `replace` of `replace.go`. -/
def replace (fuel : Nat) (from_ to_ : ResolvedPos) (slice : Slice) : M Node :=
  if slice.OpenStart > from_.Depth then
    fail (.error "inserted content deeper than insertion position")
  else if from_.Depth - slice.OpenStart ≠ to_.Depth - slice.OpenEnd then
    fail (.error "inconsistent open depths")
  else replaceOuter fuel from_ to_ slice 0

/-- The method `Node.Replace`. -/
def Node.Replace (fuel : Nat) (n : Node) (from_ to_ : Int) (s : Mem.Slice) : M Node := do
  let fromNode ← wrapErr "error resolving from" (resolve fuel n from_)
  let toNode ← wrapErr "error resolving to" (resolve fuel n to_)
  replace fuel fromNode toNode s

/-! ### `slice.go` -/

/-- The function `insertInto`; `none` as a result is the nil pointer, and a result that is
not nil is the address of a local fragment, kept as its value. -/
def insertInto : Nat → Fragment → Int → Fragment → Option Ptr → M (Option Fragment)
  | 0, _, _, _, _ => fail outOfFuel
  | fuel + 1, content, dist, insert, parent => do
    let found ← content.findIndex dist
    let child := content.maybeChild found.1
    let here ←
      (if found.2 = dist then pure true
      else
        match child with
        | some _ => do
          let c ← deref child
          pure c.IsText
        | none => pure false : R Bool)
    if here then do
      let refused ←
        (match parent with
        | some _ => do
          let p ← deref parent
          let ok ← p.canReplace found.1 found.1 insert (-1) (-1)
          pure (!ok)
        | none => pure false : R Bool)
      if refused then pure none
      else do
        let c ← content.cut fuel 0 dist
        let c ← c.append insert
        let subc ← content.cut fuel dist (-1)
        let c ← c.append subc
        pure (some c)
    else do
      let ch ← deref child
      let inner ← insertInto fuel ch.Content (dist - found.2 - 1) insert none
      match inner with
      | some i => do
        let ch ← deref child
        let copied ← ch.copy i
        let r ← content.replaceChild fuel found.1 copied
        pure (some r)
      | none => pure none

/-- The method `Slice.InsertAt`; `none` as a result is the nil pointer. -/
def Slice.InsertAt (fuel : Nat) (s : Slice) (pos : Int) (frag : Fragment) :
    M (Option Slice) := do
  let content ← insertInto fuel s.Content (pos + s.OpenStart) frag none
  match content with
  | none => pure none
  | some c => pure (some { Content := c, OpenStart := s.OpenStart, OpenEnd := s.OpenEnd })

/-! ### The package `transform` -/

/-- The loop of `mapFragments` from child `i` on, with the slice `content` built so far;
`mapFrag` is `mapFragments` with the same `fn`, and the fuel is the number of children
left. -/
def mapLoop (mapFrag : Fragment → Node → M Fragment) (fn : Node → Node → Int → M Node)
    (f : Fragment) (parent : Node) : Nat → Int → Ref → M Ref
  | 0, _, content => pure content
  | k + 1, i, content =>
    if i < f.ChildCount then do
      let p ← f.Child i
      let c ← deref p
      let child ← c.Clone
      let child ←
        (if child.Content.Size > 0 then do
          let inner ← mapFrag child.Content child
          pure { child with Content := inner }
        else pure child : M Node)
      let child ← (if child.IsInline then fn child parent i else pure child : M Node)
      let content ← goAppendNode content child
      mapLoop mapFrag fn f parent k (i + 1) content
    else pure content

/-- The function `mapFragments` of `transform/marks.go`. -/
def mapFragments (fn : Node → Node → Int → M Node) : Nat → Fragment → Node → M Fragment
  | 0, _, _ => fail outOfFuel
  | fuel + 1, f, parent => do
    let content ← mapLoop (mapFragments fn fuel) fn f parent f.Content.len 0 {}
    NewFragment content

/-- The type `ReplaceStep`. -/
structure ReplaceStep where
  From : Int
  To : Int
  Slice : Slice := {}
  Structure : Bool := false

/-- The type `ReplaceAroundStep`. -/
structure ReplaceAroundStep where
  From : Int
  To : Int
  GapFrom : Int
  GapTo : Int
  Insert : Int
  Slice : Slice := {}
  Structure : Bool := false

/-- The type `MarkStep`; `remove` tells `removeMark` from `addMark`. -/
structure MarkStep where
  From : Int
  To : Int
  Mark : Mark
  remove : Bool := false

/-- The method `ReplaceStep.Apply`. -/
def ReplaceStep.Apply (fuel : Nat) (s : ReplaceStep) (doc : Node) : M Node :=
  wrapErr "failed to replace" (doc.Replace fuel s.From s.To s.Slice)

/-- The callback that `addMark` passes to `mapFragments`. -/
def MarkStep.addMarkTo (s : MarkStep) (node parent : Node) (_i : Int) : M Node :=
  if !node.IsAtom || !parent.Typ.AllowsMarkType s.Mark.Typ then pure node
  else do
    let marks ← goAppendMark node.Marks s.Mark
    node.WithMarks marks

/-- The callback that `removeMark` passes to `mapFragments`. -/
def MarkStep.removeMarkFrom (s : MarkStep) (node _parent : Node) (_i : Int) : M Node := do
  let marks ← deleteFuncMarks node.Marks (fun m => m.Eq s.Mark)
  node.WithMarks marks

/-- The method `MarkStep.addMark`. -/
def MarkStep.addMark (fuel : Nat) (s : MarkStep) (doc : Node) : M Node := do
  let oldSlice ← wrapErr "failed to slice document" (doc.Slice fuel s.From s.To false)
  let from_ ← wrapErr "failed to resolve document" (doc.Resolve fuel s.From)
  let depth ← from_.SharedDepth s.To
  let parent ← from_.Node depth
  let slice ← mapFragments s.addMarkTo fuel oldSlice.Content parent
  doc.Replace fuel s.From s.To
    { Content := slice, OpenStart := oldSlice.OpenStart, OpenEnd := oldSlice.OpenEnd }

/-- The method `MarkStep.removeMark`. -/
def MarkStep.removeMark (fuel : Nat) (s : MarkStep) (doc : Node) : M Node := do
  let oldSlice ← wrapErr "failed to slice document" (doc.Slice fuel s.From s.To false)
  let slice ← mapFragments s.removeMarkFrom fuel oldSlice.Content doc
  doc.Replace fuel s.From s.To
    { Content := slice, OpenStart := oldSlice.OpenStart, OpenEnd := oldSlice.OpenEnd }

/-- The method `MarkStep.Apply`. -/
def MarkStep.Apply (fuel : Nat) (s : MarkStep) (doc : Node) : M Node :=
  if s.remove then s.removeMark fuel doc else s.addMark fuel doc

/-- The first loop of `contentBetween`: it climbs while the position is at the end of its
ancestor; the fuel is `depth`.  It returns the depth and distance left. -/
def climbLoop (fromNode : ResolvedPos) : Nat → Int → Int → R (Int × Int)
  | 0, depth, dist => pure (depth, dist)
  | fuel + 1, depth, dist =>
    if dist > 0 && depth > 0 then do
      let ia ← fromNode.IndexAfter depth
      let n ← fromNode.Node depth
      if ia = n.ChildCount then climbLoop fromNode fuel (depth - 1) (dist - 1)
      else pure (depth, dist)
    else pure (depth, dist)

/-- The second loop of `contentBetween`: it descends along first children; the fuel is
`dist`. -/
def descendLoop : Nat → Option Ptr → Int → R Bool
  | 0, _, _ => pure false
  | fuel + 1, next, dist =>
    if dist > 0 then
      match next with
      | none => pure true
      | some _ => do
        let n ← deref next
        if n.IsLeaf then pure true else descendLoop fuel n.FirstChild (dist - 1)
    else pure false

/-- An error of `Resolve` dropped by `fromNode, _ := doc.Resolve(from)`, which leaves the
zero `ResolvedPos`; a panic passes through. -/
def orZero (m : M ResolvedPos) : M ResolvedPos := fun h =>
  match m h with
  | (.error (.error _), h1) => (.ok {}, h1)
  | x => x

/-- The function `contentBetween` of `transform/replaceAround.go`. -/
def contentBetween (fuel : Nat) (doc : Node) (from_ to_ : Int) : M Bool := do
  let fromNode ← orZero (doc.Resolve fuel from_)
  let dist := to_ - from_
  let depth := fromNode.Depth
  let climbed ← climbLoop fromNode depth.toNat depth dist
  if climbed.2 > 0 then do
    let n ← fromNode.Node climbed.1
    let ia ← fromNode.IndexAfter climbed.1
    descendLoop climbed.2.toNat (n.MaybeChild ia) climbed.2
  else pure false

/-- The method `ReplaceAroundStep.Apply`. -/
def ReplaceAroundStep.Apply (fuel : Nat) (s : ReplaceAroundStep) (doc : Node) : M Node := do
  let overwrite ←
    (if s.Structure then do
      let before ← contentBetween fuel doc s.From s.GapFrom
      if before then pure true else contentBetween fuel doc s.GapTo s.To
    else pure false : M Bool)
  if overwrite then fail (.error "structure gap-replace would overwrite content")
  else do
    let gap ← wrapErr "failed to slice gap" (doc.Slice fuel s.GapFrom s.GapTo false)
    if gap.OpenStart ≠ 0 || gap.OpenEnd ≠ 0 then fail (.error "gap is not a flat range")
    else do
      let inserted ← s.Slice.InsertAt fuel s.Insert gap.Content
      match inserted with
      | none => fail (.error "failed to insert slice")
      | some ins => doc.Replace fuel s.From s.To ins

/-- The interface `Applier`: the step types of the package that implement it. -/
inductive Applier where
  | replace (s : ReplaceStep)
  | replaceAround (s : ReplaceAroundStep)
  | mark (s : MarkStep)

/-- The method `Apply` of an `Applier`. -/
def Applier.Apply (fuel : Nat) : Applier → Node → M Node
  | .replace s, doc => s.Apply fuel doc
  | .replaceAround s, doc => s.Apply fuel doc
  | .mark s, doc => s.Apply fuel doc

/-! ### Values in memory -/

/-- The elements of a slice whose array is in the store; `none` when the slice reaches
outside the store. -/
def Store.load {α : Type} (s : Store α) (r : Ref) : Option (List α) :=
  if r.len = 0 then some []
  else
    match s.get? r.loc with
    | some arr => if r.len ≤ arr.length then some (arr.take r.len) else none
    | none => none

/-- The values of the nodes of a list, `loadNode` being the value of one node. -/
def loadList (loadNode : Node → Option Prosemirror.Node) :
    List Node → Option (List Prosemirror.Node)
  | [] => some []
  | n :: ns =>
    match loadNode n, loadList loadNode ns with
    | some v, some vs => some (v :: vs)
    | _, _ => none

/-- The value of a node in the heap: the tree that its slices spell out, which is what
encoding the node writes; `none` when the tree is deeper than `depth` or reaches outside
the heap. -/
def Heap.value (h : Heap) : Nat → Node → Option Prosemirror.Node
  | 0, _ => none
  | depth + 1, n =>
    match h.marks.load n.Marks, h.nodes.load n.Content.Content with
    | some marks, some cs =>
      match loadList (h.value depth) cs with
      | some vs => some (.mk n.Typ n.Attrs marks n.Text (.mk n.Content.Size vs))
      | none => none
    | _, _ => none

mutual
/-- The node that holds the value `v` in new arrays of the heap, and the heap with those
arrays, as building the document in memory leaves them; a slice without elements takes no
array. -/
def storeNode : Prosemirror.Node → Heap → Node × Heap
  | .mk typ attrs marks text content, h =>
    let ms : Ref × Heap :=
      if marks = [] then ({}, h)
      else ({ loc := h.marks.length, len := marks.length, cap := marks.length },
        { h with marks := h.marks ++ [marks] })
    let c := storeFragment content ms.2
    ({ Typ := typ, Attrs := attrs, Marks := ms.1, Text := text, Content := c.1 }, c.2)
/-- The fragment that holds the given value in new arrays of the heap. -/
def storeFragment : Prosemirror.Fragment → Heap → Fragment × Heap
  | .mk size content, h =>
    let cs := storeNodes content h
    if cs.1 = [] then ({ Size := size }, cs.2)
    else
      ({ Size := size,
         Content := { loc := cs.2.nodes.length, len := cs.1.length, cap := cs.1.length } },
        { cs.2 with nodes := cs.2.nodes ++ [cs.1] })
/-- The nodes that hold the given values in new arrays of the heap. -/
def storeNodes : List Prosemirror.Node → Heap → List Node × Heap
  | [], h => ([], h)
  | v :: vs, h =>
    let n := storeNode v h
    let ns := storeNodes vs n.2
    (n.1 :: ns.1, ns.2)
end

/-! ### Notions of the frame property -/

/-- Every array of `b` is an array of `h`, at the same address and with the same cells:
`h` is `b` with, at most, arrays added behind. -/
def Heap.le (b h : Heap) : Prop :=
  b.nodes <+: h.nodes ∧ b.marks <+: h.marks ∧ b.ints <+: h.ints

/-- The slice `r` has no array in a store of `n` arrays: either it has no array at all,
or its array lies behind the first `n`. -/
def Fresh (n : Nat) (r : Ref) : Prop := (r.len = 0 ∧ r.cap = 0) ∨ n ≤ r.loc

/-- Run from any heap that extends `b`, the computation `m` leaves a heap that extends
`b`, whether it returns or fails, and a value it returns satisfies `Q`. -/
def Keeps (b : Heap) {α : Type} (m : M α) (Q : α → Prop) : Prop :=
  ∀ h, b.le h → b.le (m h).2 ∧ ∀ a, (m h).1 = .ok a → Q a

/-- The value of the node that `m` returns, read in the heap that `m` leaves; `none` when
`m` fails. -/
def resultValue (m : M Node) (h : Heap) (depth : Nat) : Option Prosemirror.Node :=
  match (m h).1 with
  | .ok r => (m h).2.value depth r
  | .error _ => none

end Mem

/-! ## Fixtures of the frame property of the steps -/

/-- The document `doc(p(em("ab"), "cd"))`. -/
def emDoc : Node := Doc [P [Em (ascii "ab"), Text (ascii "cd")]]

/-- The document `emDoc` built in an empty memory whose `append` doubles the capacity it
needs: the node that holds the document, and the heap. -/
def emDocMem : Mem.Node × Mem.Heap := Mem.storeNode emDoc { grow := fun _ n => 2 * n }

/-- The step that removes the mark `em` between the positions 1 and 4. -/
def removeEmStep : Mem.Applier :=
  .mark { From := 1, To := 4, Mark := emMark, remove := true }

/-! # Theorems -/

/-! ## UTF-16 length -/

/-- Every rune the decoder yields is at most `0x10FFFF`. -/
theorem decodeRune_le (s : GoString) : (decodeRune s).1 ≤ 0x10FFFF := by
  rcases s with _ | ⟨b0, _ | ⟨b1, _ | ⟨b2, _ | ⟨b3, t⟩⟩⟩⟩ <;>
    simp only [decodeRune, RuneError, isCont] <;>
    (try split_ifs) <;>
    (try simp only [Bool.and_eq_true, decide_eq_true_eq] at *) <;>
    omega

/-- Every step of the decoder on a non-empty string consumes at least one byte. -/
theorem decodeRune_width_pos (b : Nat) (t : GoString) : 1 ≤ (decodeRune (b :: t)).2 := by
  unfold decodeRune
  simp only
  repeat' split
  all_goals simp

/-- Every rune of `[]rune(s)` is at most `0x10FFFF`. -/
theorem runesLoop_le (fuel : Nat) (s : GoString) : ∀ r ∈ runesLoop fuel s, r ≤ 0x10FFFF := by
  induction fuel generalizing s with
  | zero => simp [runesLoop]
  | succ n ih =>
    cases s with
    | nil => simp [runesLoop]
    | cons b t =>
      intro r hr
      simp only [runesLoop, List.mem_cons] at hr
      rcases hr with h | h
      · rw [h]; exact decodeRune_le _
      · exact ih _ r h

/-- The counting loop adds to `l` one or two units per rune of the string. -/
theorem utf16LenLoop_eq (fuel : Nat) (s : GoString) (l : Int) :
    utf16LenLoop fuel s l = l + ((runesLoop fuel s).map unitsOf).sum := by
  induction fuel generalizing s l with
  | zero => simp [utf16LenLoop, runesLoop]
  | succ n ih =>
    cases s with
    | nil => simp [utf16LenLoop, runesLoop]
    | cons b t =>
      simp only [utf16LenLoop, runesLoop, List.map_cons, List.sum_cons]
      split
      · rename_i h
        rw [ih]
        have : unitsOf (decodeRune (b :: t)).1 = 2 := by
          simp only [unitsOf, surrSelf] at h ⊢
          simp [h]
        rw [this]; ring
      · rename_i h
        rw [ih]
        have : unitsOf (decodeRune (b :: t)).1 = 1 := by
          simp only [unitsOf, surrSelf] at h ⊢
          simp [h]
        rw [this]; ring

/-- The encoder emits two units for a rune at or above `0x10000` and one for any other,
as long as no rune exceeds `0x10FFFF`. -/
theorem utf16Encode_length (rs : List Nat) (h : ∀ r ∈ rs, r ≤ 0x10FFFF) :
    ((utf16Encode rs).length : Int) = (rs.map unitsOf).sum := by
  induction rs with
  | nil => simp [utf16Encode]
  | cons v vs ih =>
    have hv : v ≤ 0x10FFFF := h v (List.mem_cons_self _ _)
    have ih2 := ih (fun r hr => h r (List.mem_cons_of_mem _ hr))
    simp only [utf16Encode, List.map_cons, List.sum_cons]
    by_cases c1 : (decide (v < 0xD800) || (decide (0xE000 ≤ v) && decide (v < 0x10000))) = true
    · rw [if_pos c1]
      simp only [Bool.or_eq_true, Bool.and_eq_true, decide_eq_true_eq] at c1
      have : unitsOf v = 1 := by
        unfold unitsOf; rw [if_neg]; omega
      rw [this, List.length_cons, Nat.cast_succ, ih2]; ring
    · rw [if_neg c1]
      simp only [Bool.or_eq_true, Bool.and_eq_true, decide_eq_true_eq, not_or, not_and,
        not_lt] at c1
      by_cases c2 : (decide (0x10000 ≤ v) && decide (v ≤ 0x10FFFF)) = true
      · rw [if_pos c2]
        simp only [Bool.and_eq_true, decide_eq_true_eq] at c2
        have : unitsOf v = 2 := by
          unfold unitsOf; rw [if_pos]; omega
        rw [this, List.length_cons, List.length_cons, Nat.cast_succ, Nat.cast_succ, ih2]; ring
      · rw [if_neg c2]
        simp only [Bool.and_eq_true, decide_eq_true_eq, not_and, not_le] at c2
        have : unitsOf v = 1 := by
          unfold unitsOf; rw [if_neg]; omega
        rw [this, List.length_cons, Nat.cast_succ, ih2]; ring

/-- More fuel than the length of the string changes nothing: the loop over a string ends
when its bytes are used up. -/
theorem runesLoop_fuel (fuel : Nat) (s : GoString) (h : s.length ≤ fuel) :
    runesLoop fuel s = runesLoop s.length s := by
  induction fuel using Nat.strong_induction_on generalizing s with
  | _ n ih =>
    cases s with
    | nil => cases n <;> simp [runesLoop]
    | cons b t =>
      cases n with
      | zero => simp at h
      | succ m =>
        simp only [List.length_cons, runesLoop]
        have hw := decodeRune_width_pos b t
        have hlen : ((b :: t).drop (decodeRune (b :: t)).2).length ≤ t.length := by
          simp only [List.length_drop, List.length_cons]; omega
        have hm : t.length ≤ m := by simpa using h
        rw [ih m (Nat.lt_succ_self m) _ (le_trans hlen hm)]
        rw [ih t.length (by omega) _ hlen]

/-- C1: `utf16Len(s)` is the length of `utf16.Encode([]rune(s))`, and it is the sum over
the decoded runes of 2 for a rune at or above `0x10000` and 1 for any other. -/
theorem C1_utf16Len_counts_code_units (s : GoString) :
    utf16Len s = ((utf16Encode (runes s)).length : Int) ∧
    utf16Len s = ((runes s).map (fun r => if r ≥ 0x10000 then (2 : Int) else 1)).sum := by
  have h1 : utf16Len s = ((runes s).map unitsOf).sum := by
    unfold utf16Len runes
    rw [utf16LenLoop_eq]; simp
  refine ⟨?_, ?_⟩
  · rw [h1, runes, utf16Encode_length _ (runesLoop_le _ _)]
  · rw [h1]; rfl

/-! ## Sizes -/

/-- The loop of `NewFragment` adds the sizes of the nodes to its running total. -/
theorem sumSizes_eq (nodes : List Node) (size : Int) :
    sumSizes nodes size = size + (nodes.map Node.NodeSize).sum := by
  induction nodes generalizing size with
  | nil => simp [sumSizes]
  | cons n ns ih => simp only [sumSizes, ih, List.map_cons, List.sum_cons]; ring

/-- C2: the size of a node is the UTF-16 length of its text for a text node, 1 for a leaf
that is not text, and 2 plus the cached size of its content otherwise; `NewFragment` caches
the sum of the sizes of its nodes; the content of the seven-paragraph document has size
121. -/
theorem C2_node_size_and_fragment_size :
    (∀ n : Node, n.IsText = true → n.NodeSize = utf16Len n.Text) ∧
    (∀ n : Node, n.IsText = false → n.IsLeaf = true → n.NodeSize = 1) ∧
    (∀ n : Node, n.IsText = false → n.IsLeaf = false → n.NodeSize = 2 + n.Content.Size) ∧
    (∀ nodes : List Node,
      (NewFragment nodes).Size = (nodes.map Node.NodeSize).sum ∧
      (NewFragment nodes).Content = nodes) ∧
    sevenParagraphs.Content.Size = 121 := by
  refine ⟨?_, ?_, ?_, ?_, by decide⟩
  · intro n h; simp [Node.NodeSize, h, Node.textLen]
  · intro n h1 h2; simp [Node.NodeSize, h1, h2]
  · intro n h1 h2; simp [Node.NodeSize, h1, h2]
  · intro nodes
    simp [NewFragment, Fragment.Size, Fragment.Content, sumSizes_eq]

/-- A witness for C2: the text node `"Crazy"`, a horizontal rule and the paragraph around
`"Crazy"`. -/
theorem C2_node_size_and_fragment_size_witness :
    (Text (ascii "Crazy")).IsText = true ∧
    (Text (ascii "Crazy")).NodeSize = utf16Len (Text (ascii "Crazy")).Text ∧
    (Node.mk horizontalRuleT [] [] [] Fragment.zero).NodeSize = 1 ∧
    (PText (ascii "Crazy")).NodeSize = 2 + (PText (ascii "Crazy")).Content.Size :=
  ⟨by decide,
    C2_node_size_and_fragment_size.1 _ (by decide),
    C2_node_size_and_fragment_size.2.1 _ (by decide) (by decide),
    C2_node_size_and_fragment_size.2.2.1 _ (by decide) (by decide)⟩

/-! ## `findIndex` -/

theorem prefixSize_zero (cs : List Node) : prefixSize cs 0 = 0 := by
  simp [prefixSize]

theorem prefixSize_succ_cons (c : Node) (cs : List Node) (k : Nat) :
    prefixSize (c :: cs) (k + 1) = c.NodeSize + prefixSize cs k := by
  simp [prefixSize]

theorem prefixSize_length (cs : List Node) :
    prefixSize cs cs.length = (cs.map Node.NodeSize).sum := by
  simp [prefixSize]

/-- The loop of `findIndex`, started before a position that the remaining children reach,
stops at the child that contains the position or ends on it. -/
theorem findIndexLoop_spec (cs : List Node) (i curPos pos : Int)
    (h1 : curPos < pos) (h2 : pos ≤ curPos + (cs.map Node.NodeSize).sum) :
    ∃ k : Nat, ∃ off : Int,
      findIndexLoop cs i curPos pos = .ok (i + k, off) ∧ k ≤ cs.length ∧
      off = curPos + prefixSize cs k ∧
      ((off = pos ∧ 0 < k) ∨ ∃ c, cs.get? k = some c ∧ off < pos ∧ pos < off + c.NodeSize) := by
  induction cs generalizing i curPos with
  | nil => simp at h2; omega
  | cons c rest ih =>
    simp only [List.map_cons, List.sum_cons] at h2
    unfold findIndexLoop
    by_cases hge : curPos + c.NodeSize ≥ pos
    · by_cases heq : curPos + c.NodeSize = pos
      · refine ⟨1, curPos + c.NodeSize, ?_, by simp, ?_, Or.inl ⟨heq, by omega⟩⟩
        · simp [hge, heq]
        · simp [prefixSize]
      · refine ⟨0, curPos, ?_, by simp, ?_, Or.inr ⟨c, by simp, h1, by omega⟩⟩
        · simp [hge, heq]
        · simp [prefixSize]
    · have hlt : curPos + c.NodeSize < pos := by omega
      obtain ⟨k, off, hk, hkl, hoff, hcase⟩ := ih (i + 1) (curPos + c.NodeSize) hlt (by omega)
      refine ⟨k + 1, off, ?_, by simpa using hkl, ?_, ?_⟩
      · simp only [hge, if_false]
        rw [hk]; push_cast; congr 2; ring
      · rw [hoff, prefixSize_succ_cons]; ring
      · rcases hcase with ⟨h, _⟩ | ⟨c2, hc2, h3, h4⟩
        · exact Or.inl ⟨h, by omega⟩
        · exact Or.inr ⟨c2, by simpa using hc2, h3, h4⟩

/-- The result of `findIndex` on a fragment whose cached size is right, at a position
inside it. -/
theorem findIndex_spec (f : Fragment) (pos : Int) (hsz : f.SizeOk)
    (h0 : 0 ≤ pos) (h1 : pos ≤ f.Size) :
    ∃ i : Nat, ∃ off : Int,
      f.findIndex pos = .ok ((i : Int), off) ∧ i ≤ f.Content.length ∧
      off = prefixSize f.Content i ∧
      (off = pos ∨ ∃ c, f.Content.get? i = some c ∧ off < pos ∧ pos < off + c.NodeSize) := by
  unfold Fragment.findIndex
  by_cases hz : pos = 0
  · exact ⟨0, 0, by simp [hz], by simp, by simp [prefixSize], Or.inl hz.symm⟩
  · by_cases hs : pos = f.Size
    · refine ⟨f.Content.length, pos, by rw [if_neg hz, if_pos hs], le_refl _, ?_, Or.inl rfl⟩
      rw [prefixSize_length, hs]; exact hsz
    · have hlt : pos < f.Size := by omega
      obtain ⟨k, off, hk, hkl, hoff, hcase⟩ :=
        findIndexLoop_spec f.Content 0 0 pos (by omega)
          (by have := hsz; unfold Fragment.SizeOk at this; omega)
      refine ⟨k, off, ?_, hkl, by simpa using hoff, ?_⟩
      · have hng : ¬ (pos > f.Size) := by omega
        have hnn : ¬ (pos < 0) := by omega
        simp only [hz, hs, if_false, hng, hnn, decide_False, Bool.or_self, Bool.false_eq_true]
        rw [hk]; simp
      · rcases hcase with ⟨h, _⟩ | h
        · exact Or.inl h
        · exact Or.inr h

/-- With children of positive size, the offsets at which the children start grow strictly. -/
theorem prefixSize_strictMono (cs : List Node) (hpos : ∀ c ∈ cs, 0 < c.NodeSize)
    (a b : Nat) (hab : a < b) (hb : b ≤ cs.length) : prefixSize cs a < prefixSize cs b := by
  induction cs generalizing a b with
  | nil => simp at hb; omega
  | cons c rest ih =>
    have hc : 0 < c.NodeSize := hpos c (List.mem_cons_self _ _)
    have hrest : ∀ x ∈ rest, 0 < x.NodeSize := fun x hx => hpos x (List.mem_cons_of_mem _ hx)
    cases b with
    | zero => omega
    | succ b2 =>
      have hb2 : b2 ≤ rest.length := by simpa using hb
      cases a with
      | zero =>
        rw [prefixSize_zero, prefixSize_succ_cons]
        cases b2 with
        | zero => rw [prefixSize_zero]; omega
        | succ b3 =>
          have := ih hrest 0 (b3 + 1) (by omega) hb2
          rw [prefixSize_zero] at this
          omega
      | succ a2 =>
        rw [prefixSize_succ_cons, prefixSize_succ_cons]
        have := ih hrest a2 b2 (by omega) hb2
        omega

/-- The offset at which a child ends is the offset at which it starts plus its size. -/
theorem prefixSize_succ (cs : List Node) (k : Nat) (c : Node) (h : cs.get? k = some c) :
    prefixSize cs (k + 1) = prefixSize cs k + c.NodeSize := by
  induction cs generalizing k with
  | nil => simp at h
  | cons x rest ih =>
    cases k with
    | zero =>
      simp at h; subst h
      simp [prefixSize]
    | succ k2 =>
      rw [prefixSize_succ_cons, prefixSize_succ_cons, ih k2 (by simpa using h)]; ring

/-- C7, as amended: on a fragment whose cached size is right and at a position inside
it, `findIndex` returns an index `i` and the offset at which child `i` starts, and the
position is that offset or lies strictly inside child `i`; `findIndex(0)` is `(0, 0)`;
`findIndex(f.Size)` is `(len, f.Size)` unless the size is 0 and there are children; when no
child has size 0, a position on the end of child `j` gives `(j + 1, pos)`; position 14 in
the three test paragraphs gives `(1, 8)`. -/
theorem C7_findIndex_spec (f : Fragment) (pos : Int) (hsz : f.SizeOk)
    (h0 : 0 ≤ pos) (h1 : pos ≤ f.Size) :
    (∃ i : Nat, ∃ off : Int,
      f.findIndex pos = .ok ((i : Int), off) ∧ i ≤ f.Content.length ∧
      off = prefixSize f.Content i ∧
      (off = pos ∨ ∃ c, f.Content.get? i = some c ∧ off < pos ∧ pos < off + c.NodeSize)) ∧
    f.findIndex 0 = .ok (0, 0) ∧
    (f.Size ≠ 0 ∨ f.Content = [] → f.findIndex f.Size = .ok ((f.Content.length : Int), f.Size)) ∧
    ((∀ c ∈ f.Content, 0 < c.NodeSize) → ∀ j : Nat, j < f.Content.length →
      pos = prefixSize f.Content (j + 1) → f.findIndex pos = .ok ((j : Int) + 1, pos)) ∧
    threeParagraphFragment.findIndex 14 = .ok (1, 8) := by
  refine ⟨findIndex_spec f pos hsz h0 h1, by simp [Fragment.findIndex], ?_, ?_, by decide⟩
  · intro h
    unfold Fragment.findIndex
    rcases h with h | h
    · rw [if_neg h, if_pos rfl]
    · have : f.Size = 0 := by
        have := hsz; unfold Fragment.SizeOk at this; rw [h] at this; simpa using this
      rw [if_pos this, h, this]; rfl
  · intro hpos j hj hpj
    obtain ⟨i, off, hfi, hil, hoff, hcase⟩ := findIndex_spec f pos hsz h0 h1
    have hi : i = j + 1 := by
      rcases hcase with h | ⟨c, hc, h3, h4⟩
      · by_contra hne
        rcases Nat.lt_or_gt_of_ne hne with hlt | hgt
        · have := prefixSize_strictMono f.Content hpos i (j + 1) hlt (by omega)
          omega
        · have := prefixSize_strictMono f.Content hpos (j + 1) i hgt hil
          omega
      · exfalso
        have hs := prefixSize_succ f.Content i c hc
        have hil2 : i < f.Content.length := by
          rcases Nat.lt_or_ge i f.Content.length with h | h
          · exact h
          · rw [List.get?_eq_none.mpr h] at hc; cases hc
        rcases Nat.lt_or_ge i (j + 1) with hlt | hge
        · rcases Nat.lt_or_ge (i + 1) (j + 1) with hlt2 | hge2
          · have := prefixSize_strictMono f.Content hpos (i + 1) (j + 1) hlt2 (by omega)
            omega
          · have : i + 1 = j + 1 := by omega
            rw [this] at hs; omega
        · rcases Nat.eq_or_lt_of_le hge with heq | hgt
          · rw [← heq] at hoff; omega
          · have := prefixSize_strictMono f.Content hpos (j + 1) i hgt hil
            omega
    rw [hfi, hi]
    have : off = pos := by rw [hoff, hi, ← hpj]
    rw [this]; simp

/-- A witness for C7: the three test paragraphs at position 14. -/
theorem C7_findIndex_spec_witness :
    threeParagraphFragment.SizeOk ∧ (0 : Int) ≤ 14 ∧ 14 ≤ threeParagraphFragment.Size ∧
    ∃ i : Nat, ∃ off : Int,
      threeParagraphFragment.findIndex 14 = .ok ((i : Int), off) ∧
      i ≤ threeParagraphFragment.Content.length ∧
      off = prefixSize threeParagraphFragment.Content i ∧
      (off = 14 ∨ ∃ c, threeParagraphFragment.Content.get? i = some c ∧ off < 14 ∧
        14 < off + c.NodeSize) :=
  ⟨by decide, by decide, by decide,
    (C7_findIndex_spec threeParagraphFragment 14 (by decide) (by decide) (by decide)).1⟩

/-- C7 as stated fails on a fragment holding one empty text node: its cached size 0 is
right, and `findIndex` at the size, which is also the end of child 0, gives `(0, 0)`, not
`(len, size) = (1, 0)`. -/
theorem C7_counterexample :
    (NewFragment [Text []]).SizeOk ∧
    (NewFragment [Text []]).Size = prefixSize (NewFragment [Text []]).Content (0 + 1) ∧
    (NewFragment [Text []]).findIndex (NewFragment [Text []]).Size = .ok (0, 0) ∧
    (NewFragment [Text []]).findIndex (NewFragment [Text []]).Size ≠
      .ok (((NewFragment [Text []]).Content.length : Int), (NewFragment [Text []]).Size) := by
  refine ⟨by decide, by decide, by decide, by decide⟩

/-! ## `resolve` -/

theorem nodeHeight_eq (n : Node) : n.height = n.Content.height + 1 := by
  cases n; simp [Node.height, Node.Content]

theorem heightList_mem (cs : List Node) (c : Node) (h : c ∈ cs) : c.height ≤ heightList cs := by
  induction cs with
  | nil => cases h
  | cons x rest ih =>
    simp only [heightList]
    rcases List.mem_cons.mp h with h | h
    · subst h; exact le_max_left _ _
    · exact le_trans (ih h) (le_max_right _ _)

theorem fragmentHeight_mem (f : Fragment) (c : Node) (h : c ∈ f.Content) :
    c.height ≤ f.height := by
  cases f; simp only [Fragment.height]; exact heightList_mem _ _ h

theorem wellSizedList_mem (cs : List Node) (c : Node) (hw : wellSizedList cs = true)
    (h : c ∈ cs) : c.WellSized = true := by
  induction cs with
  | nil => cases h
  | cons x rest ih =>
    simp only [wellSizedList, Bool.and_eq_true] at hw
    rcases List.mem_cons.mp h with h | h
    · subst h; exact hw.1
    · exact ih hw.2 h

theorem wellSized_sizeOk (f : Fragment) (hw : f.WellSized = true) : f.SizeOk := by
  cases f
  simp only [Fragment.WellSized, Bool.and_eq_true, decide_eq_true_eq] at hw
  simp only [Fragment.SizeOk, Fragment.Size, Fragment.Content, hw.1, sumSizes_eq]; ring

theorem wellSized_mem (f : Fragment) (c : Node) (hw : f.WellSized = true)
    (h : c ∈ f.Content) : c.Content.WellSized = true := by
  cases f
  simp only [Fragment.WellSized, Bool.and_eq_true] at hw
  have := wellSizedList_mem _ c hw.2 h
  cases c
  simpa [Node.WellSized, Node.Content] using this

theorem goIndex_natCast {α : Type} (xs : List α) (k : Nat) (x : α) (h : xs.get? k = some x) :
    goIndex xs (k : Int) = .ok x := by
  unfold goIndex
  have : ¬ ((k : Int) < 0) := by omega
  rw [if_neg this, Int.toNat_ofNat, h]

/-- The loop of `resolve`, entered at a well-sized node with a parent offset inside its
content and fuel for the levels below, returns, and the paths it returns end at the node
that contains the position. -/
theorem resolveLoop_spec (fuel : Nat) (node : Node) (r : ResolvedPos) (start total : Int)
    (hw : node.Content.WellSized = true) (hf : node.height ≤ fuel)
    (h0 : 0 ≤ r.ParentOffset) (h1 : r.ParentOffset ≤ node.Content.Size)
    (hlen : r.NodePath.length = r.OffsetPath.length)
    (hstart : (r.OffsetPath = [] ∧ start = 0) ∨
      ∃ pre2 p, r.OffsetPath = pre2 ++ [p] ∧ start = p + 1)
    (htotal : start + r.ParentOffset = total) :
    ∃ r2 : ResolvedPos, resolveLoop fuel node r start = .ok r2 ∧ r2.Pos = r.Pos ∧
      r2.EndsAt total := by
  induction fuel generalizing node r start with
  | zero => rw [nodeHeight_eq] at hf; omega
  | succ m ih =>
    obtain ⟨i, off, hfi, hil, hoff, hcase⟩ :=
      findIndex_spec node.Content r.ParentOffset (wellSized_sizeOk _ hw) h0 h1
    unfold resolveLoop
    simp only [hfi, bind, Except.bind, pure, Except.pure]
    by_cases hrem : r.ParentOffset - off = 0
    · rw [if_pos hrem]
      refine ⟨_, rfl, rfl, node, r.NodePath, r.OffsetPath, start + off, start, rfl, rfl, hlen,
        hstart, htotal, h0, h1⟩
    · rw [if_neg hrem]
      rcases hcase with h | ⟨c, hc, h3, h4⟩
      · omega
      · have hchild : node.Child (i : Int) = .ok c := by
          unfold Node.Child Fragment.Child
          exact goIndex_natCast _ _ _ hc
        have hmem : c ∈ node.Content.Content := List.get?_mem hc
        simp only [hchild]
        by_cases htext : c.IsText = true
        · rw [if_pos htext]
          refine ⟨_, rfl, rfl, node, r.NodePath, r.OffsetPath, start + off, start, rfl, rfl,
            hlen, hstart, htotal, h0, h1⟩
        · rw [if_neg htext]
          have hsize : c.NodeSize = 2 + c.Content.Size := by
            unfold Node.NodeSize
            rw [if_neg htext]
            by_cases hleaf : c.IsLeaf = true
            · exfalso
              have : c.NodeSize = 1 := by
                unfold Node.NodeSize; rw [if_neg htext, if_pos hleaf]
              omega
            · rw [if_neg hleaf]
          have hch : c.height ≤ m := by
            have := fragmentHeight_mem _ c hmem
            rw [nodeHeight_eq] at hf; omega
          obtain ⟨r2, hr2, hpos, hends⟩ :=
            ih c { r with
                NodePath := r.NodePath ++ [node]
                IndexPath := r.IndexPath ++ [(i : Int)]
                OffsetPath := r.OffsetPath ++ [start + off]
                ParentOffset := r.ParentOffset - off - 1 }
              (start + off + 1)
              (wellSized_mem _ c hw hmem) hch
              (by simp only; omega) (by simp only; omega)
              (by simp only [List.length_append, List.length_singleton, hlen])
              (Or.inr ⟨r.OffsetPath, start + off, rfl, rfl⟩)
              (by simp only; omega)
          exact ⟨r2, hr2, hpos, hends⟩

/-- C3: on a document whose fragments cache the right sizes, `resolve` fails with
`position out of bounds` exactly when the position is negative or beyond the size of the
content, and returns a resolved position, without a panic, for every other position. -/
theorem C3_resolve_bounds (doc : Node) (pos : Int) (hw : doc.Content.WellSized = true) :
    (resolve doc pos = .error (.error "position out of bounds") ↔
      (pos < 0 ∨ pos > doc.Content.Size)) ∧
    (0 ≤ pos → pos ≤ doc.Content.Size → ∃ r, resolve doc pos = .ok r) := by
  have hok : 0 ≤ pos → pos ≤ doc.Content.Size → ∃ r, resolve doc pos = .ok r := by
    intro h0 h1
    obtain ⟨r2, hr2, _, _⟩ :=
      resolveLoop_spec doc.height doc { Pos := pos, ParentOffset := pos } 0 pos hw (le_refl _)
        h0 h1 rfl (Or.inl ⟨rfl, rfl⟩) (by simp)
    unfold resolve
    have hc : (decide (pos < 0) || decide (pos > doc.Content.Size)) = false := by
      simp; omega
    simp only [hc, Bool.false_eq_true, if_false, hr2, bind, Except.bind, pure, Except.pure]
    exact ⟨_, rfl⟩
  refine ⟨⟨?_, ?_⟩, hok⟩
  · intro herr
    by_contra hcon
    obtain ⟨r, hr⟩ := hok (by omega) (by omega)
    rw [hr] at herr; cases herr
  · intro h
    unfold resolve
    have hc : (decide (pos < 0) || decide (pos > doc.Content.Size)) = true := by
      simp; omega
    simp [hc]

/-- A witness for C3: the three-paragraph test document at position 9. -/
theorem C3_resolve_bounds_witness :
    threeParagraphs.Content.WellSized = true ∧
    ((resolve threeParagraphs 9 = .error (.error "position out of bounds") ↔
      ((9 : Int) < 0 ∨ 9 > threeParagraphs.Content.Size)) ∧
    ((0 : Int) ≤ 9 → 9 ≤ threeParagraphs.Content.Size → ∃ r, resolve threeParagraphs 9 = .ok r)) :=
  ⟨by decide, C3_resolve_bounds threeParagraphs 9 (by decide)⟩

theorem goIndex_append_last {α : Type} (xs : List α) (x : α) (k : Int)
    (hk : k = (xs.length : Int)) : goIndex (xs ++ [x]) k = .ok x := by
  subst hk
  apply goIndex_natCast
  simp

/-- The accessors `Start` and `End` at the depth of a position whose paths end at the node
containing it. -/
theorem EndsAt_start_end (r : ResolvedPos) (total : Int) (h : r.EndsAt total)
    (hd : r.Depth = (r.NodePath.length : Int) - 1) :
    ∃ s e : Int, r.Start r.Depth = .ok s ∧ r.End r.Depth = .ok e ∧
      s ≤ total ∧ total ≤ e ∧ r.ParentOffset = total - s := by
  obtain ⟨n, npre, pre, o, s, hnp, hop, hlen, hs, hsum, hp0, hp1⟩ := h
  have hdepth : r.Depth = (npre.length : Int) := by
    rw [hd, hnp]; simp
  have hres : r.resolveDepth r.Depth = r.Depth := by
    unfold ResolvedPos.resolveDepth
    rw [if_neg (by omega)]
  have hstart : r.Start r.Depth = .ok s := by
    unfold ResolvedPos.Start
    simp only [hres]
    rcases hs with ⟨hpre, hs0⟩ | ⟨pre2, p, hpre, hsp⟩
    · have : r.Depth = 0 := by rw [hdepth, hlen, hpre]; simp
      rw [if_pos this, hs0]
    · have hne : ¬ r.Depth = 0 := by
        rw [hdepth, hlen, hpre]; simp; omega
      rw [if_neg hne]
      have hidx : goIndex r.OffsetPath ((r.OffsetPath.length : Int) - 1 - 1) = .ok p := by
        rw [hop, hpre]
        have : ((pre2 ++ [p] ++ [o]).length : Int) - 1 - 1 = ((pre2.length : Nat) : Int) := by
          simp only [List.length_append, List.length_singleton]; push_cast; ring
        rw [this]
        apply goIndex_natCast
        rw [List.append_assoc, List.get?_eq_getElem?, List.getElem?_append_right (le_refl _)]
        simp
      simp only [hidx, bind, Except.bind, pure, Except.pure, hsp]
  have hnode : r.Node r.Depth = .ok n := by
    unfold ResolvedPos.Node
    rw [hres, hnp]
    exact goIndex_append_last _ _ _ hdepth
  have hend : r.End r.Depth = .ok (s + n.Content.Size) := by
    unfold ResolvedPos.End
    simp only [hres, hstart, hnode, bind, Except.bind, pure, Except.pure]
  exact ⟨s, s + n.Content.Size, hstart, hend, by omega, by omega, by omega⟩

/-- C4: on a well-sized document, resolving a position inside it gives a resolved
position `r` with `r.Pos = pos`, `r.Depth = len(r.NodePath) - 1`,
`r.Start(r.Depth) <= pos <= r.End(r.Depth)` and `r.ParentOffset = pos - r.Start(r.Depth)`;
resolving 6 in `doc[paragraph["Crazy"]]` gives `Pos` 6 and `ParentOffset` 5. -/
theorem C4_resolve_position (doc : Node) (pos : Int) (hw : doc.Content.WellSized = true)
    (h0 : 0 ≤ pos) (h1 : pos ≤ doc.Content.Size) :
    (∃ (r : ResolvedPos) (s e : Int), resolve doc pos = .ok r ∧ r.Pos = pos ∧
      r.Depth = (r.NodePath.length : Int) - 1 ∧
      r.Start r.Depth = .ok s ∧ r.End r.Depth = .ok e ∧ s ≤ pos ∧ pos ≤ e ∧
      r.ParentOffset = pos - s) ∧
    (resolve crazyDoc 6).map (fun r => (r.Pos, r.ParentOffset)) = .ok (6, 5) := by
  refine ⟨?_, by decide⟩
  obtain ⟨r2, hr2, hpos, hends⟩ :=
    resolveLoop_spec doc.height doc { Pos := pos, ParentOffset := pos } 0 pos hw (le_refl _)
      h0 h1 rfl (Or.inl ⟨rfl, rfl⟩) (by simp)
  have hc : (decide (pos < 0) || decide (pos > doc.Content.Size)) = false := by
    simp; omega
  have hres : resolve doc pos = .ok { r2 with Depth := (r2.NodePath.length : Int) - 1 } := by
    unfold resolve
    simp only [hc, Bool.false_eq_true, if_false, hr2, bind, Except.bind, pure, Except.pure]
  obtain ⟨s, e, hs, he, h3, h4, h5⟩ :=
    EndsAt_start_end { r2 with Depth := (r2.NodePath.length : Int) - 1 } pos hends rfl
  exact ⟨_, s, e, hres, hpos, rfl, hs, he, h3, h4, h5⟩

/-- A witness for C4: the three-paragraph test document at position 9. -/
theorem C4_resolve_position_witness :
    threeParagraphs.Content.WellSized = true ∧ (0 : Int) ≤ 9 ∧
    (9 : Int) ≤ threeParagraphs.Content.Size ∧
    ∃ (r : ResolvedPos) (s e : Int), resolve threeParagraphs 9 = .ok r ∧ r.Pos = 9 ∧
      r.Depth = (r.NodePath.length : Int) - 1 ∧
      r.Start r.Depth = .ok s ∧ r.End r.Depth = .ok e ∧ s ≤ 9 ∧ 9 ≤ e ∧
      r.ParentOffset = 9 - s :=
  ⟨by decide, by decide, by decide,
    (C4_resolve_position threeParagraphs 9 (by decide) (by decide) (by decide)).1⟩

/-! ## Evaluations of `Start`, `SharedDepth`, `cut` and `Slice` -/

/-- C5, at the failing input: position 3 of `doc[blockquote[paragraph["ab"],
paragraph["cd"]]]` resolves to depth 2 with offset path `[0, 1, 2]`; `Start(1)` returns
`OffsetPath[1] + 1 = 2`, the start of the paragraph, where the content of the blockquote at
depth 1 starts at `OffsetPath[0] + 1 = 1`; `Start(0)`, `Start(2)` and `End` are as
stated. -/
theorem C5_start_reads_last_offset :
    (resolve quotedDoc 3).map (fun r => (r.Depth, r.OffsetPath)) = .ok (2, [0, 1, 2]) ∧
    (resolve quotedDoc 3).map (fun r => (r.Start 0, r.Start 1, r.Start 2)) =
      .ok (.ok 0, .ok 2, .ok 2) ∧
    (resolve quotedDoc 3).map (fun r => (goIndex r.OffsetPath (1 - 1)).map (fun o => o + 1)) =
      .ok (.ok 1) ∧
    (resolve quotedDoc 3).map (fun r => (r.End 1, (r.Node 1).map (fun n => n.Content.Size))) =
      .ok (.ok 10, .ok 8) := by
  decide

/-- C6, at the failing input: for position 3 of the same document, whose ancestor at depth
1 (the blockquote) has content spanning positions 1 to 9, `SharedDepth(1)` returns 0
although depth 1 spans position 1, and `SharedDepth(10)` returns 1 although no depth from 1
up spans position 10; on the three test paragraphs, resolved at 9, `SharedDepth(26)` is 1,
`Start(1)` is 9 and `End(1)` is 26. -/
theorem C6_sharedDepth_at_blockquote :
    (resolve quotedDoc 3).map (fun r => (r.Depth, r.OffsetPath)) = .ok (2, [0, 1, 2]) ∧
    (resolve quotedDoc 3).map (fun r => (r.Node 1).map (fun n => n.Content.Size)) =
      .ok (.ok 8) ∧
    (resolve quotedDoc 3).map (fun r => (r.Node 2).map (fun n => n.Content.Size)) =
      .ok (.ok 2) ∧
    (resolve quotedDoc 3).map (fun r => (r.SharedDepth 1, r.SharedDepth 10)) =
      .ok (.ok 0, .ok 1) ∧
    (resolve threeParagraphs 9).map (fun r => (r.SharedDepth 26, r.Start 1, r.End 1)) =
      .ok (.ok 1, .ok 9, .ok 26) := by
  decide

/-- C8, at the failing input: the text node `"aéb"` (bytes `61 C3 A9 62`) has UTF-16
length 3, and `cut(1, 3)` keeps the bytes 1 and 2, the text `"é"` of size 1, where code
units 1 to 3 are `"éb"`, of size 2; on the ASCII text `"Crazy"`, `cut(1, 3)` is `"ra"`. -/
theorem C8_cut_slices_bytes :
    (SchemaText [0x61, 0xC3, 0xA9, 0x62] []).textLen = 3 ∧
    ((SchemaText [0x61, 0xC3, 0xA9, 0x62] []).cut 1 3).map (fun n => (n.Text, n.NodeSize)) =
      .ok ([0xC3, 0xA9], 1) ∧
    ((Text (ascii "Crazy")).cut 1 3).map (fun n => (n.Text, n.NodeSize)) =
      .ok (ascii "ra", 2) := by
  decide

/-- C10, at the failing input: `Slice(3, 7, false)` of `doc[blockquote[paragraph["ab"],
paragraph["cd"]]]` has open depths 1 and 1 and the content `[paragraph["ab"], paragraph[]]`,
the content of the blockquote cut to `[1, 5)`; the content of the blockquote starts at
position 1, and cut to `[3 - 1, 7 - 1)` it is `[paragraph["b"], paragraph["c"]]`. -/
theorem C10_slice_inside_blockquote :
    (quotedDoc.Slice 3 7 false).map (fun s => (s.OpenStart, s.OpenEnd)) = .ok (1, 1) ∧
    (quotedDoc.Slice 3 7 false).map
      (fun s => s.Content.Content.map (fun n => n.Content.Content.map Node.Text)) =
      .ok [[ascii "ab"], []] ∧
    ((NewFragment [PText (ascii "ab"), PText (ascii "cd")]).cut 2 6).map
      (fun c => c.Content.map (fun n => n.Content.Content.map Node.Text)) =
      .ok [[ascii "b"], [ascii "c"]] ∧
    (quotedDoc.Slice 3 7 true).map (fun s => (s.OpenStart, s.OpenEnd)) = .ok (2, 2) := by
  decide!

/-! ## Markup equality is an equivalence -/

theorem goMapGet_of_not_mem {V : Type} (m : GoMap V) (k : String)
    (h : k ∉ m.map (fun e => e.1)) : GoMap.get m k = none := by
  unfold GoMap.get
  have : m.find? (fun e => e.1 == k) = none := by
    rw [List.find?_eq_none]
    intro e he hek
    apply h
    simp only [beq_iff_eq] at hek
    exact List.mem_map.mpr ⟨e, he, hek⟩
  rw [this]; rfl

/-- `maps.Equal` holds exactly when the two maps answer every lookup alike. -/
theorem mapsEqual_iff {V : Type} [DecidableEq V] (m1 m2 : GoMap V) :
    mapsEqual m1 m2 = true ↔ ∀ k, GoMap.get m1 k = GoMap.get m2 k := by
  unfold mapsEqual
  rw [List.all_eq_true]
  constructor
  · intro h k
    by_cases hk : k ∈ m1.map (fun e => e.1) ++ m2.map (fun e => e.1)
    · simpa using h k hk
    · rw [List.mem_append, not_or] at hk
      rw [goMapGet_of_not_mem _ _ hk.1, goMapGet_of_not_mem _ _ hk.2]
  · intro h k _
    simpa using h k

theorem mapsEqual_refl {V : Type} [DecidableEq V] (m : GoMap V) : mapsEqual m m = true :=
  (mapsEqual_iff m m).mpr (fun _ => rfl)

theorem mapsEqual_symm {V : Type} [DecidableEq V] (m1 m2 : GoMap V)
    (h : mapsEqual m1 m2 = true) : mapsEqual m2 m1 = true :=
  (mapsEqual_iff m2 m1).mpr (fun k => ((mapsEqual_iff m1 m2).mp h k).symm)

theorem mapsEqual_trans {V : Type} [DecidableEq V] (m1 m2 m3 : GoMap V)
    (h12 : mapsEqual m1 m2 = true) (h23 : mapsEqual m2 m3 = true) : mapsEqual m1 m3 = true :=
  (mapsEqual_iff m1 m3).mpr
    (fun k => ((mapsEqual_iff m1 m2).mp h12 k).trans ((mapsEqual_iff m2 m3).mp h23 k))

theorem markTypeEq_refl (a : MarkType) : a.Eq a = true := by
  simp [MarkType.Eq, mapsEqual_refl]

theorem markTypeEq_symm (a b : MarkType) (h : a.Eq b = true) : b.Eq a = true := by
  simp only [MarkType.Eq, Bool.and_eq_true, beq_iff_eq] at h ⊢
  exact ⟨h.1.symm, mapsEqual_symm _ _ h.2⟩

theorem markTypeEq_trans (a b c : MarkType) (h1 : a.Eq b = true) (h2 : b.Eq c = true) :
    a.Eq c = true := by
  simp only [MarkType.Eq, Bool.and_eq_true, beq_iff_eq] at h1 h2 ⊢
  exact ⟨h1.1.trans h2.1, mapsEqual_trans _ _ _ h1.2 h2.2⟩

theorem markEq_refl (a : Mark) : a.Eq a = true := by
  simp [Mark.Eq, mapsEqual_refl, markTypeEq_refl]

theorem markEq_symm (a b : Mark) (h : a.Eq b = true) : b.Eq a = true := by
  simp only [Mark.Eq, Bool.and_eq_true] at h ⊢
  exact ⟨markTypeEq_symm _ _ h.1, mapsEqual_symm _ _ h.2⟩

theorem markEq_trans (a b c : Mark) (h1 : a.Eq b = true) (h2 : b.Eq c = true) :
    a.Eq c = true := by
  simp only [Mark.Eq, Bool.and_eq_true] at h1 h2 ⊢
  exact ⟨markTypeEq_trans _ _ _ h1.1 h2.1, mapsEqual_trans _ _ _ h1.2 h2.2⟩

theorem marksEqual_refl (xs : List Mark) : slicesEqualFunc Mark.Eq xs xs = true := by
  induction xs with
  | nil => rfl
  | cons a rest ih => simp [slicesEqualFunc, markEq_refl, ih]

theorem marksEqual_symm (xs ys : List Mark) (h : slicesEqualFunc Mark.Eq xs ys = true) :
    slicesEqualFunc Mark.Eq ys xs = true := by
  induction xs generalizing ys with
  | nil => cases ys with
    | nil => rfl
    | cons b bs => simp [slicesEqualFunc] at h
  | cons a rest ih => cases ys with
    | nil => simp [slicesEqualFunc] at h
    | cons b bs =>
      simp only [slicesEqualFunc, Bool.and_eq_true] at h ⊢
      exact ⟨markEq_symm _ _ h.1, ih _ h.2⟩

theorem marksEqual_trans (xs ys zs : List Mark) (h1 : slicesEqualFunc Mark.Eq xs ys = true)
    (h2 : slicesEqualFunc Mark.Eq ys zs = true) : slicesEqualFunc Mark.Eq xs zs = true := by
  induction xs generalizing ys zs with
  | nil => cases ys with
    | nil => exact h2
    | cons b bs => simp [slicesEqualFunc] at h1
  | cons a rest ih => cases ys with
    | nil => simp [slicesEqualFunc] at h1
    | cons b bs => cases zs with
      | nil => simp [slicesEqualFunc] at h2
      | cons c cs =>
        simp only [slicesEqualFunc, Bool.and_eq_true] at h1 h2 ⊢
        exact ⟨markEq_trans _ _ _ h1.1 h2.1, ih _ _ h1.2 h2.2⟩

theorem sameMarkup_iff (a b : Node) :
    a.sameMarkup b = true ↔
      a.Typ.Name = b.Typ.Name ∧ mapsEqual a.Attrs b.Attrs = true ∧
      slicesEqualFunc Mark.Eq a.Marks b.Marks = true := by
  simp [Node.sameMarkup, Node.hasMarkup, NodeType.Eq, and_assoc]

theorem sameMarkup_refl (a : Node) : a.sameMarkup a = true :=
  (sameMarkup_iff a a).mpr ⟨rfl, mapsEqual_refl _, marksEqual_refl _⟩

theorem sameMarkup_symm (a b : Node) (h : a.sameMarkup b = true) :
    b.sameMarkup a = true := by
  rw [sameMarkup_iff] at h ⊢
  exact ⟨h.1.symm, mapsEqual_symm _ _ h.2.1, marksEqual_symm _ _ h.2.2⟩

theorem sameMarkup_trans (a b c : Node) (h1 : a.sameMarkup b = true)
    (h2 : b.sameMarkup c = true) : a.sameMarkup c = true := by
  rw [sameMarkup_iff] at h1 h2 ⊢
  exact ⟨h1.1.trans h2.1, mapsEqual_trans _ _ _ h1.2.1 h2.2.1,
    marksEqual_trans _ _ _ h1.2.2 h2.2.2⟩

/-! ## Sizes are not negative -/

theorem unitsOf_pos (r : Nat) : 1 ≤ unitsOf r := by
  unfold unitsOf; split <;> omega

theorem sum_unitsOf_nonneg (rs : List Nat) : 0 ≤ (rs.map unitsOf).sum := by
  induction rs with
  | nil => simp
  | cons r rest ih =>
    have := unitsOf_pos r
    simp only [List.map_cons, List.sum_cons]; omega

theorem utf16Len_nonneg (s : GoString) : 0 ≤ utf16Len s := by
  unfold utf16Len
  rw [utf16LenLoop_eq]
  have := sum_unitsOf_nonneg (runesLoop s.length s)
  omega

/-- Only the empty string has UTF-16 length 0. -/
theorem utf16Len_eq_zero (s : GoString) (h : utf16Len s = 0) : s = [] := by
  cases s with
  | nil => rfl
  | cons b t =>
    exfalso
    unfold utf16Len at h
    rw [utf16LenLoop_eq] at h
    simp only [List.length_cons, runesLoop, List.map_cons, List.sum_cons] at h
    have h1 := unitsOf_pos (decodeRune (b :: t)).1
    have h2 := sum_unitsOf_nonneg
      (runesLoop t.length (List.drop (decodeRune (b :: t)).2 (b :: t)))
    omega

theorem sum_nonneg_of_forall (cs : List Node) (h : ∀ c ∈ cs, 0 ≤ c.NodeSize) :
    0 ≤ (cs.map Node.NodeSize).sum := by
  induction cs with
  | nil => simp
  | cons c rest ih =>
    have h1 := h c (List.mem_cons_self _ _)
    have h2 := ih (fun x hx => h x (List.mem_cons_of_mem _ hx))
    simp only [List.map_cons, List.sum_cons]; omega

/-- A well-sized fragment has a size that is not negative. -/
theorem fragmentSize_nonneg_aux (k : Nat) :
    ∀ f : Fragment, f.height ≤ k → f.WellSized = true → 0 ≤ f.Size := by
  induction k with
  | zero =>
    intro f hk hw
    have hsz := wellSized_sizeOk f hw
    unfold Fragment.SizeOk at hsz
    rw [hsz]
    apply sum_nonneg_of_forall
    intro c hc
    have := fragmentHeight_mem f c hc
    rw [nodeHeight_eq] at this; omega
  | succ m ih =>
    intro f hk hw
    have hsz := wellSized_sizeOk f hw
    unfold Fragment.SizeOk at hsz
    rw [hsz]
    apply sum_nonneg_of_forall
    intro c hc
    have hh := fragmentHeight_mem f c hc
    rw [nodeHeight_eq] at hh
    have hc2 := ih c.Content (by omega) (wellSized_mem f c hw hc)
    unfold Node.NodeSize
    split
    · exact utf16Len_nonneg _
    · split <;> omega

theorem fragmentSize_nonneg (f : Fragment) (hw : f.WellSized = true) : 0 ≤ f.Size :=
  fragmentSize_nonneg_aux f.height f (le_refl _) hw

/-- Every child of a well-sized fragment has a size that is not negative. -/
theorem childSize_nonneg (f : Fragment) (hw : f.WellSized = true) (c : Node)
    (hc : c ∈ f.Content) : 0 ≤ c.NodeSize := by
  have hc2 := fragmentSize_nonneg c.Content (wellSized_mem f c hw hc)
  unfold Node.NodeSize
  split
  · exact utf16Len_nonneg _
  · split <;> omega

theorem sum_zero_mem (cs : List Node) (h : ∀ c ∈ cs, 0 ≤ c.NodeSize)
    (hz : (cs.map Node.NodeSize).sum = 0) : ∀ c ∈ cs, c.NodeSize = 0 := by
  induction cs with
  | nil => intro c hc; cases hc
  | cons x rest ih =>
    have h1 := h x (List.mem_cons_self _ _)
    have hrest : ∀ c ∈ rest, 0 ≤ c.NodeSize := fun c hc => h c (List.mem_cons_of_mem _ hc)
    have h2 := sum_nonneg_of_forall rest hrest
    simp only [List.map_cons, List.sum_cons] at hz
    intro c hc
    rcases List.mem_cons.mp hc with hc | hc
    · subst hc; omega
    · exact ih hrest (by omega) c hc

/-- In a well-sized fragment of size 0 every text child has the empty text. -/
theorem text_empty_of_size_zero (f : Fragment) (hw : f.WellSized = true)
    (hz : f.Size = 0) (c : Node) (hc : c ∈ f.Content) (ht : c.IsText = true) : c.Text = [] := by
  have hsz := wellSized_sizeOk f hw
  unfold Fragment.SizeOk at hsz
  have := sum_zero_mem f.Content (childSize_nonneg f hw) (by omega) c hc
  unfold Node.NodeSize at this
  rw [if_pos ht] at this
  exact utf16Len_eq_zero _ this

/-- A well-sized fragment with a size other than 0 has a child. -/
theorem content_ne_nil (f : Fragment) (hw : f.WellSized = true) (hz : f.Size ≠ 0) :
    f.Content ≠ [] := by
  intro h
  have hsz := wellSized_sizeOk f hw
  unfold Fragment.SizeOk at hsz
  rw [h] at hsz
  simp at hsz
  exact hz hsz

/-! ## `append` keeps text coalesced -/

theorem coalesced_tail (a : Node) (rest : List Node) (h : coalesced (a :: rest) = true) :
    coalesced rest = true := by
  cases rest with
  | nil => rfl
  | cons b r =>
    simp only [coalesced, Bool.and_eq_true] at h
    exact h.2

/-- Joining two coalesced lists whose neighbours at the seam do not clash gives a
coalesced list. -/
theorem coalesced_join (xs : List Node) (a b : Node) (ys : List Node)
    (h1 : coalesced (xs ++ [a]) = true) (h2 : coalesced (b :: ys) = true)
    (hab : adjacentText a b = false) : coalesced (xs ++ a :: b :: ys) = true := by
  induction xs with
  | nil => simp [coalesced, hab, h2]
  | cons x rest ih =>
    cases rest with
    | nil =>
      simp only [List.cons_append, List.nil_append, coalesced, Bool.and_eq_true] at h1 ⊢
      exact ⟨h1.1, by simpa [coalesced, hab] using h2⟩
    | cons y r =>
      simp only [List.cons_append, coalesced, Bool.and_eq_true] at h1 ⊢
      exact ⟨h1.1, ih h1.2⟩

/-- Replacing the last node by one that clashes with the same neighbours keeps the list
coalesced. -/
theorem coalesced_replace_last (xs : List Node) (a m : Node)
    (hm : ∀ x, adjacentText x m = adjacentText x a)
    (h : coalesced (xs ++ [a]) = true) : coalesced (xs ++ [m]) = true := by
  induction xs with
  | nil => rfl
  | cons x rest ih =>
    cases rest with
    | nil =>
      simp only [List.cons_append, List.nil_append, coalesced, Bool.and_eq_true] at h ⊢
      exact ⟨by rw [hm]; exact h.1, trivial⟩
    | cons y r =>
      simp only [List.cons_append, coalesced, Bool.and_eq_true] at h ⊢
      exact ⟨h.1, ih h.2⟩

theorem withText_fields (n : Node) (s : GoString) :
    (n.withText s).Typ = n.Typ ∧ (n.withText s).Attrs = n.Attrs ∧
    (n.withText s).Marks = n.Marks ∧ (n.withText s).Text = s ∧
    (n.withText s).Content = n.Content := by
  unfold Node.withText
  split
  · rename_i h; exact ⟨rfl, rfl, rfl, h, rfl⟩
  · exact ⟨rfl, rfl, rfl, rfl, rfl⟩

theorem adjacentText_withText_right (x n : Node) (s : GoString) :
    adjacentText x (n.withText s) = adjacentText x n := by
  obtain ⟨h1, h2, h3, _, _⟩ := withText_fields n s
  simp only [adjacentText, Node.IsText, Node.sameMarkup, Node.hasMarkup, h1, h2, h3]

theorem eq_cons_drop_of_head {α : Type} (l : List α) (a : α) (h : l.head? = some a) :
    l = a :: l.drop 1 := by
  cases l with
  | nil => cases h
  | cons b t => simp at h; subst h; rfl

/-- C9: for well-sized fragments `f` and `g` of one schema in which no two adjacent text
children have identical node type, attrs and marks, `f.append(g)` returns a fragment with
the same property; and when the last child of `f` and the first child of `g` are text with
identical markup, the result holds one text child with that markup whose text is the
concatenation, in place of the two when neither fragment has size 0. -/
theorem C9_append_keeps_coalesced (f g : Fragment)
    (hf : f.WellSized = true) (hg : g.WellSized = true)
    (hs : SameSchema (f.Content ++ g.Content))
    (hcf : coalesced f.Content = true) (hcg : coalesced g.Content = true) :
    ∃ r : Fragment, f.append g = .ok r ∧ coalesced r.Content = true ∧
      ∀ last first : Node, f.lastChild = some last → g.firstChild = some first →
        last.IsText = true → first.IsText = true → last.sameMarkup first = true →
        (∃ (pre post : List Node) (m : Node), r.Content = pre ++ m :: post ∧
          m.IsText = true ∧ last.sameMarkup m = true ∧ m.Text = last.Text ++ first.Text) ∧
        (f.Size ≠ 0 → g.Size ≠ 0 →
          r.Content =
            f.Content.dropLast ++ [last.withText (last.Text ++ first.Text)]
              ++ g.Content.drop 1) := by
  unfold Fragment.append
  by_cases hgz : g.Size = 0
  · rw [if_pos hgz]
    refine ⟨f, rfl, hcf, ?_⟩
    intro last first hl hfi htl htf hsm
    refine ⟨?_, fun _ h => absurd hgz h⟩
    have hfirst : first.Text = [] :=
      text_empty_of_size_zero g hg hgz first
        (by unfold Fragment.firstChild at hfi; exact List.mem_of_mem_head? hfi) htf
    have hsplit : f.Content.dropLast ++ [last] = f.Content :=
      List.dropLast_append_getLast? last hl
    exact ⟨f.Content.dropLast, [], last, hsplit.symm, htl, sameMarkup_refl _,
      by rw [hfirst, List.append_nil]⟩
  rw [if_neg hgz]
  by_cases hfz : f.Size = 0
  · rw [if_pos hfz]
    refine ⟨g, rfl, hcg, ?_⟩
    intro last first hl hfi htl htf hsm
    refine ⟨?_, fun h _ => absurd hfz h⟩
    have hlast : last.Text = [] :=
      text_empty_of_size_zero f hf hfz last
        (by unfold Fragment.lastChild at hl; exact List.mem_of_mem_getLast? hl) htl
    exact ⟨[], g.Content.drop 1, first, eq_cons_drop_of_head _ _ hfi, htf, hsm,
      by rw [hlast, List.nil_append]⟩
  rw [if_neg hfz]
  have hfne := content_ne_nil f hf hfz
  have hgne := content_ne_nil g hg hgz
  obtain ⟨last, hl⟩ : ∃ last, f.lastChild = some last := by
    unfold Fragment.lastChild
    cases h : f.Content.getLast? with
    | none => exact absurd (List.getLast?_eq_none_iff.mp h) hfne
    | some a => exact ⟨a, rfl⟩
  obtain ⟨first, hfi⟩ : ∃ first, g.firstChild = some first := by
    unfold Fragment.firstChild
    cases h : g.Content.head? with
    | none => exact absurd (List.head?_eq_none_iff.mp h) hgne
    | some a => exact ⟨a, rfl⟩
  have hsplitf : f.Content.dropLast ++ [last] = f.Content :=
    List.dropLast_append_getLast? last hl
  have hsplitg : g.Content = first :: g.Content.drop 1 := eq_cons_drop_of_head _ _ hfi
  have hlmem : last ∈ f.Content ++ g.Content :=
    List.mem_append_left _ (List.mem_of_mem_getLast? hl)
  have hfmem : first ∈ f.Content ++ g.Content :=
    List.mem_append_right _ (List.mem_of_mem_head? hfi)
  simp only [hl, hfi]
  by_cases hmerge : (last.IsText && last.sameMarkup first) = true
  · rw [if_pos hmerge]
    simp only [Bool.and_eq_true] at hmerge
    obtain ⟨htl, hsm⟩ := hmerge
    have hwt := withText_fields last (last.Text ++ first.Text)
    have htm : (last.withText (last.Text ++ first.Text)).IsText = true := by
      unfold Node.IsText; rw [hwt.1]; exact htl
    have hsmm : last.sameMarkup (last.withText (last.Text ++ first.Text)) = true := by
      rw [sameMarkup_iff, hwt.1, hwt.2.1, hwt.2.2.1]
      exact ⟨rfl, mapsEqual_refl _, marksEqual_refl _⟩
    refine ⟨_, rfl, ?_, ?_⟩
    · change coalesced (f.Content.dropLast ++ [last.withText (last.Text ++ first.Text)]
        ++ g.Content.drop 1) = true
      have hpre : coalesced (f.Content.dropLast ++ [last.withText (last.Text ++ first.Text)])
          = true :=
        coalesced_replace_last _ last _ (fun x => adjacentText_withText_right x last _)
          (by rw [hsplitf]; exact hcf)
      cases hd : g.Content.drop 1 with
      | nil => rw [List.append_nil]; exact hpre
      | cons g1 gt =>
        have hcg2 : coalesced (first :: g1 :: gt) = true := by
          rw [← hd, ← hsplitg]; exact hcg
        have hcg3 : coalesced (g1 :: gt) = true := coalesced_tail _ _ hcg2
        have hnot : adjacentText first g1 = false := by
          simp only [coalesced, Bool.and_eq_true, Bool.not_eq_true'] at hcg2
          exact hcg2.1
        have hseam : adjacentText (last.withText (last.Text ++ first.Text)) g1 = false := by
          by_contra hcon
          rw [Bool.not_eq_false] at hcon
          simp only [adjacentText, Bool.and_eq_true] at hcon
          obtain ⟨⟨_, htg1⟩, hsg1⟩ := hcon
          have hsl : last.sameMarkup g1 = true := by
            rw [sameMarkup_iff] at hsg1 ⊢
            rw [hwt.1, hwt.2.1, hwt.2.2.1] at hsg1
            exact hsg1
          have hsf : first.sameMarkup g1 = true :=
            sameMarkup_trans _ _ _ (sameMarkup_symm _ _ hsm) hsl
          have hname : last.Typ.Name = first.Typ.Name := ((sameMarkup_iff _ _).mp hsm).1
          have htyp : last.Typ = first.Typ := hs last hlmem first hfmem hname
          have htf : first.IsText = true := by
            unfold Node.IsText; rw [← htyp]; exact htl
          have : adjacentText first g1 = true := by
            simp [adjacentText, htf, htg1, hsf]
          rw [this] at hnot; cases hnot
        rw [List.append_assoc, List.singleton_append]
        exact coalesced_join _ _ g1 gt hpre hcg3 hseam
    · intro last2 first2 hl2 hfi2 _ _ _
      have e1 : last2 = last := (Option.some.inj hl2).symm
      have e2 : first2 = first := (Option.some.inj hfi2).symm
      rw [e1, e2]
      refine ⟨⟨f.Content.dropLast, g.Content.drop 1, _, ?_, htm, hsmm, hwt.2.2.2.1⟩,
        fun _ _ => rfl⟩
      change f.Content.dropLast ++ [last.withText (last.Text ++ first.Text)]
        ++ g.Content.drop 1 = _
      rw [List.append_assoc, List.singleton_append]
  · rw [if_neg hmerge]
    refine ⟨_, rfl, ?_, ?_⟩
    · change coalesced (f.Content ++ g.Content) = true
      have hnot : adjacentText last first = false := by
        simp only [Bool.and_eq_true, not_and, Bool.not_eq_true] at hmerge
        simp only [adjacentText]
        cases htl : last.IsText with
        | false => simp
        | true => simp [hmerge htl]
      have := coalesced_join f.Content.dropLast last first (g.Content.drop 1)
        (by rw [hsplitf]; exact hcf) (by rw [← hsplitg]; exact hcg) hnot
      rw [← List.singleton_append, ← List.append_assoc, hsplitf, ← hsplitg] at this
      exact this
    · intro last2 first2 hl2 hfi2 htl2 _ hsm2
      have e1 : last2 = last := (Option.some.inj hl2).symm
      have e2 : first2 = first := (Option.some.inj hfi2).symm
      rw [e1] at htl2 hsm2
      rw [e2] at hsm2
      exfalso
      apply hmerge
      simp [htl2, hsm2]

/-- A witness for C9: `[em "ab", text "cd"]` appended with `[text "ef", em "gh"]`. -/
theorem C9_append_keeps_coalesced_witness :
    (NewFragment [Em (ascii "ab"), Text (ascii "cd")]).WellSized = true ∧
    (NewFragment [Text (ascii "ef"), Em (ascii "gh")]).WellSized = true ∧
    SameSchema ((NewFragment [Em (ascii "ab"), Text (ascii "cd")]).Content ++
      (NewFragment [Text (ascii "ef"), Em (ascii "gh")]).Content) ∧
    coalesced (NewFragment [Em (ascii "ab"), Text (ascii "cd")]).Content = true ∧
    coalesced (NewFragment [Text (ascii "ef"), Em (ascii "gh")]).Content = true ∧
    ∃ r : Fragment,
      (NewFragment [Em (ascii "ab"), Text (ascii "cd")]).append
        (NewFragment [Text (ascii "ef"), Em (ascii "gh")]) = .ok r ∧
      coalesced r.Content = true :=
  ⟨by decide, by decide, by decide, by decide, by decide,
    match C9_append_keeps_coalesced (NewFragment [Em (ascii "ab"), Text (ascii "cd")])
      (NewFragment [Text (ascii "ef"), Em (ascii "gh")])
      (by decide) (by decide) (by decide) (by decide) (by decide) with
    | ⟨r, h1, h2, _⟩ => ⟨r, h1, h2⟩⟩

/-! ## The guards of `replace` -/

/-- C11, at the failing input: in `doc[blockquote[paragraph["ab"], paragraph["cd"]]]`,
replacing 3..7 by the slice of 3..7 succeeds and returns
`doc[blockquote[paragraph["aab"], paragraph["d"]]]`, which `Node.eq` tells from the
document; on `doc[paragraph["ab"], paragraph["cd"]]` the round trip over 2..6 returns an
equal document. -/
theorem C11_round_trip_in_blockquote :
    (sliceThenReplace quotedDoc 3 7).map
      (fun d => d.Content.Content.map Node.childTexts) =
      .ok [[[ascii "aab"], [ascii "d"]]] ∧
    (sliceThenReplace quotedDoc 3 7).map (fun d => d.eq quotedDoc) = .ok false ∧
    (sliceThenReplace (Doc [PText (ascii "ab"), PText (ascii "cd")]) 2 6).map
      (fun d => d.eq (Doc [PText (ascii "ab"), PText (ascii "cd")])) = .ok true := by
  decide!

/-- The flat text replacement on a text that is not ASCII: in `doc[paragraph["éa"]]`,
replacing 2..2 (text offset 1, after `é`) by the flat slice `["?"]` succeeds and leaves the
paragraph with the text bytes `C3 3F A9`, the `a` lost, where slicing by UTF-16 code units
gives `"é?a"`; the two tests give `"Crazy?"` and `"farts"`. -/
theorem flat_replace_cuts_bytes :
    ((Doc [PText [0xC3, 0xA9, 0x61]]).Replace 2 2
        { Content := NewFragment [Text (ascii "?")] }).map Node.childTexts =
      .ok [[[0xC3, 0x3F, 0xA9]]] ∧
    (crazyDoc.Replace 6 6 { Content := NewFragment [Text (ascii "?")] }).map Node.childTexts =
      .ok [[ascii "Crazy?"]] ∧
    ((Doc [PText (ascii "rats"), PText (ascii "rats")]).Replace 1 5
        { Content := NewFragment [Text (ascii "farts")] }).map Node.childTexts =
      .ok [[ascii "farts"], [ascii "rats"]] := by
  decide!

/-- C14, at the failing input: in `doc[paragraph["éab"]]`, the replace step `{2, 3}`
without a slice (deleting the `a` at text offsets 1..2) succeeds and leaves the text bytes
`C3 61`, where the claim gives `"éb"`; the test turns `"Crazy?"` into `"Crazy"`. -/
theorem C14_delete_cuts_bytes :
    (ReplaceStep.Apply { From := 2, To := 3 } (Doc [PText eAcuteAB])).map Node.childTexts =
      .ok [[[0xC3, 0x61]]] ∧
    (ReplaceStep.Apply { From := 6, To := 7 }
        (Doc [PText (ascii "Crazy?"), PText (ascii "I was crazy once.")])).map
      Node.childTexts = .ok [[ascii "Crazy"], [ascii "I was crazy once."]] := by
  decide!

/-- C15, at the failing input: splitting `doc[paragraph["éab"]]` at position 2 (text offset
1) succeeds and gives paragraphs with the text bytes `C3` and `A9 61`, where the claim
gives `"é"` and `"ab"`; the test splits `"Crazy?"` at 4 into `"Cra"` and `"zy?"`. -/
theorem C15_split_cuts_bytes :
    ((Doc [PText eAcuteAB]).Replace 2 2 splitSlice).map Node.childTexts =
      .ok [[[0xC3]], [[0xA9, 0x61]]] ∧
    ((Doc [PText (ascii "Crazy?")]).Replace 4 4 splitSlice).map Node.childTexts =
      .ok [[ascii "Cra"], [ascii "zy?"]] := by
  decide!

/-- C17, at the failing input: `addMark{2, 3, em}` on `doc[paragraph["éab"]]` (the `a` at
text offsets 1..2) succeeds and gives the pieces `C3`, `A9` with `em`, and `61`, where the
claim gives `"é"`, `"a"` with `em`, `"b"`; the test gives `"Hello "`, `"World"` with `em`,
`"!"`. -/
theorem C17_addMark_cuts_bytes :
    (MarkStep.Apply { From := 2, To := 3, Mark := emMark } (Doc [PText eAcuteAB])).map
      Node.childTextsMarks = .ok [[([0xC3], []), ([0xA9], ["em"]), ([0x61], [])]] ∧
    (MarkStep.Apply { From := 7, To := 12, Mark := emMark }
        (Doc [PText (ascii "Hello World!")])).map Node.childTextsMarks =
      .ok [[(ascii "Hello ", []), (ascii "World", ["em"]), (ascii "!", [])]] := by
  decide!

/-- C18, at the failing input: `addMark{2, 3, em}` and then `removeMark{2, 3, em}` on
`doc[paragraph["éab"]]` succeed and return the paragraph text `"éa"`, not the original
`"éab"`; on the test document the two steps return `"Hello World!"`. -/
theorem C18_removeMark_after_addMark_cuts_bytes :
    ((MarkStep.Apply { From := 2, To := 3, Mark := emMark } (Doc [PText eAcuteAB])).bind
      (fun d => MarkStep.Apply { From := 2, To := 3, Mark := emMark, remove := true } d)).map
      Node.childTextsMarks = .ok [[([0xC3, 0xA9, 0x61], [])]] ∧
    ((MarkStep.Apply { From := 7, To := 12, Mark := emMark }
        (Doc [PText (ascii "Hello World!")])).bind
      (fun d => MarkStep.Apply { From := 7, To := 12, Mark := emMark, remove := true } d)).map
      (fun d => d.eq (Doc [PText (ascii "Hello World!")])) = .ok true := by
  decide!

/-! ## Steps of `resolve` and `findIndex` at known places -/

/-- The state of `resolve` after visiting `node` at child `index`, `offset` into it. -/
theorem resolveLoop_stop (fuel : Nat) (node : Node) (r : ResolvedPos) (start : Int)
    (index offset : Int) (hfi : node.Content.findIndex r.ParentOffset = .ok (index, offset))
    (hrem : r.ParentOffset - offset = 0) :
    resolveLoop (fuel + 1) node r start =
      .ok { r with
        NodePath := r.NodePath ++ [node]
        IndexPath := r.IndexPath ++ [index]
        OffsetPath := r.OffsetPath ++ [start + offset] } := by
  unfold resolveLoop
  simp only [hfi, bind, Except.bind, pure, Except.pure]
  rw [if_pos hrem]

/-- The loop of `resolve` ends at a position inside a text child. -/
theorem resolveLoop_text (fuel : Nat) (node : Node) (r : ResolvedPos) (start : Int)
    (index offset : Int) (c : Node)
    (hfi : node.Content.findIndex r.ParentOffset = .ok (index, offset))
    (hrem : r.ParentOffset - offset ≠ 0) (hc : node.Child index = .ok c)
    (ht : c.IsText = true) :
    resolveLoop (fuel + 1) node r start =
      .ok { r with
        NodePath := r.NodePath ++ [node]
        IndexPath := r.IndexPath ++ [index]
        OffsetPath := r.OffsetPath ++ [start + offset] } := by
  unfold resolveLoop
  simp only [hfi, bind, Except.bind, pure, Except.pure]
  rw [if_neg hrem]
  simp only [hc]
  rw [if_pos ht]

/-- The loop of `resolve` steps from a node into a child that is not text. -/
theorem resolveLoop_step (fuel : Nat) (node : Node) (r : ResolvedPos) (start : Int)
    (index offset : Int) (c : Node)
    (hfi : node.Content.findIndex r.ParentOffset = .ok (index, offset))
    (hrem : r.ParentOffset - offset ≠ 0) (hc : node.Child index = .ok c)
    (ht : c.IsText = false) :
    resolveLoop (fuel + 1) node r start =
      resolveLoop fuel c
        { r with
          NodePath := r.NodePath ++ [node]
          IndexPath := r.IndexPath ++ [index]
          OffsetPath := r.OffsetPath ++ [start + offset]
          ParentOffset := r.ParentOffset - offset - 1 }
        (start + offset + 1) := by
  conv => lhs; unfold resolveLoop
  simp only [hfi, bind, Except.bind, pure, Except.pure]
  rw [if_neg hrem]
  simp only [hc]
  rw [if_neg (by simp [ht])]

/-- The offsets at which the children start do not decrease when no child has a negative
size. -/
theorem prefixSize_mono (cs : List Node) (hnn : ∀ c ∈ cs, 0 ≤ c.NodeSize)
    (a b : Nat) (hab : a ≤ b) : prefixSize cs a ≤ prefixSize cs b := by
  induction cs generalizing a b with
  | nil => simp [prefixSize]
  | cons c rest ih =>
    have hc : 0 ≤ c.NodeSize := hnn c (List.mem_cons_self _ _)
    have hrest : ∀ x ∈ rest, 0 ≤ x.NodeSize := fun x hx => hnn x (List.mem_cons_of_mem _ hx)
    cases a with
    | zero =>
      rw [prefixSize_zero]
      cases b with
      | zero => rw [prefixSize_zero]
      | succ b2 =>
        rw [prefixSize_succ_cons]
        have := ih hrest 0 b2 (Nat.zero_le _)
        rw [prefixSize_zero] at this
        omega
    | succ a2 =>
      cases b with
      | zero => omega
      | succ b2 =>
        rw [prefixSize_succ_cons, prefixSize_succ_cons]
        have := ih hrest a2 b2 (by omega)
        omega

/-- A position strictly inside child `i` is found at child `i`. -/
theorem findIndex_inside (f : Fragment) (hsz : f.SizeOk) (hnn : ∀ c ∈ f.Content, 0 ≤ c.NodeSize)
    (i : Nat) (c : Node) (hc : f.Content.get? i = some c) (q : Int)
    (h1 : prefixSize f.Content i < q) (h2 : q < prefixSize f.Content i + c.NodeSize) :
    f.findIndex q = .ok ((i : Int), prefixSize f.Content i) := by
  have hil : i < f.Content.length := by
    rcases Nat.lt_or_ge i f.Content.length with h | h
    · exact h
    · rw [List.get?_eq_none.mpr h] at hc; cases hc
  have hsucc := prefixSize_succ f.Content i c hc
  have h0 : 0 ≤ q := by
    have := prefixSize_mono f.Content hnn 0 i (Nat.zero_le _)
    rw [prefixSize_zero] at this; omega
  have hle : q ≤ f.Size := by
    have := prefixSize_mono f.Content hnn (i + 1) f.Content.length (by omega)
    rw [prefixSize_length] at this
    unfold Fragment.SizeOk at hsz
    omega
  obtain ⟨j, off, hfi, hjl, hoff, hcase⟩ := findIndex_spec f q hsz h0 hle
  have hj : j = i := by
    rcases hcase with h | ⟨c2, hc2, h3, h4⟩
    · by_contra hne
      rcases Nat.lt_or_gt_of_ne hne with hlt | hgt
      · have := prefixSize_mono f.Content hnn j i (by omega)
        omega
      · have := prefixSize_mono f.Content hnn (i + 1) j (by omega)
        omega
    · have hs2 := prefixSize_succ f.Content j c2 hc2
      by_contra hne
      rcases Nat.lt_or_gt_of_ne hne with hlt | hgt
      · have := prefixSize_mono f.Content hnn (j + 1) i (by omega)
        omega
      · have := prefixSize_mono f.Content hnn (i + 1) j (by omega)
        omega
  rw [hfi, hoff, hj]

/-- A position on the start of child `i`, or on the end of the last child, is found at
index `i` when every child has a positive size. -/
theorem findIndex_boundary (f : Fragment) (hsz : f.SizeOk)
    (hpos : ∀ c ∈ f.Content, 0 < c.NodeSize) (i : Nat) (hi : i ≤ f.Content.length) :
    f.findIndex (prefixSize f.Content i) = .ok ((i : Int), prefixSize f.Content i) := by
  have hnn : ∀ c ∈ f.Content, 0 ≤ c.NodeSize := fun c hc => le_of_lt (hpos c hc)
  have h0 : 0 ≤ prefixSize f.Content i := by
    have := prefixSize_mono f.Content hnn 0 i (Nat.zero_le _)
    rw [prefixSize_zero] at this; exact this
  have hle : prefixSize f.Content i ≤ f.Size := by
    have := prefixSize_mono f.Content hnn i f.Content.length hi
    rw [prefixSize_length] at this
    unfold Fragment.SizeOk at hsz
    omega
  obtain ⟨j, off, hfi, hjl, hoff, hcase⟩ := findIndex_spec f _ hsz h0 hle
  have hj : j = i := by
    rcases hcase with h | ⟨c2, hc2, h3, h4⟩
    · by_contra hne
      rcases Nat.lt_or_gt_of_ne hne with hlt | hgt
      · have := prefixSize_strictMono f.Content hpos j i hlt hi
        omega
      · have := prefixSize_strictMono f.Content hpos i j hgt hjl
        omega
    · have hs2 := prefixSize_succ f.Content j c2 hc2
      have hjl2 : j < f.Content.length := by
        rcases Nat.lt_or_ge j f.Content.length with h | h
        · exact h
        · rw [List.get?_eq_none.mpr h] at hc2; cases hc2
      by_contra hne
      rcases Nat.lt_or_gt_of_ne hne with hlt | hgt
      · have := prefixSize_mono f.Content hnn (j + 1) i (by omega)
        omega
      · have := prefixSize_mono f.Content hnn i j (by omega)
        omega
  rw [hfi, hoff, hj]

/-- A node that is not text has a positive size when its content has no negative size. -/
theorem nodeSize_pos_of_not_text (c : Node) (ht : c.IsText = false)
    (hw : c.Content.WellSized = true) : 0 < c.NodeSize := by
  have := fragmentSize_nonneg c.Content hw
  unfold Node.NodeSize
  rw [if_neg (by simp [ht])]
  split <;> omega

/-! ## `cut` at child boundaries and `append` without a merge -/

theorem prefixSize_nonneg (cs : List Node) (hnn : ∀ c ∈ cs, 0 ≤ c.NodeSize) (k : Nat) :
    0 ≤ prefixSize cs k := by
  have := prefixSize_mono cs hnn 0 k (Nat.zero_le _)
  rw [prefixSize_zero] at this; exact this

theorem prefixSize_le_total (cs : List Node) (hnn : ∀ c ∈ cs, 0 ≤ c.NodeSize) (k : Nat) :
    prefixSize cs k ≤ (cs.map Node.NodeSize).sum := by
  rcases Nat.le_total k cs.length with h | h
  · have := prefixSize_mono cs hnn k cs.length h
    rw [prefixSize_length] at this; exact this
  · have : prefixSize cs k = (cs.map Node.NodeSize).sum := by
      unfold prefixSize; rw [List.take_of_length_le h]
    omega

/-- With positive sizes, only the offset of child 0 is 0. -/
theorem prefixSize_eq_zero (cs : List Node) (hpos : ∀ c ∈ cs, 0 < c.NodeSize) (k : Nat)
    (hk : k ≤ cs.length) (h : prefixSize cs k = 0) : k = 0 := by
  by_contra hne
  have := prefixSize_strictMono cs hpos 0 k (by omega) hk
  rw [prefixSize_zero] at this; omega

/-- With positive sizes, only the offset after the last child is the total size. -/
theorem prefixSize_eq_total (cs : List Node) (hpos : ∀ c ∈ cs, 0 < c.NodeSize) (k : Nat)
    (hk : k ≤ cs.length) (h : prefixSize cs k = (cs.map Node.NodeSize).sum) :
    k = cs.length := by
  by_contra hne
  have := prefixSize_strictMono cs hpos k cs.length (by omega) (le_refl _)
  rw [prefixSize_length] at this; omega

/-- The loop of `cut`, started at or after `from_`, keeps whole the children that end by
`to_`, when `to_` is the end of one of them. -/
theorem cutLoop_take (cs : List Node) (hpos : ∀ c ∈ cs, 0 < c.NodeSize) (k : Nat)
    (hk : k ≤ cs.length) (pos from_ to_ : Int) (hfrom : from_ ≤ pos)
    (hto : to_ = pos + prefixSize cs k) :
    cutLoop cs pos from_ to_ = .ok (cs.take k, prefixSize cs k) := by
  induction cs generalizing k pos with
  | nil =>
    have : k = 0 := by simpa using hk
    subst this
    unfold cutLoop
    rw [prefixSize_zero] at hto
    rw [if_neg (by omega)]
    simp [prefixSize]
  | cons c rest ih =>
    have hc : 0 < c.NodeSize := hpos c (List.mem_cons_self _ _)
    have hrest : ∀ x ∈ rest, 0 < x.NodeSize := fun x hx => hpos x (List.mem_cons_of_mem _ hx)
    cases k with
    | zero =>
      unfold cutLoop
      rw [prefixSize_zero] at hto
      rw [if_neg (by omega)]
      simp [prefixSize]
    | succ k2 =>
      have hk2 : k2 ≤ rest.length := by simpa using hk
      rw [prefixSize_succ_cons] at hto
      have hnn := prefixSize_nonneg rest (fun x hx => le_of_lt (hrest x hx)) k2
      unfold cutLoop
      rw [if_pos (by omega)]
      simp only []
      rw [if_neg (by omega)]
      have hcond : (decide (pos < from_) || decide (pos + c.NodeSize > to_)) = false := by
        simp; omega
      rw [ih hrest k2 hk2 (pos + c.NodeSize) (by omega) (by omega)]
      simp only [hcond, Bool.false_eq_true, if_false, bind, Except.bind, pure, Except.pure,
        List.take_succ_cons, prefixSize_succ_cons]

/-- The loop of `cut` skips the children that end by `from_`, when `from_` is the end of
one of them. -/
theorem cutLoop_skip (cs : List Node) (hpos : ∀ c ∈ cs, 0 < c.NodeSize) (k : Nat)
    (hk : k ≤ cs.length) (pos from_ to_ : Int) (hfrom : from_ = pos + prefixSize cs k)
    (hto : from_ < to_) :
    cutLoop cs pos from_ to_ = cutLoop (cs.drop k) from_ from_ to_ := by
  induction cs generalizing k pos with
  | nil =>
    have : k = 0 := by simpa using hk
    subst this
    rw [prefixSize_zero] at hfrom
    simp only [List.drop_nil]
    rw [hfrom, add_zero]
  | cons c rest ih =>
    have hc : 0 < c.NodeSize := hpos c (List.mem_cons_self _ _)
    have hrest : ∀ x ∈ rest, 0 < x.NodeSize := fun x hx => hpos x (List.mem_cons_of_mem _ hx)
    cases k with
    | zero =>
      rw [prefixSize_zero] at hfrom
      simp only [List.drop_zero]
      rw [hfrom, add_zero]
    | succ k2 =>
      have hk2 : k2 ≤ rest.length := by simpa using hk
      rw [prefixSize_succ_cons] at hfrom
      have hnn := prefixSize_nonneg rest (fun x hx => le_of_lt (hrest x hx)) k2
      conv => lhs; unfold cutLoop
      rw [if_pos (by omega)]
      simp only []
      rw [if_pos (by omega)]
      rw [ih hrest k2 hk2 (pos + c.NodeSize) (by omega)]
      simp

/-- Cutting a fragment from its start to the start of child `k` keeps the first `k`
children. -/
theorem cut_prefix (size : Int) (cs : List Node) (hsz : (Fragment.mk size cs).SizeOk)
    (hpos : ∀ c ∈ cs, 0 < c.NodeSize) (k : Nat) (hk : k ≤ cs.length) :
    (Fragment.mk size cs).cut 0 (prefixSize cs k) =
      .ok (.mk (prefixSize cs k) (cs.take k)) := by
  have hnn := prefixSize_nonneg cs (fun x hx => le_of_lt (hpos x hx)) k
  unfold Fragment.SizeOk at hsz
  simp only [Fragment.Size, Fragment.Content] at hsz
  unfold Fragment.cut
  have hne : ¬ prefixSize cs k = -1 := by omega
  simp only [hne, if_false]
  by_cases hall : prefixSize cs k = size
  · have hkl : k = cs.length := prefixSize_eq_total cs hpos k hk (by omega)
    rw [if_pos (by simp [hall])]
    rw [hkl, List.take_length, prefixSize_length, hsz]
  · rw [if_neg (by simp [hall])]
    by_cases hz : prefixSize cs k ≤ 0
    · rw [if_pos hz]
      have hk0 : k = 0 := prefixSize_eq_zero cs hpos k hk (by omega)
      subst hk0
      simp [Fragment.zero, prefixSize]
    · rw [if_neg hz]
      rw [cutLoop_take cs hpos k hk 0 0 _ (le_refl _) (by ring)]
      rfl

/-- Cutting a fragment from the start of child `k` to its end keeps the children from `k`
on. -/
theorem cut_suffix (size : Int) (cs : List Node) (hsz : (Fragment.mk size cs).SizeOk)
    (hpos : ∀ c ∈ cs, 0 < c.NodeSize) (k : Nat) (hk : k ≤ cs.length) :
    (Fragment.mk size cs).cut (prefixSize cs k) (-1) =
      .ok (.mk (size - prefixSize cs k) (cs.drop k)) := by
  have hnnall : ∀ c ∈ cs, 0 ≤ c.NodeSize := fun x hx => le_of_lt (hpos x hx)
  have hnn := prefixSize_nonneg cs hnnall k
  have hle := prefixSize_le_total cs hnnall k
  unfold Fragment.SizeOk at hsz
  simp only [Fragment.Size, Fragment.Content] at hsz
  unfold Fragment.cut
  simp only [if_true]
  by_cases hz : prefixSize cs k = 0
  · have hk0 : k = 0 := prefixSize_eq_zero cs hpos k hk hz
    rw [if_pos (by simp [hz])]
    subst hk0
    simp [hz]
  · rw [if_neg (by simp [hz])]
    by_cases hall : size ≤ prefixSize cs k
    · rw [if_pos hall]
      have hkl : k = cs.length := prefixSize_eq_total cs hpos k hk (by omega)
      rw [hkl, List.drop_length]
      have : size - prefixSize cs cs.length = 0 := by rw [prefixSize_length]; omega
      rw [this]; rfl
    · rw [if_neg hall]
      rw [cutLoop_skip cs hpos k hk 0 _ size (by ring) (by omega)]
      have hdpos : ∀ c ∈ cs.drop k, 0 < c.NodeSize :=
        fun c hc => hpos c (List.mem_of_mem_drop hc)
      have hsum : prefixSize (cs.drop k) (cs.drop k).length = size - prefixSize cs k := by
        rw [prefixSize_length, hsz]
        have : (cs.map Node.NodeSize).sum
            = ((cs.take k).map Node.NodeSize).sum + ((cs.drop k).map Node.NodeSize).sum := by
          rw [← List.sum_append, ← List.map_append, List.take_append_drop]
        unfold prefixSize; omega
      rw [cutLoop_take (cs.drop k) hdpos (cs.drop k).length (le_refl _) _ _ size (le_refl _)
        (by omega)]
      simp only [bind, Except.bind, pure, Except.pure, List.take_length, hsum]

/-- Appending two fragments whose seam does not merge concatenates them, when a size of 0
goes with no children. -/
theorem append_concat (f g : Fragment)
    (hf : f.Size = 0 ↔ f.Content = []) (hg : g.Size = 0 ↔ g.Content = [])
    (hno : ∀ last first, f.Content.getLast? = some last → g.Content.head? = some first →
      (last.IsText && last.sameMarkup first) = false) :
    f.append g = .ok (.mk (f.Size + g.Size) (f.Content ++ g.Content)) := by
  unfold Fragment.append
  by_cases hgz : g.Size = 0
  · rw [if_pos hgz, hg.mp hgz, hgz]
    cases f; simp [Fragment.Size, Fragment.Content]
  rw [if_neg hgz]
  by_cases hfz : f.Size = 0
  · rw [if_pos hfz, hf.mp hfz, hfz]
    cases g; simp [Fragment.Size, Fragment.Content]
  rw [if_neg hfz]
  have hfne : f.Content ≠ [] := fun h => hfz (hf.mpr h)
  have hgne : g.Content ≠ [] := fun h => hgz (hg.mpr h)
  unfold Fragment.lastChild Fragment.firstChild
  cases hl : f.Content.getLast? with
  | none => exact absurd (List.getLast?_eq_none_iff.mp hl) hfne
  | some last =>
    cases hh : g.Content.head? with
    | none => exact absurd (List.head?_eq_none_iff.mp hh) hgne
    | some first =>
      simp only []
      rw [if_neg (by rw [hno last first hl hh]; simp)]

/-! ## Re-wrapping a child of the root with `ReplaceAroundStep` -/

/-- A position on the start of child `k` of the root, or on the end of its last child,
resolves at depth 0 with index `k`. -/
theorem resolve_at_boundary (doc : Node) (hsz : doc.Content.SizeOk)
    (hpos : ∀ c ∈ doc.Content.Content, 0 < c.NodeSize) (k : Nat)
    (hk : k ≤ doc.Content.Content.length) :
    resolve doc (prefixSize doc.Content.Content k) =
      .ok { Depth := 0, Pos := prefixSize doc.Content.Content k,
            ParentOffset := prefixSize doc.Content.Content k,
            NodePath := [doc], IndexPath := [(k : Int)],
            OffsetPath := [prefixSize doc.Content.Content k] } := by
  have hnnall : ∀ c ∈ doc.Content.Content, 0 ≤ c.NodeSize := fun x hx => le_of_lt (hpos x hx)
  have hnn := prefixSize_nonneg doc.Content.Content hnnall k
  have hle := prefixSize_le_total doc.Content.Content hnnall k
  unfold Fragment.SizeOk at hsz
  unfold resolve
  rw [if_neg (by simp; omega)]
  rw [nodeHeight_eq]
  rw [resolveLoop_stop _ doc _ 0 (k : Int) (prefixSize doc.Content.Content k)
    (findIndex_boundary doc.Content hsz hpos k hk) (by simp)]
  simp [bind, Except.bind, pure, Except.pure]

/-- A position inside child `i` of the root, on a boundary `q` of the content of that
child, resolves at depth 1. -/
theorem resolve_into_child (doc : Node) (hsz : doc.Content.SizeOk)
    (hnn : ∀ c ∈ doc.Content.Content, 0 ≤ c.NodeSize) (i : Nat) (c : Node)
    (hc : doc.Content.Content.get? i = some c) (ht : c.IsText = false)
    (q j : Int) (hq0 : 0 ≤ q) (hq1 : q + 1 < c.NodeSize)
    (hfi : c.Content.findIndex q = .ok (j, q)) :
    resolve doc (prefixSize doc.Content.Content i + 1 + q) =
      .ok { Depth := 1, Pos := prefixSize doc.Content.Content i + 1 + q,
            ParentOffset := q,
            NodePath := [doc, c], IndexPath := [(i : Int), j],
            OffsetPath := [prefixSize doc.Content.Content i,
              prefixSize doc.Content.Content i + 1 + q] } := by
  have hp0 := prefixSize_nonneg doc.Content.Content hnn i
  have hsucc := prefixSize_succ doc.Content.Content i c hc
  have hle := prefixSize_le_total doc.Content.Content hnn (i + 1)
  have hmem : c ∈ doc.Content.Content := List.get?_mem hc
  have hh : c.height ≤ doc.Content.height := fragmentHeight_mem doc.Content c hmem
  have hch := nodeHeight_eq c
  unfold Fragment.SizeOk at hsz
  unfold resolve
  rw [if_neg (by simp; omega)]
  rw [nodeHeight_eq]
  obtain ⟨h2, hh2⟩ : ∃ h2, doc.Content.height = h2 + 1 := ⟨doc.Content.height - 1, by omega⟩
  rw [hh2]
  rw [resolveLoop_step _ doc _ 0 (i : Int) (prefixSize doc.Content.Content i) c
    (findIndex_inside doc.Content hsz hnn i c hc _ (by simp; omega) (by simp; omega))
    (by simp; omega) (goIndex_natCast _ i c hc) ht]
  have hq : prefixSize doc.Content.Content i + 1 + q - prefixSize doc.Content.Content i - 1 = q := by
    ring
  simp only [hq]
  rw [resolveLoop_stop _ c _ _ j q hfi (by simp)]
  simp [bind, Except.bind, pure, Except.pure]

/-- Nothing lies between the start of a child of the root that is not a leaf and the start
of the content of that child. -/
theorem contentBetween_open (doc : Node) (hsz : doc.Content.SizeOk)
    (hpos : ∀ c ∈ doc.Content.Content, 0 < c.NodeSize) (i : Nat) (c : Node)
    (hc : doc.Content.Content.get? i = some c) (hl : c.IsLeaf = false) :
    contentBetween doc (prefixSize doc.Content.Content i)
      (prefixSize doc.Content.Content i + 1) = .ok false := by
  have hil : i < doc.Content.Content.length := by
    rcases Nat.lt_or_ge i doc.Content.Content.length with h | h
    · exact h
    · rw [List.get?_eq_none.mpr h] at hc; cases hc
  unfold contentBetween Node.Resolve
  rw [resolve_at_boundary doc hsz hpos i (le_of_lt hil)]
  simp [climbLoop, bind, Except.bind, pure, Except.pure, ResolvedPos.Node,
    ResolvedPos.IndexAfter, ResolvedPos.Index, ResolvedPos.resolveDepth, ResolvedPos.TextOffset,
    goIndex, Node.MaybeChild, Fragment.maybeChild, hil, descendLoop, hl]
  obtain ⟨_, hci⟩ := List.get?_eq_some.mp hc
  simp only [List.get_eq_getElem] at hci
  rw [if_neg (by omega)]
  simp [hci, hl]


/-- The end of a fragment is found after its last child. -/
theorem findIndex_end (f : Fragment) (he : f.Size = 0 → f.Content = []) :
    f.findIndex f.Size = .ok ((f.Content.length : Int), f.Size) := by
  unfold Fragment.findIndex
  by_cases hz : f.Size = 0
  · rw [if_pos hz, he hz]; simp [hz]
  · rw [if_neg hz, if_pos rfl]

/-- The start of a fragment is found before its first child. -/
theorem findIndex_zero (f : Fragment) : f.findIndex 0 = .ok (0, 0) := by
  unfold Fragment.findIndex
  rw [if_pos rfl]

/-- Nothing lies between the end of the content of a child of the root and the end of that
child. -/
theorem contentBetween_close (doc : Node) (hsz : doc.Content.SizeOk)
    (hnn : ∀ c ∈ doc.Content.Content, 0 ≤ c.NodeSize) (i : Nat) (c : Node)
    (hc : doc.Content.Content.get? i = some c) (ht : c.IsText = false)
    (hg0 : 0 ≤ c.Content.Size) (hs : c.NodeSize = 2 + c.Content.Size)
    (he : c.Content.Size = 0 → c.Content.Content = []) :
    contentBetween doc (prefixSize doc.Content.Content i + 1 + c.Content.Size)
      (prefixSize doc.Content.Content i + 1 + c.Content.Size + 1) = .ok false := by
  unfold contentBetween Node.Resolve
  rw [resolve_into_child doc hsz hnn i c hc ht c.Content.Size c.Content.Content.length hg0
    (by omega) (findIndex_end c.Content he)]
  simp [climbLoop, bind, Except.bind, pure, Except.pure, ResolvedPos.Node,
    ResolvedPos.IndexAfter, ResolvedPos.Index, ResolvedPos.resolveDepth, ResolvedPos.TextOffset,
    goIndex, Node.ChildCount, Fragment.ChildCount]

/-- Cutting a fragment from its start to its end returns the fragment. -/
theorem cut_all (f : Fragment) (h : f.Size ≠ -1) : f.cut 0 f.Size = .ok f := by
  cases f with
  | mk size cs =>
    simp only [Fragment.Size] at h
    unfold Fragment.cut
    simp [Fragment.Size, h]

/-- The slice of the whole content of a child of the root is that content, closed on both
sides. -/
theorem slice_gap (doc : Node) (hsz : doc.Content.SizeOk)
    (hnn : ∀ c ∈ doc.Content.Content, 0 ≤ c.NodeSize) (i : Nat) (c : Node)
    (hc : doc.Content.Content.get? i = some c) (ht : c.IsText = false)
    (hg0 : 0 ≤ c.Content.Size) (hs : c.NodeSize = 2 + c.Content.Size)
    (he : c.Content.Size = 0 → c.Content.Content = []) :
    doc.Slice (prefixSize doc.Content.Content i + 1)
      (prefixSize doc.Content.Content i + 1 + c.Content.Size) false =
      .ok { Content := c.Content, OpenStart := 0, OpenEnd := 0 } := by
  have hp0 := prefixSize_nonneg doc.Content.Content hnn i
  have hne : ¬ (prefixSize doc.Content.Content i + 1 + c.Content.Size = -1) := by omega
  unfold Node.Slice
  simp only [hne, if_false]
  by_cases hz : c.Content.Size = 0
  · rw [if_pos (by omega)]
    have h1 := he hz
    have : c.Content = Fragment.zero := by
      cases hcc : c.Content with
      | mk size cs =>
        rw [hcc] at hz h1
        simp only [Fragment.Size] at hz
        simp only [Fragment.Content] at h1
        rw [hz, h1]; rfl
    rw [this]
  · rw [if_neg (by omega)]
    unfold Node.Resolve
    have h1 := resolve_into_child doc hsz hnn i c hc ht 0 0 (le_refl _) (by omega)
      (findIndex_zero c.Content)
    rw [add_zero] at h1
    rw [h1]
    rw [resolve_into_child doc hsz hnn i c hc ht c.Content.Size c.Content.Content.length hg0
      (by omega) (findIndex_end c.Content he)]
    simp [bind, Except.bind, pure, Except.pure, ResolvedPos.SharedDepth, sharedDepthLoop,
      ResolvedPos.Start, ResolvedPos.End, ResolvedPos.Node, ResolvedPos.resolveDepth, goIndex,
      hg0, cut_all c.Content (by omega)]

/-- Appending to the empty fragment gives the fragment appended. -/
theorem zero_append (g : Fragment) (hg : g.Size = 0 → g = Fragment.zero) :
    Fragment.zero.append g = .ok g := by
  unfold Fragment.append
  by_cases hz : g.Size = 0
  · rw [if_pos hz, hg hz]
  · rw [if_neg hz, if_pos (show Fragment.zero.Size = 0 from rfl)]

/-- Appending the empty fragment changes nothing. -/
theorem append_zero (f : Fragment) : f.append Fragment.zero = .ok f := by
  unfold Fragment.append
  rw [if_pos (show Fragment.zero.Size = 0 from rfl)]

/-- Replacing the only child of a fragment built by `NewFragment`. -/
theorem replaceChild_single (a b : Node) (h : a.eq b = true → a = b) :
    (NewFragment [a]).replaceChild 0 b = .ok (NewFragment [b]) := by
  unfold Fragment.replaceChild
  have hgi : goIndex (NewFragment [a]).Content 0 = .ok a := by
    simp [goIndex, NewFragment, Fragment.Content]
  simp only [hgi, bind, Except.bind, pure, Except.pure]
  by_cases he : a.eq b = true
  · rw [if_pos he, h he]
  · rw [if_neg he]
    simp [NewFragment, sumSizes, Fragment.Size, Fragment.Content]

/-- Inserting a fragment at position 1 of a slice that holds one node without content puts
the fragment into that node. -/
theorem insertAt_wrap (t0 : Node) (g : Fragment) (ht : t0.IsText = false)
    (hl : t0.IsLeaf = false) (hc : t0.Content = Fragment.zero)
    (hg : g.Size = 0 → g = Fragment.zero) (hgc : g.Content = [] → g.Size = 0) :
    Slice.InsertAt { Content := NewFragment [t0] } 1 g =
      .ok (some { Content := NewFragment [t0.copy g], OpenStart := 0, OpenEnd := 0 }) := by
  cases t0 with
  | mk typ attrs marks text content =>
    simp only [Node.Content] at hc
    subst hc
    have hsize : (Node.mk typ attrs marks text Fragment.zero).NodeSize = 2 := by
      unfold Node.NodeSize
      rw [if_neg (by simp [ht]), if_neg (by simp [hl])]
      rfl
    have hfi : (NewFragment [Node.mk typ attrs marks text Fragment.zero]).findIndex 1
        = .ok (0, 0) := by
      simp [Fragment.findIndex, NewFragment, sumSizes, hsize, Fragment.Size, Fragment.Content,
        findIndexLoop]
    have hinner : insertIntoLoop 1 Fragment.zero 0 g none = .ok (some g) := by
      unfold insertIntoLoop
      rw [findIndex_zero]
      have hc1 : Fragment.zero.cut 0 0 = .ok Fragment.zero := by
        simp [Fragment.cut, Fragment.zero]
      have hc2 : Fragment.zero.cut 0 (-1) = .ok Fragment.zero := by
        simp [Fragment.cut, Fragment.zero]
      have hm : Fragment.zero.maybeChild 0 = none := by
        simp [Fragment.maybeChild, Fragment.zero, Fragment.Content]
      simp only [bind, Except.bind, pure, Except.pure, hm, hc1, hc2, zero_append g hg,
        append_zero]
      simp
    unfold Slice.InsertAt insertInto
    have hh : (NewFragment [Node.mk typ attrs marks text Fragment.zero]).height + 1 = 1 + 1 := by
      simp [NewFragment, Fragment.height, heightList, Node.height, Fragment.zero]
    simp only [hh]
    unfold insertIntoLoop
    simp only [show (1 : Int) + 0 = 1 from rfl, hfi]
    have hm : (NewFragment [Node.mk typ attrs marks text Fragment.zero]).maybeChild 0
        = some (Node.mk typ attrs marks text Fragment.zero) := by
      simp [Fragment.maybeChild, NewFragment, Fragment.Content]
    have heq : (Node.mk typ attrs marks text Fragment.zero).eq
        ((Node.mk typ attrs marks text Fragment.zero).copy g) = true →
        Node.mk typ attrs marks text Fragment.zero
          = (Node.mk typ attrs marks text Fragment.zero).copy g := by
      intro h
      unfold Node.eq at h
      have ht2 : typ.isText = false := ht
      simp only [Node.Typ, ht2, Bool.false_eq_true, if_false, Bool.and_eq_true] at h
      have h2 := h.2
      have hgnil : g.Content = [] := by
        cases hgc2 : g.Content with
        | nil => rfl
        | cons x xs =>
          simp only [Node.copy, Node.Content, hgc2, Fragment.zero, Fragment.eqChildren,
            eqList] at h2
          cases h2
      rw [hg (hgc hgnil)]
      rfl
    simp only [bind, Except.bind, pure, Except.pure, hm, ht]
    simp only [show ((0 : Int) = 1) = False from by simp, decide_False, Bool.or_false,
      Bool.false_eq_true, if_false, derefNode, Node.Content,
      show (1 : Int) - 0 - 1 = 0 from rfl, hinner,
      replaceChild_single _ _ heq]

/-- The lemma `cut_prefix` for a fragment given by its fields. -/
theorem cut_prefix_frag (f : Fragment) (hsz : f.SizeOk) (hpos : ∀ c ∈ f.Content, 0 < c.NodeSize)
    (k : Nat) (hk : k ≤ f.Content.length) :
    f.cut 0 (prefixSize f.Content k) = .ok (.mk (prefixSize f.Content k) (f.Content.take k)) := by
  cases f with
  | mk size cs => exact cut_prefix size cs hsz hpos k hk

/-- The lemma `cut_suffix` for a fragment given by its fields. -/
theorem cut_suffix_frag (f : Fragment) (hsz : f.SizeOk) (hpos : ∀ c ∈ f.Content, 0 < c.NodeSize)
    (k : Nat) (hk : k ≤ f.Content.length) :
    f.cut (prefixSize f.Content k) (-1)
      = .ok (.mk (f.Size - prefixSize f.Content k) (f.Content.drop k)) := by
  cases f with
  | mk size cs => exact cut_suffix size cs hsz hpos k hk

/-- Replacing child `i` of the root by one node of the same size, with a closed slice. -/
theorem replace_child_flat (doc : Node) (hsz : doc.Content.SizeOk)
    (hpos : ∀ c ∈ doc.Content.Content, 0 < c.NodeSize)
    (hnt : ∀ c ∈ doc.Content.Content, c.IsText = false) (i : Nat) (c : Node)
    (hc : doc.Content.Content.get? i = some c) (n : Node) (hn : n.IsText = false)
    (hns : n.NodeSize = c.NodeSize)
    (hacc : doc.Typ.CheckContent (.mk doc.Content.Size
      (doc.Content.Content.take i ++ [n] ++ doc.Content.Content.drop (i + 1))) = .ok ()) :
    doc.Replace (prefixSize doc.Content.Content i)
      (prefixSize doc.Content.Content i + c.NodeSize)
      { Content := NewFragment [n], OpenStart := 0, OpenEnd := 0 } =
      .ok (doc.copy (.mk doc.Content.Size
        (doc.Content.Content.take i ++ [n] ++ doc.Content.Content.drop (i + 1)))) := by
  have hil : i < doc.Content.Content.length := by
    rcases Nat.lt_or_ge i doc.Content.Content.length with h | h
    · exact h
    · rw [List.get?_eq_none.mpr h] at hc; cases hc
  have hcpos : 0 < c.NodeSize := hpos c (List.get?_mem hc)
  have hsucc := prefixSize_succ doc.Content.Content i c hc
  unfold Node.Replace
  rw [resolve_at_boundary doc hsz hpos i (le_of_lt hil), ← hsucc,
    resolve_at_boundary doc hsz hpos (i + 1) hil]
  simp only [wrapErr, bind, Except.bind]
  unfold replace
  simp only [gt_iff_lt, lt_self_iff_false, if_false, sub_self, ne_eq, not_true_eq_false]
  unfold replaceOuter
  simp only [List.length_singleton]
  unfold replaceOuterLoop
  simp only [ResolvedPos.Index, ResolvedPos.Node, ResolvedPos.resolveDepth, ResolvedPos.Parent,
    goIndex, bind, Except.bind, pure, Except.pure]
  have hsize : (NewFragment [n]).Size = c.NodeSize := by
    simp [NewFragment, sumSizes, Fragment.Size, hns]
  have hsz0 : ¬ ((NewFragment [n]).Size = 0) := by omega
  simp [hsz0]
  have hnnall : ∀ x ∈ doc.Content.Content, 0 ≤ x.NodeSize := fun x hx => le_of_lt (hpos x hx)
  have hp0 := prefixSize_nonneg doc.Content.Content hnnall i
  have hle := prefixSize_le_total doc.Content.Content hnnall (i + 1)
  have hszeq : doc.Content.Size = (doc.Content.Content.map Node.NodeSize).sum := hsz
  rw [cut_prefix_frag doc.Content hsz hpos i (le_of_lt hil)]
  simp only []
  have happ1 : (Fragment.mk (prefixSize doc.Content.Content i)
      (doc.Content.Content.take i)).append (NewFragment [n])
      = .ok (.mk (prefixSize doc.Content.Content i + (NewFragment [n]).Size)
          (doc.Content.Content.take i ++ [n])) := by
    apply append_concat
    · show prefixSize doc.Content.Content i = 0 ↔ doc.Content.Content.take i = []
      constructor
      · intro h
        have := prefixSize_eq_zero doc.Content.Content hpos i (le_of_lt hil) h
        subst this; rfl
      · intro h
        have : i = 0 := by
          rcases List.take_eq_nil_iff.mp h with h | h
          · exact h
          · rw [h] at hil; simp at hil
        subst this; exact prefixSize_zero _
    · constructor
      · intro h; exact absurd h hsz0
      · intro h; simp [NewFragment, Fragment.Content] at h
    · intro last first hl _
      have hmem : last ∈ doc.Content.Content :=
        List.mem_of_mem_take (List.mem_of_mem_getLast? hl)
      rw [hnt last hmem]; rfl
  rw [happ1]
  simp only []
  rw [cut_suffix_frag doc.Content hsz hpos (i + 1) hil]
  simp only []
  have happ2 : (Fragment.mk (prefixSize doc.Content.Content i + (NewFragment [n]).Size)
      (doc.Content.Content.take i ++ [n])).append
        (.mk (doc.Content.Size - prefixSize doc.Content.Content (i + 1))
          (doc.Content.Content.drop (i + 1)))
      = .ok (.mk (prefixSize doc.Content.Content i + (NewFragment [n]).Size
            + (doc.Content.Size - prefixSize doc.Content.Content (i + 1)))
          (doc.Content.Content.take i ++ [n] ++ doc.Content.Content.drop (i + 1))) := by
    apply append_concat
    · show prefixSize doc.Content.Content i + (NewFragment [n]).Size = 0
        ↔ doc.Content.Content.take i ++ [n] = []
      constructor
      · intro h; exfalso; omega
      · intro h; simp at h
    · show doc.Content.Size - prefixSize doc.Content.Content (i + 1) = 0
        ↔ doc.Content.Content.drop (i + 1) = []
      constructor
      · intro h
        have := prefixSize_eq_total doc.Content.Content hpos (i + 1) hil (by omega)
        rw [this, List.drop_length]
      · intro h
        have hlen : doc.Content.Content.length ≤ i + 1 := List.drop_eq_nil_iff.mp h
        have : i + 1 = doc.Content.Content.length := by omega
        rw [this, prefixSize_length]; omega
    · intro last first hl _
      change (doc.Content.Content.take i ++ [n]).getLast? = some last at hl
      rw [List.getLast?_append] at hl
      simp at hl
      subst hl
      rw [hn]; rfl
  rw [happ2]
  have hsize2 : sumSizes [n] 0 = c.NodeSize := hsize
  simp only [NewFragment]
  change Node.close doc (Fragment.mk (prefixSize doc.Content.Content i + sumSizes [n] 0
      + (doc.Content.Size - prefixSize doc.Content.Content (i + 1))) _) = _
  have hfin : prefixSize doc.Content.Content i + sumSizes [n] 0
      + (doc.Content.Size - prefixSize doc.Content.Content (i + 1)) = doc.Content.Size := by
    omega
  rw [hfin]
  unfold Node.close
  simp only [List.append_assoc, List.singleton_append] at hacc ⊢
  rw [hacc]
  rfl

/-- C20 (amended): for every well-sized document whose children are not text and whose
child `i` is a node `par` that is not a leaf, occupying `[p, p + s)`, and every node `t0`
without content whose type is neither text nor leaf: if the node type of the document
accepts its children with `t0` around the content of `par` in place of `par`, then
`replaceAround{from: p, to: p+s, gapFrom: p+1, gapTo: p+s-1, insert: 1, slice: [t0],
structure: true}` succeeds and yields the same document except that child `i` is `t0`
with the content of `par`. -/
theorem C20_replaceAround_rewraps (dt : NodeType) (da : GoMap AttrValue) (dm : List Mark)
    (dx : GoString) (size : Int) (cs : List Node) (i : Nat) (par t0 : Node)
    (hws : (Fragment.mk size cs).WellSized = true)
    (hnt : ∀ c ∈ cs, c.IsText = false)
    (hi : cs.get? i = some par) (hpl : par.IsLeaf = false)
    (hpe : par.Content.Size = 0 → par.Content.Content = [])
    (ht0 : t0.IsText = false) (ht0l : t0.IsLeaf = false) (ht0c : t0.Content = Fragment.zero)
    (hacc : dt.CheckContent
      (.mk size (cs.take i ++ [t0.copy par.Content] ++ cs.drop (i + 1))) = .ok ()) :
    (rewrapStep (prefixSize cs i) par.NodeSize t0).Apply (Node.mk dt da dm dx (.mk size cs))
      = .ok (Node.mk dt da dm dx
          (.mk size (cs.take i ++ [t0.copy par.Content] ++ cs.drop (i + 1)))) := by
  have hmem : par ∈ cs := List.get?_mem hi
  have hsz : (Fragment.mk size cs).SizeOk := wellSized_sizeOk _ hws
  have hnn : ∀ c ∈ cs, 0 ≤ c.NodeSize := fun c hc => childSize_nonneg _ hws c hc
  have hpos : ∀ c ∈ cs, 0 < c.NodeSize := fun c hc =>
    nodeSize_pos_of_not_text c (hnt c hc) (wellSized_mem _ c hws hc)
  have hpw : par.Content.WellSized = true := wellSized_mem _ par hws hmem
  have hg0 : 0 ≤ par.Content.Size := fragmentSize_nonneg _ hpw
  have hpt : par.IsText = false := hnt par hmem
  have hs : par.NodeSize = 2 + par.Content.Size := by
    unfold Node.NodeSize
    rw [if_neg (by simp [hpt]), if_neg (by simp [hpl])]
  have hgsz : par.Content.SizeOk := wellSized_sizeOk _ hpw
  have hgc : par.Content.Content = [] → par.Content.Size = 0 := by
    intro h
    unfold Fragment.SizeOk at hgsz
    rw [hgsz, h]; rfl
  have hg : par.Content.Size = 0 → par.Content = Fragment.zero := by
    intro hz
    have h1 := hpe hz
    cases hcc : par.Content with
    | mk size2 cs2 =>
      rw [hcc] at hz h1
      change size2 = 0 at hz
      change cs2 = [] at h1
      rw [hz, h1]; rfl
  have e1 : prefixSize cs i + par.NodeSize - 1 = prefixSize cs i + 1 + par.Content.Size := by
    omega
  have e2 : prefixSize cs i + par.NodeSize = prefixSize cs i + 1 + par.Content.Size + 1 := by
    omega
  have hcb1 := contentBetween_open (Node.mk dt da dm dx (.mk size cs)) hsz hpos i par hi hpl
  have hcb2 := contentBetween_close (Node.mk dt da dm dx (.mk size cs)) hsz hnn i par hi hpt
    hg0 hs hpe
  have hsl := slice_gap (Node.mk dt da dm dx (.mk size cs)) hsz hnn i par hi hpt hg0 hs hpe
  have hins := insertAt_wrap t0 par.Content ht0 ht0l ht0c hg hgc
  have hcopyT : (t0.copy par.Content).IsText = false := ht0
  have hcopyS : (t0.copy par.Content).NodeSize = par.NodeSize := by
    rw [hs]
    unfold Node.NodeSize
    have hl2 : (t0.copy par.Content).IsLeaf = false := ht0l
    rw [if_neg (by simp [hcopyT]), if_neg (by simp [hl2])]
    rfl
  have hrep := replace_child_flat (Node.mk dt da dm dx (.mk size cs)) hsz hpos hnt i par hi
    (t0.copy par.Content) hcopyT hcopyS hacc
  change contentBetween _ (prefixSize cs i) (prefixSize cs i + 1) = _ at hcb1
  change contentBetween _ (prefixSize cs i + 1 + par.Content.Size)
    (prefixSize cs i + 1 + par.Content.Size + 1) = _ at hcb2
  change Node.Slice _ (prefixSize cs i + 1) (prefixSize cs i + 1 + par.Content.Size) false = _
    at hsl
  change Node.Replace _ (prefixSize cs i) (prefixSize cs i + par.NodeSize) _ = _ at hrep
  rw [e2] at hrep
  unfold ReplaceAroundStep.Apply rewrapStep
  rw [e1, e2]
  simp only [if_true, hcb1, hcb2, hsl, wrapErr, bind, Except.bind, pure, Except.pure,
    Bool.false_eq_true, if_false, ne_eq, not_true_eq_false, decide_False, Bool.or_self, hins,
    hrep]
  rfl

theorem C20_replaceAround_rewraps_witness :
    (rewrapStep 8 19 (emptyNode codeBlockT)).Apply threeParagraphs =
      .ok (Doc [PText (ascii "Hello "),
        Node.mk codeBlockT [] [] [] (NewFragment [Text (ascii "Man this is epic.")]),
        PText (ascii "Does this still work.")]) :=
  C20_replaceAround_rewraps docT [] [] [] _
    [PText (ascii "Hello "), PText (ascii "Man this is epic."),
      PText (ascii "Does this still work.")] 1 (PText (ascii "Man this is epic."))
    (emptyNode codeBlockT) (by decide) (by decide) rfl (by decide)
    (fun h => absurd h (by decide)) (by decide) (by decide) rfl (by decide)

/-- C20 as stated fails where the node type of the document does not accept the new
node: the content `[text "Crazy"]` of the paragraph of `doc[paragraph["Crazy"]]` is valid
for the node type `title` (content `text*`), which is not in the group `block` that `doc`
accepts, and the step returns the error of `Node.close` instead of a document. -/
theorem C20_counterexample :
    titleT.CheckContent (PText (ascii "Crazy")).Content = .ok () ∧
    errorOf ((rewrapStep 0 7 (emptyNode titleT)).Apply crazyDoc) =
      some (.error "content does not match node type, no content match found") := by
  decide!

/-! ## Schema validity is kept by the building blocks of the replace engine -/

/-- A list is valid when each of its nodes is. -/
theorem validList_iff (l : List Node) : validList l = true ↔ ∀ n ∈ l, n.Valid = true := by
  induction l with
  | nil => simp [validList]
  | cons x rest ih => simp [validList, ih]

/-- A fragment is valid when each of its children is. -/
theorem allValid_iff (f : Fragment) : f.AllValid = true ↔ ∀ n ∈ f.Content, n.Valid = true := by
  cases f with
  | mk size cs => exact validList_iff cs

/-- The children of a valid node are valid. -/
theorem valid_children (n : Node) (h : n.Valid = true) : n.Content.AllValid = true := by
  cases n with
  | mk typ attrs marks text content =>
    simp only [Node.Valid, Bool.and_eq_true] at h
    exact h.2

/-- An element read by `goIndex` is a member of the list. -/
theorem goIndex_mem {α : Type} (xs : List α) (i : Int) (x : α) (h : goIndex xs i = .ok x) :
    x ∈ xs := by
  unfold goIndex at h
  split at h
  · cases h
  · split at h
    · rename_i y hy
      cases h
      exact List.get?_mem hy
    · cases h

/-- A child read by `Child` from valid children is valid. -/
theorem valid_child (n c : Node) (i : Int) (h : n.Content.AllValid = true)
    (hc : n.Child i = .ok c) : c.Valid = true :=
  (allValid_iff n.Content).mp h c (goIndex_mem _ _ _ hc)

/-- Validity does not read the text of a node. -/
theorem valid_withText (n : Node) (s : GoString) (h : n.Valid = true) :
    (n.withText s).Valid = true := by
  unfold Node.withText
  split
  · exact h
  · cases n with
    | mk typ attrs marks text content => exact h

/-- A cut of a valid text node is valid. -/
theorem valid_cut_text (n m : Node) (a b : Int) (ht : n.IsText = true) (h : n.Valid = true)
    (hc : n.cut a b = .ok m) : m.Valid = true := by
  cases n with
  | mk typ attrs marks text content =>
    unfold Node.cut at hc
    simp only [ht, if_true] at hc
    generalize (if b = -1 then (Node.mk typ attrs marks text content).textLen else b) = t at hc
    by_cases hcond : (decide (a = 0) &&
        decide (t = (Node.mk typ attrs marks text content).textLen)) = true
    · rw [if_pos hcond] at hc
      cases hc; exact h
    · rw [if_neg hcond] at hc
      cases hs : goSlice text a t with
      | error e => rw [hs] at hc; cases hc
      | ok s =>
        rw [hs] at hc
        cases hc
        exact valid_withText _ s h

/-- A node made by `close` from valid children is valid and keeps the markup. -/
theorem close_valid (n m : Node) (f : Fragment) (h : n.close f = .ok m)
    (hf : f.AllValid = true) : m.Valid = true ∧ m.Typ = n.Typ ∧ m.Marks = n.Marks := by
  unfold Node.close at h
  cases hcc : n.Typ.CheckContent f with
  | error e => rw [hcc] at h; cases h
  | ok u =>
    rw [hcc] at h
    cases h
    cases n with
    | mk typ attrs marks text content =>
      refine ⟨?_, rfl, rfl⟩
      simp only [Node.copy, Node.Valid, Node.Typ, Bool.and_eq_true, Bool.or_eq_true,
        decide_eq_true_eq]
      simp only [Node.Typ] at hcc
      exact ⟨Or.inr hcc, hf⟩

/-- The fragment made by `NewFragment` is valid when its nodes are. -/
theorem newFragment_valid (l : List Node) (h : validList l = true) :
    (NewFragment l).AllValid = true := h

/-- Appending valid fragments gives a valid fragment. -/
theorem append_valid (f g r : Fragment) (hf : f.AllValid = true) (hg : g.AllValid = true)
    (h : f.append g = .ok r) : r.AllValid = true := by
  unfold Fragment.append at h
  split at h
  · cases h; exact hf
  · split at h
    · cases h; exact hg
    · split at h
      · rename_i last first hl hfst
        have hfv := (allValid_iff f).mp hf
        have hgv := (allValid_iff g).mp hg
        have hlast : last ∈ f.Content := List.mem_of_mem_getLast? hl
        split at h
        · cases h
          rw [allValid_iff]
          intro x hx
          simp only [Fragment.Content, List.mem_append, List.mem_singleton] at hx
          rcases hx with (hx | hx) | hx
          · exact hfv x (List.mem_of_mem_dropLast hx)
          · rw [hx]; exact valid_withText _ _ (hfv last hlast)
          · exact hgv x (List.mem_of_mem_drop hx)
        · cases h
          rw [allValid_iff]
          intro x hx
          simp only [Fragment.Content, List.mem_append] at hx
          rcases hx with hx | hx
          · exact hfv x hx
          · exact hgv x hx
      · cases h

/-- Appending a valid node to valid nodes gives valid nodes. -/
theorem appendNode_valid (content : List Node) (child : Node)
    (hc : ∀ n ∈ content, n.Valid = true) (hn : child.Valid = true) :
    ∀ n ∈ appendNode content child, n.Valid = true := by
  unfold appendNode
  split
  · split
    · intro x hx
      simp only [List.mem_append, List.mem_singleton] at hx
      rcases hx with hx | hx
      · exact hc x (List.mem_of_mem_dropLast hx)
      · rw [hx]; exact valid_withText _ _ hn
    · intro x hx
      simp only [List.mem_append, List.mem_singleton] at hx
      rcases hx with hx | hx
      · exact hc x hx
      · rw [hx]; exact hn
  · intro x hx
    simp only [List.mem_append, List.mem_singleton] at hx
    rcases hx with hx | hx
    · exact hc x hx
    · rw [hx]; exact hn

/-! ## The trace of `resolve` -/

/-- A successful run of the loop of `resolve` leaves the trace of a walk. -/
theorem resolveLoop_walk (fuel : Nat) (node : Node) (r r2 : ResolvedPos) (start : Int)
    (h : resolveLoop fuel node r start = .ok r2) :
    ∃ nodes idxs offs fpo, Walk node r.ParentOffset start nodes idxs offs fpo ∧
      r2 = { r with
        NodePath := r.NodePath ++ node :: nodes
        IndexPath := r.IndexPath ++ idxs
        OffsetPath := r.OffsetPath ++ offs
        ParentOffset := fpo } := by
  induction fuel generalizing node r start with
  | zero => unfold resolveLoop at h; cases h
  | succ fuel ih =>
    unfold resolveLoop at h
    cases hfi : node.Content.findIndex r.ParentOffset with
    | error e => rw [hfi] at h; cases h
    | ok p =>
      obtain ⟨index, offset⟩ := p
      rw [hfi] at h
      simp only [bind, Except.bind, pure, Except.pure] at h
      by_cases hrem : r.ParentOffset - offset = 0
      · rw [if_pos hrem] at h
        cases h
        exact ⟨[], [index], [start + offset], r.ParentOffset,
          Walk.stop node r.ParentOffset start index offset hfi (fun hne => absurd hrem hne), rfl⟩
      · rw [if_neg hrem] at h
        cases hc : node.Child index with
        | error e => rw [hc] at h; cases h
        | ok c =>
          rw [hc] at h
          simp only [] at h
          by_cases ht : c.IsText = true
          · rw [if_pos ht] at h
            cases h
            exact ⟨[], [index], [start + offset], r.ParentOffset,
              Walk.stop node r.ParentOffset start index offset hfi (fun _ => ⟨c, hc, ht⟩), rfl⟩
          · rw [if_neg ht] at h
            obtain ⟨nodes, idxs, offs, fpo, hw, hr⟩ := ih _ _ _ h
            have htf : c.IsText = false := by simpa using ht
            refine ⟨c :: nodes, index :: idxs, (start + offset) :: offs, fpo,
              Walk.step node r.ParentOffset start index offset c nodes idxs offs fpo hfi hrem hc
                htf hw, ?_⟩
            rw [hr]
            simp

/-- A successful `resolve` leaves the trace of a walk from the root. -/
theorem resolve_walk (doc : Node) (pos : Int) (r : ResolvedPos) (h : resolve doc pos = .ok r) :
    ∃ nodes idxs offs, Walk doc pos 0 nodes idxs offs r.ParentOffset ∧
      r.NodePath = doc :: nodes ∧ r.IndexPath = idxs ∧ r.OffsetPath = offs ∧ r.Pos = pos ∧
      r.Depth = (nodes.length : Int) ∧ 0 ≤ pos ∧ pos ≤ doc.Content.Size := by
  unfold resolve at h
  by_cases hb : (decide (pos < 0) || decide (pos > doc.Content.Size)) = true
  · rw [if_pos hb] at h; cases h
  · rw [if_neg hb] at h
    cases hl : resolveLoop doc.height doc { Pos := pos, ParentOffset := pos } 0 with
    | error e => rw [hl] at h; cases h
    | ok r1 =>
      rw [hl] at h
      simp only [bind, Except.bind, pure, Except.pure] at h
      cases h
      obtain ⟨nodes, idxs, offs, fpo, hw, hr⟩ := resolveLoop_walk _ _ _ _ _ hl
      rw [hr]
      simp only [Bool.or_eq_true, decide_eq_true_eq, not_or, not_lt] at hb
      refine ⟨nodes, idxs, offs, hw, by simp, by simp, by simp, rfl, by simp, hb.1, ?_⟩
      have := hb.2
      omega

/-- The lists of a walk have one index and one offset per node, counting the first. -/
theorem walk_lengths (node : Node) (po start : Int) (nodes : List Node) (idxs offs : List Int)
    (fpo : Int) (hw : Walk node po start nodes idxs offs fpo) :
    idxs.length = nodes.length + 1 ∧ offs.length = nodes.length + 1 := by
  induction hw with
  | stop => simp
  | step _ _ _ _ _ _ _ _ _ _ _ _ _ _ _ ih => simp [ih.1, ih.2]

/-- Each node of a walk is the child of the node before it at the recorded index. -/
theorem walk_chain (node : Node) (po start : Int) (nodes : List Node) (idxs offs : List Int)
    (fpo : Int) (hw : Walk node po start nodes idxs offs fpo) (d : Nat) (n c : Node) (i : Int)
    (hn : (node :: nodes).get? d = some n) (hc : (node :: nodes).get? (d + 1) = some c)
    (hi : idxs.get? d = some i) : n.Child i = .ok c := by
  induction hw generalizing d with
  | stop => simp at hc
  | step node po start i0 off c0 nodes idxs offs fpo hfi hrem hc0 ht hrest ih =>
    cases d with
    | zero =>
      simp only [List.get?_cons_zero, List.get?_cons_succ, Option.some.injEq] at hn hc hi
      rw [← hn, ← hc, ← hi]; exact hc0
    | succ d2 =>
      simp only [List.get?_cons_succ] at hn hc hi
      exact ih d2 hn hc hi

/-- The nodes a walk steps into are not text. -/
theorem walk_not_text (node : Node) (po start : Int) (nodes : List Node) (idxs offs : List Int)
    (fpo : Int) (hw : Walk node po start nodes idxs offs fpo) :
    ∀ n ∈ nodes, n.IsText = false := by
  induction hw with
  | stop => simp
  | step node po start i0 off c0 nodes idxs offs fpo hfi hrem hc0 ht hrest ih =>
    intro n hn
    rcases List.mem_cons.mp hn with h | h
    · rw [h]; exact ht
    · exact ih n h

/-- The nodes of a walk from a node with valid children are valid. -/
theorem walk_valid (node : Node) (po start : Int) (nodes : List Node) (idxs offs : List Int)
    (fpo : Int) (hw : Walk node po start nodes idxs offs fpo)
    (hv : node.Content.AllValid = true) : ∀ n ∈ nodes, n.Valid = true := by
  induction hw with
  | stop => simp
  | step node po start i0 off c0 nodes idxs offs fpo hfi hrem hc0 ht hrest ih =>
    have hcv : c0.Valid = true := valid_child node c0 i0 hv hc0
    intro n hn
    rcases List.mem_cons.mp hn with h | h
    · rw [h]; exact hcv
    · exact ih (valid_children c0 hcv) n h

/-- The nodes of a walk from a node with well-sized content have well-sized content. -/
theorem walk_wellSized (node : Node) (po start : Int) (nodes : List Node)
    (idxs offs : List Int) (fpo : Int) (hw : Walk node po start nodes idxs offs fpo)
    (hv : node.Content.WellSized = true) : ∀ n ∈ nodes, n.Content.WellSized = true := by
  induction hw with
  | stop => simp
  | step node po start i0 off c0 nodes idxs offs fpo hfi hrem hc0 ht hrest ih =>
    have hcv : c0.Content.WellSized = true :=
      wellSized_mem node.Content c0 hv (goIndex_mem _ _ _ hc0)
    intro n hn
    rcases List.mem_cons.mp hn with h | h
    · rw [h]; exact hcv
    · exact ih hcv n h

/-- The last level of a walk: the node, index and offset recorded there, and what `findIndex`
returned. -/
theorem walk_last (node : Node) (po start : Int) (nodes : List Node) (idxs offs : List Int)
    (fpo : Int) (hw : Walk node po start nodes idxs offs fpo) :
    ∃ nl il ol off, (node :: nodes).getLast? = some nl ∧ idxs.getLast? = some il ∧
      offs.getLast? = some ol ∧ nl.Content.findIndex fpo = .ok (il, off) ∧
      start + po - ol = fpo - off ∧
      (fpo - off ≠ 0 → ∃ c, nl.Child il = .ok c ∧ c.IsText = true) := by
  induction hw with
  | stop node po start i off hfi htext =>
    exact ⟨node, i, start + off, off, rfl, rfl, rfl, hfi, by ring, htext⟩
  | step node po start i0 off c0 nodes idxs offs fpo hfi hrem hc0 ht hrest ih =>
    obtain ⟨nl, il, ol, off2, h1, h2, h3, h4, h5, h6⟩ := ih
    refine ⟨nl, il, ol, off2, ?_, ?_, ?_, h4, by omega, h6⟩
    · rw [List.getLast?_cons_cons]; exact h1
    · cases idxs with
      | nil => simp at h2
      | cons x xs => rw [List.getLast?_cons_cons]; exact h2
    · cases offs with
      | nil => simp at h3
      | cons x xs => rw [List.getLast?_cons_cons]; exact h3

/-- What a successful `goIndex` read. -/
theorem goIndex_ok {α : Type} (xs : List α) (i : Int) (x : α) (h : goIndex xs i = .ok x) :
    0 ≤ i ∧ xs.get? i.toNat = some x := by
  unfold goIndex at h
  split at h
  · cases h
  · split at h
    · rename_i y hy
      cases h
      exact ⟨by omega, hy⟩
    · cases h

/-- Reading the last index of a list gives its last element. -/
theorem goIndex_last {α : Type} (xs : List α) (x : α) (k : Int)
    (hk : k = (xs.length : Int) - 1) (h : goIndex xs k = .ok x) : xs.getLast? = some x := by
  obtain ⟨h0, hg⟩ := goIndex_ok xs k x h
  have : k.toNat = xs.length - 1 := by omega
  rw [List.getLast?_eq_getElem?, ← List.get?_eq_getElem?, ← this]
  exact hg

/-- A resolved position whose path ends in a walk from a node with valid children is good
from the depth of that node on. -/
theorem good_of_walk (r : ResolvedPos) (pre : List Node) (preI preO : List Int) (inner : Node)
    (nodes : List Node) (idxs offs : List Int) (po start fpo : Int)
    (hN : r.NodePath = pre ++ inner :: nodes) (hI : r.IndexPath = preI ++ idxs)
    (hO : r.OffsetPath = preO ++ offs) (hlI : preI.length = pre.length)
    (hD : r.Depth = (pre.length : Int) + nodes.length)
    (hw : Walk inner po start nodes idxs offs fpo) (hpos : start + po = r.Pos)
    (hv : inner.Content.AllValid = true) : r.Good pre.length := by
  obtain ⟨hli, hlo⟩ := walk_lengths _ _ _ _ _ _ _ hw
  obtain ⟨nl, il, ol, off, h1, h2, h3, h4, h5, h6⟩ := walk_last _ _ _ _ _ _ _ hw
  have hnv := walk_valid _ _ _ _ _ _ _ hw hv
  refine ⟨by omega, ?_, ?_⟩
  · intro d n hk h0 hn
    unfold ResolvedPos.Node ResolvedPos.resolveDepth at hn
    rw [if_neg (by omega), hN] at hn
    obtain ⟨_, hg⟩ := goIndex_ok _ _ _ hn
    have hge : pre.length ≤ d.toNat := by omega
    rw [List.get?_eq_getElem?, List.getElem?_append_right hge] at hg
    have hmem : n ∈ inner :: nodes := List.getElem?_mem hg
    rcases List.mem_cons.mp hmem with h | h
    · rw [h]; exact hv
    · exact valid_children n (hnv n h)
  · intro o p i c ho hne hp hi hc
    have hol : r.OffsetPath.getLast? = some o := goIndex_last _ _ _ rfl ho
    rw [hO, List.getLast?_append, h3] at hol
    simp only [Option.or_some, Option.some.injEq] at hol
    unfold ResolvedPos.Parent ResolvedPos.Node ResolvedPos.resolveDepth at hp
    rw [if_neg (by omega)] at hp
    have hpl : r.NodePath.getLast? = some p :=
      goIndex_last _ _ _ (by rw [hN, hD]; simp; omega) hp
    rw [hN, List.getLast?_append, h1] at hpl
    simp only [Option.or_some, Option.some.injEq] at hpl
    unfold ResolvedPos.Index ResolvedPos.resolveDepth at hi
    rw [if_neg (by omega)] at hi
    have hil : r.IndexPath.getLast? = some i :=
      goIndex_last _ _ _ (by rw [hI, hD]; simp; omega) hi
    rw [hI, List.getLast?_append, h2] at hil
    simp only [Option.or_some, Option.some.injEq] at hil
    subst hol hpl hil
    obtain ⟨c2, hc2, ht2⟩ := h6 (by omega)
    rw [hc] at hc2
    cases hc2
    exact ht2

/-- A position resolved in a document with valid children is good from the root on. -/
theorem good_of_resolve (doc : Node) (pos : Int) (r : ResolvedPos)
    (h : resolve doc pos = .ok r) (hv : doc.Content.AllValid = true) : r.Good 0 := by
  obtain ⟨nodes, idxs, offs, hw, hN, hI, hO, hP, hD, _, _⟩ := resolve_walk doc pos r h
  have := good_of_walk r [] [] [] doc nodes idxs offs pos 0 r.ParentOffset (by simpa using hN)
    (by simpa using hI) (by simpa using hO) rfl (by simpa using hD) hw (by rw [hP]; ring) hv
  simpa using this

/-! ## The fragments built by the replace engine are valid -/

/-- A successful bind ran both of its parts. -/
theorem bind_ok {α β : Type} (x : Except Err α) (f : α → Except Err β) (b : β)
    (h : (x >>= f) = .ok b) : ∃ a, x = .ok a ∧ f a = .ok b := by
  cases x with
  | error e => cases h
  | ok a => exact ⟨a, rfl, h⟩

/-- The parent of a good position has valid children. -/
theorem good_parent (r : ResolvedPos) (k : Int) (hg : r.Good k) (hk : 0 ≤ k) (p : Node)
    (hp : r.Parent = .ok p) : p.Content.AllValid = true :=
  hg.2.1 r.Depth p hg.1 (le_trans hk hg.1) hp

/-- The node after a good position is valid. -/
theorem nodeAfter_valid (r : ResolvedPos) (k : Int) (hg : r.Good k) (hk : 0 ≤ k) (n : Node)
    (h : r.NodeAfter = .ok (some n)) : n.Valid = true := by
  unfold ResolvedPos.NodeAfter at h
  obtain ⟨parent, hp, h⟩ := bind_ok _ _ _ h
  obtain ⟨index, hi, h⟩ := bind_ok _ _ _ h
  have hpv := good_parent r k hg hk parent hp
  by_cases hidx : index = parent.ChildCount
  · rw [if_pos hidx] at h; cases h
  · rw [if_neg hidx] at h
    obtain ⟨o, ho, h⟩ := bind_ok _ _ _ h
    dsimp only at h
    by_cases hne : r.Pos - o ≠ 0
    · rw [if_pos hne] at h
      obtain ⟨c, hc, h⟩ := bind_ok _ _ _ h
      obtain ⟨m, hm, h⟩ := bind_ok _ _ _ h
      have hmn : m = n := by cases h; rfl
      rw [← hmn]
      have hct := hg.2.2 o parent index c ho hne hp hi hc
      exact valid_cut_text c m _ _ hct (valid_child parent c index hpv hc) hm
    · rw [if_neg hne] at h
      obtain ⟨c, hc, h⟩ := bind_ok _ _ _ h
      have hmn : c = n := by cases h; rfl
      rw [← hmn]
      exact valid_child parent c index hpv hc

/-- The node before a good position is valid. -/
theorem nodeBefore_valid (r : ResolvedPos) (k : Int) (hg : r.Good k) (hk : 0 ≤ k) (n : Node)
    (h : r.NodeBefore = .ok (some n)) : n.Valid = true := by
  unfold ResolvedPos.NodeBefore at h
  obtain ⟨index, hi, h⟩ := bind_ok _ _ _ h
  obtain ⟨o, ho, h⟩ := bind_ok _ _ _ h
  dsimp only at h
  by_cases hne : r.Pos - o ≠ 0
  · rw [if_pos hne] at h
    obtain ⟨parent, hp, h⟩ := bind_ok _ _ _ h
    obtain ⟨c, hc, h⟩ := bind_ok _ _ _ h
    obtain ⟨m, hm, h⟩ := bind_ok _ _ _ h
    have hmn : m = n := by cases h; rfl
    rw [← hmn]
    have hpv := good_parent r k hg hk parent hp
    have hct := hg.2.2 o parent index c ho hne hp hi hc
    exact valid_cut_text c m _ _ hct (valid_child parent c index hpv hc) hm
  · rw [if_neg hne] at h
    by_cases hz : index = 0
    · rw [if_pos hz] at h; cases h
    · rw [if_neg hz] at h
      obtain ⟨parent, hp, h⟩ := bind_ok _ _ _ h
      obtain ⟨c, hc, h⟩ := bind_ok _ _ _ h
      have hmn : c = n := by cases h; rfl
      rw [← hmn]
      have hpv := good_parent r k hg hk parent hp
      exact valid_child parent c _ hpv hc

/-- The loop of `appendRange` adds valid nodes when the node it reads has valid
children. -/
theorem appendRangeLoop_valid (node : Node) (hnode : node.Content.AllValid = true)
    (fuel : Nat) (content : List Node) (i endIndex : Int) (res : List Node)
    (hc : ∀ n ∈ content, n.Valid = true)
    (h : appendRangeLoop node fuel content i endIndex = .ok res) :
    ∀ n ∈ res, n.Valid = true := by
  induction fuel generalizing content i with
  | zero => unfold appendRangeLoop at h; cases h; exact hc
  | succ fuel ih =>
    unfold appendRangeLoop at h
    split at h
    · obtain ⟨c, hcc, h⟩ := bind_ok _ _ _ h
      exact ih _ _ (appendNode_valid content c hc (valid_child node c i hnode hcc)) h
    · cases h; exact hc

/-- A successful `pure` followed by a bind ran the continuation on the value. -/
theorem pure_bind_ok {α β : Type} (a : α) (f : α → Except Err β) (b : β)
    (h : ((pure a : Except Err α) >>= f) = .ok b) : f a = .ok b := h

/-- The last part of `appendRange` without an end position. -/
theorem appendRange_tail_none (node : Node) (hnode : node.Content.AllValid = true)
    (endIndex : Int) (y : List Node × Int) (res : List Node)
    (hc : ∀ n ∈ y.1, n.Valid = true)
    (h : (do
      let content ← appendRangeLoop node (endIndex - y.2).toNat y.1 y.2 endIndex
      pure content) = .ok res) : ∀ n ∈ res, n.Valid = true := by
  obtain ⟨c3, hloop, h⟩ := bind_ok _ _ _ h
  have h3 := appendRangeLoop_valid node hnode _ _ _ _ c3 hc hloop
  have : c3 = res := by cases h; rfl
  rw [← this]; exact h3

/-- The last part of `appendRange` with an end position. -/
theorem appendRange_tail_some (node : Node) (hnode : node.Content.AllValid = true)
    (e : ResolvedPos) (k depth : Int) (hg : e.Good k) (hk : 0 ≤ k)
    (endIndex : Int) (y : List Node × Int) (res : List Node)
    (hc : ∀ n ∈ y.1, n.Valid = true)
    (h : (do
      let content ← appendRangeLoop node (endIndex - y.2).toNat y.1 y.2 endIndex
      if e.Depth = depth then do
          let t ← e.TextOffset
          if t = true then do
              let before ← e.NodeBefore
              let n ← derefNode before
              pure (appendNode content n)
            else pure content
        else pure content) = .ok res) : ∀ n ∈ res, n.Valid = true := by
  obtain ⟨c3, hloop, h⟩ := bind_ok _ _ _ h
  have h3 := appendRangeLoop_valid node hnode _ _ _ _ c3 hc hloop
  by_cases hdep : e.Depth = depth
  · rw [if_pos hdep] at h
    obtain ⟨t, ht, h⟩ := bind_ok _ _ _ h
    by_cases htt : t = true
    · rw [if_pos htt] at h
      obtain ⟨before, hb, h⟩ := bind_ok _ _ _ h
      obtain ⟨n, hn, hjp⟩ := bind_ok _ _ _ h
      clear h
      have : appendNode c3 n = res := by cases hjp; rfl
      rw [← this]
      cases before with
      | none => cases hn
      | some b =>
        have hbn : b = n := by cases hn; rfl
        rw [hbn] at hb
        exact appendNode_valid c3 n h3 (nodeBefore_valid e k hg hk n hb)
    · rw [if_neg htt] at h
      have : c3 = res := by cases h; rfl
      rw [← this]; exact h3
  · rw [if_neg hdep] at h
    have : c3 = res := by cases h; rfl
    rw [← this]; exact h3

/-- The first part of `appendRange` with a start position: the content and the index the
rest of the function goes on with. -/
theorem appendRange_start (s : ResolvedPos) (k depth : Int) (hg : s.Good k) (hk : 0 ≤ k)
    (content : List Node) (hc : ∀ n ∈ content, n.Valid = true)
    (jp : List Node × Int → Except Err (List Node)) (res : List Node)
    (h : (do
      let startIndex ← s.Index depth
      if s.Depth > depth then do
          let y ← pure (content, startIndex + 1)
          jp y
        else do
          let t ← s.TextOffset
          if t = true then do
              let after ← s.NodeAfter
              let n ← derefNode after
              let y ← pure (appendNode content n, startIndex + 1)
              jp y
            else do
              let y ← pure (content, startIndex)
              jp y) = .ok res) :
    ∃ y : List Node × Int, (∀ n ∈ y.1, n.Valid = true) ∧ jp y = .ok res := by
  obtain ⟨si, hsi, h⟩ := bind_ok _ _ _ h
  by_cases hdep : s.Depth > depth
  · rw [if_pos hdep] at h
    exact ⟨(content, si + 1), hc, pure_bind_ok _ _ _ h⟩
  · rw [if_neg hdep] at h
    obtain ⟨t, ht, h⟩ := bind_ok _ _ _ h
    by_cases htt : t = true
    · rw [if_pos htt] at h
      obtain ⟨after, ha, h⟩ := bind_ok _ _ _ h
      obtain ⟨n, hn, hjp⟩ := bind_ok _ _ _ h
      clear h
      cases after with
      | none => cases hn
      | some b =>
        have hbn : b = n := by cases hn; rfl
        rw [hbn] at ha
        exact ⟨(appendNode content n, si + 1),
          appendNode_valid content n hc (nodeAfter_valid s k hg hk n ha),
          pure_bind_ok _ _ _ hjp⟩
    · rw [if_neg htt] at h
      exact ⟨(content, si), hc, pure_bind_ok _ _ _ h⟩

/-- The nodes `appendRange` returns are valid when it reads good positions. -/
theorem appendRange_valid (content : List Node) (start end_ : Option ResolvedPos) (depth : Int)
    (res : List Node) (hd : 0 ≤ depth) (hc : ∀ n ∈ content, n.Valid = true)
    (hs : ∀ s, start = some s → ∃ k, s.Good k ∧ 0 ≤ k ∧ k ≤ depth)
    (he : ∀ e, end_ = some e → ∃ k, e.Good k ∧ 0 ≤ k ∧ k ≤ depth)
    (h : appendRange content start end_ depth = .ok res) : ∀ n ∈ res, n.Valid = true := by
  unfold appendRange at h
  cases start with
  | none =>
    cases end_ with
    | none =>
      dsimp only at h
      have h1 := pure_bind_ok _ _ _ h
      have h2 := pure_bind_ok _ _ _ h1
      have h3 := pure_bind_ok _ _ _ h2
      exact appendRange_tail_none _ (by decide) _ (content, 0) res hc h3
    | some e =>
      dsimp only at h
      obtain ⟨k, hg, hk, hkd⟩ := he e rfl
      obtain ⟨node, hn, h⟩ := bind_ok _ _ _ h
      obtain ⟨ei, hei, h⟩ := bind_ok _ _ _ h
      have h3 := pure_bind_ok _ _ _ h
      exact appendRange_tail_some node (hg.2.1 depth node hkd hd hn) e k depth hg hk ei
        (content, 0) res hc h3
  | some s =>
    obtain ⟨k, hg, hk, hkd⟩ := hs s rfl
    cases end_ with
    | none =>
      dsimp only at h
      obtain ⟨node, hn, h⟩ := bind_ok _ _ _ h
      have h1 := pure_bind_ok _ _ _ h
      obtain ⟨y, hy, h2⟩ := appendRange_start s k depth hg hk content hc _ res h1
      exact appendRange_tail_none node (hg.2.1 depth node hkd hd hn) _ y res hy h2
    | some e =>
      dsimp only at h
      obtain ⟨k2, hg2, hk2, hkd2⟩ := he e rfl
      obtain ⟨node, hn, h⟩ := bind_ok _ _ _ h
      obtain ⟨ei, hei, h⟩ := bind_ok _ _ _ h
      obtain ⟨y, hy, h2⟩ := appendRange_start s k depth hg hk content hc _ res h
      exact appendRange_tail_some node (hg.2.1 depth node hkd hd hn) e k2 depth hg2 hk2 ei y
        res hy h2

/-- The fragment `replaceTwoWay` returns is valid when it reads good positions. -/
theorem replaceTwoWayLoop_valid (fuel : Nat) (from_ to_ : ResolvedPos) (depth : Int)
    (res : Fragment) (kf kt : Int) (hgf : from_.Good kf) (hgt : to_.Good kt)
    (hkf : 0 ≤ kf) (hkt : 0 ≤ kt) (hdf : kf ≤ depth) (hdt : kt ≤ depth)
    (h : replaceTwoWayLoop fuel from_ to_ depth = .ok res) : res.AllValid = true := by
  induction fuel generalizing depth res with
  | zero => unfold replaceTwoWayLoop at h; cases h
  | succ fuel ih =>
    unfold replaceTwoWayLoop at h
    have hd : 0 ≤ depth := le_trans hkf hdf
    obtain ⟨c1, h1, h⟩ := bind_ok _ _ _ h
    have hv1 := appendRange_valid [] none (some from_) depth c1 hd (by simp)
      (by intro s hs; cases hs)
      (by intro e he; cases he; exact ⟨kf, hgf, hkf, hdf⟩) h1
    have htail : ∀ c2 : List Node, (∀ n ∈ c2, n.Valid = true) →
        (do
          let content ← appendRange c2 (some to_) none depth
          pure (NewFragment content)) = Except.ok res → res.AllValid = true := by
      intro c2 hv2 h
      obtain ⟨c3, h3, h⟩ := bind_ok _ _ _ h
      have hv3 := appendRange_valid c2 (some to_) none depth c3 hd hv2
        (by intro s hs; cases hs; exact ⟨kt, hgt, hkt, hdt⟩)
        (by intro e he; cases he) h3
      have : NewFragment c3 = res := by cases h; rfl
      rw [← this]
      exact newFragment_valid c3 ((validList_iff c3).mpr hv3)
    dsimp only at h
    by_cases hdep : from_.Depth > depth
    · rw [if_pos hdep] at h
      obtain ⟨nt, hnt, h⟩ := bind_ok _ _ _ h
      obtain ⟨r, hr, h⟩ := bind_ok _ _ _ h
      obtain ⟨node, hnode, h⟩ := bind_ok _ _ _ h
      have hrv := ih (depth + 1) r (by omega) (by omega) hr
      have hnv := (close_valid nt node r hnode hrv).1
      exact htail _ (appendNode_valid c1 node hv1 hnv) (pure_bind_ok _ _ _ h)
    · rw [if_neg hdep] at h
      exact htail _ hv1 (pure_bind_ok _ _ _ h)

/-- The fragment `replaceThreeWay` returns is valid: `from_` and `to_` are good positions
of the document, `start` and `end_` are good from depth `x` on, and above depth `x` they
share their indices. -/
theorem replaceThreeWayLoop_valid (fuel : Nat) (from_ start end_ to_ : ResolvedPos)
    (depth : Int) (res : Fragment) (x : Int) (hgf : from_.Good 0) (hgt : to_.Good 0)
    (hgs : start.Good x) (hge : end_.Good x) (hx : 0 ≤ x)
    (hxf : x ≤ from_.Depth) (hxt : x ≤ to_.Depth)
    (hidx : ∀ d a b, 0 ≤ d → d < x → start.Index d = .ok a → end_.Index d = .ok b → a = b)
    (hd : 0 ≤ depth)
    (h : replaceThreeWayLoop fuel from_ start end_ to_ depth = .ok res) :
    res.AllValid = true := by
  induction fuel generalizing depth res with
  | zero => unfold replaceThreeWayLoop at h; cases h
  | succ fuel ih =>
    have hD : ∀ content : List Node, (∀ n ∈ content, n.Valid = true) →
        (do
          let content ← appendRange content (some to_) none depth
          pure (NewFragment content)) = Except.ok res → res.AllValid = true := by
      intro c2 hv2 h
      obtain ⟨c3, h3, h⟩ := bind_ok _ _ _ h
      have hv3 := appendRange_valid c2 (some to_) none depth c3 hd hv2
        (by intro s hs; cases hs; exact ⟨0, hgt, le_refl _, hd⟩)
        (by intro e he; cases he) h3
      have : NewFragment c3 = res := by cases h; rfl
      rw [← this]
      exact newFragment_valid c3 ((validList_iff c3).mpr hv3)
    have hA : ∀ (os : Node) (content : List Node) (r : Fragment) (node : Node), x ≤ depth →
        (∀ n ∈ content, n.Valid = true) → replaceTwoWay from_ start (depth + 1) = .ok r →
        os.close r = .ok node → ∀ n ∈ appendNode content node, n.Valid = true := by
      intro os content r node hxd hc hr hn
      have hrv := replaceTwoWayLoop_valid _ from_ start (depth + 1) r 0 x hgf hgs (le_refl _) hx
        (by omega) (by omega) hr
      exact appendNode_valid content node hc (close_valid os node r hn hrv).1
    have hC : ∀ (oe : Node) (content : List Node) (r : Fragment) (node : Node), x ≤ depth →
        (∀ n ∈ content, n.Valid = true) → replaceTwoWay end_ to_ (depth + 1) = .ok r →
        oe.close r = .ok node → ∀ n ∈ appendNode content node, n.Valid = true := by
      intro oe content r node hxd hc hr hn
      have hrv := replaceTwoWayLoop_valid _ end_ to_ (depth + 1) r x 0 hge hgt hx (le_refl _)
        (by omega) (by omega) hr
      exact appendNode_valid content node hc (close_valid oe node r hn hrv).1
    have hB : ∀ (content c2 : List Node), x ≤ depth → (∀ n ∈ content, n.Valid = true) →
        appendRange content (some start) (some end_) depth = .ok c2 →
        ∀ n ∈ c2, n.Valid = true := by
      intro content c2 hxd hc hr
      exact appendRange_valid content (some start) (some end_) depth c2 hd hc
        (by intro s hs; cases hs; exact ⟨x, hgs, hx, hxd⟩)
        (by intro e he; cases he; exact ⟨x, hge, hx, hxd⟩) hr
    have hthin : ∀ (os oe : Node) (content : List Node), (∀ n ∈ content, n.Valid = true) →
        (do
          checkJoin os oe
          let r ← replaceThreeWayLoop fuel from_ start end_ to_ (depth + 1)
          let node ← os.close r
          let content ← appendRange (appendNode content node) (some to_) none depth
          pure (NewFragment content)) = Except.ok res → res.AllValid = true := by
      intro os oe content hc h
      obtain ⟨_, _, h⟩ := bind_ok _ _ _ h
      obtain ⟨r, hr, h⟩ := bind_ok _ _ _ h
      obtain ⟨node, hn, h⟩ := bind_ok _ _ _ h
      have hrv := ih (depth + 1) r (by omega) hr
      exact hD _ (appendNode_valid content node hc (close_valid os node r hn hrv).1) h
    unfold replaceThreeWayLoop at h
    try dsimp only at h
    by_cases hf : from_.Depth > depth
    · rw [if_pos hf] at h
      obtain ⟨os, hos, h⟩ := bind_ok _ _ _ h
      have h := pure_bind_ok _ _ _ h
      try dsimp only at h
      by_cases ht : to_.Depth > depth
      · rw [if_pos ht] at h
        obtain ⟨oe, hoe, h⟩ := bind_ok _ _ _ h
        have h := pure_bind_ok _ _ _ h
        try dsimp only at h
        obtain ⟨c1, h1, h⟩ := bind_ok _ _ _ h
        have hv1 := appendRange_valid [] none (some from_) depth c1 hd (by simp)
          (by intro s hs; cases hs)
          (by intro e he; cases he; exact ⟨0, hgf, le_refl _, hd⟩) h1
        try dsimp only at h
        obtain ⟨si, hsi, h⟩ := bind_ok _ _ _ h
        obtain ⟨ei, hei, h⟩ := bind_ok _ _ _ h
        have h := pure_bind_ok _ _ _ h
        try dsimp only at h
        by_cases hse : si = ei
        · simp only [hse, decide_True] at h
          exact hthin os oe c1 hv1 h
        · simp only [hse, decide_False] at h
          have hxd : x ≤ depth := by
            by_contra hlt
            exact hse (hidx depth si ei hd (by omega) hsi hei)
          obtain ⟨r, hr, h⟩ := bind_ok _ _ _ h
          obtain ⟨node, hn, h⟩ := bind_ok _ _ _ h
          have h := pure_bind_ok _ _ _ h
          try dsimp only at h
          have hv2 := hA os c1 r node hxd hv1 hr hn
          obtain ⟨c3, h3, h⟩ := bind_ok _ _ _ h
          have hv3 := hB _ c3 hxd hv2 h3
          obtain ⟨r2, hr2, h⟩ := bind_ok _ _ _ h
          obtain ⟨node2, hn2, h⟩ := bind_ok _ _ _ h
          have h := pure_bind_ok _ _ _ h
          try dsimp only at h
          exact hD _ (hC oe c3 r2 node2 hxd hv3 hr2 hn2) h
      · rw [if_neg ht] at h
        have hxd : x ≤ depth := by omega
        have h := pure_bind_ok _ _ _ h
        try dsimp only at h
        obtain ⟨c1, h1, h⟩ := bind_ok _ _ _ h
        have hv1 := appendRange_valid [] none (some from_) depth c1 hd (by simp)
          (by intro s hs; cases hs)
          (by intro e he; cases he; exact ⟨0, hgf, le_refl _, hd⟩) h1
        try dsimp only at h
        have h := pure_bind_ok _ _ _ h
        try dsimp only at h
        try dsimp only at h
        obtain ⟨r, hr, h⟩ := bind_ok _ _ _ h
        obtain ⟨node, hn, h⟩ := bind_ok _ _ _ h
        have h := pure_bind_ok _ _ _ h
        try dsimp only at h
        have hv2 := hA os c1 r node hxd hv1 hr hn
        obtain ⟨c3, h3, h⟩ := bind_ok _ _ _ h
        have hv3 := hB _ c3 hxd hv2 h3
        have h := pure_bind_ok _ _ _ h
        try dsimp only at h
        exact hD _ hv3 h
    · rw [if_neg hf] at h
      have hxd : x ≤ depth := by omega
      have h := pure_bind_ok _ _ _ h
      try dsimp only at h
      by_cases ht : to_.Depth > depth
      · rw [if_pos ht] at h
        obtain ⟨oe, hoe, h⟩ := bind_ok _ _ _ h
        have h := pure_bind_ok _ _ _ h
        try dsimp only at h
        obtain ⟨c1, h1, h⟩ := bind_ok _ _ _ h
        have hv1 := appendRange_valid [] none (some from_) depth c1 hd (by simp)
          (by intro s hs; cases hs)
          (by intro e he; cases he; exact ⟨0, hgf, le_refl _, hd⟩) h1
        try dsimp only at h
        have h := pure_bind_ok _ _ _ h
        try dsimp only at h
        try dsimp only at h
        have h := pure_bind_ok _ _ _ h
        try dsimp only at h
        obtain ⟨c3, h3, h⟩ := bind_ok _ _ _ h
        have hv3 := hB _ c3 hxd hv1 h3
        obtain ⟨r2, hr2, h⟩ := bind_ok _ _ _ h
        obtain ⟨node2, hn2, h⟩ := bind_ok _ _ _ h
        have h := pure_bind_ok _ _ _ h
        try dsimp only at h
        exact hD _ (hC oe c3 r2 node2 hxd hv3 hr2 hn2) h
      · rw [if_neg ht] at h
        have h := pure_bind_ok _ _ _ h
        try dsimp only at h
        obtain ⟨c1, h1, h⟩ := bind_ok _ _ _ h
        have hv1 := appendRange_valid [] none (some from_) depth c1 hd (by simp)
          (by intro s hs; cases hs)
          (by intro e he; cases he; exact ⟨0, hgf, le_refl _, hd⟩) h1
        try dsimp only at h
        have h := pure_bind_ok _ _ _ h
        try dsimp only at h
        try dsimp only at h
        have h := pure_bind_ok _ _ _ h
        try dsimp only at h
        obtain ⟨c3, h3, h⟩ := bind_ok _ _ _ h
        have hv3 := hB _ c3 hxd hv1 h3
        have h := pure_bind_ok _ _ _ h
        try dsimp only at h
        exact hD _ hv3 h

/-! ## Cuts at resolved positions keep validity -/

/-- The offsets of the children after the first, counted from the end of the first. -/
theorem atomicAt_tail (c : Node) (rest : List Node) (p : Int) (h : AtomicAt (c :: rest) p) :
    AtomicAt rest (p - c.NodeSize) := by
  intro j x hx h1 h2
  apply h (j + 1) x (by simpa using hx)
  · rw [prefixSize_succ_cons]; omega
  · rw [prefixSize_succ_cons]; omega

/-- The loop of `cut` returns valid nodes when both cut points fall on boundaries or inside
text. -/
theorem cutLoop_valid (cs : List Node) (pos from_ to_ : Int) (res : List Node × Int)
    (hv : ∀ n ∈ cs, n.Valid = true)
    (hf : AtomicAt cs (from_ - pos)) (ht : AtomicAt cs (to_ - pos))
    (h : cutLoop cs pos from_ to_ = .ok res) : ∀ n ∈ res.1, n.Valid = true := by
  induction cs generalizing pos res with
  | nil =>
    unfold cutLoop at h
    split at h
    · cases h
    · cases h; simp
  | cons child rest ih =>
    have hrest : ∀ n ∈ rest, n.Valid = true := fun n hn => hv n (List.mem_cons_of_mem _ hn)
    have hchild : child.Valid = true := hv child (List.mem_cons_self _ _)
    have hf2 : AtomicAt rest (from_ - (pos + child.NodeSize)) := by
      have := atomicAt_tail child rest _ hf
      have e : from_ - pos - child.NodeSize = from_ - (pos + child.NodeSize) := by ring
      rw [e] at this; exact this
    have ht2 : AtomicAt rest (to_ - (pos + child.NodeSize)) := by
      have := atomicAt_tail child rest _ ht
      have e : to_ - pos - child.NodeSize = to_ - (pos + child.NodeSize) := by ring
      rw [e] at this; exact this
    unfold cutLoop at h
    by_cases hlt : pos < to_
    · rw [if_pos hlt] at h
      dsimp only at h
      by_cases hskip : pos + child.NodeSize ≤ from_
      · rw [if_pos hskip] at h
        exact ih _ _ hrest hf2 ht2 h
      · rw [if_neg hskip] at h
        have htailv : ∀ child2 : Node, child2.Valid = true →
            (do
              let d ← cutLoop rest (pos + child.NodeSize) from_ to_
              pure (child2 :: d.1, child2.NodeSize + d.2)) = Except.ok res →
            ∀ n ∈ res.1, n.Valid = true := by
          intro child2 hc2v h
          obtain ⟨d, hr, h⟩ := bind_ok _ _ _ h
          have hres : res = (child2 :: d.1, child2.NodeSize + d.2) := by cases h; rfl
          have hrv := ih _ _ hrest hf2 ht2 hr
          rw [hres]
          intro n hn
          rcases List.mem_cons.mp hn with hn | hn
          · rw [hn]; exact hc2v
          · exact hrv n hn
        by_cases hcond : (decide (pos < from_) || decide (pos + child.NodeSize > to_)) = true
        · rw [if_pos hcond] at h
          have htext : child.IsText = true := by
            simp only [Bool.or_eq_true, decide_eq_true_eq] at hcond
            rcases hcond with hc | hc
            · exact hf 0 child rfl (by rw [prefixSize_zero]; omega)
                (by rw [prefixSize_succ_cons, prefixSize_zero]; omega)
            · exact ht 0 child rfl (by rw [prefixSize_zero]; omega)
                (by rw [prefixSize_succ_cons, prefixSize_zero]; omega)
          rw [if_pos htext] at h
          obtain ⟨child2, hc2, h⟩ := bind_ok _ _ _ h
          exact htailv child2 (valid_cut_text child child2 _ _ htext hchild hc2) h
        · rw [if_neg hcond] at h
          exact htailv child hchild (pure_bind_ok _ _ _ h)
    · rw [if_neg hlt] at h
      cases h; simp

/-- A cut of a valid fragment at points that fall on boundaries or inside text is valid. -/
theorem cut_valid (f g : Fragment) (from_ to_ : Int) (hv : f.AllValid = true)
    (hf : AtomicAt f.Content from_)
    (ht : AtomicAt f.Content (if to_ = -1 then f.Size else to_))
    (h : f.cut from_ to_ = .ok g) : g.AllValid = true := by
  cases f with
  | mk size cs =>
    unfold Fragment.cut at h
    dsimp only at h
    change AtomicAt cs from_ at hf
    change AtomicAt cs (if to_ = -1 then size else to_) at ht
    generalize (if to_ = -1 then size else to_) = t at h ht
    by_cases hall : (decide (from_ = 0) && decide (t = size)) = true
    · rw [if_pos hall] at h
      cases h; exact hv
    · rw [if_neg hall] at h
      by_cases hle : t ≤ from_
      · rw [if_pos hle] at h
        cases h; rfl
      · rw [if_neg hle] at h
        obtain ⟨⟨result, sz⟩, hr, h⟩ := bind_ok _ _ _ h
        have hres : g = .mk sz result := by cases h; rfl
        rw [hres]
        have := cutLoop_valid cs 0 from_ t (result, sz) ((validList_iff cs).mp hv)
          (by simpa using hf) (by simpa using ht) hr
        exact (validList_iff result).mpr this

/-- No child lies strictly around the start or the end of a well-sized fragment. -/
theorem atomicAt_ends (f : Fragment) (hw : f.WellSized = true) :
    AtomicAt f.Content 0 ∧ AtomicAt f.Content f.Size := by
  have hnn : ∀ c ∈ f.Content, 0 ≤ c.NodeSize := fun c hc => childSize_nonneg f hw c hc
  have hsz : f.Size = (f.Content.map Node.NodeSize).sum := wellSized_sizeOk f hw
  constructor
  · intro j c _ h1 _
    have := prefixSize_nonneg f.Content hnn j
    omega
  · intro j c _ _ h2
    have := prefixSize_le_total f.Content hnn (j + 1)
    omega

/-- A position that `findIndex` places on a boundary or inside a text child does not fall
inside any other child. -/
theorem atomicAt_of_findIndex (f : Fragment) (hw : f.WellSized = true) (p i off : Int)
    (hfi : f.findIndex p = .ok (i, off))
    (htext : p - off ≠ 0 → ∃ c, f.Child i = .ok c ∧ c.IsText = true) :
    AtomicAt f.Content p := by
  have hnn : ∀ c ∈ f.Content, 0 ≤ c.NodeSize := fun c hc => childSize_nonneg f hw c hc
  have hsz : f.SizeOk := wellSized_sizeOk f hw
  have hs0 : 0 ≤ f.Size := fragmentSize_nonneg f hw
  have hrange : 0 ≤ p ∧ p ≤ f.Size := by
    unfold Fragment.findIndex at hfi
    by_cases h0 : p = 0
    · omega
    · rw [if_neg h0] at hfi
      by_cases h1 : p = f.Size
      · omega
      · rw [if_neg h1] at hfi
        by_cases h2 : (decide (p > f.Size) || decide (p < 0)) = true
        · rw [if_pos h2] at hfi; cases hfi
        · simp only [Bool.or_eq_true, decide_eq_true_eq, not_or, not_lt] at h2
          omega
  obtain ⟨k, off2, hfi2, hkl, hoff, hcase⟩ := findIndex_spec f p hsz hrange.1 hrange.2
  rw [hfi] at hfi2
  have hik : i = (k : Int) := by cases hfi2; rfl
  have hoo : off = off2 := by cases hfi2; rfl
  intro j c hc h1 h2
  rcases hcase with heq | ⟨c2, hc2, h3, h4⟩
  · exfalso
    rcases Nat.lt_or_ge j k with hjk | hjk
    · have := prefixSize_mono f.Content hnn (j + 1) k (by omega)
      omega
    · have := prefixSize_mono f.Content hnn k j hjk
      omega
  · have hs2 := prefixSize_succ f.Content k c2 hc2
    have hjk : j = k := by
      rcases Nat.lt_trichotomy j k with hjk | hjk | hjk
      · exfalso
        have := prefixSize_mono f.Content hnn (j + 1) k (by omega)
        omega
      · exact hjk
      · exfalso
        have := prefixSize_mono f.Content hnn (k + 1) j (by omega)
        omega
    obtain ⟨c3, hc3, ht3⟩ := htext (by omega)
    rw [hik] at hc3
    have hc3g := (goIndex_ok _ _ _ hc3).2
    simp only [Int.toNat_ofNat] at hc3g
    rw [hjk] at hc
    rw [hc] at hc3g
    cases hc3g
    exact ht3

/-! ## `CheckContent` reads the types and marks of the children only -/

/-- Reading a mapped list gives the image of the element read. -/
theorem goIndex_map {α β : Type} (g : α → β) (xs : List α) (i : Int) :
    goIndex (xs.map g) i = (goIndex xs i).map g := by
  unfold goIndex
  by_cases h : i < 0
  · simp [h, Except.map]
  · simp only [h, if_false, List.get?_eq_getElem?, List.getElem?_map]
    cases xs[i.toNat]? <;> simp [Except.map]

/-- The loop of `matchFragment` reads the node types of the children only. -/
theorem matchFragmentLoop_congr (store : List ContentMatch) (fuel : Nat)
    (cur : Option ContentMatch) (f g : Fragment) (i end_ : Int)
    (hT : f.Content.map Node.Typ = g.Content.map Node.Typ) :
    matchFragmentLoop store fuel cur f i end_ = matchFragmentLoop store fuel cur g i end_ := by
  induction fuel generalizing cur i with
  | zero => unfold matchFragmentLoop; rfl
  | succ fuel ih =>
    unfold matchFragmentLoop
    cases cur with
    | none => rfl
    | some c =>
      dsimp only
      by_cases hi : i < end_
      · rw [if_pos hi, if_pos hi]
        have h1 := goIndex_map Node.Typ f.Content i
        have h2 := goIndex_map Node.Typ g.Content i
        rw [hT] at h1
        rw [h1] at h2
        unfold Fragment.Child
        cases hf : goIndex f.Content i with
        | error e =>
          cases hg : goIndex g.Content i with
          | error e2 =>
            rw [hf, hg] at h2
            simp only [Except.map] at h2
            cases h2; rfl
          | ok b => rw [hf, hg] at h2; simp [Except.map] at h2
        | ok a =>
          cases hg : goIndex g.Content i with
          | error e2 => rw [hf, hg] at h2; simp [Except.map] at h2
          | ok b =>
            rw [hf, hg] at h2
            simp only [Except.map, Except.ok.injEq] at h2
            simp only [bind, Except.bind]
            rw [h2]
            exact ih _ _
      · rw [if_neg hi, if_neg hi]

/-- The loop over the marks in `CheckContent` reads the marks of the children only. -/
theorem checkMarksLoop_congr (n : NodeType) (cs ds : List Node)
    (hM : cs.map Node.Marks = ds.map Node.Marks) : checkMarksLoop n cs = checkMarksLoop n ds := by
  induction cs generalizing ds with
  | nil =>
    cases ds with
    | nil => rfl
    | cons d ds => simp at hM
  | cons c cs ih =>
    cases ds with
    | nil => simp at hM
    | cons d ds =>
      simp only [List.map_cons, List.cons.injEq] at hM
      unfold checkMarksLoop
      rw [hM.1, ih ds hM.2]

/-- `CheckContent` gives the same result on two fragments whose children agree in types
and marks. -/
theorem checkContent_congr (t : NodeType) (f g : Fragment)
    (hT : f.Content.map Node.Typ = g.Content.map Node.Typ)
    (hM : f.Content.map Node.Marks = g.Content.map Node.Marks) :
    t.CheckContent f = t.CheckContent g := by
  have hlen : f.Content.length = g.Content.length := by
    have := congrArg List.length hT
    simpa using this
  unfold NodeType.CheckContent ContentMatch.matchFragment Fragment.ChildCount
  simp only [hlen]
  rw [matchFragmentLoop_congr _ _ _ f g _ _ hT, checkMarksLoop_congr t _ _ hM]

/-- Writing to a place of a list what is there leaves the list as it is. -/
theorem set_same {α : Type} (l : List α) (i : Nat) (a : α) (h : l.get? i = some a) :
    l.set i a = l := by
  induction l generalizing i with
  | nil => rfl
  | cons x xs ih =>
    cases i with
    | zero => simp at h; simp [h]
    | succ j => simp at h; simp [ih j (by simpa using h)]

/-- Replacing a child by a valid node of the same type and marks keeps a node valid. -/
theorem replaceChild_valid (node inner curr : Node) (index : Int) (c : Fragment)
    (hv : node.Valid = true) (hcurr : node.Child index = .ok curr)
    (hin : inner.Valid = true) (hT : inner.Typ = curr.Typ) (hM : inner.Marks = curr.Marks)
    (h : node.Content.replaceChild index inner = .ok c) : (node.copy c).Valid = true := by
  unfold Fragment.replaceChild at h
  have hcurr2 : goIndex node.Content.Content index = .ok curr := hcurr
  rw [hcurr2] at h
  simp only [bind, Except.bind, pure, Except.pure] at h
  obtain ⟨h0, hget⟩ := goIndex_ok _ _ _ hcurr2
  cases node with
  | mk typ attrs marks text content =>
    by_cases heq : curr.eq inner = true
    · rw [if_pos heq] at h
      cases h
      exact hv
    · rw [if_neg heq] at h
      cases h
      have hcv := valid_children _ hv
      simp only [Node.Content] at hcv hget
      simp only [Node.Valid, Bool.and_eq_true, Bool.or_eq_true, decide_eq_true_eq] at hv
      simp only [Node.copy, Node.Typ, Node.Valid, Bool.and_eq_true, Bool.or_eq_true,
        decide_eq_true_eq, Node.Content]
      have hset : ∀ n ∈ content.Content.set index.toNat inner, n.Valid = true := by
        intro n hn
        rcases List.mem_or_eq_of_mem_set hn with h1 | h1
        · exact (allValid_iff content).mp hcv n h1
        · rw [h1]; exact hin
      refine ⟨?_, (validList_iff _).mpr hset⟩
      rcases hv.1 with h1 | h1
      · exact Or.inl h1
      · right
        rw [← h1]
        cases content with
        | mk size cs =>
          change cs.get? index.toNat = some curr at hget
          apply checkContent_congr
          · change (cs.set index.toNat inner).map Node.Typ = cs.map Node.Typ
            rw [List.map_set, hT]
            exact set_same _ _ _ (by rw [List.get?_eq_getElem?, List.getElem?_map,
              ← List.get?_eq_getElem?, hget]; rfl)
          · change (cs.set index.toNat inner).map Node.Marks = cs.map Node.Marks
            rw [List.map_set, hM]
            exact set_same _ _ _ (by rw [List.get?_eq_getElem?, List.getElem?_map,
              ← List.get?_eq_getElem?, hget]; rfl)

/-! ## The positions `prepareSliceForReplace` resolves -/

/-- A position strictly inside the only child of a fragment is found at that child. -/
theorem findIndex_single (c : Node) (p : Int) (h0 : 0 < p) (h1 : p < c.NodeSize) :
    (NewFragment [c]).findIndex p = .ok (0, 0) := by
  have hs : (NewFragment [c]).Size = c.NodeSize := by
    simp [NewFragment, sumSizes, Fragment.Size]
  unfold Fragment.findIndex
  rw [if_neg (by omega), if_neg (by omega), if_neg (by simp; omega)]
  simp only [NewFragment, Fragment.Content, findIndexLoop]
  rw [if_pos (by omega), if_neg (by omega)]

/-- A position `findIndex` accepts lies inside the fragment. -/
theorem findIndex_range (f : Fragment) (hs0 : 0 ≤ f.Size) (p : Int) (r : Int × Int)
    (hfi : f.findIndex p = .ok r) : 0 ≤ p ∧ p ≤ f.Size := by
  unfold Fragment.findIndex at hfi
  by_cases h0 : p = 0
  · omega
  · rw [if_neg h0] at hfi
    by_cases h1 : p = f.Size
    · omega
    · rw [if_neg h1] at hfi
      by_cases h2 : (decide (p > f.Size) || decide (p < 0)) = true
      · rw [if_pos h2] at hfi; cases hfi
      · simp only [Bool.or_eq_true, decide_eq_true_eq, not_or, not_lt] at h2
        omega

/-- The nodes a walk steps into are not leaves, when the sizes cached in the tree are
right: a position lies strictly inside each of them. -/
theorem walk_not_leaf (node : Node) (po start : Int) (nodes : List Node) (idxs offs : List Int)
    (fpo : Int) (hw : Walk node po start nodes idxs offs fpo)
    (hws : node.Content.WellSized = true) : ∀ n ∈ nodes, n.IsLeaf = false := by
  induction hw with
  | stop => simp
  | step node po start i0 off c0 nodes idxs offs fpo hfi hrem hc0 ht hrest ih =>
    have hcw : c0.Content.WellSized = true :=
      wellSized_mem node.Content c0 hws (goIndex_mem _ _ _ hc0)
    have hsz := wellSized_sizeOk node.Content hws
    have hrange := findIndex_range node.Content (fragmentSize_nonneg _ hws) po _ hfi
    obtain ⟨k, off2, hfi2, hkl, hoff, hcase⟩ :=
      findIndex_spec node.Content po hsz hrange.1 hrange.2
    rw [hfi] at hfi2
    have hik : i0 = (k : Int) := by cases hfi2; rfl
    have hoo : off = off2 := by cases hfi2; rfl
    have hleaf : c0.IsLeaf = false := by
      rcases hcase with heq | ⟨c2, hc2, h3, h4⟩
      · omega
      · rw [hik] at hc0
        have hc0g : goIndex node.Content.Content (k : Int) = .ok c0 := hc0
        have hg := (goIndex_ok _ _ _ hc0g).2
        simp only [Int.toNat_ofNat] at hg
        rw [hc2] at hg
        have hcc : c2 = c0 := by cases hg; rfl
        rw [hcc] at h4
        by_contra hl
        have hl2 : c0.IsLeaf = true := by simpa using hl
        have : c0.NodeSize = 1 := by
          unfold Node.NodeSize
          rw [if_neg (by simp [ht]), if_pos hl2]
        omega
    intro n hn
    rcases List.mem_cons.mp hn with h | h
    · rw [h]; exact hleaf
    · exact ih hcw n h

/-- The size of a node that is neither text nor a leaf. -/
theorem nodeSize_composite (n : Node) (ht : n.IsText = false) (hl : n.IsLeaf = false) :
    n.NodeSize = 2 + n.Content.Size := by
  unfold Node.NodeSize
  rw [if_neg (by simp [ht]), if_neg (by simp [hl])]

/-- Resolving through the wrappers `prepareSliceForReplace` puts around a node: at every
wrapper the position falls inside the only child, at index 0. -/
theorem wrap_resolve (along : ResolvedPos) (k : Nat) (inner root : Node)
    (hwrap : wrapLoop along k ((k : Int) - 1) inner = .ok root)
    (hnodes : ∀ i : Nat, 1 ≤ i → i < k → ∀ n, along.Node (i : Int) = .ok n →
      n.IsText = false ∧ n.IsLeaf = false)
    (hinner : 1 ≤ k → inner.IsText = false ∧ inner.IsLeaf = false)
    (hS : 0 ≤ inner.Content.Size) :
    root.Content.Size = 2 * (k : Int) + inner.Content.Size ∧
    root.height = inner.height + k ∧
    ∀ (q : Int), 0 ≤ q → q ≤ inner.Content.Size → ∀ (r : ResolvedPos) (start : Int)
      (fuel : Nat), r.ParentOffset = q + k →
      ∃ (ws : List Node) (is os : List Int), ws.length = k ∧ is.length = k ∧ os.length = k ∧
        (∀ i ∈ is, i = 0) ∧
        resolveLoop (fuel + k) root r start =
          resolveLoop fuel inner
            { r with
              NodePath := r.NodePath ++ ws
              IndexPath := r.IndexPath ++ is
              OffsetPath := r.OffsetPath ++ os
              ParentOffset := q }
            (start + k) := by
  induction k generalizing inner with
  | zero =>
    unfold wrapLoop at hwrap
    cases hwrap
    refine ⟨by simp, by simp, ?_⟩
    intro q _ _ r start fuel hr
    refine ⟨[], [], [], rfl, rfl, rfl, by simp, ?_⟩
    simp only [Nat.cast_zero, add_zero] at hr
    simp [← hr]
  | succ k ih =>
    unfold wrapLoop at hwrap
    have hk0 : ((k + 1 : Nat) : Int) - 1 ≥ 0 := by omega
    rw [if_pos hk0] at hwrap
    obtain ⟨a, ha, hwrap⟩ := bind_ok _ _ _ hwrap
    have hkk : ((k + 1 : Nat) : Int) - 1 = (k : Int) := by omega
    rw [hkk] at ha
    rw [hkk] at hwrap
    obtain ⟨hit, hil⟩ := hinner (by omega)
    have hins : inner.NodeSize = 2 + inner.Content.Size := nodeSize_composite inner hit hil
    have hsz2 : (a.copy (NewFragment [inner])).Content.Size = 2 + inner.Content.Size := by
      simp [Node.copy, Node.Content, NewFragment, sumSizes, Fragment.Size, hins]
    obtain ⟨h1, h2, h3⟩ := ih (a.copy (NewFragment [inner])) hwrap
      (fun i hi1 hik n hn => hnodes i hi1 (by omega) n hn)
      (fun hk1 => by
        have := hnodes k hk1 (by omega) a ha
        exact this)
      (by rw [hsz2]; omega)
    refine ⟨by rw [h1, hsz2]; push_cast; ring, ?_, ?_⟩
    · rw [h2]
      have : (a.copy (NewFragment [inner])).height = inner.height + 1 := by
        simp [Node.copy, Node.height, NewFragment, Fragment.height, heightList]
      omega
    · intro q hq0 hq1 r start fuel hr
      obtain ⟨ws, is, os, hl1, hl2, hl3, hz, hres⟩ :=
        h3 (q + 1) (by omega) (by rw [hsz2]; omega) r start (fuel + 1)
          (by rw [hr]; push_cast; ring)
      refine ⟨ws ++ [a.copy (NewFragment [inner])], is ++ [0], os ++ [start + k],
        by simp [hl1], by simp [hl2], by simp [hl3], ?_, ?_⟩
      · intro i hi
        rcases List.mem_append.mp hi with h | h
        · exact hz i h
        · simpa using h
      · have hf : fuel + (k + 1) = fuel + 1 + k := by omega
        rw [hf, hres]
        rw [resolveLoop_step fuel (a.copy (NewFragment [inner])) _ (start + k) 0 0 inner
          (by
            show (NewFragment [inner]).findIndex (q + 1) = _
            exact findIndex_single inner (q + 1) (by omega) (by omega))
          (by show q + 1 - 0 ≠ 0; omega)
          (by simp [Node.Child, Node.copy, Node.Content, Fragment.Child, NewFragment,
            Fragment.Content, goIndex])
          hit]
        congr 1
        · simp
        · push_cast; ring

/-- A position resolved in the node built by `prepareSliceForReplace`, `k` wrappers around
`inner`, is good from depth `k` on and has index 0 above it. -/
theorem scaffold_resolve (along : ResolvedPos) (k : Nat) (inner root : Node)
    (hwrap : wrapLoop along k ((k : Int) - 1) inner = .ok root)
    (hnodes : ∀ i : Nat, 1 ≤ i → i < k → ∀ n, along.Node (i : Int) = .ok n →
      n.IsText = false ∧ n.IsLeaf = false)
    (hinner : 1 ≤ k → inner.IsText = false ∧ inner.IsLeaf = false)
    (hS : 0 ≤ inner.Content.Size) (hv : inner.Content.AllValid = true)
    (q : Int) (hq0 : 0 ≤ q) (hq1 : q ≤ inner.Content.Size) (r : ResolvedPos)
    (h : resolve root (q + k) = .ok r) :
    r.Good k ∧ ∀ d a, 0 ≤ d → d < (k : Int) → r.Index d = .ok a → a = 0 := by
  obtain ⟨h1, h2, h3⟩ := wrap_resolve along k inner root hwrap hnodes hinner hS
  unfold resolve at h
  by_cases hb : (decide (q + k < 0) || decide (q + k > root.Content.Size)) = true
  · rw [if_pos hb] at h; cases h
  · rw [if_neg hb] at h
    obtain ⟨r1, hr1, h⟩ := bind_ok _ _ _ h
    have hr : r = { r1 with Depth := (r1.NodePath.length : Int) - 1 } := by cases h; rfl
    obtain ⟨ws, is, os, hl1, hl2, hl3, hz, hres⟩ :=
      h3 q hq0 hq1 { Pos := q + k, ParentOffset := q + k } 0 inner.height rfl
    rw [h2, hres] at hr1
    obtain ⟨nodes2, idxs2, offs2, fpo, hw, hr1eq⟩ := resolveLoop_walk _ _ _ _ _ hr1
    have hN : r.NodePath = ws ++ inner :: nodes2 := by rw [hr, hr1eq]; simp
    have hI : r.IndexPath = is ++ idxs2 := by rw [hr, hr1eq]; simp
    have hO : r.OffsetPath = os ++ offs2 := by rw [hr, hr1eq]; simp
    have hP : r.Pos = q + k := by rw [hr, hr1eq]
    have hD : r.Depth = (ws.length : Int) + nodes2.length := by
      rw [hr, hr1eq]; simp; omega
    have hg := good_of_walk r ws is os inner nodes2 idxs2 offs2 q (0 + k) fpo hN hI hO
      (by rw [hl1, hl2]) hD hw (by rw [hP]; ring) hv
    rw [hl1] at hg
    refine ⟨hg, ?_⟩
    intro d a hd0 hdk ha
    unfold ResolvedPos.Index ResolvedPos.resolveDepth at ha
    rw [if_neg (by omega), hI] at ha
    obtain ⟨_, hget⟩ := goIndex_ok _ _ _ ha
    rw [List.get?_eq_getElem?, List.getElem?_append_left (by omega)] at hget
    exact hz a (List.getElem?_mem hget)

/-- The two positions `prepareSliceForReplace` returns are good from the depth at which the
slice is inserted, and above that depth both have index 0. -/
theorem prepareSlice_good (slice : Slice) (along start end_ : ResolvedPos) (doc : Node)
    (pos : Int) (nodes : List Node) (idxs offs : List Int)
    (hN : along.NodePath = doc :: nodes) (hD : along.Depth = (nodes.length : Int))
    (hw : Walk doc pos 0 nodes idxs offs along.ParentOffset)
    (hws : doc.Content.WellSized = true) (hsv : slice.Valid)
    (hx : slice.OpenStart ≤ along.Depth)
    (h : prepareSliceForReplace slice along = .ok (start, end_)) :
    start.Good (along.Depth - slice.OpenStart) ∧ end_.Good (along.Depth - slice.OpenStart) ∧
    ∀ d a b, 0 ≤ d → d < along.Depth - slice.OpenStart → start.Index d = .ok a →
      end_.Index d = .ok b → a = b := by
  obtain ⟨hsv1, hos0, hos1, hoe0, hoe1⟩ := hsv
  unfold prepareSliceForReplace at h
  dsimp only at h
  obtain ⟨parent, hp, h⟩ := bind_ok _ _ _ h
  obtain ⟨root, hroot, h⟩ := bind_ok _ _ _ h
  obtain ⟨s, hs, h⟩ := bind_ok _ _ _ h
  obtain ⟨e, he, h⟩ := bind_ok _ _ _ h
  have hse : s = start ∧ e = end_ := by cases h; exact ⟨rfl, rfl⟩
  rw [hse.1] at hs
  rw [hse.2] at he
  obtain ⟨k, hk⟩ : ∃ k : Nat, along.Depth - slice.OpenStart = (k : Int) :=
    ⟨(along.Depth - slice.OpenStart).toNat, by omega⟩
  rw [hk] at hp hroot hs he ⊢
  simp only [Int.toNat_ofNat] at hroot
  have hnt := walk_not_text _ _ _ _ _ _ _ hw
  have hnl := walk_not_leaf _ _ _ _ _ _ _ hw hws
  have hcomp : ∀ i : Nat, 1 ≤ i → ∀ n, along.Node (i : Int) = .ok n →
      n.IsText = false ∧ n.IsLeaf = false := by
    intro i hi n hn
    unfold ResolvedPos.Node ResolvedPos.resolveDepth at hn
    rw [if_neg (by omega), hN] at hn
    obtain ⟨_, hget⟩ := goIndex_ok _ _ _ hn
    simp only [Int.toNat_ofNat] at hget
    obtain ⟨j, hj⟩ : ∃ j, i = j + 1 := ⟨i - 1, by omega⟩
    rw [hj, List.get?_cons_succ] at hget
    have hmem := List.get?_mem hget
    exact ⟨hnt n hmem, hnl n hmem⟩
  have hinner : 1 ≤ k → (parent.copy slice.Content).IsText = false ∧
      (parent.copy slice.Content).IsLeaf = false := fun hk1 => hcomp k hk1 parent hp
  have hsres : resolve root (slice.OpenStart + k) = .ok start := by
    cases hr : resolve root (slice.OpenStart + k) with
    | error e2 => rw [hr] at hs; cases e2 <;> cases hs
    | ok v => rw [hr] at hs; cases hs; rfl
  obtain ⟨hsize, _, _⟩ := wrap_resolve along k (parent.copy slice.Content) root hroot
    (fun i hi1 _ n hn => hcomp i hi1 n hn) hinner (by show 0 ≤ slice.Content.Size; omega)
  have hsize2 : root.Content.Size - slice.OpenEnd - (k : Int)
      = (slice.Content.Size - slice.OpenEnd) + k := by
    rw [hsize]
    show 2 * (k : Int) + slice.Content.Size - slice.OpenEnd - k = _
    ring
  have heres : resolve root ((slice.Content.Size - slice.OpenEnd) + k) = .ok end_ := by
    rw [hsize2] at he
    cases hr : resolve root ((slice.Content.Size - slice.OpenEnd) + k) with
    | error e2 => rw [hr] at he; cases e2 <;> cases he
    | ok v => rw [hr] at he; cases he; rfl
  obtain ⟨hg1, hi1⟩ := scaffold_resolve along k (parent.copy slice.Content) root hroot
    (fun i hi1 _ n hn => hcomp i hi1 n hn) hinner (by show 0 ≤ slice.Content.Size; omega)
    hsv1 slice.OpenStart hos0 hos1 start hsres
  obtain ⟨hg2, hi2⟩ := scaffold_resolve along k (parent.copy slice.Content) root hroot
    (fun i hi1 _ n hn => hcomp i hi1 n hn) hinner (by show 0 ≤ slice.Content.Size; omega)
    hsv1 (slice.Content.Size - slice.OpenEnd) (by omega) (by
      show slice.Content.Size - slice.OpenEnd ≤ slice.Content.Size
      omega) end_ heres
  refine ⟨hg1, hg2, ?_⟩
  intro d a b hd0 hdk ha hb
  rw [hi1 d a hd0 hdk ha, hi2 d b hd0 hdk hb]

/-! ## Reading the paths of a resolved position -/

/-- A resolved position carries the trace of its walk. -/
theorem traces_of_resolve (doc : Node) (pos : Int) (r : ResolvedPos)
    (h : resolve doc pos = .ok r) : r.Traces doc := by
  obtain ⟨nodes, idxs, offs, hw, hN, hI, hO, hP, hD, _, _⟩ := resolve_walk doc pos r h
  exact ⟨nodes, idxs, offs, hN, hI, hO, hD, by rw [hP]; exact hw⟩

/-- The node at a depth of the path is a member of the node path. -/
theorem path_node_get (r : ResolvedPos) (d : Int) (n : Node) (hd : 0 ≤ d)
    (hn : r.Node d = .ok n) : r.NodePath.get? d.toNat = some n := by
  unfold ResolvedPos.Node ResolvedPos.resolveDepth at hn
  rw [if_neg (by omega)] at hn
  exact (goIndex_ok _ _ _ hn).2

/-- The index at a depth of the path is a member of the index path. -/
theorem path_index_get (r : ResolvedPos) (d : Int) (i : Int) (hd : 0 ≤ d)
    (hi : r.Index d = .ok i) : r.IndexPath.get? d.toNat = some i := by
  unfold ResolvedPos.Index ResolvedPos.resolveDepth at hi
  rw [if_neg (by omega)] at hi
  exact (goIndex_ok _ _ _ hi).2

/-- The path has a node at every depth up to the depth of the position. -/
theorem path_node_exists (r : ResolvedPos) (doc : Node) (ht : r.Traces doc) (d : Int)
    (hd : 0 ≤ d) (hdd : d ≤ r.Depth) : ∃ n, r.Node d = .ok n := by
  obtain ⟨nodes, idxs, offs, hN, hI, hO, hD, hw⟩ := ht
  have hlt : d.toNat < (doc :: nodes).length := by simp; omega
  refine ⟨(doc :: nodes).get ⟨d.toNat, hlt⟩, ?_⟩
  unfold ResolvedPos.Node ResolvedPos.resolveDepth
  rw [if_neg (by omega), hN]
  unfold goIndex
  rw [if_neg (by omega), List.get?_eq_get hlt]

/-- A depth at which the path has a node is at most the depth of the position. -/
theorem path_node_depth (r : ResolvedPos) (doc : Node) (ht : r.Traces doc) (d : Int)
    (hd : 0 ≤ d) (n : Node) (hn : r.Node d = .ok n) : d ≤ r.Depth := by
  obtain ⟨nodes, idxs, offs, hN, hI, hO, hD, hw⟩ := ht
  have hg := path_node_get r d n hd hn
  rw [hN] at hg
  have hlt : d.toNat < (doc :: nodes).length := by
    by_contra hge
    rw [List.get?_eq_none.mpr (by omega)] at hg
    cases hg
  simp at hlt
  omega

/-- A depth at which the path has an index is at most the depth of the position. -/
theorem path_index_depth (r : ResolvedPos) (doc : Node) (ht : r.Traces doc) (d : Int)
    (hd : 0 ≤ d) (i : Int) (hi : r.Index d = .ok i) : d ≤ r.Depth := by
  obtain ⟨nodes, idxs, offs, hN, hI, hO, hD, hw⟩ := ht
  have hg := path_index_get r d i hd hi
  rw [hI] at hg
  have hl := (walk_lengths _ _ _ _ _ _ _ hw).1
  have hlt : d.toNat < idxs.length := by
    by_contra hge
    rw [List.get?_eq_none.mpr (by omega)] at hg
    cases hg
  omega

/-- The nodes on the path of a position in a valid document are valid. -/
theorem path_node_valid (r : ResolvedPos) (doc : Node) (ht : r.Traces doc)
    (hv : doc.Valid = true) (d : Int) (hd : 0 ≤ d) (n : Node) (hn : r.Node d = .ok n) :
    n.Valid = true := by
  obtain ⟨nodes, idxs, offs, hN, hI, hO, hD, hw⟩ := ht
  have hg := path_node_get r d n hd hn
  rw [hN] at hg
  rcases List.mem_cons.mp (List.get?_mem hg) with h | h
  · rw [h]; exact hv
  · exact walk_valid _ _ _ _ _ _ _ hw (valid_children doc hv) n h

/-- The nodes on the path of a position in a well-sized document have well-sized
content. -/
theorem path_node_wellSized (r : ResolvedPos) (doc : Node) (ht : r.Traces doc)
    (hws : doc.Content.WellSized = true) (d : Int) (hd : 0 ≤ d) (n : Node)
    (hn : r.Node d = .ok n) : n.Content.WellSized = true := by
  obtain ⟨nodes, idxs, offs, hN, hI, hO, hD, hw⟩ := ht
  have hg := path_node_get r d n hd hn
  rw [hN] at hg
  rcases List.mem_cons.mp (List.get?_mem hg) with h | h
  · rw [h]; exact hws
  · exact walk_wellSized _ _ _ _ _ _ _ hw hws n h

/-- The node at depth `d + 1` of a path is the child at the index of depth `d` of the node
at depth `d`. -/
theorem path_chain (r : ResolvedPos) (doc : Node) (ht : r.Traces doc) (d : Int) (hd : 0 ≤ d)
    (n c : Node) (i : Int) (hn : r.Node d = .ok n) (hc : r.Node (d + 1) = .ok c)
    (hi : r.Index d = .ok i) : n.Child i = .ok c := by
  obtain ⟨nodes, idxs, offs, hN, hI, hO, hD, hw⟩ := ht
  have hg1 := path_node_get r d n hd hn
  have hg2 := path_node_get r (d + 1) c (by omega) hc
  have hg3 := path_index_get r d i hd hi
  rw [hN] at hg1 hg2
  rw [hI] at hg3
  have e : (d + 1).toNat = d.toNat + 1 := by omega
  rw [e] at hg2
  exact walk_chain _ _ _ _ _ _ _ hw d.toNat n c i hg1 hg2 hg3

/-- The root is the node at depth 0 of a path. -/
theorem path_root (r : ResolvedPos) (doc : Node) (ht : r.Traces doc) (n : Node)
    (hn : r.Node 0 = .ok n) : n = doc := by
  obtain ⟨nodes, idxs, offs, hN, hI, hO, hD, hw⟩ := ht
  have hg := path_node_get r 0 n (le_refl _) hn
  rw [hN] at hg
  simp at hg
  exact hg.symm

/-- The parent offset of a resolved position falls on a boundary of its parent or inside a
text child, and is not negative. -/
theorem path_atomic (r : ResolvedPos) (doc : Node) (ht : r.Traces doc)
    (hws : doc.Content.WellSized = true) (p : Node) (hp : r.Parent = .ok p) :
    AtomicAt p.Content.Content r.ParentOffset ∧ 0 ≤ r.ParentOffset := by
  have ht2 := ht
  obtain ⟨nodes, idxs, offs, hN, hI, hO, hD, hw⟩ := ht
  have hD0 : 0 ≤ r.Depth := by omega
  have hpw := path_node_wellSized r doc ht2 hws r.Depth hD0 p hp
  obtain ⟨nl, il, ol, off, h1, h2, h3, h4, h5, h6⟩ := walk_last _ _ _ _ _ _ _ hw
  unfold ResolvedPos.Parent ResolvedPos.Node ResolvedPos.resolveDepth at hp
  rw [if_neg (by omega)] at hp
  have hpl : r.NodePath.getLast? = some p :=
    goIndex_last _ _ _ (by rw [hN, hD]; simp) hp
  rw [hN, h1] at hpl
  have hpe : nl = p := by cases hpl; rfl
  rw [hpe] at h4 h6
  exact ⟨atomicAt_of_findIndex p.Content hpw r.ParentOffset il off h4 h6,
    (findIndex_range p.Content (fragmentSize_nonneg _ hpw) _ _ h4).1⟩

/-! ## Schema closure of `replace` -/

/-- The node `replaceOuter` returns is valid and has the markup of the node of `from_` at
the depth of the call. -/
theorem replaceOuterLoop_valid (fuel : Nat) (from_ to_ : ResolvedPos) (slice : Slice)
    (doc : Node) (htf : from_.Traces doc) (htt : to_.Traces doc)
    (hv : doc.Valid = true) (hws : doc.Content.WellSized = true) (hsv : slice.Valid)
    (hguard1 : slice.OpenStart ≤ from_.Depth)
    (hguard2 : from_.Depth - slice.OpenStart = to_.Depth - slice.OpenEnd)
    (hgf : from_.Good 0) (hgt : to_.Good 0)
    (depth : Int) (hd : 0 ≤ depth)
    (hsame : ∀ n m, from_.Node depth = .ok n → to_.Node depth = .ok m → n = m)
    (res : Node) (h : replaceOuterLoop fuel from_ to_ slice depth = .ok res) :
    res.Valid = true ∧ ∀ n, from_.Node depth = .ok n → res.Typ = n.Typ ∧ res.Marks = n.Marks := by
  induction fuel generalizing depth res with
  | zero => unfold replaceOuterLoop at h; cases h
  | succ fuel ih =>
    unfold replaceOuterLoop at h
    obtain ⟨index, hindex, h⟩ := bind_ok _ _ _ h
    obtain ⟨node, hnode, h⟩ := bind_ok _ _ _ h
    obtain ⟨toIndex, htoIndex, h⟩ := bind_ok _ _ _ h
    have hnv := path_node_valid from_ doc htf hv depth hd node hnode
    have hmark : ∀ (r : Node), r.Typ = node.Typ ∧ r.Marks = node.Marks →
        ∀ n, from_.Node depth = .ok n → r.Typ = n.Typ ∧ r.Marks = n.Marks := by
      intro r hr n hn
      rw [hnode] at hn
      cases hn
      exact hr
    obtain ⟨hsv1, hos0, hos1, hoe0, hoe1⟩ := hsv
    by_cases hc1 : (decide (index = toIndex) &&
        decide (depth < from_.Depth - slice.OpenStart)) = true
    · rw [if_pos hc1] at h
      simp only [Bool.and_eq_true, decide_eq_true_eq] at hc1
      obtain ⟨hidx, hdep⟩ := hc1
      obtain ⟨inner, hinner, h⟩ := bind_ok _ _ _ h
      obtain ⟨c, hc, h⟩ := bind_ok _ _ _ h
      have hres : res = node.copy c := by cases h; rfl
      obtain ⟨child, hchild⟩ := path_node_exists from_ doc htf (depth + 1) (by omega) (by omega)
      have hchain := path_chain from_ doc htf depth hd node child index hnode hchild hindex
      have hsame2 : ∀ n m, from_.Node (depth + 1) = .ok n → to_.Node (depth + 1) = .ok m →
          n = m := by
        intro n m hn hm
        have hdt := path_node_depth to_ doc htt (depth + 1) (by omega) m hm
        obtain ⟨m0, hm0⟩ := path_node_exists to_ doc htt depth hd (by omega)
        have hnm := hsame node m0 hnode hm0
        have hchainT := path_chain to_ doc htt depth hd m0 m toIndex hm0 hm htoIndex
        rw [hchild] at hn
        cases hn
        rw [← hnm, ← hidx, hchain] at hchainT
        cases hchainT; rfl
      obtain ⟨hiv, him⟩ := ih (depth + 1) (by omega) hsame2 inner hinner
      obtain ⟨hT, hM⟩ := him child hchild
      rw [hres]
      exact ⟨replaceChild_valid node inner child index c hnv hchain hiv hT hM hc,
        hmark _ ⟨by cases node; rfl, by cases node; rfl⟩⟩
    · rw [if_neg hc1] at h
      by_cases hc2 : slice.Content.Size = 0
      · rw [if_pos hc2] at h
        obtain ⟨r, hr, h⟩ := bind_ok _ _ _ h
        have hrv := replaceTwoWayLoop_valid _ from_ to_ depth r 0 0 hgf hgt (le_refl _)
          (le_refl _) hd hd hr
        obtain ⟨h1, h2, h3⟩ := close_valid node res r h hrv
        exact ⟨h1, hmark _ ⟨h2, h3⟩⟩
      · rw [if_neg hc2] at h
        by_cases hc3 : (decide (slice.OpenStart = 0) && decide (slice.OpenEnd = 0) &&
            decide (from_.Depth = depth) && decide (to_.Depth = depth)) = true
        · rw [if_pos hc3] at h
          simp only [Bool.and_eq_true, decide_eq_true_eq] at hc3
          obtain ⟨⟨⟨_, _⟩, hfd⟩, htd⟩ := hc3
          obtain ⟨parent, hparent, h⟩ := bind_ok _ _ _ h
          dsimp only at h
          obtain ⟨cut1, hcut1, h⟩ := bind_ok _ _ _ h
          obtain ⟨app1, happ1, h⟩ := bind_ok _ _ _ h
          obtain ⟨cut2, hcut2, h⟩ := bind_ok _ _ _ h
          obtain ⟨app2, happ2, h⟩ := bind_ok _ _ _ h
          have hpn : parent = node := by
            unfold ResolvedPos.Parent at hparent
            rw [hfd, hnode] at hparent
            cases hparent; rfl
          have hpv := valid_children parent (by rw [hpn]; exact hnv)
          have hpw := path_node_wellSized from_ doc htf hws depth hd node hnode
          rw [← hpn] at hpw
          obtain ⟨hat1, hpo1⟩ := path_atomic from_ doc htf hws parent hparent
          have htparent : to_.Parent = .ok parent := by
            obtain ⟨m, hm⟩ := path_node_exists to_ doc htt depth hd (by omega)
            have := hsame node m hnode hm
            unfold ResolvedPos.Parent
            rw [htd, hm, ← this, hpn]
          obtain ⟨hat2, hpo2⟩ := path_atomic to_ doc htt hws parent htparent
          obtain ⟨he0, hes⟩ := atomicAt_ends parent.Content hpw
          have hcv1 := cut_valid parent.Content cut1 0 from_.ParentOffset hpv he0
            (by rw [if_neg (by omega)]; exact hat1) hcut1
          have hcv2 := cut_valid parent.Content cut2 to_.ParentOffset (-1) hpv hat2
            (by rw [if_pos rfl]; exact hes) hcut2
          have hav1 := append_valid cut1 slice.Content app1 hcv1 hsv1 happ1
          have hav2 := append_valid app1 cut2 app2 hav1 hcv2 happ2
          obtain ⟨h1, h2, h3⟩ := close_valid parent res app2 h hav2
          rw [hpn] at h2 h3
          exact ⟨h1, hmark _ ⟨h2, h3⟩⟩
        · rw [if_neg hc3] at h
          obtain ⟨⟨start, end_⟩, hprep, h⟩ := bind_ok _ _ _ h
          dsimp only at h
          obtain ⟨r, hr, h⟩ := bind_ok _ _ _ h
          obtain ⟨nodes, idxs, offs, hN, hI, hO, hD, hw⟩ := htf
          obtain ⟨hgs, hge, hidx⟩ := prepareSlice_good slice from_ start end_ doc from_.Pos
            nodes idxs offs hN hD hw hws ⟨hsv1, hos0, hos1, hoe0, hoe1⟩ hguard1 hprep
          have hrv := replaceThreeWayLoop_valid _ from_ start end_ to_ depth r
            (from_.Depth - slice.OpenStart) hgf hgt hgs hge (by omega) (by omega) (by omega)
            hidx hd hr
          obtain ⟨h1, h2, h3⟩ := close_valid node res r h hrv
          exact ⟨h1, hmark _ ⟨h2, h3⟩⟩

/-! ## `CheckContent` and schema validity in the words of the specification -/

/-- `validMarks` succeeds exactly when every mark is allowed. -/
theorem validMarks_ok_iff (t : NodeType) (ms : List Mark) :
    t.validMarks ms = .ok () ↔ ∀ m ∈ ms, t.AllowsMarkType m.Typ = true := by
  induction ms with
  | nil => simp [NodeType.validMarks]
  | cons m rest ih =>
    unfold NodeType.validMarks
    by_cases ha : t.AllowsMarkType m.Typ = true
    · simp [ha, ih]
    · simp [ha]

/-- The loop over the marks in `CheckContent` succeeds exactly when every mark of every
child is allowed. -/
theorem checkMarksLoop_ok_iff (t : NodeType) (cs : List Node) :
    checkMarksLoop t cs = .ok () ↔ ∀ c ∈ cs, ∀ m ∈ c.Marks, t.AllowsMarkType m.Typ = true := by
  induction cs with
  | nil => simp [checkMarksLoop]
  | cons c rest ih =>
    unfold checkMarksLoop
    cases hv : t.validMarks c.Marks with
    | error e =>
      have : ¬ ∀ m ∈ c.Marks, t.AllowsMarkType m.Typ = true := by
        intro hall
        rw [(validMarks_ok_iff t c.Marks).mpr hall] at hv
        cases hv
      simp [bind, Except.bind, this]
    | ok u =>
      have hall := (validMarks_ok_iff t c.Marks).mp (by rw [hv])
      simp only [bind, Except.bind, List.mem_cons, forall_eq_or_imp]
      rw [ih]
      exact ⟨fun h => ⟨hall, h⟩, fun h => h.2⟩

/-- `CheckContent` succeeds exactly when the children are accepted in a state with
`ValidEnd` and every mark on every child is allowed. -/
theorem checkContent_ok_iff (t : NodeType) (f : Fragment) :
    t.CheckContent f = .ok () ↔ t.Accepts f ∧ t.MarksAllowed f := by
  unfold NodeType.CheckContent NodeType.Accepts NodeType.MarksAllowed
  cases hm : t.ContentMatch.matchFragment t.States f (-1) (-1) with
  | error e => simp [bind, Except.bind]
  | ok res =>
    cases res with
    | none => simp [bind, Except.bind]
    | some st =>
      simp only [bind, Except.bind, Except.ok.injEq, Option.some.injEq, exists_eq_left']
      by_cases hve : st.ValidEnd = true
      · simp only [hve, Bool.not_true, Bool.false_eq_true, if_false, true_and]
        exact checkMarksLoop_ok_iff t f.Content
      · simp [hve]

/-- The nodes inside a list of nodes are the nodes inside its members. -/
theorem mem_subnodesList (cs : List Node) (c : Node) :
    c ∈ subnodesList cs ↔ ∃ child ∈ cs, c ∈ child.subnodes := by
  induction cs with
  | nil => simp [subnodesList]
  | cons x rest ih => simp [subnodesList, ih]

/-- The two readings of schema validity agree, for nodes of bounded height. -/
theorem valid_iff_aux (h : Nat) : ∀ n : Node, n.height ≤ h → (n.Valid = true ↔ n.SchemaValid) := by
  induction h with
  | zero =>
    intro n hn
    have := nodeHeight_eq n
    omega
  | succ h ih =>
    intro n hn
    cases n with
    | mk typ attrs marks text content =>
      cases content with
      | mk size cs =>
        have hch : ∀ child ∈ cs, (child.Valid = true ↔ child.SchemaValid) := by
          intro child hc
          apply ih
          have h1 := heightList_mem cs child hc
          simp only [Node.height, Fragment.height] at hn
          omega
        simp only [Node.Valid, Fragment.AllValid, Bool.and_eq_true, Bool.or_eq_true,
          decide_eq_true_eq, validList_iff]
        unfold Node.SchemaValid
        simp only [Node.subnodes, Fragment.subnodes, List.mem_cons, mem_subnodesList,
          forall_eq_or_imp]
        rw [checkContent_ok_iff]
        constructor
        · rintro ⟨hloc, hall⟩
          refine ⟨?_, ?_⟩
          · intro ht hl
            rcases hloc with (h1 | h1) | h1
            · rw [show (Node.mk typ attrs marks text (Fragment.mk size cs)).IsText
                = typ.isText from rfl, h1] at ht
              cases ht
            · rw [show (Node.mk typ attrs marks text (Fragment.mk size cs)).IsLeaf
                = typ.isLeaf from rfl, h1] at hl
              cases hl
            · exact h1
          · rintro c ⟨child, hcm, hcs⟩
            exact (hch child hcm).mp (hall child hcm) c hcs
        · rintro ⟨hloc, hall⟩
          refine ⟨?_, ?_⟩
          · by_cases ht : typ.isText = true
            · exact Or.inl (Or.inl ht)
            · by_cases hl : typ.isLeaf = true
              · exact Or.inl (Or.inr hl)
              · exact Or.inr (hloc (by simpa using ht) (by simpa using hl))
          · intro child hcm
            apply (hch child hcm).mpr
            intro c hc
            exact hall c ⟨child, hcm, hc⟩

/-- The two readings of schema validity agree. -/
theorem valid_iff_schemaValid (n : Node) : n.Valid = true ↔ n.SchemaValid :=
  valid_iff_aux n.height n (le_refl _)

/-- The two readings of the schema validity of a slice agree. -/
theorem sliceValid_iff (s : Slice) : s.Valid ↔ s.SchemaValid := by
  unfold Slice.Valid Slice.SchemaValid
  rw [allValid_iff]
  constructor
  · rintro ⟨h1, h2⟩
    exact ⟨fun n hn => (valid_iff_schemaValid n).mp (h1 n hn), h2⟩
  · rintro ⟨h1, h2⟩
    exact ⟨fun n hn => (valid_iff_schemaValid n).mpr (h1 n hn), h2⟩

/-- C16 (schema closure): for every schema-valid document `doc` whose fragments cache the
right sizes, every schema-valid slice `s` and all positions: if `doc.Replace(from, to, s)`
succeeds, then in the resulting document the child sequence of every composite node is
accepted by the content match of its node type, ending in a state with `ValidEnd`, and
every mark on every child is allowed by the node type of the parent. -/
theorem C16_schema_closure (doc : Node) (s : Slice) (from_ to_ : Int) (r : Node)
    (hws : doc.Content.WellSized = true) (hv : doc.SchemaValid) (hs : s.SchemaValid)
    (h : doc.Replace from_ to_ s = .ok r) : r.SchemaValid := by
  rw [← valid_iff_schemaValid] at hv ⊢
  rw [← sliceValid_iff] at hs
  unfold Node.Replace at h
  obtain ⟨fromNode, hf, h⟩ := bind_ok _ _ _ h
  obtain ⟨toNode, ht, h⟩ := bind_ok _ _ _ h
  have hf2 : resolve doc from_ = .ok fromNode := by
    cases hr : resolve doc from_ with
    | error e => rw [hr] at hf; cases e <;> cases hf
    | ok v => rw [hr] at hf; cases hf; rfl
  have ht2 : resolve doc to_ = .ok toNode := by
    cases hr : resolve doc to_ with
    | error e => rw [hr] at ht; cases e <;> cases ht
    | ok v => rw [hr] at ht; cases ht; rfl
  unfold replace at h
  by_cases hg1 : s.OpenStart > fromNode.Depth
  · rw [if_pos hg1] at h; cases h
  · rw [if_neg hg1] at h
    by_cases hg2 : fromNode.Depth - s.OpenStart ≠ toNode.Depth - s.OpenEnd
    · rw [if_pos hg2] at h; cases h
    · rw [if_neg hg2] at h
      have htf := traces_of_resolve doc from_ fromNode hf2
      have htt := traces_of_resolve doc to_ toNode ht2
      have hcv := valid_children doc hv
      exact (replaceOuterLoop_valid _ fromNode toNode s doc htf htt hv hws hs (by omega)
        (by simpa using hg2) (good_of_resolve doc from_ fromNode hf2 hcv)
        (good_of_resolve doc to_ toNode ht2 hcv) 0 (le_refl _)
        (fun n m hn hm => by
          rw [path_root fromNode doc htf n hn, path_root toNode doc htt m hm])
        r h).1

theorem C16_schema_closure_witness :
    (Doc [PText (ascii "Crazy?")]).Content.WellSized = true ∧
    (Doc [PText (ascii "Crazy?")]).SchemaValid ∧ splitSlice.SchemaValid ∧
    ∃ r, (Doc [PText (ascii "Crazy?")]).Replace 4 4 splitSlice = .ok r ∧ r.SchemaValid ∧
      r.childTexts = [[ascii "Cra"], [ascii "zy?"]] :=
  ⟨by decide, (valid_iff_schemaValid _).mp (by decide), (sliceValid_iff _).mp (by decide),
    match hrep : (Doc [PText (ascii "Crazy?")]).Replace 4 4 splitSlice with
    | .ok r =>
      ⟨r, rfl,
        C16_schema_closure (Doc [PText (ascii "Crazy?")]) splitSlice 4 4 r (by decide)
          ((valid_iff_schemaValid _).mp (by decide)) ((sliceValid_iff _).mp (by decide)) hrep,
        by
          have h2 : ((Doc [PText (ascii "Crazy?")]).Replace 4 4 splitSlice).map Node.childTexts
              = .ok [[ascii "Cra"], [ascii "zy?"]] := by decide!
          rw [hrep] at h2
          simpa [Except.map] using h2⟩
    | .error e => by
      have h2 : errorOf ((Doc [PText (ascii "Crazy?")]).Replace 4 4 splitSlice) = none := by
        decide!
      rw [hrep] at h2
      cases h2⟩

/-! ## Lists of plain text nodes -/

/-- The loop of `utf16Len` counts one unit per byte of an ASCII string. -/
theorem utf16LenLoop_ascii (fuel : Nat) (s : GoString) (l : Int) (h : ∀ b ∈ s, b < 128)
    (hf : s.length ≤ fuel) : utf16LenLoop fuel s l = l + s.length := by
  induction fuel generalizing s l with
  | zero =>
    have : s = [] := List.length_eq_zero.mp (by omega)
    subst this
    simp [utf16LenLoop]
  | succ fuel ih =>
    cases s with
    | nil => simp [utf16LenLoop]
    | cons b t =>
      have hb : b < 128 := h b (List.mem_cons_self _ _)
      have hd : decodeRune (b :: t) = (b, 1) := by
        simp [decodeRune, hb]
      unfold utf16LenLoop
      simp only [hd]
      have hs : ¬ (b ≥ surrSelf) := by unfold surrSelf; omega
      rw [if_neg hs]
      simp only [List.drop_succ_cons, List.drop_zero]
      rw [ih _ _ (fun x hx => h x (List.mem_cons_of_mem _ hx)) (by simpa using hf)]
      simp only [List.length_cons]
      push_cast; ring

/-- An ASCII string has as many UTF-16 code units as bytes. -/
theorem utf16Len_ascii (s : GoString) (h : ∀ b ∈ s, b < 128) : utf16Len s = s.length := by
  unfold utf16Len
  rw [utf16LenLoop_ascii _ _ _ h (le_refl _)]
  ring

/-- `withText` sets the text. -/
theorem withText_eq_setText (c : Node) (s : GoString) : c.withText s = c.setText s := by
  unfold Node.withText Node.setText
  split
  · rename_i h
    cases c with
    | mk typ attrs marks text content =>
      simp only [Node.Text] at h
      rw [h]; rfl
  · rfl

/-- Setting the text a node has leaves the node as it is. -/
theorem setText_self (c : Node) : c.setText c.Text = c := by
  cases c; rfl

/-- Setting the text twice keeps the second text. -/
theorem setText_setText (c : Node) (s t : GoString) : (c.setText s).setText t = c.setText t := by
  cases c; rfl

/-- The size of a text node with an ASCII text is the number of its bytes. -/
theorem text_size (c : Node) (ht : c.IsText = true) (ha : ∀ b ∈ c.Text, b < 128) :
    c.NodeSize = c.Text.length := by
  unfold Node.NodeSize Node.textLen
  rw [if_pos ht, utf16Len_ascii _ ha]

/-- The size of a plain text node is the number of its bytes, and positive. -/
theorem plain_size (c : Node) (h : c.PlainText) :
    c.NodeSize = c.Text.length ∧ 0 < c.NodeSize := by
  obtain ⟨ht, hne, ha, _⟩ := h
  have := text_size c ht ha
  refine ⟨this, ?_⟩
  rw [this]
  have : 0 < c.Text.length := List.length_pos.mpr hne
  omega

/-- A plain text node with another non-empty ASCII text is a plain text node. -/
theorem plain_setText (c : Node) (s : GoString) (h : c.PlainText) (hne : s ≠ [])
    (ha : ∀ b ∈ s, b < 128) : (c.setText s).PlainText := by
  obtain ⟨ht, _, _, hc⟩ := h
  exact ⟨ht, hne, ha, hc⟩

/-- The size of a plain text node with another ASCII text. -/
theorem setText_size (c : Node) (s : GoString) (h : c.PlainText) (ha : ∀ b ∈ s, b < 128) :
    (c.setText s).NodeSize = s.length :=
  text_size (c.setText s) h.1 ha

/-- A cut of a plain text node keeps the bytes between the two offsets. -/
theorem text_cut (c : Node) (h : c.PlainText) (lo hi : Int) (h0 : 0 ≤ lo) (h1 : lo ≤ hi)
    (h2 : hi ≤ c.NodeSize) :
    c.cut lo hi = .ok (c.setText ((c.Text.take hi.toNat).drop lo.toNat)) := by
  obtain ⟨hsz, hpos⟩ := plain_size c h
  obtain ⟨ht, hne, ha, hc⟩ := h
  have htl : c.textLen = c.Text.length := by
    unfold Node.textLen; exact utf16Len_ascii _ ha
  cases c with
  | mk typ attrs marks text content =>
    simp only [Node.Text] at hsz htl ⊢
    unfold Node.cut
    simp only [ht, if_true]
    have hne1 : ¬ hi = -1 := by omega
    simp only [hne1, if_false]
    by_cases hall : lo = 0 ∧ hi = (Node.mk typ attrs marks text content).textLen
    · rw [if_pos (by simp [hall.1, hall.2])]
      obtain ⟨hlo, hhi⟩ := hall
      rw [hlo, hhi, htl]
      simp [Node.setText, Node.Typ, Node.Attrs, Node.Marks, Node.Content]
    · rw [if_neg (by simpa using hall)]
      unfold goSlice
      rw [if_neg (by simp; omega)]
      simp only [bind, Except.bind, pure, Except.pure]
      rw [withText_eq_setText]

/-- The loop of `cut` is over once the position reaches the end of the cut. -/
theorem cutLoop_done (l : List Node) (pos from_ to_ : Int) (h : to_ ≤ pos) :
    cutLoop l pos from_ to_ = .ok ([], 0) := by
  cases l with
  | nil => unfold cutLoop; rw [if_neg (by omega)]
  | cons c rest => unfold cutLoop; rw [if_neg (by omega)]

/-- Nothing lies before position 0. -/
theorem leftOf_nonpos (l : List Node) (p : Int) (h : p ≤ 0) : leftOf l p = [] := by
  cases l with
  | nil => rfl
  | cons c rest => unfold leftOf; rw [if_pos h]

/-- Everything lies after position 0. -/
theorem rightOf_nonpos (l : List Node) (p : Int) (h : p ≤ 0) : rightOf l p = l := by
  cases l with
  | nil => rfl
  | cons c rest => unfold rightOf; rw [if_pos h]

/-- The total size of a list with one more node in front. -/
theorem totalSize_cons (c : Node) (rest : List Node) :
    totalSize (c :: rest) = c.NodeSize + totalSize rest := by
  simp [totalSize]

/-- The total size of a list of plain text nodes is not negative. -/
theorem totalSize_nonneg (l : List Node) (hl : ∀ c ∈ l, c.PlainText) : 0 ≤ totalSize l := by
  induction l with
  | nil => simp [totalSize]
  | cons c rest ih =>
    rw [totalSize_cons]
    have := (plain_size c (hl c (List.mem_cons_self _ _))).2
    have := ih (fun x hx => hl x (List.mem_cons_of_mem _ hx))
    omega

/-- The part before a position at or after the end of the first node. -/
theorem leftOf_cons_ge (c : Node) (rest : List Node) (p : Int) (h0 : 0 < p)
    (h1 : c.NodeSize ≤ p) : leftOf (c :: rest) p = c :: leftOf rest (p - c.NodeSize) := by
  rw [leftOf, if_neg (by omega), if_pos (by omega)]

/-- The part before a position inside the first node. -/
theorem leftOf_cons_lt (c : Node) (rest : List Node) (p : Int) (h0 : 0 < p)
    (h1 : p < c.NodeSize) : leftOf (c :: rest) p = [c.setText (c.Text.take p.toNat)] := by
  rw [leftOf, if_neg (by omega), if_neg (by omega)]

/-- The part after a position at or after the end of the first node. -/
theorem rightOf_cons_ge (c : Node) (rest : List Node) (p : Int) (h0 : 0 < p)
    (h1 : c.NodeSize ≤ p) : rightOf (c :: rest) p = rightOf rest (p - c.NodeSize) := by
  rw [rightOf, if_neg (by omega), if_pos (by omega)]

/-- The part after a position inside the first node. -/
theorem rightOf_cons_lt (c : Node) (rest : List Node) (p : Int) (h0 : 0 < p)
    (h1 : p < c.NodeSize) :
    rightOf (c :: rest) p = c.setText (c.Text.drop p.toNat) :: rest := by
  rw [rightOf, if_neg (by omega), if_neg (by omega)]

/-- The loop of `cut` on plain text nodes: it keeps what lies between the two cut points. -/
theorem cutLoop_text (l : List Node) (hl : ∀ c ∈ l, c.PlainText) (pos from_ to_ : Int)
    (hxz : from_ < to_) (hpos : pos < to_) (hz : to_ - pos ≤ totalSize l) :
    cutLoop l pos from_ to_ =
      .ok (leftOf (rightOf l (from_ - pos)) (to_ - max from_ pos), to_ - max from_ pos) := by
  induction l generalizing pos with
  | nil =>
    simp only [totalSize, List.map_nil, List.sum_nil] at hz
    omega
  | cons c rest ih =>
    have hc := hl c (List.mem_cons_self _ _)
    have hrest : ∀ x ∈ rest, x.PlainText := fun x hx => hl x (List.mem_cons_of_mem _ hx)
    obtain ⟨hsz, hnpos⟩ := plain_size c hc
    have htl : c.textLen = c.NodeSize := by
      unfold Node.NodeSize; rw [if_pos hc.1]
    rw [totalSize_cons] at hz
    unfold cutLoop
    rw [if_pos hpos]
    dsimp only
    by_cases hskip : pos + c.NodeSize ≤ from_
    · rw [if_pos hskip]
      rw [ih hrest (pos + c.NodeSize) (by omega) (by omega)]
      have e1 : rightOf (c :: rest) (from_ - pos) = rightOf rest (from_ - (pos + c.NodeSize)) := by
        rw [rightOf_cons_ge c rest _ (by omega) (by omega)]
        congr 1; ring
      have e2 : max from_ (pos + c.NodeSize) = max from_ pos := by
        rw [max_eq_left hskip, max_eq_left (by omega)]
      rw [e1, e2]
    · rw [if_neg hskip]
      rw [if_pos hc.1]
      have hrestcut : cutLoop rest (pos + c.NodeSize) from_ to_ =
          .ok (leftOf rest (to_ - (pos + c.NodeSize)), max 0 (to_ - (pos + c.NodeSize))) := by
        by_cases hmore : pos + c.NodeSize < to_
        · rw [ih hrest (pos + c.NodeSize) hmore (by omega)]
          rw [rightOf_nonpos _ _ (by omega), max_eq_right (by omega : from_ ≤ pos + c.NodeSize),
            max_eq_right (by omega : (0 : Int) ≤ to_ - (pos + c.NodeSize))]
        · rw [cutLoop_done _ _ _ _ (by omega), leftOf_nonpos _ _ (by omega),
            max_eq_left (by omega : to_ - (pos + c.NodeSize) ≤ 0)]
      rw [hrestcut]
      by_cases hx : from_ ≤ pos
      · -- the cut starts at or before this node
        have e1 : rightOf (c :: rest) (from_ - pos) = c :: rest :=
          rightOf_nonpos _ _ (by omega)
        have e2 : max from_ pos = pos := max_eq_right hx
        rw [e1, e2]
        by_cases hzn : pos + c.NodeSize ≤ to_
        · -- and ends at or after its end: the node is kept whole
          have hcond : (decide (pos < from_) || decide (pos + c.NodeSize > to_)) = false := by
            simp; omega
          rw [if_neg (by rw [hcond]; simp)]
          simp only [bind, Except.bind, pure, Except.pure]
          rw [leftOf_cons_ge c rest _ (by omega) (by omega)]
          have e3 : to_ - pos - c.NodeSize = to_ - (pos + c.NodeSize) := by ring
          rw [e3, max_eq_right (by omega : (0 : Int) ≤ to_ - (pos + c.NodeSize))]
          congr 2; ring
        · -- and ends inside it
          have hcond : (decide (pos < from_) || decide (pos + c.NodeSize > to_)) = true := by
            simp; omega
          rw [if_pos hcond]
          rw [htl, max_eq_left (by omega : from_ - pos ≤ 0),
            min_eq_right (by omega : to_ - pos ≤ c.NodeSize)]
          rw [text_cut c hc 0 (to_ - pos) (le_refl _) (by omega) (by omega)]
          simp only [bind, Except.bind, pure, Except.pure, Int.toNat_zero, List.drop_zero]
          rw [leftOf_cons_lt c rest _ (by omega) (by omega)]
          rw [leftOf_nonpos _ _ (by omega), max_eq_left (by omega : to_ - (pos + c.NodeSize) ≤ 0)]
          have hs2 : (c.setText (List.take (to_ - pos).toNat c.Text)).NodeSize = to_ - pos := by
            rw [setText_size c _ hc (fun b hb => hc.2.2.1 b (List.mem_of_mem_take hb))]
            rw [List.length_take]
            omega
          rw [hs2, add_zero]
      · -- the cut starts inside this node
        have hx2 : pos < from_ := by omega
        have e1 : rightOf (c :: rest) (from_ - pos)
            = c.setText (c.Text.drop (from_ - pos).toNat) :: rest := by
          rw [rightOf_cons_lt c rest _ (by omega) (by omega)]
        have e2 : max from_ pos = from_ := max_eq_left (by omega)
        rw [e1, e2]
        have hcond : (decide (pos < from_) || decide (pos + c.NodeSize > to_)) = true := by
          simp; omega
        rw [if_pos hcond]
        rw [htl, max_eq_right (by omega : (0 : Int) ≤ from_ - pos)]
        have hdropA : ∀ b ∈ c.Text.drop (from_ - pos).toNat, b < 128 :=
          fun b hb => hc.2.2.1 b (List.mem_of_mem_drop hb)
        have hs1 : (c.setText (c.Text.drop (from_ - pos).toNat)).NodeSize
            = c.NodeSize - (from_ - pos) := by
          rw [setText_size c _ hc hdropA, List.length_drop]
          omega
        by_cases hzn : pos + c.NodeSize ≤ to_
        · rw [min_eq_left (by omega : c.NodeSize ≤ to_ - pos)]
          rw [text_cut c hc (from_ - pos) c.NodeSize (by omega) (by omega) (le_refl _)]
          simp only [bind, Except.bind, pure, Except.pure]
          have ht : List.take c.NodeSize.toNat c.Text = c.Text := by
            apply List.take_of_length_le; omega
          rw [ht]
          rw [leftOf_cons_ge _ rest _ (by omega) (by rw [hs1]; omega)]
          rw [hs1]
          have e3 : to_ - from_ - (c.NodeSize - (from_ - pos)) = to_ - (pos + c.NodeSize) := by
            ring
          rw [e3, max_eq_right (by omega : (0 : Int) ≤ to_ - (pos + c.NodeSize))]
          congr 2; ring
        · rw [min_eq_right (by omega : to_ - pos ≤ c.NodeSize)]
          rw [text_cut c hc (from_ - pos) (to_ - pos) (by omega) (by omega) (by omega)]
          simp only [bind, Except.bind, pure, Except.pure]
          rw [leftOf_cons_lt _ rest _ (by omega) (by rw [hs1]; omega)]
          rw [leftOf_nonpos _ _ (by omega), max_eq_left (by omega : to_ - (pos + c.NodeSize) ≤ 0)]
          rw [setText_setText]
          have htxt : List.drop (from_ - pos).toNat (List.take (to_ - pos).toNat c.Text)
              = List.take (to_ - from_).toNat
                  (c.setText (List.drop (from_ - pos).toNat c.Text)).Text := by
            show _ = List.take (to_ - from_).toNat (List.drop (from_ - pos).toNat c.Text)
            rw [List.drop_take]
            congr 1; omega
          rw [← htxt]
          have hs2 : (c.setText (List.drop (from_ - pos).toNat
              (List.take (to_ - pos).toNat c.Text))).NodeSize = to_ - from_ := by
            rw [setText_size c _ hc
              (fun b hb => hc.2.2.1 b (List.mem_of_mem_take (List.mem_of_mem_drop hb)))]
            rw [List.length_drop, List.length_take]
            omega
          rw [hs2, add_zero]

/-- The part of a list of plain text nodes before a position consists of plain text
nodes. -/
theorem leftOf_plain (l : List Node) (hl : ∀ c ∈ l, c.PlainText) (p : Int) :
    ∀ c ∈ leftOf l p, c.PlainText := by
  induction l generalizing p with
  | nil => simp [leftOf]
  | cons c rest ih =>
    have hc := hl c (List.mem_cons_self _ _)
    have hrest : ∀ x ∈ rest, x.PlainText := fun x hx => hl x (List.mem_cons_of_mem _ hx)
    obtain ⟨hsz, hnpos⟩ := plain_size c hc
    by_cases h0 : p ≤ 0
    · rw [leftOf_nonpos _ _ h0]; simp
    · by_cases h1 : c.NodeSize ≤ p
      · rw [leftOf_cons_ge c rest p (by omega) h1]
        intro x hx
        rcases List.mem_cons.mp hx with h | h
        · rw [h]; exact hc
        · exact ih hrest _ x h
      · rw [leftOf_cons_lt c rest p (by omega) (by omega)]
        intro x hx
        simp only [List.mem_singleton] at hx
        rw [hx]
        apply plain_setText c _ hc
        · intro hnil
          rcases List.take_eq_nil_iff.mp hnil with h | h
          · omega
          · exact hc.2.1 h
        · exact fun b hb => hc.2.2.1 b (List.mem_of_mem_take hb)

/-- The part of a list of plain text nodes from a position on consists of plain text
nodes. -/
theorem rightOf_plain (l : List Node) (hl : ∀ c ∈ l, c.PlainText) (p : Int) :
    ∀ c ∈ rightOf l p, c.PlainText := by
  induction l generalizing p with
  | nil => simp [rightOf]
  | cons c rest ih =>
    have hc := hl c (List.mem_cons_self _ _)
    have hrest : ∀ x ∈ rest, x.PlainText := fun x hx => hl x (List.mem_cons_of_mem _ hx)
    obtain ⟨hsz, hnpos⟩ := plain_size c hc
    by_cases h0 : p ≤ 0
    · rw [rightOf_nonpos _ _ h0]; exact hl
    · by_cases h1 : c.NodeSize ≤ p
      · rw [rightOf_cons_ge c rest p (by omega) h1]
        exact ih hrest _
      · rw [rightOf_cons_lt c rest p (by omega) (by omega)]
        intro x hx
        rcases List.mem_cons.mp hx with h | h
        · rw [h]
          apply plain_setText c _ hc
          · intro hnil
            have := List.drop_eq_nil_iff.mp hnil
            omega
          · exact fun b hb => hc.2.2.1 b (List.mem_of_mem_drop hb)
        · exact hrest x h

/-- The part before position `p` has total size `p`. -/
theorem leftOf_total (l : List Node) (hl : ∀ c ∈ l, c.PlainText) (p : Int) (h0 : 0 ≤ p)
    (h1 : p ≤ totalSize l) : totalSize (leftOf l p) = p := by
  induction l generalizing p with
  | nil =>
    simp only [totalSize, List.map_nil, List.sum_nil] at h1
    simp [leftOf, totalSize]; omega
  | cons c rest ih =>
    have hc := hl c (List.mem_cons_self _ _)
    have hrest : ∀ x ∈ rest, x.PlainText := fun x hx => hl x (List.mem_cons_of_mem _ hx)
    obtain ⟨hsz, hnpos⟩ := plain_size c hc
    rw [totalSize_cons] at h1
    by_cases hz : p ≤ 0
    · rw [leftOf_nonpos _ _ hz]; simp [totalSize]; omega
    · by_cases hn : c.NodeSize ≤ p
      · rw [leftOf_cons_ge c rest p (by omega) hn, totalSize_cons,
          ih hrest _ (by omega) (by omega)]
        ring
      · rw [leftOf_cons_lt c rest p (by omega) (by omega)]
        simp only [totalSize, List.map_cons, List.map_nil, List.sum_cons, List.sum_nil,
          add_zero]
        rw [setText_size c _ hc (fun b hb => hc.2.2.1 b (List.mem_of_mem_take hb)),
          List.length_take]
        omega

/-- The part from position `p` on has the rest of the total size. -/
theorem rightOf_total (l : List Node) (hl : ∀ c ∈ l, c.PlainText) (p : Int) (h0 : 0 ≤ p)
    (h1 : p ≤ totalSize l) : totalSize (rightOf l p) = totalSize l - p := by
  induction l generalizing p with
  | nil =>
    simp only [totalSize, List.map_nil, List.sum_nil] at h1
    simp [rightOf, totalSize]; omega
  | cons c rest ih =>
    have hc := hl c (List.mem_cons_self _ _)
    have hrest : ∀ x ∈ rest, x.PlainText := fun x hx => hl x (List.mem_cons_of_mem _ hx)
    obtain ⟨hsz, hnpos⟩ := plain_size c hc
    rw [totalSize_cons] at h1
    by_cases hz : p ≤ 0
    · rw [rightOf_nonpos _ _ hz]; omega
    · by_cases hn : c.NodeSize ≤ p
      · rw [rightOf_cons_ge c rest p (by omega) hn, totalSize_cons,
          ih hrest _ (by omega) (by omega)]
        ring
      · rw [rightOf_cons_lt c rest p (by omega) (by omega), totalSize_cons, totalSize_cons]
        rw [setText_size c _ hc (fun b hb => hc.2.2.1 b (List.mem_of_mem_drop hb)),
          List.length_drop]
        omega

/-- The part before a position at or after the end of the list is the list. -/
theorem leftOf_all (l : List Node) (hl : ∀ c ∈ l, c.PlainText) (p : Int)
    (h : totalSize l ≤ p) : leftOf l p = l := by
  induction l generalizing p with
  | nil => rfl
  | cons c rest ih =>
    have hc := hl c (List.mem_cons_self _ _)
    have hrest : ∀ x ∈ rest, x.PlainText := fun x hx => hl x (List.mem_cons_of_mem _ hx)
    obtain ⟨hsz, hnpos⟩ := plain_size c hc
    rw [totalSize_cons] at h
    have := totalSize_nonneg rest hrest
    rw [leftOf_cons_ge c rest p (by omega) (by omega), ih hrest _ (by omega)]

/-- The part from a position at or after the end of the list on is empty. -/
theorem rightOf_all (l : List Node) (hl : ∀ c ∈ l, c.PlainText) (p : Int)
    (h : totalSize l ≤ p) : rightOf l p = [] := by
  induction l generalizing p with
  | nil => rfl
  | cons c rest ih =>
    have hc := hl c (List.mem_cons_self _ _)
    have hrest : ∀ x ∈ rest, x.PlainText := fun x hx => hl x (List.mem_cons_of_mem _ hx)
    obtain ⟨hsz, hnpos⟩ := plain_size c hc
    rw [totalSize_cons] at h
    have := totalSize_nonneg rest hrest
    rw [rightOf_cons_ge c rest p (by omega) (by omega), ih hrest _ (by omega)]

/-- Cutting the part before `b` at `a ≤ b` gives the part before `a`. -/
theorem leftOf_leftOf (l : List Node) (hl : ∀ c ∈ l, c.PlainText) (a b : Int) (hab : a ≤ b) :
    leftOf (leftOf l b) a = leftOf l a := by
  induction l generalizing a b with
  | nil => rfl
  | cons c rest ih =>
    have hc := hl c (List.mem_cons_self _ _)
    have hrest : ∀ x ∈ rest, x.PlainText := fun x hx => hl x (List.mem_cons_of_mem _ hx)
    obtain ⟨hsz, hnpos⟩ := plain_size c hc
    by_cases ha0 : a ≤ 0
    · rw [leftOf_nonpos _ _ ha0, leftOf_nonpos _ _ ha0]
    · by_cases hbn : c.NodeSize ≤ b
      · rw [leftOf_cons_ge c rest b (by omega) hbn]
        by_cases han : c.NodeSize ≤ a
        · rw [leftOf_cons_ge c _ a (by omega) han, leftOf_cons_ge c rest a (by omega) han,
            ih hrest _ _ (by omega)]
        · rw [leftOf_cons_lt c _ a (by omega) (by omega),
            leftOf_cons_lt c rest a (by omega) (by omega)]
      · have hta : ∀ x ∈ c.Text.take b.toNat, x < 128 :=
          fun x hx => hc.2.2.1 x (List.mem_of_mem_take hx)
        have hs : (c.setText (c.Text.take b.toNat)).NodeSize = b := by
          rw [setText_size c _ hc hta, List.length_take]; omega
        rw [leftOf_cons_lt c rest b (by omega) (by omega)]
        rw [leftOf_cons_lt c rest a (by omega) (by omega)]
        by_cases hab2 : a = b
        · rw [hab2, leftOf_cons_ge _ [] b (by omega) (by rw [hs])]
          rw [leftOf_nonpos _ _ (by rw [hs]; omega)]
        · rw [leftOf_cons_lt _ [] a (by omega) (by rw [hs]; omega), setText_setText]
          show [c.setText (List.take a.toNat (List.take b.toNat c.Text))] = _
          rw [List.take_take, min_eq_left (by omega)]

/-- Cutting the part before `b` from `a ≤ b` on gives what lies between `a` and `b`. -/
theorem rightOf_leftOf (l : List Node) (hl : ∀ c ∈ l, c.PlainText) (a b : Int) (h0 : 0 ≤ a)
    (hab : a ≤ b) : rightOf (leftOf l b) a = leftOf (rightOf l a) (b - a) := by
  induction l generalizing a b with
  | nil => rfl
  | cons c rest ih =>
    have hc := hl c (List.mem_cons_self _ _)
    have hrest : ∀ x ∈ rest, x.PlainText := fun x hx => hl x (List.mem_cons_of_mem _ hx)
    obtain ⟨hsz, hnpos⟩ := plain_size c hc
    by_cases ha0 : a ≤ 0
    · have : a = 0 := by omega
      subst this
      rw [rightOf_nonpos _ _ (le_refl _), rightOf_nonpos _ _ (le_refl _), sub_zero]
    · by_cases han : c.NodeSize ≤ a
      · rw [leftOf_cons_ge c rest b (by omega) (by omega),
          rightOf_cons_ge c _ a (by omega) han, rightOf_cons_ge c rest a (by omega) han,
          ih hrest _ _ (by omega) (by omega)]
        congr 1; ring
      · have hda : ∀ x ∈ c.Text.drop a.toNat, x < 128 :=
          fun x hx => hc.2.2.1 x (List.mem_of_mem_drop hx)
        have hsd : (c.setText (c.Text.drop a.toNat)).NodeSize = c.NodeSize - a := by
          rw [setText_size c _ hc hda, List.length_drop]; omega
        rw [rightOf_cons_lt c rest a (by omega) (by omega)]
        by_cases hbn : c.NodeSize ≤ b
        · rw [leftOf_cons_ge c rest b (by omega) hbn,
            rightOf_cons_lt c _ a (by omega) (by omega),
            leftOf_cons_ge _ rest (b - a) (by omega) (by rw [hsd]; omega), hsd]
          congr 2; ring
        · have hta : ∀ x ∈ c.Text.take b.toNat, x < 128 :=
            fun x hx => hc.2.2.1 x (List.mem_of_mem_take hx)
          have hst : (c.setText (c.Text.take b.toNat)).NodeSize = b := by
            rw [setText_size c _ hc hta, List.length_take]; omega
          rw [leftOf_cons_lt c rest b (by omega) (by omega)]
          by_cases hab2 : a = b
          · rw [hab2, rightOf_cons_ge _ [] b (by omega) (by rw [hst]), sub_self,
              leftOf_nonpos _ _ (le_refl _)]
            rfl
          · rw [rightOf_cons_lt _ [] a (by omega) (by rw [hst]; omega),
              leftOf_cons_lt _ rest (b - a) (by omega) (by rw [hsd]; omega),
              setText_setText, setText_setText]
            show [c.setText (List.drop a.toNat (List.take b.toNat c.Text))]
              = [c.setText (List.take (b - a).toNat (List.drop a.toNat c.Text))]
            rw [List.drop_take]
            congr 3; omega

/-- The markup test does not read the text of its first node. -/
theorem sameMarkup_setText_left (c x : Node) (s : GoString) :
    (c.setText s).sameMarkup x = c.sameMarkup x := by
  cases c; rfl

/-- The markup test does not read the text of its second node. -/
theorem sameMarkup_setText_right (c x : Node) (s : GoString) :
    x.sameMarkup (c.setText s) = x.sameMarkup c := by
  cases c; rfl

/-- A list of plain text nodes of total size 0 is empty. -/
theorem totalSize_eq_zero (l : List Node) (hl : ∀ c ∈ l, c.PlainText) (h : totalSize l = 0) :
    l = [] := by
  cases l with
  | nil => rfl
  | cons c rest =>
    exfalso
    rw [totalSize_cons] at h
    have := (plain_size c (hl c (List.mem_cons_self _ _))).2
    have := totalSize_nonneg rest (fun x hx => hl x (List.mem_cons_of_mem _ hx))
    omega

/-- The first node of the part before a position is the first node of the list, up to its
text. -/
theorem leftOf_head (d : Node) (r : List Node) (p : Int) :
    leftOf (d :: r) p = [] ∨ ∃ s tl, leftOf (d :: r) p = d.setText s :: tl := by
  by_cases h0 : p ≤ 0
  · exact Or.inl (leftOf_nonpos _ _ h0)
  · by_cases h1 : d.NodeSize ≤ p
    · right
      exact ⟨d.Text, leftOf r (p - d.NodeSize), by
        rw [leftOf_cons_ge d r p (by omega) h1, setText_self]⟩
    · right
      exact ⟨_, [], leftOf_cons_lt d r p (by omega) (by omega)⟩

/-- The part of a coalesced list of text nodes before a position is coalesced. -/
theorem leftOf_coalesced (l : List Node) (hl : ∀ c ∈ l, c.PlainText)
    (hco : coalesced l = true) (p : Int) : coalesced (leftOf l p) = true := by
  induction l generalizing p with
  | nil => rfl
  | cons c rest ih =>
    have hrest : ∀ x ∈ rest, x.PlainText := fun x hx => hl x (List.mem_cons_of_mem _ hx)
    have hcr := coalesced_tail c rest hco
    by_cases h0 : p ≤ 0
    · rw [leftOf_nonpos _ _ h0]; rfl
    · by_cases h1 : c.NodeSize ≤ p
      · rw [leftOf_cons_ge c rest p (by omega) h1]
        have hih := ih hrest hcr (p - c.NodeSize)
        cases rest with
        | nil => rfl
        | cons d r =>
          rcases leftOf_head d r (p - c.NodeSize) with h | ⟨s, tl, h⟩
          · rw [h]; rfl
          · rw [h] at hih ⊢
            simp only [coalesced, Bool.and_eq_true] at hco ⊢
            refine ⟨?_, hih⟩
            have hadj : adjacentText c (d.setText s) = adjacentText c d := by
              unfold adjacentText
              rw [sameMarkup_setText_right]
              rfl
            rw [hadj]; exact hco.1
      · rw [leftOf_cons_lt c rest p (by omega) (by omega)]; rfl

/-- Joining a list with at least two nodes: the first node stays. -/
theorem listAppend_cons (c : Node) (l r : List Node) (hne : l ≠ []) :
    listAppend (c :: l) r = c :: listAppend l r := by
  unfold listAppend
  have h1 : (c :: l).getLast? = l.getLast? := by
    cases l with
    | nil => exact absurd rfl hne
    | cons x xs => rw [List.getLast?_cons_cons]
  have h2 : (c :: l).dropLast = c :: l.dropLast := by
    cases l with
    | nil => exact absurd rfl hne
    | cons x xs => rfl
  rw [h1, h2]
  cases l.getLast? with
  | none => rfl
  | some last =>
    cases r.head? with
    | none => rfl
    | some first =>
      dsimp only
      split <;> rfl

/-- Joining the two parts of a coalesced list of plain text nodes gives the list back. -/
theorem listAppend_split (l : List Node) (hl : ∀ c ∈ l, c.PlainText)
    (hco : coalesced l = true) (p : Int) : listAppend (leftOf l p) (rightOf l p) = l := by
  induction l generalizing p with
  | nil => rfl
  | cons c rest ih =>
    have hc := hl c (List.mem_cons_self _ _)
    have hrest : ∀ x ∈ rest, x.PlainText := fun x hx => hl x (List.mem_cons_of_mem _ hx)
    have hcr := coalesced_tail c rest hco
    obtain ⟨hsz, hnpos⟩ := plain_size c hc
    by_cases h0 : p ≤ 0
    · rw [leftOf_nonpos _ _ h0, rightOf_nonpos _ _ h0]; rfl
    · by_cases h1 : c.NodeSize ≤ p
      · rw [leftOf_cons_ge c rest p (by omega) h1, rightOf_cons_ge c rest p (by omega) h1]
        by_cases hne : leftOf rest (p - c.NodeSize) = []
        · rw [hne]
          have hr : rightOf rest (p - c.NodeSize) = rest := by
            cases rest with
            | nil => rfl
            | cons d r =>
              by_cases hp : p - c.NodeSize ≤ 0
              · exact rightOf_nonpos _ _ hp
              · exfalso
                by_cases hd : d.NodeSize ≤ p - c.NodeSize
                · rw [leftOf_cons_ge d r _ (by omega) hd] at hne; cases hne
                · rw [leftOf_cons_lt d r _ (by omega) (by omega)] at hne; cases hne
          rw [hr]
          cases rest with
          | nil => rfl
          | cons d r =>
            simp only [coalesced, Bool.and_eq_true, Bool.not_eq_true'] at hco
            have hd := hl d (List.mem_cons_of_mem _ (List.mem_cons_self _ _))
            have hadj := hco.1
            unfold adjacentText at hadj
            rw [hc.1, hd.1] at hadj
            simp only [Bool.and_self, Bool.true_and] at hadj
            unfold listAppend
            simp only [List.getLast?_singleton, List.head?_cons, hc.1, hadj, Bool.and_false,
              Bool.false_eq_true, if_false]
            rfl
        · rw [listAppend_cons c _ _ hne, ih hrest hcr]
      · rw [leftOf_cons_lt c rest p (by omega) (by omega),
          rightOf_cons_lt c rest p (by omega) (by omega)]
        unfold listAppend
        simp only [List.getLast?_singleton, List.head?_cons]
        have hsm : (c.setText (List.take p.toNat c.Text)).sameMarkup
            (c.setText (List.drop p.toNat c.Text)) = true := by
          rw [sameMarkup_setText_left, sameMarkup_setText_right]; exact sameMarkup_refl c
        have hit : (c.setText (List.take p.toNat c.Text)).IsText = true := hc.1
        rw [hit, hsm]
        simp only [Bool.and_self, if_true, List.dropLast_single, List.nil_append,
          List.drop_succ_cons, List.drop_zero, List.singleton_append]
        rw [withText_eq_setText, setText_setText]
        show c.setText (List.take p.toNat c.Text ++ List.drop p.toNat c.Text) :: rest = _
        rw [List.take_append_drop, setText_self]

/-- `Fragment.append` on two lists of plain text nodes with the right cached sizes. -/
theorem append_eq_listAppend (l r : List Node) (hl : ∀ c ∈ l, c.PlainText)
    (hr : ∀ c ∈ r, c.PlainText) :
    (Fragment.mk (totalSize l) l).append (.mk (totalSize r) r) =
      .ok (.mk (totalSize l + totalSize r) (listAppend l r)) := by
  unfold Fragment.append
  by_cases hrz : totalSize r = 0
  · have : r = [] := totalSize_eq_zero r hr hrz
    subst this
    rw [if_pos (by exact hrz)]
    have : listAppend l [] = l := by
      unfold listAppend
      cases l.getLast? <;> simp
    rw [this, hrz, add_zero]
  · rw [if_neg (by exact hrz)]
    by_cases hlz : totalSize l = 0
    · have : l = [] := totalSize_eq_zero l hl hlz
      subst this
      rw [if_pos (by exact hlz)]
      have : listAppend [] r = r := by
        unfold listAppend
        simp
      rw [this, hlz, zero_add]
    · rw [if_neg (by exact hlz)]
      have hlne : l ≠ [] := fun h => hlz (by rw [h]; rfl)
      have hrne : r ≠ [] := fun h => hrz (by rw [h]; rfl)
      unfold listAppend Fragment.lastChild Fragment.firstChild
      change (match l.getLast?, r.head? with
        | some last, some first =>
          if (last.IsText && last.sameMarkup first) = true then
            Except.ok (Fragment.mk (totalSize l + totalSize r)
              (l.dropLast ++ [last.withText (last.Text ++ first.Text)] ++ r.drop 1))
          else Except.ok (Fragment.mk (totalSize l + totalSize r) (l ++ r))
        | _, _ => Except.error (Err.panic "nil pointer dereference")) = _
      cases hgl : l.getLast? with
      | none => exact absurd (List.getLast?_eq_none_iff.mp hgl) hlne
      | some last =>
        cases hh : r.head? with
        | none => exact absurd (List.head?_eq_none_iff.mp hh) hrne
        | some first =>
          dsimp only
          split <;> rfl

/-- A cut to `-1` is a cut to the end of the fragment. -/
theorem cut_neg_one (f : Fragment) (a : Int) : f.cut a (-1) = f.cut a f.Size := by
  cases f with
  | mk size cs =>
    unfold Fragment.cut
    simp [Fragment.Size]

/-- A cut of a fragment of plain text nodes keeps what lies between the two positions. -/
theorem cut_text (cs : List Node) (hl : ∀ c ∈ cs, c.PlainText) (a b : Int) (h0 : 0 ≤ a)
    (hab : a ≤ b) (hb : b ≤ totalSize cs) :
    (Fragment.mk (totalSize cs) cs).cut a b =
      .ok (.mk (b - a) (leftOf (rightOf cs a) (b - a))) := by
  unfold Fragment.cut
  have hne : ¬ b = -1 := by omega
  simp only [hne, if_false]
  by_cases hall : a = 0 ∧ b = totalSize cs
  · rw [if_pos (by simp [hall.1, hall.2])]
    obtain ⟨ha, hbb⟩ := hall
    rw [ha, hbb, rightOf_nonpos _ _ (le_refl _), sub_zero, leftOf_all _ hl _ (le_refl _)]
  · rw [if_neg (by simpa using hall)]
    by_cases hle : b ≤ a
    · rw [if_pos hle]
      have : b - a = 0 := by omega
      rw [this, leftOf_nonpos _ _ (le_refl _)]
      rfl
    · rw [if_neg hle]
      rw [cutLoop_text cs hl 0 a b (by omega) (by omega) (by omega)]
      simp only [bind, Except.bind, pure, Except.pure, sub_zero]
      rw [max_eq_left h0]

/-- A cut of a fragment of plain text nodes from a position to the end. -/
theorem cut_text_end (cs : List Node) (hl : ∀ c ∈ cs, c.PlainText) (b : Int) (h0 : 0 ≤ b)
    (hb : b ≤ totalSize cs) :
    (Fragment.mk (totalSize cs) cs).cut b (-1) =
      .ok (.mk (totalSize cs - b) (rightOf cs b)) := by
  rw [cut_neg_one]
  show (Fragment.mk (totalSize cs) cs).cut b (totalSize cs) = _
  rw [cut_text cs hl b (totalSize cs) h0 hb (le_refl _)]
  rw [leftOf_all _ (rightOf_plain cs hl b) _ (by rw [rightOf_total cs hl b h0 hb])]

/-- The fragment `NewFragment` builds caches the total size of its nodes. -/
theorem newFragment_eq (l : List Node) : NewFragment l = .mk (totalSize l) l := by
  unfold NewFragment totalSize
  rw [sumSizes_eq]; simp

/-- The function `addMark` maps over the slice leaves the children of a node that does not
allow the mark as they are, when they have no content of their own. -/
theorem mapChildren_disallowed (m : Mark) (parent : Node)
    (hdis : parent.Typ.AllowsMarkType m.Typ = false) (cs : List Node)
    (hc : ∀ c ∈ cs, c.Content.Size = 0) (i : Int) :
    mapChildren
      (fun node parent _ =>
        if !node.IsAtom || !parent.Typ.AllowsMarkType m.Typ then node
        else node.WithMarks (node.Marks ++ [m])) cs parent i = cs := by
  induction cs generalizing i with
  | nil => rfl
  | cons c rest ih =>
    have hc0 := hc c (List.mem_cons_self _ _)
    cases c with
    | mk typ attrs marks text content =>
      simp only [Node.Content] at hc0
      unfold mapChildren
      simp only [hc0, gt_iff_lt, lt_self_iff_false, if_false, hdis, Bool.not_false,
        Bool.or_true, if_true]
      rw [ih (fun x hx => hc x (List.mem_cons_of_mem _ hx))]
      simp [Node.Clone, Node.Typ, Node.Attrs, Node.Marks, Node.Text, Node.Content]

/-- The slice `addMark` puts back, for children of a node that does not allow the mark. -/
theorem mapFragments_disallowed (m : Mark) (parent : Node)
    (hdis : parent.Typ.AllowsMarkType m.Typ = false) (f : Fragment)
    (hc : ∀ c ∈ f.Content, c.Content.Size = 0) :
    mapFragments
      (fun node parent _ =>
        if !node.IsAtom || !parent.Typ.AllowsMarkType m.Typ then node
        else node.WithMarks (node.Marks ++ [m])) f parent = NewFragment f.Content := by
  cases f with
  | mk size cs =>
    unfold mapFragments
    rw [mapChildren_disallowed m parent hdis cs hc 0]
    rfl

/-- Cutting a range out of a coalesced list of plain text nodes and putting it back between
what lies before and after it gives the list back. -/
theorem text_replace_roundtrip (cs : List Node) (hl : ∀ c ∈ cs, c.PlainText)
    (hco : coalesced cs = true) (a b : Int) (h0 : 0 ≤ a) (hab : a < b)
    (hb : b ≤ totalSize cs) :
    ∃ mid c1 a1 c2, (Fragment.mk (totalSize cs) cs).cut a b = .ok mid ∧
      (∀ c ∈ mid.Content, c.PlainText) ∧ (NewFragment mid.Content).Size ≠ 0 ∧
      (Fragment.mk (totalSize cs) cs).cut 0 a = .ok c1 ∧
      c1.append (NewFragment mid.Content) = .ok a1 ∧
      (Fragment.mk (totalSize cs) cs).cut b (-1) = .ok c2 ∧
      a1.append c2 = .ok (.mk (totalSize cs) cs) := by
  have hR := rightOf_plain cs hl a
  have hM := leftOf_plain (rightOf cs a) hR (b - a)
  have hMt : totalSize (leftOf (rightOf cs a) (b - a)) = b - a :=
    leftOf_total _ hR _ (by omega) (by rw [rightOf_total cs hl a h0 (by omega)]; omega)
  have hL := leftOf_plain cs hl a
  have hLt : totalSize (leftOf cs a) = a := leftOf_total cs hl a h0 (by omega)
  have hB := leftOf_plain cs hl b
  have hBt : totalSize (leftOf cs b) = b := leftOf_total cs hl b (by omega) hb
  have hE := rightOf_plain cs hl b
  have hEt : totalSize (rightOf cs b) = totalSize cs - b :=
    rightOf_total cs hl b (by omega) hb
  refine ⟨.mk (b - a) (leftOf (rightOf cs a) (b - a)), .mk a (leftOf cs a),
    .mk b (leftOf cs b), .mk (totalSize cs - b) (rightOf cs b),
    cut_text cs hl a b h0 (le_of_lt hab) hb, hM, ?_, ?_, ?_,
    cut_text_end cs hl b (by omega) hb, ?_⟩
  · rw [newFragment_eq]
    show totalSize (leftOf (rightOf cs a) (b - a)) ≠ 0
    rw [hMt]; omega
  · have := cut_text cs hl 0 a (le_refl _) h0 (by omega)
    rw [rightOf_nonpos _ _ (le_refl _), sub_zero] at this
    exact this
  · rw [newFragment_eq]
    show (Fragment.mk a (leftOf cs a)).append
      (Fragment.mk (totalSize (leftOf (rightOf cs a) (b - a))) (leftOf (rightOf cs a) (b - a)))
      = _
    have := append_eq_listAppend (leftOf cs a) (leftOf (rightOf cs a) (b - a)) hL hM
    rw [hLt] at this
    rw [this, hMt]
    have e1 : leftOf (rightOf cs a) (b - a) = rightOf (leftOf cs b) a :=
      (rightOf_leftOf cs hl a b h0 (le_of_lt hab)).symm
    have e2 : leftOf cs a = leftOf (leftOf cs b) a :=
      (leftOf_leftOf cs hl a b (le_of_lt hab)).symm
    rw [e1]
    nth_rewrite 1 [e2]
    rw [listAppend_split (leftOf cs b) hB (leftOf_coalesced cs hl hco b) a]
    congr 2; ring
  · have := append_eq_listAppend (leftOf cs b) (rightOf cs b) hB hE
    rw [hBt, hEt] at this
    rw [this, listAppend_split cs hl hco b]
    congr 2; ring

/-! ## Two positions with the same parent -/

/-- The offset `findIndex` returns is the offset at which the child it returns starts. -/
theorem findIndex_off (f : Fragment) (hws : f.WellSized = true) (p i off : Int)
    (hfi : f.findIndex p = .ok (i, off)) :
    ∃ k : Nat, i = (k : Int) ∧ off = prefixSize f.Content k := by
  have hrange := findIndex_range f (fragmentSize_nonneg f hws) p _ hfi
  obtain ⟨k, off2, hfi2, _, hoff, _⟩ :=
    findIndex_spec f p (wellSized_sizeOk f hws) hrange.1 hrange.2
  rw [hfi] at hfi2
  refine ⟨k, by cases hfi2; rfl, ?_⟩
  rw [← hoff]
  cases hfi2; rfl

/-- Two walks from the same node along the same indices, the last apart, visit the same
nodes and end in content that starts at the same position. -/
theorem walk_det (node : Node) (start po1 po2 : Int) (nodes1 nodes2 : List Node)
    (idxs1 idxs2 offs1 offs2 : List Int) (fpo1 fpo2 : Int)
    (hw1 : Walk node po1 start nodes1 idxs1 offs1 fpo1)
    (hw2 : Walk node po2 start nodes2 idxs2 offs2 fpo2)
    (hws : node.Content.WellSized = true) (hi : idxs1.dropLast = idxs2.dropLast) :
    nodes1 = nodes2 ∧ po1 - fpo1 = po2 - fpo2 := by
  induction hw1 generalizing po2 nodes2 idxs2 offs2 with
  | stop node po start i off hfi htext =>
    cases hw2 with
    | stop => exact ⟨rfl, by ring⟩
    | step _ _ _ i2 off2 c2 nodes idxs offs _ hfi2 hrem2 hc2 ht2 hrest2 =>
      exfalso
      have hl := (walk_lengths _ _ _ _ _ _ _ hrest2).1
      cases idxs with
      | nil => simp at hl
      | cons x xs => simp at hi
  | step node po start i1 off1 c1 nodes idxs offs fpo hfi hrem hc ht hrest ih =>
    have hl1 := (walk_lengths _ _ _ _ _ _ _ hrest).1
    cases hw2 with
    | stop _ _ _ i2 off2 hfi2 htext2 =>
      exfalso
      cases idxs with
      | nil => simp at hl1
      | cons x xs => simp at hi
    | step _ _ _ i2 off2 c2 nodes2 idxs2 offs2 _ hfi2 hrem2 hc2 ht2 hrest2 =>
      have hl2 := (walk_lengths _ _ _ _ _ _ _ hrest2).1
      have hii : i1 = i2 ∧ idxs.dropLast = idxs2.dropLast := by
        cases idxs with
        | nil => simp at hl1
        | cons x xs =>
          cases idxs2 with
          | nil => simp at hl2
          | cons y ys =>
            simp only [List.dropLast_cons₂, List.cons.injEq] at hi
            exact ⟨hi.1, by simpa using hi.2⟩
      obtain ⟨hi12, hdl⟩ := hii
      obtain ⟨k1, hk1, ho1⟩ := findIndex_off node.Content hws _ _ _ hfi
      obtain ⟨k2, hk2, ho2⟩ := findIndex_off node.Content hws _ _ _ hfi2
      have hk : k1 = k2 := by omega
      have hoff : off1 = off2 := by rw [ho1, ho2, hk]
      have hcc : c1 = c2 := by
        rw [hi12, hc2] at hc
        cases hc; rfl
      subst hcc
      subst hoff
      have hcw : c1.Content.WellSized = true :=
        wellSized_mem node.Content c1 hws (goIndex_mem _ _ _ hc2)
      obtain ⟨h1, h2⟩ := ih _ _ _ _ hrest2 hcw hdl
      exact ⟨by rw [h1], by omega⟩

/-- The path has an index at every depth up to the depth of the position. -/
theorem path_index_exists (r : ResolvedPos) (doc : Node) (ht : r.Traces doc) (d : Int)
    (hd : 0 ≤ d) (hdd : d ≤ r.Depth) : ∃ i, r.Index d = .ok i := by
  obtain ⟨nodes, idxs, offs, hN, hI, hO, hD, hw⟩ := ht
  have hl := (walk_lengths _ _ _ _ _ _ _ hw).1
  have hlt : d.toNat < idxs.length := by omega
  refine ⟨idxs.get ⟨d.toNat, hlt⟩, ?_⟩
  unfold ResolvedPos.Index ResolvedPos.resolveDepth
  rw [if_neg (by omega), hI]
  unfold goIndex
  rw [if_neg (by omega), List.get?_eq_get hlt]

/-- Below its last place, a list reads like the list without its last element. -/
theorem goIndex_dropLast {α : Type} (xs : List α) (d : Int) (h : d + 1 < (xs.length : Int)) :
    goIndex xs d = goIndex xs.dropLast d := by
  unfold goIndex
  by_cases h0 : d < 0
  · rw [if_pos h0, if_pos h0]
  · rw [if_neg h0, if_neg h0]
    rw [List.dropLast_eq_take, List.get?_eq_getElem?, List.get?_eq_getElem?,
      List.getElem?_take_of_lt (by omega)]

/-- Replacing a child by itself leaves the fragment as it is. -/
theorem replaceChild_same (f : Fragment) (i : Int) (c : Node)
    (h : goIndex f.Content i = .ok c) : f.replaceChild i c = .ok f := by
  unfold Fragment.replaceChild
  rw [h]
  simp only [bind, Except.bind, pure, Except.pure]
  split
  · rfl
  · obtain ⟨_, hg⟩ := goIndex_ok _ _ _ h
    cases f with
    | mk size cs =>
      change cs.get? i.toNat = some c at hg
      show Except.ok (Fragment.mk (size - c.NodeSize + c.NodeSize) (cs.set i.toNat c)) = _
      rw [set_same cs _ _ hg]
      congr 2; ring

/-- The content of the parent of a resolved position starts at the position minus the
parent offset. -/
theorem resolve_start (doc : Node) (pos : Int) (r : ResolvedPos)
    (hws : doc.Content.WellSized = true) (h : resolve doc pos = .ok r) :
    r.Start r.Depth = .ok (pos - r.ParentOffset) := by
  obtain ⟨_, _, _, _, _, _, _, _, _, h0, h1⟩ := resolve_walk doc pos r h
  obtain ⟨r2, hr2, hpos, hends⟩ :=
    resolveLoop_spec doc.height doc { Pos := pos, ParentOffset := pos } 0 pos hws (le_refl _)
      h0 h1 rfl (Or.inl ⟨rfl, rfl⟩) (by simp)
  have hc : (decide (pos < 0) || decide (pos > doc.Content.Size)) = false := by
    simp; omega
  have hres : resolve doc pos = .ok { r2 with Depth := (r2.NodePath.length : Int) - 1 } := by
    unfold resolve
    simp only [hc, Bool.false_eq_true, if_false, hr2, bind, Except.bind, pure, Except.pure]
  rw [h] at hres
  have hr : r = { r2 with Depth := (r2.NodePath.length : Int) - 1 } := by cases hres; rfl
  obtain ⟨s, e, hs, he, h3, h4, h5⟩ :=
    EndsAt_start_end { r2 with Depth := (r2.NodePath.length : Int) - 1 } pos hends rfl
  rw [← hr] at hs h5
  rw [hs]
  congr 1; omega

/-- The shared depth of a position and another position inside the content of its parent
is the depth of the position. -/
theorem sharedDepth_parent (r : ResolvedPos) (n : Node) (s to_ : Int) (hD : 0 ≤ r.Depth)
    (hs : r.Start r.Depth = .ok s) (hn : r.Node r.Depth = .ok n) (h1 : s ≤ to_)
    (h2 : to_ ≤ s + n.Content.Size) : r.SharedDepth to_ = .ok r.Depth := by
  unfold ResolvedPos.SharedDepth
  cases hk : r.Depth.toNat with
  | zero =>
    have : r.Depth = 0 := by omega
    unfold sharedDepthLoop
    rw [this]
  | succ k =>
    unfold sharedDepthLoop
    rw [if_pos (by omega)]
    have he : r.End r.Depth = .ok (s + n.Content.Size) := by
      unfold ResolvedPos.End
      have hres : r.resolveDepth r.Depth = r.Depth := by
        unfold ResolvedPos.resolveDepth
        rw [if_neg (by omega)]
      simp only [hres, hs, hn, bind, Except.bind, pure, Except.pure]
    simp only [hs, he, bind, Except.bind, pure, Except.pure]
    rw [if_pos h1, if_pos (by omega)]

/-- What two positions with the same parent share. -/
theorem same_parent (doc n : Node) (from_ to_ : Int) (rf rt : ResolvedPos)
    (hws : doc.Content.WellSized = true)
    (hrf : resolve doc from_ = .ok rf) (hrt : resolve doc to_ = .ok rt)
    (hI : rt.IndexPath.dropLast = rf.IndexPath.dropLast) (hn : rf.Parent = .ok n) :
    rt.Depth = rf.Depth ∧ rt.Parent = .ok n ∧
    from_ - rf.ParentOffset = to_ - rt.ParentOffset ∧
    0 ≤ rf.ParentOffset ∧ rt.ParentOffset ≤ n.Content.Size ∧
    ∀ d, 0 ≤ d → d < rf.Depth → rt.Index d = rf.Index d := by
  obtain ⟨nodes1, idxs1, offs1, hw1, hN1, hI1, hO1, hP1, hD1, _, _⟩ :=
    resolve_walk doc from_ rf hrf
  obtain ⟨nodes2, idxs2, offs2, hw2, hN2, hI2, hO2, hP2, hD2, _, _⟩ :=
    resolve_walk doc to_ rt hrt
  rw [hI1, hI2] at hI
  obtain ⟨hnodes, hpo⟩ := walk_det doc 0 from_ to_ nodes1 nodes2 idxs1 idxs2 offs1 offs2 _ _
    hw1 hw2 hws hI.symm
  have hl1 := (walk_lengths _ _ _ _ _ _ _ hw1).1
  have hl2 := (walk_lengths _ _ _ _ _ _ _ hw2).1
  have hdep : rt.Depth = rf.Depth := by rw [hD1, hD2, hnodes]
  have hpar : rt.Parent = .ok n := by
    unfold ResolvedPos.Parent ResolvedPos.Node at hn ⊢
    unfold ResolvedPos.resolveDepth at hn ⊢
    rw [hdep, hN2, ← hnodes, ← hN1]
    exact hn
  have htf := traces_of_resolve doc from_ rf hrf
  have htt := traces_of_resolve doc to_ rt hrt
  have hpa1 := (path_atomic rf doc htf hws n hn).2
  have hb : rt.ParentOffset ≤ n.Content.Size := by
    obtain ⟨nl, il, ol, off, h1, h2, h3, h4, h5, h6⟩ := walk_last _ _ _ _ _ _ _ hw2
    have hpw := path_node_wellSized rt doc htt hws rt.Depth (by omega) n hpar
    unfold ResolvedPos.Parent ResolvedPos.Node ResolvedPos.resolveDepth at hpar
    rw [if_neg (by omega)] at hpar
    have hpl : rt.NodePath.getLast? = some n :=
      goIndex_last _ _ _ (by rw [hN2, hD2]; simp) hpar
    rw [hN2, h1] at hpl
    have hpe : nl = n := by cases hpl; rfl
    rw [hpe] at h4
    exact (findIndex_range n.Content (fragmentSize_nonneg _ hpw) _ _ h4).2
  refine ⟨hdep, hpar, by omega, hpa1, hb, ?_⟩
  intro d hd0 hd1
  unfold ResolvedPos.Index ResolvedPos.resolveDepth
  rw [if_neg (by omega), if_neg (by omega), hI1, hI2]
  rw [goIndex_dropLast idxs2 d (by omega), goIndex_dropLast idxs1 d (by omega), hI]

/-- The slice between two positions with the same parent is a cut of the content of the
parent, closed on both sides. -/
theorem slice_same_parent (doc n : Node) (from_ to_ : Int) (rf rt : ResolvedPos)
    (hws : doc.Content.WellSized = true)
    (hrf : resolve doc from_ = .ok rf) (hrt : resolve doc to_ = .ok rt)
    (hI : rt.IndexPath.dropLast = rf.IndexPath.dropLast) (hn : rf.Parent = .ok n)
    (hlt : from_ < to_) (mid : Fragment)
    (hcut : n.Content.cut rf.ParentOffset rt.ParentOffset = .ok mid) :
    doc.Slice from_ to_ false = .ok { Content := mid, OpenStart := 0, OpenEnd := 0 } ∧
    rf.SharedDepth to_ = .ok rf.Depth := by
  obtain ⟨hdep, hpar, hpo, ha0, hb1, _⟩ := same_parent doc n from_ to_ rf rt hws hrf hrt hI hn
  obtain ⟨_, _, _, _, _, _, _, hP1, hD1, hf0, _⟩ := resolve_walk doc from_ rf hrf
  obtain ⟨_, _, _, _, _, _, _, hP2, hD2, _, _⟩ := resolve_walk doc to_ rt hrt
  have hstart := resolve_start doc from_ rf hws hrf
  have hshared : rf.SharedDepth to_ = .ok rf.Depth :=
    sharedDepth_parent rf n (from_ - rf.ParentOffset) to_ (by omega) hstart hn (by omega)
      (by omega)
  refine ⟨?_, hshared⟩
  unfold Node.Slice
  have hne : ¬ to_ = -1 := by omega
  simp only [hne, if_false]
  rw [if_neg (by omega)]
  unfold Node.Resolve
  have hnode : rf.Node rf.Depth = .ok n := hn
  have e1 : rf.Pos - (from_ - rf.ParentOffset) = rf.ParentOffset := by rw [hP1]; ring
  have e2 : rt.Pos - (from_ - rf.ParentOffset) = rt.ParentOffset := by rw [hP2]; omega
  simp only [hrf, hrt, hshared, hstart, hnode, bind, Except.bind, pure, Except.pure,
    Bool.not_false, if_true, e1, e2, hcut, hdep, sub_self]

/-- A node copied with its own content is the node. -/
theorem copy_self (n : Node) : n.copy n.Content = n := by
  cases n; rfl

/-- At the depth of the two positions, a closed slice is put between the two cuts of the
content of the parent. -/
theorem replaceOuterLoop_flat (rf rt : ResolvedPos) (slice : Slice) (n : Node) (fuel : Nat)
    (hn : rf.Parent = .ok n) (hi1 : ∃ i, rf.Index rf.Depth = .ok i)
    (hi2 : ∃ j, rt.Index rf.Depth = .ok j) (hdep : rt.Depth = rf.Depth)
    (hso : slice.OpenStart = 0) (hse : slice.OpenEnd = 0) (hsz : slice.Content.Size ≠ 0)
    (c1 a1 c2 : Fragment) (h1 : n.Content.cut 0 rf.ParentOffset = .ok c1)
    (h2 : c1.append slice.Content = .ok a1)
    (h3 : n.Content.cut rt.ParentOffset (-1) = .ok c2)
    (h4 : a1.append c2 = .ok n.Content) (hacc : n.Typ.CheckContent n.Content = .ok ()) :
    replaceOuterLoop (fuel + 1) rf rt slice rf.Depth = .ok n := by
  obtain ⟨i, hi⟩ := hi1
  obtain ⟨j, hj⟩ := hi2
  have hnode : rf.Node rf.Depth = .ok n := hn
  unfold replaceOuterLoop
  simp only [hi, hj, hnode, bind, Except.bind, pure, Except.pure]
  rw [if_neg (by simp [hso])]
  rw [if_neg hsz]
  rw [if_pos (by simp [hso, hse, hdep])]
  simp only [hn, h1, h2, h3, h4]
  unfold Node.close
  simp only [hacc, bind, Except.bind, pure, Except.pure, copy_self]

/-- Above the depth of the two positions, when they follow the same indices, the
replacement descends and rebuilds each ancestor around the node the deeper call returns. -/
theorem replaceOuterLoop_descend (doc : Node) (rf rt : ResolvedPos) (slice : Slice)
    (htf : rf.Traces doc) (hso : slice.OpenStart = 0)
    (hidx : ∀ d, 0 ≤ d → d < rf.Depth → rt.Index d = rf.Index d)
    (hflat : ∀ fuel, replaceOuterLoop (fuel + 1) rf rt slice rf.Depth = rf.Node rf.Depth)
    (k : Nat) : ∀ (d : Int), 0 ≤ d → d + k = rf.Depth → ∀ fuel, k < fuel →
      replaceOuterLoop fuel rf rt slice d = rf.Node d := by
  induction k with
  | zero =>
    intro d hd hdk fuel hf
    obtain ⟨f, rfl⟩ : ∃ f, fuel = f + 1 := ⟨fuel - 1, by omega⟩
    have : d = rf.Depth := by omega
    rw [this]
    exact hflat f
  | succ k ih =>
    intro d hd hdk fuel hf
    obtain ⟨f, rfl⟩ : ∃ f, fuel = f + 1 := ⟨fuel - 1, by omega⟩
    obtain ⟨i, hi⟩ := path_index_exists rf doc htf d hd (by omega)
    obtain ⟨n, hn⟩ := path_node_exists rf doc htf d hd (by omega)
    obtain ⟨c, hc⟩ := path_node_exists rf doc htf (d + 1) (by omega) (by omega)
    have hj : rt.Index d = .ok i := by rw [hidx d hd (by omega)]; exact hi
    have hin := ih (d + 1) (by omega) (by push_cast at hdk; omega) f (by omega)
    rw [hc] at hin
    have hch := path_chain rf doc htf d hd n c i hn hc hi
    have hrc := replaceChild_same n.Content i c hch
    unfold replaceOuterLoop
    simp only [hi, hj, hn, bind, Except.bind, pure, Except.pure]
    rw [if_pos (by simp [hso]; push_cast at hdk; omega)]
    simp only [hin, hrc, copy_self]

/-- C19 (amended): for every well-sized document and every non-empty range `[from, to)`
whose two ends resolve along the same child indices to the same parent `N` (the range lies
directly inside `N`), where the type of `N` does not allow the type of the mark `m`, accepts
the content of `N`, and the children of `N` are non-empty ASCII text nodes of which no two
neighbours have the same markup, applying `addMark{from, to, m}` succeeds and returns the
original document, and no child of `N` carries a mark of the type of `m`. -/
theorem C19_addMark_disallowed_parent (doc N : Node) (m : Mark) (from_ to_ : Int)
    (rf rt : ResolvedPos) (hws : doc.Content.WellSized = true)
    (hrf : resolve doc from_ = .ok rf) (hrt : resolve doc to_ = .ok rt) (hlt : from_ < to_)
    (hN : rf.Parent = .ok N) (hI : rt.IndexPath.dropLast = rf.IndexPath.dropLast)
    (hdis : N.Typ.AllowsMarkType m.Typ = false)
    (hacc : N.Typ.CheckContent N.Content = .ok ())
    (htxt : ∀ c ∈ N.Content.Content, c.PlainText)
    (hco : coalesced N.Content.Content = true) :
    MarkStep.Apply { From := from_, To := to_, Mark := m } doc = .ok doc ∧
    ∀ c ∈ N.Content.Content, ∀ k ∈ c.Marks, k.Typ ≠ m.Typ := by
  constructor
  · obtain ⟨hdep, hpar, hpo, ha0, hb1, hidx⟩ :=
      same_parent doc N from_ to_ rf rt hws hrf hrt hI hN
    have htf := traces_of_resolve doc from_ rf hrf
    have htt := traces_of_resolve doc to_ rt hrt
    obtain ⟨nodes1, idxs1, offs1, hw1, hN1, hI1, hO1, hP1, hD1, _, _⟩ :=
      resolve_walk doc from_ rf hrf
    have hl1 := (walk_lengths _ _ _ _ _ _ _ hw1).1
    have hD0 : 0 ≤ rf.Depth := by omega
    have hNws := path_node_wellSized rf doc htf hws rf.Depth hD0 N hN
    have hso := wellSized_sizeOk _ hNws
    have hNc : N.Content = .mk (totalSize N.Content.Content) N.Content.Content := by
      unfold Fragment.SizeOk at hso
      cases hc : N.Content with
      | mk size cs =>
        rw [hc] at hso
        show Fragment.mk size cs = Fragment.mk (totalSize cs) cs
        congr 1
    have hbt : rt.ParentOffset ≤ totalSize N.Content.Content := by
      have : N.Content.Size = totalSize N.Content.Content := hso
      omega
    obtain ⟨mid, c1, a1, c2, hcut, hmid, hsz, hc1, ha1, hc2, ha2⟩ :=
      text_replace_roundtrip N.Content.Content htxt hco rf.ParentOffset rt.ParentOffset ha0
        (by omega) hbt
    rw [← hNc] at hcut hc1 hc2 ha2
    obtain ⟨hslice, hshared⟩ :=
      slice_same_parent doc N from_ to_ rf rt hws hrf hrt hI hN hlt mid hcut
    have hmap := mapFragments_disallowed m N hdis mid (fun c hc => (hmid c hc).2.2.2)
    have hnode : rf.Node rf.Depth = .ok N := hN
    have hflat : ∀ fuel, replaceOuterLoop (fuel + 1) rf rt
        { Content := NewFragment mid.Content, OpenStart := 0, OpenEnd := 0 } rf.Depth =
        rf.Node rf.Depth := by
      intro fuel
      rw [hnode]
      exact replaceOuterLoop_flat rf rt _ N fuel hN
        (path_index_exists rf doc htf rf.Depth hD0 (le_refl _))
        (path_index_exists rt doc htt rf.Depth hD0 (by omega)) hdep rfl rfl hsz c1 a1 c2 hc1
        ha1 hc2 ha2 hacc
    have hdesc := replaceOuterLoop_descend doc rf rt
      { Content := NewFragment mid.Content, OpenStart := 0, OpenEnd := 0 } htf rfl hidx hflat
      rf.Depth.toNat 0 (le_refl _) (by omega) (rf.IndexPath.length + 1)
      (by rw [hI1, hl1]; omega)
    obtain ⟨n0, hn0⟩ := path_node_exists rf doc htf 0 (le_refl _) hD0
    have hroot := path_root rf doc htf n0 hn0
    rw [hn0, hroot] at hdesc
    have hrep : doc.Replace from_ to_
        { Content := NewFragment mid.Content, OpenStart := 0, OpenEnd := 0 } = .ok doc := by
      unfold Node.Replace
      simp only [hrf, hrt, wrapErr, bind, Except.bind]
      unfold replace
      rw [if_neg (by show ¬ (0 : Int) > rf.Depth; omega)]
      rw [if_neg (by show ¬ (rf.Depth - 0 ≠ rt.Depth - 0); omega)]
      exact hdesc
    unfold MarkStep.Apply
    simp only [Bool.false_eq_true, if_false]
    unfold MarkStep.addMark
    unfold Node.Resolve
    simp only [hslice, hrf, hshared, hnode, wrapErr, bind, Except.bind, hmap]
    exact hrep
  · intro c hc k hk hkm
    have hm := ((checkContent_ok_iff _ _).1 hacc).2 c hc k hk
    rw [hkm, hdis] at hm
    cases hm

/-- The witness of C19 (amended): `addMark{2, 4, em}` on `doc[code_block["abcd"]]`, a range
directly inside the code block, returns the document. -/
theorem C19_addMark_disallowed_parent_witness :
    MarkStep.Apply { From := 2, To := 4, Mark := emMark } codeBlockDoc = .ok codeBlockDoc ∧
    ∀ c ∈ abcdBlock.Content.Content, ∀ k ∈ c.Marks, k.Typ ≠ emMark.Typ :=
  C19_addMark_disallowed_parent codeBlockDoc abcdBlock emMark 2 4
    { Depth := 1, Pos := 2, ParentOffset := 1, NodePath := [codeBlockDoc, abcdBlock],
      IndexPath := [0, 0], OffsetPath := [0, 1] }
    { Depth := 1, Pos := 4, ParentOffset := 3, NodePath := [codeBlockDoc, abcdBlock],
      IndexPath := [0, 0], OffsetPath := [0, 1] }
    (by decide) rfl rfl (by decide) rfl rfl (by decide) (by decide) (by decide) (by decide)

/-- C19 as stated fails where the node that does not allow the mark has a child that allows
it: in `doc[plain_quote[paragraph["ab"]]]` both ends of the range `[1, 5)` have the
`plain_quote` as their parent, its type allows no mark, and `addMark{1, 5, em}` succeeds and
puts `em` on the text `ab`, whose parent, the paragraph, allows the mark. -/
theorem C19_counterexample :
    plainQuoteT.AllowsMarkType emMark.Typ = false ∧
    ((resolve plainQuoteDoc 1).bind ResolvedPos.Parent).map (fun n => n.Typ.Name) =
      .ok "plain_quote" ∧
    ((resolve plainQuoteDoc 5).bind ResolvedPos.Parent).map (fun n => n.Typ.Name) =
      .ok "plain_quote" ∧
    plainQuoteDoc.Content.Content.map Node.childTextsMarks = [[[(ascii "ab", [])]]] ∧
    (MarkStep.Apply { From := 1, To := 5, Mark := emMark } plainQuoteDoc).map
      (fun d => d.Content.Content.map Node.childTextsMarks) =
      .ok [[[(ascii "ab", ["em"])]]] := by
  decide!

/-- The total size of a list of one node. -/
theorem totalSize_single (c : Node) : totalSize [c] = c.NodeSize := by
  simp [totalSize]

/-- The part of one plain text node before an offset. -/
theorem leftOf_single (t : Node) (ht : t.PlainText) (a : Nat) (ha : a ≤ t.Text.length) :
    leftOf [t] (a : Int) = if a = 0 then [] else [t.setText (t.Text.take a)] := by
  have hsz := (plain_size t ht).1
  by_cases h0 : a = 0
  · rw [if_pos h0, h0]; exact leftOf_nonpos _ _ (by simp)
  · rw [if_neg h0]
    by_cases hl : a = t.Text.length
    · rw [leftOf_cons_ge t [] a (by omega) (by omega)]
      rw [hl, List.take_length, setText_self]
      simp [leftOf]
    · rw [leftOf_cons_lt t [] a (by omega) (by omega)]
      simp

/-- The part of one plain text node from an offset on. -/
theorem rightOf_single (t : Node) (ht : t.PlainText) (b : Nat) (hb : b ≤ t.Text.length) :
    rightOf [t] (b : Int) = if b = t.Text.length then [] else [t.setText (t.Text.drop b)] := by
  have hsz := (plain_size t ht).1
  by_cases hl : b = t.Text.length
  · rw [if_pos hl]
    exact rightOf_all [t] (by intro c hc; simp at hc; rw [hc]; exact ht) _
      (by rw [totalSize_single]; omega)
  · rw [if_neg hl]
    by_cases h0 : b = 0
    · rw [h0]
      rw [rightOf_nonpos _ _ (by simp)]
      simp [setText_self]
    · rw [rightOf_cons_lt t [] b (by omega) (by omega)]
      simp

/-- Appending a text of the same markup to a list of at most one text node. -/
theorem listAppend_setText (t : Node) (ht : t.IsText = true) (x y : GoString) (c : Bool) :
    listAppend (if c then [] else [t.setText x]) [t.setText y] =
      [t.setText ((if c then [] else x) ++ y)] := by
  cases c with
  | true => simp [listAppend]
  | false =>
    have hI : (t.setText x).IsText = true := ht
    have hsm : (t.setText x).sameMarkup (t.setText y) = true := by
      rw [sameMarkup_setText_left, sameMarkup_setText_right]; exact sameMarkup_refl t
    simp only [Bool.false_eq_true, if_false]
    unfold listAppend
    simp only [List.getLast?_singleton, List.head?_cons, hI, hsm, Bool.and_self, if_true,
      withText_eq_setText, setText_setText]
    rfl

/-- Appending at most one text node of the same markup to a text. -/
theorem listAppend_setText_right (t : Node) (ht : t.IsText = true) (x y : GoString) (c : Bool) :
    listAppend [t.setText x] (if c then [] else [t.setText y]) =
      [t.setText (x ++ (if c then [] else y))] := by
  cases c with
  | true => simp [listAppend]
  | false =>
    have hI : (t.setText x).IsText = true := ht
    have hsm : (t.setText x).sameMarkup (t.setText y) = true := by
      rw [sameMarkup_setText_left, sameMarkup_setText_right]; exact sameMarkup_refl t
    simp only [Bool.false_eq_true, if_false]
    unfold listAppend
    simp only [List.getLast?_singleton, List.head?_cons, hI, hsm, Bool.and_self, if_true,
      withText_eq_setText, setText_setText]
    rfl

/-- The cuts and appends of the flat replacement inside one plain text node: the text
before offset `a`, the inserted text and the text from offset `b` on make one text node. -/
theorem splice_single (t : Node) (ht : t.PlainText) (s : GoString) (hs : s ≠ [])
    (hsa : ∀ x ∈ s, x < 128) (a b : Nat) (hab : a ≤ b) (hb : b ≤ t.Text.length) :
    ∃ c1 a1 c2, (Fragment.mk t.NodeSize [t]).cut 0 (a : Int) = .ok c1 ∧
      c1.append (NewFragment [t.setText s]) = .ok a1 ∧
      (Fragment.mk t.NodeSize [t]).cut (b : Int) (-1) = .ok c2 ∧
      a1.append c2 = .ok (NewFragment [t.setText (t.Text.take a ++ s ++ t.Text.drop b)]) := by
  have hsz := (plain_size t ht).1
  have hl : ∀ c ∈ [t], c.PlainText := by intro c hc; simp at hc; rw [hc]; exact ht
  have hu : (t.setText s).PlainText := plain_setText t s ht hs hsa
  have hlu : ∀ c ∈ [t.setText s], c.PlainText := by intro c hc; simp at hc; rw [hc]; exact hu
  have hts : totalSize [t] = t.NodeSize := totalSize_single t
  have hc1 := cut_text [t] hl 0 (a : Int) (le_refl _) (by omega) (by rw [hts]; omega)
  rw [hts, rightOf_nonpos _ _ (le_refl _), sub_zero] at hc1
  have hc2 := cut_text_end [t] hl (b : Int) (by omega) (by rw [hts]; omega)
  rw [hts] at hc2
  have hL := leftOf_total [t] hl (a : Int) (by omega) (by rw [hts]; omega)
  have hR := rightOf_total [t] hl (b : Int) (by omega) (by rw [hts]; omega)
  have hLp := leftOf_plain [t] hl (a : Int)
  have hRp := rightOf_plain [t] hl (b : Int)
  have hm : (t.setText (t.Text.take a ++ s)).PlainText :=
    plain_setText t _ ht (by simp [hs]) (by
      intro x hx
      rcases List.mem_append.mp hx with h | h
      · exact ht.2.2.1 x (List.mem_of_mem_take h)
      · exact hsa x h)
  have hlm : ∀ c ∈ [t.setText (t.Text.take a ++ s)], c.PlainText := by
    intro c hc; simp at hc; rw [hc]; exact hm
  have happ1 := append_eq_listAppend (leftOf [t] (a : Int)) [t.setText s] hLp hlu
  rw [hL] at happ1
  have hM : listAppend (leftOf [t] (a : Int)) [t.setText s] =
      [t.setText (t.Text.take a ++ s)] := by
    rw [leftOf_single t ht a (by omega)]
    have := listAppend_setText t ht.1 (t.Text.take a) s (decide (a = 0))
    simp only [decide_eq_true_eq] at this
    rw [this]
    by_cases h0 : a = 0
    · simp [h0]
    · simp [h0]
  rw [hM] at happ1
  have hMs : totalSize [t.setText (t.Text.take a ++ s)] = (a : Int) + totalSize [t.setText s] := by
    rw [totalSize_single, totalSize_single, (plain_size _ hm).1, (plain_size _ hu).1]
    show (((t.Text.take a ++ s).length : Nat) : Int) = (a : Int) + ((s.length : Nat) : Int)
    rw [List.length_append, List.length_take]
    have : min a t.Text.length = a := by omega
    rw [this]; push_cast; ring
  have happ2 := append_eq_listAppend [t.setText (t.Text.take a ++ s)] (rightOf [t] (b : Int))
    hlm hRp
  rw [hMs, hR, hts] at happ2
  have hF : listAppend [t.setText (t.Text.take a ++ s)] (rightOf [t] (b : Int)) =
      [t.setText (t.Text.take a ++ s ++ t.Text.drop b)] := by
    rw [rightOf_single t ht b hb]
    have := listAppend_setText_right t ht.1 (t.Text.take a ++ s) (t.Text.drop b)
      (decide (b = t.Text.length))
    simp only [decide_eq_true_eq] at this
    rw [this]
    by_cases h0 : b = t.Text.length
    · simp [h0]
    · simp [h0]
  rw [hF] at happ2
  have hfin : (t.setText (t.Text.take a ++ s ++ t.Text.drop b)).PlainText :=
    plain_setText t _ ht (by simp [hs]) (by
      intro x hx
      rcases List.mem_append.mp hx with h | h
      · exact hm.2.2.1 x h
      · exact ht.2.2.1 x (List.mem_of_mem_drop h))
  have hsize : (a : Int) + totalSize [t.setText s] + (t.NodeSize - (b : Int)) =
      totalSize [t.setText (t.Text.take a ++ s ++ t.Text.drop b)] := by
    rw [totalSize_single, totalSize_single, (plain_size _ hfin).1, (plain_size _ hu).1, hsz]
    show _ = (((t.Text.take a ++ s ++ t.Text.drop b).length : Nat) : Int)
    rw [List.length_append, List.length_append, List.length_take, List.length_drop]
    have : min a t.Text.length = a := by omega
    rw [this]
    show (a : Int) + ((s.length : Nat) : Int) + (((t.Text.length : Nat) : Int) - (b : Int)) = _
    push_cast
    omega
  rw [hsize, ← newFragment_eq] at happ2
  rw [← newFragment_eq] at happ1
  exact ⟨_, _, _, hc1, happ1, hc2, happ2⟩

/-- A position inside child `i` of the root, at offset `q` of the content of that child
whose children are text, resolves at depth 1 with the child as parent. -/
theorem resolve_into_text (doc : Node) (hsz : doc.Content.SizeOk)
    (hnn : ∀ c ∈ doc.Content.Content, 0 ≤ c.NodeSize) (i : Nat) (c : Node)
    (hc : doc.Content.Content.get? i = some c) (ht : c.IsText = false)
    (hcs : c.Content.SizeOk) (hct : ∀ x ∈ c.Content.Content, x.IsText = true)
    (q : Int) (hq0 : 0 ≤ q) (hq1 : q ≤ c.Content.Size) (hns : c.NodeSize = c.Content.Size + 2) :
    ∃ j oj, resolve doc (prefixSize doc.Content.Content i + 1 + q) =
      .ok { Depth := 1, Pos := prefixSize doc.Content.Content i + 1 + q,
            ParentOffset := q,
            NodePath := [doc, c], IndexPath := [(i : Int), j],
            OffsetPath := [prefixSize doc.Content.Content i, oj] } := by
  have hp0 := prefixSize_nonneg doc.Content.Content hnn i
  have hsucc := prefixSize_succ doc.Content.Content i c hc
  have hle := prefixSize_le_total doc.Content.Content hnn (i + 1)
  have hmem : c ∈ doc.Content.Content := List.get?_mem hc
  have hh : c.height ≤ doc.Content.height := fragmentHeight_mem doc.Content c hmem
  have hch := nodeHeight_eq c
  obtain ⟨j, off, hfi, hjl, hoff, hcase⟩ := findIndex_spec c.Content q hcs hq0 hq1
  refine ⟨(j : Int), prefixSize doc.Content.Content i + 1 + off, ?_⟩
  unfold Fragment.SizeOk at hsz
  unfold resolve
  rw [if_neg (by simp; omega)]
  rw [nodeHeight_eq]
  obtain ⟨h2, hh2⟩ : ∃ h2, doc.Content.height = h2 + 1 := ⟨doc.Content.height - 1, by omega⟩
  rw [hh2]
  rw [resolveLoop_step _ doc _ 0 (i : Int) (prefixSize doc.Content.Content i) c
    (findIndex_inside doc.Content hsz hnn i c hc _ (by simp; omega) (by simp; omega))
    (by simp; omega) (goIndex_natCast _ i c hc) ht]
  have hq : prefixSize doc.Content.Content i + 1 + q - prefixSize doc.Content.Content i - 1 = q := by
    ring
  simp only [hq]
  rcases hcase with heq | ⟨x, hx, hlt, _⟩
  · rw [resolveLoop_stop _ c _ _ (j : Int) off hfi (by show q - off = 0; omega)]
    simp [bind, Except.bind, pure, Except.pure]
  · rw [resolveLoop_text _ c _ _ (j : Int) off x hfi (by show q - off ≠ 0; omega)
      (goIndex_natCast _ j x hx) (hct x (List.get?_mem hx))]
    simp [bind, Except.bind, pure, Except.pure]

/-- At the depth of the two positions, a closed slice is put between the two cuts of the
content of the parent, and the parent is closed over the result. -/
theorem replaceOuterLoop_flat_close (rf rt : ResolvedPos) (slice : Slice) (n : Node)
    (fuel : Nat) (hn : rf.Parent = .ok n) (hi1 : ∃ i, rf.Index rf.Depth = .ok i)
    (hi2 : ∃ j, rt.Index rf.Depth = .ok j) (hdep : rt.Depth = rf.Depth)
    (hso : slice.OpenStart = 0) (hse : slice.OpenEnd = 0) (hsz : slice.Content.Size ≠ 0)
    (c1 a1 c2 a2 : Fragment) (h1 : n.Content.cut 0 rf.ParentOffset = .ok c1)
    (h2 : c1.append slice.Content = .ok a1)
    (h3 : n.Content.cut rt.ParentOffset (-1) = .ok c2)
    (h4 : a1.append c2 = .ok a2) :
    replaceOuterLoop (fuel + 1) rf rt slice rf.Depth = n.close a2 := by
  obtain ⟨i, hi⟩ := hi1
  obtain ⟨j, hj⟩ := hi2
  have hnode : rf.Node rf.Depth = .ok n := hn
  unfold replaceOuterLoop
  simp only [hi, hj, hnode, bind, Except.bind, pure, Except.pure]
  rw [if_neg (by simp [hso])]
  rw [if_neg hsz]
  rw [if_pos (by simp [hso, hse, hdep])]
  simp only [hn, h1, h2, h3, h4]

/-- One level of the descent of `replaceOuter`: where both positions pass through the same
child, that child is replaced by the node the deeper call returns. -/
theorem replaceOuterLoop_step (fuel : Nat) (rf rt : ResolvedPos) (slice : Slice) (d i : Int)
    (n inner : Node) (c : Fragment) (hi : rf.Index d = .ok i) (hn : rf.Node d = .ok n)
    (hj : rt.Index d = .ok i) (hd : d < rf.Depth - slice.OpenStart)
    (hin : replaceOuterLoop fuel rf rt slice (d + 1) = .ok inner)
    (hrc : n.Content.replaceChild i inner = .ok c) :
    replaceOuterLoop (fuel + 1) rf rt slice d = .ok (n.copy c) := by
  unfold replaceOuterLoop
  simp only [hi, hj, hn, bind, Except.bind, pure, Except.pure]
  rw [if_pos (by simp [hd])]
  simp only [hin, hrc]

/-- Replacing child `i` of a fragment by a node that `Node.eq` tells from the child, or
that is the child. -/
theorem replaceChild_set (f : Fragment) (i : Nat) (c n : Node)
    (h : f.Content.get? i = some c) (heq : c.eq n = true → n = c) :
    f.replaceChild (i : Int) n = .ok (.mk (f.Size - c.NodeSize + n.NodeSize)
      (f.Content.take i ++ [n] ++ f.Content.drop (i + 1))) := by
  have hil : i < f.Content.length := by
    rcases Nat.lt_or_ge i f.Content.length with h2 | h2
    · exact h2
    · rw [List.get?_eq_none.mpr h2] at h; cases h
  have hset : ∀ x : Node, f.Content.set i x = f.Content.take i ++ [x] ++ f.Content.drop (i + 1) := by
    intro x
    rw [List.set_eq_take_append_cons_drop, if_pos hil]
    simp
  unfold Fragment.replaceChild
  rw [goIndex_natCast _ i c h]
  simp only [bind, Except.bind, pure, Except.pure]
  by_cases he : c.eq n = true
  · rw [if_pos he, heq he, ← hset c, set_same _ _ _ h]
    cases f with
    | mk fs fc =>
      show Except.ok (Fragment.mk fs fc) = Except.ok (Fragment.mk (fs - c.NodeSize + c.NodeSize) fc)
      congr 2
      ring
  · rw [if_neg he, ← hset n]
    simp

/-- A node with one text child that `Node.eq` does not tell from its copy with another text
in the child is that copy. -/
theorem eq_copy_text (par t : Node) (s : GoString) (hpt : par.IsText = false)
    (hpc : par.Content = NewFragment [t]) (ht : t.IsText = true)
    (h : par.eq (par.copy (NewFragment [t.setText s])) = true) :
    par.copy (NewFragment [t.setText s]) = par := by
  cases par with
  | mk typ attrs marks text content =>
    change content = NewFragment [t] at hpc
    subst hpc
    change typ.isText = false at hpt
    unfold Node.eq at h
    simp only [Node.Typ, hpt, Bool.false_eq_true, if_false, Bool.and_eq_true] at h
    have hch := h.2
    simp only [Node.copy, Node.Content, NewFragment, Fragment.eqChildren, Fragment.Content,
      eqList, Bool.and_true] at hch
    cases t with
    | mk tt ta tm tx tc =>
      change tt.isText = true at ht
      unfold Node.eq at hch
      simp only [Node.Typ, ht, if_true, Bool.and_eq_true, decide_eq_true_eq] at hch
      have hx : tx = s := hch.2
      subst hx
      rfl

/-- C13 (amended): for every well-sized document whose children are not text and whose child
`i`, not a leaf, holds the single non-empty ASCII text node `t` and accepts it, every pair of
text offsets `a <= b` in `t`, and every flat slice that holds one non-empty ASCII text node
with the markup of `t` and the text `s`, `Replace` between the two positions succeeds and
yields the same document except that the content of child `i` is the single text node
`t[0:a] ++ s ++ t[b:]`; the cached size of the document grows by the length of `s` less
`b - a`. -/
theorem C13_flat_text_replace (dt : NodeType) (da : GoMap AttrValue) (dm : List Mark)
    (dx : GoString) (size : Int) (cs : List Node) (i : Nat) (par t : Node) (s : GoString)
    (a b : Nat) (hws : (Fragment.mk size cs).WellSized = true)
    (hnt : ∀ c ∈ cs, c.IsText = false) (hi : cs.get? i = some par)
    (hpl : par.IsLeaf = false) (hpc : par.Content = NewFragment [t]) (ht : t.PlainText)
    (hs : s ≠ []) (hsa : ∀ x ∈ s, x < 128) (hab : a ≤ b) (hb : b ≤ t.Text.length)
    (hacc : par.Typ.CheckContent par.Content = .ok ()) :
    (Node.mk dt da dm dx (.mk size cs)).Replace (prefixSize cs i + 1 + a)
      (prefixSize cs i + 1 + b) { Content := NewFragment [t.setText s] } =
      .ok (Node.mk dt da dm dx (.mk (size + (s.length : Int) - ((b : Int) - (a : Int)))
        (cs.take i ++
          [par.copy (NewFragment [t.setText (t.Text.take a ++ s ++ t.Text.drop b)])] ++
          cs.drop (i + 1)))) := by
  have hmem : par ∈ cs := List.get?_mem hi
  have hsz : (Fragment.mk size cs).SizeOk := wellSized_sizeOk _ hws
  have hnn : ∀ c ∈ cs, 0 ≤ c.NodeSize := fun c hc => childSize_nonneg _ hws c hc
  have hpw : par.Content.WellSized = true := wellSized_mem _ par hws hmem
  have hpt : par.IsText = false := hnt par hmem
  have hpc2 : par.Content = .mk t.NodeSize [t] := by
    rw [hpc, newFragment_eq, totalSize_single]
  have hpsz : par.Content.Size = t.NodeSize := by rw [hpc2]; rfl
  have htl := (plain_size t ht).1
  have hs2 : par.NodeSize = par.Content.Size + 2 := by
    unfold Node.NodeSize
    rw [if_neg (by simp [hpt]), if_neg (by simp [hpl])]
    ring
  have hct : ∀ x ∈ par.Content.Content, x.IsText = true := by
    rw [hpc2]
    intro x hx
    have : x = t := by simpa [Fragment.Content] using hx
    rw [this]; exact ht.1
  obtain ⟨j1, o1, hr1⟩ := resolve_into_text (Node.mk dt da dm dx (.mk size cs)) hsz hnn i par
    hi hpt (wellSized_sizeOk _ hpw) hct (a : Int) (by omega) (by omega) hs2
  obtain ⟨j2, o2, hr2⟩ := resolve_into_text (Node.mk dt da dm dx (.mk size cs)) hsz hnn i par
    hi hpt (wellSized_sizeOk _ hpw) hct (b : Int) (by omega) (by omega) hs2
  change resolve _ (prefixSize cs i + 1 + (a : Int)) = .ok
    { Depth := 1, Pos := prefixSize cs i + 1 + (a : Int), ParentOffset := (a : Int),
      NodePath := [Node.mk dt da dm dx (.mk size cs), par], IndexPath := [(i : Int), j1],
      OffsetPath := [prefixSize cs i, o1] } at hr1
  change resolve _ (prefixSize cs i + 1 + (b : Int)) = .ok
    { Depth := 1, Pos := prefixSize cs i + 1 + (b : Int), ParentOffset := (b : Int),
      NodePath := [Node.mk dt da dm dx (.mk size cs), par], IndexPath := [(i : Int), j2],
      OffsetPath := [prefixSize cs i, o2] } at hr2
  obtain ⟨c1, a1, c2, hc1, ha1, hc2, ha2⟩ := splice_single t ht s hs hsa a b hab hb
  rw [← hpc2] at hc1 hc2
  have hu : (t.setText s).PlainText := plain_setText t s ht hs hsa
  have hsz0 : (NewFragment [t.setText s]).Size ≠ 0 := by
    rw [newFragment_eq, totalSize_single]
    have := (plain_size _ hu).2
    show (t.setText s).NodeSize ≠ 0
    omega
  have hfin : (t.setText (t.Text.take a ++ s ++ t.Text.drop b)).PlainText :=
    plain_setText t _ ht (by simp [hs]) (by
      intro x hx
      rcases List.mem_append.mp hx with h | h
      · rcases List.mem_append.mp h with h | h
        · exact ht.2.2.1 x (List.mem_of_mem_take h)
        · exact hsa x h
      · exact ht.2.2.1 x (List.mem_of_mem_drop h))
  have hclose : par.close (NewFragment [t.setText (t.Text.take a ++ s ++ t.Text.drop b)]) =
      .ok (par.copy (NewFragment [t.setText (t.Text.take a ++ s ++ t.Text.drop b)])) := by
    unfold Node.close
    rw [checkContent_congr par.Typ _ par.Content (by rw [hpc]; rfl) (by rw [hpc]; rfl), hacc]
    rfl
  have hflat := replaceOuterLoop_flat_close
    { Depth := 1, Pos := prefixSize cs i + 1 + (a : Int), ParentOffset := (a : Int),
      NodePath := [Node.mk dt da dm dx (.mk size cs), par], IndexPath := [(i : Int), j1],
      OffsetPath := [prefixSize cs i, o1] }
    { Depth := 1, Pos := prefixSize cs i + 1 + (b : Int), ParentOffset := (b : Int),
      NodePath := [Node.mk dt da dm dx (.mk size cs), par], IndexPath := [(i : Int), j2],
      OffsetPath := [prefixSize cs i, o2] }
    { Content := NewFragment [t.setText s] } par 1 rfl ⟨j1, rfl⟩ ⟨j2, rfl⟩ rfl rfl rfl hsz0
    c1 a1 c2 _ hc1 ha1 hc2 ha2
  rw [hclose] at hflat
  have hnew : (par.copy (NewFragment [t.setText (t.Text.take a ++ s ++ t.Text.drop b)])).NodeSize
      = par.NodeSize + (s.length : Int) - ((b : Int) - (a : Int)) := by
    rw [hs2, hpsz, htl]
    unfold Node.NodeSize
    have h1 : (par.copy (NewFragment [t.setText (t.Text.take a ++ s ++ t.Text.drop b)])).IsText
        = false := hpt
    have h2 : (par.copy (NewFragment [t.setText (t.Text.take a ++ s ++ t.Text.drop b)])).IsLeaf
        = false := hpl
    rw [if_neg (by rw [h1]; decide), if_neg (by rw [h2]; decide)]
    show 2 + (NewFragment [t.setText (t.Text.take a ++ s ++ t.Text.drop b)]).Size = _
    rw [newFragment_eq, totalSize_single]
    show 2 + (t.setText (t.Text.take a ++ s ++ t.Text.drop b)).NodeSize = _
    rw [(plain_size _ hfin).1]
    show 2 + (((t.Text.take a ++ s ++ t.Text.drop b).length : Nat) : Int) = _
    rw [List.length_append, List.length_append, List.length_take, List.length_drop]
    have : min a t.Text.length = a := by omega
    rw [this]
    push_cast
    omega
  have hrc := replaceChild_set (Fragment.mk size cs) i par
    (par.copy (NewFragment [t.setText (t.Text.take a ++ s ++ t.Text.drop b)])) hi
    (eq_copy_text par t _ hpt hpc ht.1)
  have hstep := replaceOuterLoop_step 2
    { Depth := 1, Pos := prefixSize cs i + 1 + (a : Int), ParentOffset := (a : Int),
      NodePath := [Node.mk dt da dm dx (.mk size cs), par], IndexPath := [(i : Int), j1],
      OffsetPath := [prefixSize cs i, o1] }
    { Depth := 1, Pos := prefixSize cs i + 1 + (b : Int), ParentOffset := (b : Int),
      NodePath := [Node.mk dt da dm dx (.mk size cs), par], IndexPath := [(i : Int), j2],
      OffsetPath := [prefixSize cs i, o2] }
    { Content := NewFragment [t.setText s] } 0 (i : Int) (Node.mk dt da dm dx (.mk size cs))
    _ _ rfl rfl rfl (by simp) hflat hrc
  unfold Node.Replace
  rw [hr1, hr2]
  simp only [wrapErr, bind, Except.bind]
  unfold replace
  rw [if_neg (by simp), if_neg (by simp)]
  unfold replaceOuter
  rw [show ([(i : Int), j1].length + 1) = 2 + 1 from rfl, hstep]
  show Except.ok (Node.mk dt da dm dx _) = _
  rw [hnew]
  congr 3
  show size - par.NodeSize + (par.NodeSize + (s.length : Int) - ((b : Int) - (a : Int))) = _
  ring

/-- The witness of C13 (amended): the two tests, `"Crazy"` with `"?"` put at position 6, and
the first `"rats"` replaced over 1..5 by `"farts"`. -/
theorem C13_flat_text_replace_witness :
    crazyDoc.Replace 6 6 { Content := NewFragment [Text (ascii "?")] } =
      .ok (Doc [PText (ascii "Crazy?")]) ∧
    (Doc [PText (ascii "rats"), PText (ascii "rats")]).Replace 1 5
        { Content := NewFragment [Text (ascii "farts")] } =
      .ok (Doc [PText (ascii "farts"), PText (ascii "rats")]) :=
  ⟨C13_flat_text_replace docT [] [] [] _ [PText (ascii "Crazy")] 0 (PText (ascii "Crazy"))
      (Text (ascii "Crazy")) (ascii "?") 5 5 (by decide) (by decide) rfl (by decide) rfl
      (by decide) (by decide) (by decide) (by decide) (by decide) (by decide),
   C13_flat_text_replace docT [] [] [] _ [PText (ascii "rats"), PText (ascii "rats")] 0
      (PText (ascii "rats")) (Text (ascii "rats")) (ascii "farts") 0 4 (by decide) (by decide)
      rfl (by decide) rfl (by decide) (by decide) (by decide) (by decide) (by decide)
      (by decide)⟩

/-- C13 as stated fails for a slice whose text node is empty: replacing 1..3, the whole text
of `doc[paragraph["ab"]]`, by the flat slice holding the text node `""` succeeds and leaves
the paragraph without a child, where the claim gives the single text node
`"ab"[0:0] ++ "" ++ "ab"[2:]`; a slice of size 0 only deletes. -/
theorem C13_counterexample :
    (NewFragment [Text []]).Content.length = 1 ∧
    (NewFragment [Text []]).Size = 0 ∧
    ((Doc [PText (ascii "ab")]).Replace 1 3 { Content := NewFragment [Text []] }).map
      (fun d => d.Content.Content.map (fun p => p.Content.Content.length)) = .ok [0] := by
  decide!

/-! ## The schema of `schema/default.go` -/

/-- The node types of the tests are those `NewSchema` gives for `DefaultSpec`, read in the
order of the source. -/
theorem defaultSchema_types :
    (NewSchema DefaultSpec).map (fun s => GoMap.get s.Nodes "doc") = .ok (some docT) ∧
    (NewSchema DefaultSpec).map (fun s => GoMap.get s.Nodes "paragraph") = .ok (some paragraphT) ∧
    (NewSchema DefaultSpec).map (fun s => GoMap.get s.Nodes "blockquote") = .ok (some blockquoteT) ∧
    (NewSchema DefaultSpec).map (fun s => GoMap.get s.Nodes "code_block") = .ok (some codeBlockT) ∧
    (NewSchema DefaultSpec).map (fun s => GoMap.get s.Nodes "horizontal_rule") =
      .ok (some horizontalRuleT) ∧
    (NewSchema DefaultSpec).map (fun s => GoMap.get s.Nodes "text") = .ok (some textT) ∧
    (NewSchema DefaultSpec).map (fun s => GoMap.get s.Marks "em") = .ok (some emT) := by
  decide!

/-! ## Evaluations of the content automaton and of schema compilation -/

/-- C22, at the failing inputs: the matcher `NewSchema` compiles for `doc` from `paragraph+`
accepts the empty sequence, the one from `paragraph?` accepts two paragraphs and the one
from `paragraph{2}` accepts one, where the claim has them rejected; compiling
`paragraph{1,2}` or `paragraph{0}` panics on a nil pointer.  The matcher from `paragraph*`
accepts two paragraphs, as claimed. -/
theorem C22_quantifiers_accept_any_count :
    (NewSchema (docSpec "paragraph+")).bind (fun s => s.accepts "doc" []) = .ok true ∧
    (NewSchema (docSpec "paragraph?")).bind
      (fun s => s.accepts "doc" [plainParagraph, plainParagraph]) = .ok true ∧
    (NewSchema (docSpec "paragraph{2}")).bind
      (fun s => s.accepts "doc" [plainParagraph]) = .ok true ∧
    NewSchema (docSpec "paragraph{1,2}") = .error (.panic "nil pointer dereference") ∧
    NewSchema (docSpec "paragraph{0}") = .error (.panic "nil pointer dereference") ∧
    (NewSchema (docSpec "paragraph*")).bind
      (fun s => s.accepts "doc" [plainParagraph, plainParagraph]) = .ok true ∧
    (NewSchema (docSpec "paragraph*")).map (fun s => GoMap.get s.Nodes "paragraph") =
      .ok (some plainParagraphT) := by
  decide!

/-- C23, at the failing input: for `doc` with the content expression `paragraph`, a known
type name without a quantifier, `parseNodespecContent` returns an expression of type `""`
with the bounds 1 and 1, and `NewSchema` panics in `nfa` with
`invalid expression type: `. -/
theorem C23_bare_name_panics :
    (parseNodespecContent "paragraph"
        [("paragraph", newNodeType "paragraph" { Content := "text*", Group := "block" })]).map
      (fun e => (e.Typ, e.Min, e.Max)) = .ok ("", 1, 1) ∧
    NewSchema (docSpec "paragraph") = .error (.panic "invalid expression type: ") := by
  decide!

/-- C25, at the failing input: the string `zzz|` is not an atom with a quantifier, and with
no type or group `zzz` in the table `parseNodespecContent` panics in `parseAtom`, which runs
before the quantifier is looked at; so does `NewSchema` for a `doc` with that content.  With
the known name `text` the string `text|` gets the error the claim names, and so do `a b`,
`(text)` and `text | doc`. -/
theorem C25_unknown_atom_before_bar_panics :
    errorOf (parseNodespecContent "zzz|" [("text", newNodeType "text" {})]) =
      some (.panic "index out of range [0] with length 0") ∧
    NewSchema (docSpec "zzz|") = .error (.panic "index out of range [0] with length 0") ∧
    errorOf (parseNodespecContent "text|" [("text", newNodeType "text" {})]) =
      some (.error "invalid content expression: text|") ∧
    errorOf (parseNodespecContent "a b" [("text", newNodeType "text" {})]) =
      some (.error "invalid content expression: a b") ∧
    errorOf (parseNodespecContent "(text)" [("text", newNodeType "text" {})]) =
      some (.error "invalid content expression: (text)") ∧
    errorOf (parseNodespecContent "text | doc" [("text", newNodeType "text" {})]) =
      some (.error "invalid content expression: text | doc") := by
  decide!

/-- C26, at the failing input: for `doc` with the content expression `zzz+`, where `zzz` is
neither a node type nor a group, `resolveName` returns no type and `NewSchema` panics in
`parseAtom` on the index 0 of an empty slice, where the claim has an error returned. -/
theorem C26_unknown_atom_panics :
    resolveName "zzz" [("doc", newNodeType "doc" { Content := "zzz+" }),
      ("paragraph", newNodeType "paragraph" { Content := "text*", Group := "block" }),
      ("text", newNodeType "text" {})] = [] ∧
    NewSchema (docSpec "zzz+") = .error (.panic "index out of range [0] with length 0") := by
  decide!

/-- C28, at the failing input: for `DefaultSpec` with `TopNode` left empty `NewSchema`
succeeds, the node set has the compiled `doc`, and `TopNodeType` points to the zero node
type, which `NewSchema` reads under the empty name; with `TopNode` set to `doc` it points
to the compiled `doc`. -/
theorem C28_topNodeType_reads_empty_name :
    (NewSchema { DefaultSpec with TopNode := "" }).map (fun s => GoMap.get s.Nodes "doc") =
      .ok (some docT) ∧
    (NewSchema { DefaultSpec with TopNode := "" }).map (fun s => s.TopNodeType) =
      .ok (some NodeType.zero) ∧
    (NewSchema DefaultSpec).map (fun s => s.TopNodeType) = .ok (some docT) := by
  decide!

/-- C29, at the failing input: the `paragraph` of `bogusMarkSpec` names the marks `em` and
`bogus`, and the spec declares no mark `bogus`; `NewSchema` succeeds and gives `paragraph`
the marks `em` and the zero mark type. -/
theorem C29_unknown_mark_is_zero_value :
    GoMap.get bogusMarkSpec.Marks "bogus" = none ∧
    (NewSchema bogusMarkSpec).map
      (fun s => (GoMap.get s.Nodes "paragraph").map (fun t => t.Marks)) =
      .ok (some (some [{ Name := "em" }, MarkType.zero])) := by
  decide!

/-- The method `InlineContent` is true exactly when the matcher has no transition or its
first transition is labeled with a block type. -/
theorem inlineContent_iff_first_block (c : ContentMatch) :
    c.InlineContent = true ↔
      (c.Next.getD [] = [] ∨ ∃ m rest, c.Next.getD [] = m :: rest ∧ m.TypBlock = true) := by
  unfold ContentMatch.InlineContent
  cases h : c.Next.getD [] with
  | nil => simp
  | cons m rest => simp

/-- C30, at the failing inputs: `InlineContent` is false on the matcher of `inline*`, whose
first transition is the inline type `text`, and true on the matcher of `block+`, whose
first transition is the block type `paragraph`; after `NewSchema` on `DefaultSpec` the flag
of `paragraph` is false and the flag of `doc` is true. -/
theorem C30_inlineContent_negated :
    inlineMatch.InlineContent = false ∧ blockMatch.InlineContent = true ∧
    (NewSchema DefaultSpec).map
      (fun s => (GoMap.get s.Nodes "paragraph").map (fun t => t.InlineContent)) =
      .ok (some false) ∧
    (NewSchema DefaultSpec).map
      (fun s => (GoMap.get s.Nodes "doc").map (fun t => t.InlineContent)) = .ok (some true) := by
  decide!

/-! ## The checks of `NewSchema` -/

/-- Reading the key just written gives the value written. -/
theorem get_set_self {V : Type} (m : GoMap V) (k : String) (v : V) :
    GoMap.get (GoMap.set m k v) k = some v := by
  induction m with
  | nil => simp [GoMap.set, GoMap.get]
  | cons e rest ih =>
    unfold GoMap.set
    by_cases h : (e.1 == k) = true
    · rw [if_pos h]; simp [GoMap.get]
    · rw [if_neg h]
      have : GoMap.get (e :: GoMap.set rest k v) k = GoMap.get (GoMap.set rest k v) k := by
        simp only [GoMap.get, List.find?_cons]
        simp only [Bool.not_eq_true] at h
        rw [h]
      rw [this, ih]

/-- Writing a key leaves the other keys as they were. -/
theorem get_set_other {V : Type} (m : GoMap V) (k k2 : String) (v : V) (hne : k2 ≠ k) :
    GoMap.get (GoMap.set m k v) k2 = GoMap.get m k2 := by
  induction m with
  | nil =>
    have : (k == k2) = false := by simpa using fun h => hne h.symm
    simp [GoMap.set, GoMap.get, List.find?_cons, this]
  | cons e rest ih =>
    unfold GoMap.set
    by_cases h : (e.1 == k) = true
    · rw [if_pos h]
      have hk : e.1 = k := by simpa using h
      have h1 : (k == k2) = false := by simpa using fun h => hne h.symm
      have h2 : (e.1 == k2) = false := by rw [hk]; exact h1
      simp [GoMap.get, List.find?_cons, h1, h2]
    · rw [if_neg h]
      simp only [GoMap.get, List.find?_cons] at ih ⊢
      cases h3 : (e.1 == k2) with
      | true => rfl
      | false => exact ih

/-- A key that is not in the list reads as missing. -/
theorem get_none_of_not_mem {V : Type} (m : GoMap V) (k : String)
    (h : k ∉ m.map Prod.fst) : GoMap.get m k = none := by
  induction m with
  | nil => rfl
  | cons e rest ih =>
    simp only [List.map_cons, List.mem_cons, not_or] at h
    have h1 : (e.1 == k) = false := by simpa using fun h2 => h.1 h2.symm
    simp only [GoMap.get, List.find?_cons, h1] at ih ⊢
    exact ih h.2

/-- The node types `compileNodeTypeSet` builds: one for each spec, under its name. -/
theorem compileNodeTypes_get (ns : GoMap NodeSpec) (hk : (ns.map Prod.fst).Nodup)
    (out : GoMap NodeType) (k : String) :
    GoMap.get (compileNodeTypes ns out) k =
      match GoMap.get ns k with
      | some spec => some (newNodeType k spec)
      | none => GoMap.get out k := by
  induction ns generalizing out with
  | nil => rfl
  | cons e rest ih =>
    obtain ⟨name, spec⟩ := e
    simp only [List.map_cons, List.nodup_cons] at hk
    unfold compileNodeTypes
    rw [ih hk.2]
    by_cases hn : name = k
    · subst hn
      rw [get_none_of_not_mem rest name hk.1]
      have hg : GoMap.get ((name, spec) :: rest) name = some spec := by
        simp [GoMap.get, List.find?_cons]
      rw [hg]
      exact get_set_self out name _
    · have h1 : (name == k) = false := by simpa using hn
      have : GoMap.get ((name, spec) :: rest) k = GoMap.get rest k := by
        simp [GoMap.get, List.find?_cons, h1]
      rw [this]
      cases GoMap.get rest k with
      | some s => rfl
      | none => exact get_set_other out name k _ (fun h => hn h.symm)

/-- The function `compileContentMatch` leaves the name and the attributes of the node type
as they are. -/
theorem compileContentMatch_attrs (typ : NodeType) (s : Schema)
    (cache : GoMap (ContentMatch × List ContentMatch)) (typ2 : NodeType)
    (cache2 : GoMap (ContentMatch × List ContentMatch))
    (h : compileContentMatch typ s cache = .ok (typ2, cache2)) :
    typ2.Attrs = typ.Attrs ∧ typ2.Name = typ.Name := by
  unfold compileContentMatch at h
  dsimp only at h
  split at h
  · cases h; exact ⟨rfl, rfl⟩
  · split at h
    · cases h; exact ⟨rfl, rfl⟩
    · split at h
      · cases h
      · cases h
      · rename_i cm _
        cases h1 : nfa cm with
        | error e => rw [h1] at h; cases h
        | ok table =>
          cases h2 : dfa table with
          | error e => rw [h1] at h; simp only [bind, Except.bind, h2] at h; cases h
          | ok hs =>
            obtain ⟨heap, state⟩ := hs
            cases h3 : goIndex heap (state : Int) with
            | error e =>
              rw [h1] at h; simp only [bind, Except.bind, h2, h3] at h; cases h
            | ok ce =>
              rw [h1] at h
              simp only [bind, Except.bind, h2, h3, pure, Except.pure] at h
              cases h; exact ⟨rfl, rfl⟩

/-- The loop of `NewSchema` keeps every node type under its name, with its attributes. -/
theorem compileAll_attrs (s : Schema) (ks : List String) (nodes : GoMap NodeType)
    (cache : GoMap (ContentMatch × List ContentMatch)) (nodes2 : GoMap NodeType)
    (h : compileAll s ks nodes cache = .ok nodes2) (k : String) (t : NodeType)
    (hk : GoMap.get nodes k = some t) :
    ∃ t2, GoMap.get nodes2 k = some t2 ∧ t2.Attrs = t.Attrs := by
  induction ks generalizing nodes cache t with
  | nil =>
    unfold compileAll at h
    cases h
    exact ⟨t, hk, rfl⟩
  | cons k0 rest ih =>
    unfold compileAll at h
    cases hc : compileContentMatch ((GoMap.get nodes k0).getD NodeType.zero)
        { s with Nodes := nodes } cache with
    | error e => simp only [hc, bind, Except.bind] at h; cases h
    | ok r =>
      obtain ⟨node, cache1⟩ := r
      simp only [hc, bind, Except.bind] at h
      have hattr := (compileContentMatch_attrs _ _ _ _ _ hc).1
      by_cases hkk : k = k0
      · subst hkk
        rw [hk] at hattr
        obtain ⟨t2, h1, h2⟩ := ih (GoMap.set nodes k node) cache1 h node (get_set_self _ _ _)
        exact ⟨t2, h1, by rw [h2]; exact hattr⟩
      · exact ih (GoMap.set nodes k0 node) cache1 h t
          (by rw [get_set_other _ _ _ _ hkk]; exact hk)

/-- What `compileNodeTypeSet` returns when it returns node types: the types of the specs,
with a top node and a `text` without attributes among them. -/
theorem compileNodeTypeSet_ok (s : Schema) (ns : GoMap NodeSpec) (out : GoMap NodeType)
    (h : compileNodeTypeSet s ns = .ok out) :
    out = compileNodeTypes ns [] ∧ (∃ t, GoMap.get out s.Spec.topNode = some t) ∧
    ∃ t, GoMap.get out "text" = some t ∧ t.Attrs = [] := by
  unfold compileNodeTypeSet at h
  dsimp only at h
  by_cases h1 : (((GoMap.get (compileNodeTypes ns []) s.Spec.topNode).getD NodeType.zero).Eq
      NodeType.zero) = true
  · rw [if_pos h1] at h; cases h
  rw [if_neg h1] at h
  by_cases h2 : (((GoMap.get (compileNodeTypes ns []) "text").getD NodeType.zero).Eq
      NodeType.zero) = true
  · rw [if_pos h2] at h; cases h
  rw [if_neg h2] at h
  by_cases h3 : ((GoMap.get (compileNodeTypes ns []) "text").getD NodeType.zero).Attrs.length > 0
  · rw [if_pos h3] at h; cases h
  rw [if_neg h3] at h
  have ho : out = compileNodeTypes ns [] := by cases h; rfl
  subst ho
  refine ⟨rfl, ?_, ?_⟩
  · cases hg : GoMap.get (compileNodeTypes ns []) s.Spec.topNode with
    | some t => exact ⟨t, rfl⟩
    | none => exfalso; apply h1; rw [hg]; rfl
  · cases hg : GoMap.get (compileNodeTypes ns []) "text" with
    | none => exfalso; apply h2; rw [hg]; rfl
    | some t =>
      refine ⟨t, rfl, ?_⟩
      rw [hg] at h3
      simp only [Option.getD_some, gt_iff_lt, List.length_pos, ne_eq, not_not] at h3
      exact h3

/-- When `compileNodeTypeSet` returns an error: the node set lacks the top node or `text`,
or its `text` has attributes. -/
theorem compileNodeTypeSet_error (s : Schema) (ns : GoMap NodeSpec)
    (hk : (ns.map Prod.fst).Nodup)
    (hbad : GoMap.get ns s.Spec.topNode = none ∨ GoMap.get ns "text" = none ∨
      ∃ t, GoMap.get ns "text" = some t ∧ t.Attrs ≠ []) :
    ∃ msg, compileNodeTypeSet s ns = .error (.error msg) := by
  have htop := compileNodeTypes_get ns hk [] s.Spec.topNode
  have htext := compileNodeTypes_get ns hk [] "text"
  unfold compileNodeTypeSet
  dsimp only
  by_cases h1 : (((GoMap.get (compileNodeTypes ns []) s.Spec.topNode).getD NodeType.zero).Eq
      NodeType.zero) = true
  · rw [if_pos h1]; exact ⟨_, rfl⟩
  rw [if_neg h1]
  by_cases h2 : (((GoMap.get (compileNodeTypes ns []) "text").getD NodeType.zero).Eq
      NodeType.zero) = true
  · rw [if_pos h2]; exact ⟨_, rfl⟩
  rw [if_neg h2]
  by_cases h3 : ((GoMap.get (compileNodeTypes ns []) "text").getD NodeType.zero).Attrs.length > 0
  · rw [if_pos h3]; exact ⟨_, rfl⟩
  exfalso
  rcases hbad with hb | hb | ⟨t, hb, hne⟩
  · rw [hb] at htop
    apply h1
    rw [htop]; rfl
  · rw [hb] at htext
    apply h2
    rw [htext]; rfl
  · rw [hb] at htext
    apply h3
    rw [htext]
    show (newNodeType "text" t).Attrs.length > 0
    exact List.length_pos.mpr hne

/-- C27: for every schema spec whose node map has each name once, `NewSchema` returns an
error when the node set has no type under the top node name (`TopNode`, or `doc` when that
is empty), has no type `text`, or has a `text` with attributes; and whenever `NewSchema`
returns a schema, its node types have a `text` without attributes and a type under the top
node name. -/
theorem C27_newSchema_checks (spec : SchemaSpec) (hk : (spec.Nodes.map Prod.fst).Nodup) :
    ((GoMap.get spec.Nodes spec.topNode = none ∨ GoMap.get spec.Nodes "text" = none ∨
        ∃ t, GoMap.get spec.Nodes "text" = some t ∧ t.Attrs ≠ []) →
      ∃ msg, NewSchema spec = .error (.error msg)) ∧
    (∀ s, NewSchema spec = .ok s →
      (∃ t, GoMap.get s.Nodes "text" = some t ∧ t.Attrs = []) ∧
      ∃ t, GoMap.get s.Nodes spec.topNode = some t) := by
  constructor
  · intro hbad
    have herr := compileNodeTypeSet_error { Spec := spec } spec.Nodes hk hbad
    obtain ⟨msg, hmsg⟩ := herr
    refine ⟨"error compiling nodes: " ++ msg, ?_⟩
    unfold NewSchema
    simp only [hmsg]
  · intro s hs
    unfold NewSchema at hs
    dsimp only at hs
    cases hc : compileNodeTypeSet { Spec := spec } spec.Nodes with
    | error e =>
      rw [hc] at hs
      cases e <;> cases hs
    | ok nodes =>
      rw [hc] at hs
      dsimp only at hs
      obtain ⟨_, ⟨t1, ht1⟩, t2, ht2, ha2⟩ := compileNodeTypeSet_ok _ _ _ hc
      cases ha : compileAll { Spec := spec, Nodes := nodes, Marks := compileMarkTypeSet spec.Marks }
          (nodes.map (fun e => e.1)) nodes [] with
      | error e => rw [ha] at hs; cases hs
      | ok nodes2 =>
        rw [ha] at hs
        cases hs
        obtain ⟨u2, hu2, hau⟩ := compileAll_attrs _ _ _ _ _ ha "text" t2 ht2
        obtain ⟨u1, hu1, _⟩ := compileAll_attrs _ _ _ _ _ ha spec.topNode t1 ht1
        exact ⟨⟨u2, hu2, by rw [hau]; exact ha2⟩, ⟨u1, hu1⟩⟩

/-- A witness for C27: `DefaultSpec` without its `text` gives an error, and `DefaultSpec`
gives a schema with a `text` without attributes and with `doc`. -/
theorem C27_newSchema_checks_witness :
    (∃ msg, NewSchema { DefaultSpec with Nodes := [("doc", { Content := "block+" })] } =
      .error (.error msg)) ∧
    NewSchema DefaultSpec = .ok ((NewSchema DefaultSpec).toOption.getD {}) ∧
    (∃ t, GoMap.get ((NewSchema DefaultSpec).toOption.getD {}).Nodes "text" = some t ∧
      t.Attrs = []) ∧
    ∃ t, GoMap.get ((NewSchema DefaultSpec).toOption.getD {}).Nodes DefaultSpec.topNode =
      some t :=
  ⟨(C27_newSchema_checks { DefaultSpec with Nodes := [("doc", { Content := "block+" })] }
      (by decide)).1 (Or.inr (Or.inl (by decide))),
   by decide!,
   (C27_newSchema_checks DefaultSpec (by decide)).2
      ((NewSchema DefaultSpec).toOption.getD {}) (by decide!)⟩

/-! ## Parsing an atom with a quantifier -/

/-- A rune of a name is not white space. -/
theorem not_space_of_name (c : Char) (h : isNameRune c = true) : isSpaceRune c = false := by
  unfold isSpaceRune
  unfold isNameRune at h
  simp only [Bool.or_eq_true, Bool.and_eq_true, decide_eq_true_eq] at h
  simp only [Bool.or_eq_false_iff, decide_eq_false_iff_not]
  have e0 : ('0' : Char).toNat = 48 := rfl
  have e9 : ('9' : Char).toNat = 57 := rfl
  have eA : ('A' : Char).toNat = 65 := rfl
  have eZ : ('Z' : Char).toNat = 90 := rfl
  have ea : ('a' : Char).toNat = 97 := rfl
  have ez : ('z' : Char).toNat = 122 := rfl
  have key : 45 ≤ c.toNat := by
    rcases h with (((h | h) | h) | h) | h
    · omega
    · omega
    · omega
    · rw [h]; decide
    · rw [h]; decide
  refine ⟨⟨⟨⟨?_, ?_⟩, ?_⟩, ?_⟩, ?_⟩ <;> intro hc <;> rw [hc] at key <;> revert key <;> decide

/-- A rune of a name starts no quantifier. -/
theorem not_quant_of_name (c : Char) (h : isNameRune c = true) :
    c ≠ '?' ∧ c ≠ '*' ∧ c ≠ '+' ∧ c ≠ '{' ∧ c ≠ '|' := by
  unfold isNameRune at h
  refine ⟨?_, ?_, ?_, ?_, ?_⟩ <;> intro hc <;> rw [hc] at h <;> revert h <;> decide

/-- A run of name runes followed by something that starts with no name rune is taken
whole. -/
theorem takeWhile_name (a q : List Char) (ha : ∀ c ∈ a, isNameRune c = true)
    (hq : ∀ c, q.head? = some c → isNameRune c = false) :
    (a ++ q).takeWhile isNameRune = a ∧ (a ++ q).dropWhile isNameRune = q := by
  induction a with
  | nil =>
    cases q with
    | nil => exact ⟨rfl, rfl⟩
    | cons c rest =>
      have := hq c rfl
      simp [List.takeWhile, List.dropWhile, this]
  | cons c rest ih =>
    have hc := ha c (List.mem_cons_self _ _)
    have ih2 := ih (fun x hx => ha x (List.mem_cons_of_mem _ hx))
    rw [List.cons_append, List.takeWhile_cons, List.dropWhile_cons, if_pos hc, if_pos hc]
    exact ⟨by rw [ih2.1], ih2.2⟩

/-- The match of the regular expression on an atom name followed by a quantifier text: the
whole string, with the name and the quantifier as its groups. -/
theorem regexFind_atom (a q : List Char) (hne : a ≠ []) (ha : ∀ c ∈ a, isNameRune c = true)
    (hq : ∀ c, q.head? = some c → isNameRune c = false)
    (hm : (matchQuantGroup q).getD [] = q) :
    regexFind (a ++ q) = some (a ++ q, a, q) := by
  obtain ⟨c, rest, rfl⟩ : ∃ c rest, a = c :: rest := by
    cases a with
    | nil => exact absurd rfl hne
    | cons c rest => exact ⟨c, rest, rfl⟩
  have hc := ha c (List.mem_cons_self _ _)
  have hsp := not_space_of_name c hc
  have htw := takeWhile_name (c :: rest) q ha hq
  have h1 : regexMatchAt (c :: rest ++ q) = some (c :: rest ++ q, c :: rest, q) := by
    unfold regexMatchAt
    have e1 : (c :: rest ++ q).takeWhile isSpaceRune = [] := by
      simp [List.takeWhile, hsp]
    have e2 : (c :: rest ++ q).dropWhile isSpaceRune = c :: rest ++ q := by
      simp [List.dropWhile, hsp]
    simp only [e1, e2, htw.1, htw.2, hm]
    simp
  show regexFind (c :: (rest ++ q)) = _
  unfold regexFind
  have h2 : regexMatchAt (c :: (rest ++ q)) = some (c :: rest ++ q, c :: rest, q) := h1
  rw [h2]

/-- A known atom name gives an expression. -/
theorem parseAtom_known (a : String) (types : GoMap NodeType)
    (h : resolveName a types ≠ []) : ∃ e, parseAtom a types = .ok e := by
  unfold parseAtom
  dsimp only
  by_cases hl : ((resolveName a types).map (fun v => Expr.mk nameExpr [] v none 0 0)).length > 1
  · rw [if_pos hl]; exact ⟨_, rfl⟩
  · rw [if_neg hl]
    cases hr : resolveName a types with
    | nil => exact absurd hr h
    | cons v vs => exact ⟨_, rfl⟩

/-- Parsing a known atom name followed by a quantifier text the regular expression takes:
the expression has the type and the bounds `parseQuantifier` gives for the text. -/
theorem parse_atom_quant (types : GoMap NodeType) (a : String) (q : List Char)
    (typ : String) (mn mx : Int) (ha : IsAtomName a) (hk : resolveName a types ≠ [])
    (hq : ∀ c, q.head? = some c → isNameRune c = false)
    (hm : (matchQuantGroup q).getD [] = q) (hp : parseQuantifier q = some (typ, mn, mx)) :
    (parseNodespecContent (a ++ String.mk q) types).map (fun e => (e.Typ, e.Min, e.Max)) =
      .ok (typ, mn, mx) := by
  obtain ⟨e, he⟩ := parseAtom_known a types hk
  have hdata : (a ++ String.mk q).toList = a.toList ++ q := by
    simp [String.toList, String.data_append]
  have hne : ¬ (a ++ String.mk q = "") := by
    intro h
    have := congrArg String.toList h
    rw [hdata] at this
    have h3 : a.toList ++ q = [] := this
    exact ha.1 (List.append_eq_nil.mp h3).1
  unfold parseNodespecContent
  rw [if_neg hne, hdata, regexFind_atom a.toList q ha.1 ha.2 hq hm]
  simp only [ne_eq, not_true_eq_false, if_false]
  have hmk : String.mk a.toList = a := rfl
  rw [hmk, he]
  simp only [bind, Except.bind, hp, pure, Except.pure, Except.map]
  rfl

/-- The quantifiers that are parsed: for every type table, every name `A` of runes in
`[\w\-]` that resolves in it, and all naturals `n <= m` with `1 <= m <= 9`, `parseNodespecContent` succeeds on
`A?`, `A*`, `A+`, `A{n}` and `A{n,m}`, and the expression it returns has the type and the
bounds `(min, max)` of `opt` (0, 1), `star` (0, -1), `plus` (1, -1), `range` (n, n) and
`range` (n, m), where -1 stands for unbounded. -/
theorem parse_quantifiers_single_digit (types : GoMap NodeType) (a : String) (n m : Nat)
    (ha : IsAtomName a) (hk : resolveName a types ≠ []) (hnm : n ≤ m) (hm1 : 1 ≤ m)
    (hm9 : m ≤ 9) :
    (parseNodespecContent (a ++ "?") types).map (fun e => (e.Typ, e.Min, e.Max)) =
      .ok (optExpr, 0, 1) ∧
    (parseNodespecContent (a ++ "*") types).map (fun e => (e.Typ, e.Min, e.Max)) =
      .ok (starExpr, 0, -1) ∧
    (parseNodespecContent (a ++ "+") types).map (fun e => (e.Typ, e.Min, e.Max)) =
      .ok (plusExpr, 1, -1) ∧
    (parseNodespecContent (a ++ ("\x7b" ++ digitString n ++ "\x7d")) types).map
      (fun e => (e.Typ, e.Min, e.Max)) = .ok (rangeExpr, (n : Int), (n : Int)) ∧
    (parseNodespecContent (a ++ ("\x7b" ++ digitString n ++ "," ++ digitString m ++ "\x7d"))
      types).map (fun e => (e.Typ, e.Min, e.Max)) = .ok (rangeExpr, (n : Int), (m : Int)) := by
  refine ⟨?_, ?_, ?_, ?_, ?_⟩
  · exact parse_atom_quant types a ['?'] optExpr 0 1 ha hk (by decide) (by decide) (by decide)
  · exact parse_atom_quant types a ['*'] starExpr 0 (-1) ha hk (by decide) (by decide)
      (by decide)
  · exact parse_atom_quant types a ['+'] plusExpr 1 (-1) ha hk (by decide) (by decide)
      (by decide)
  · have hn9 : n ≤ 9 := by omega
    clear hnm hm1 hm9
    interval_cases n <;>
      exact parse_atom_quant types a _ rangeExpr _ _ ha hk (by decide) (by decide) (by decide)
  · have hn9 : n ≤ 9 := by omega
    interval_cases m <;> interval_cases n <;>
      exact parse_atom_quant types a _ rangeExpr _ _ ha hk (by decide) (by decide) (by decide)

/-- The quantifiers that are parsed, for the name `paragraph` in a table that has it and
the bounds 2 and 5. -/
theorem parse_quantifiers_paragraph :
    (parseNodespecContent "paragraph?" [("paragraph", newNodeType "paragraph" {})]).map
      (fun e => (e.Typ, e.Min, e.Max)) = .ok ("opt", 0, 1) ∧
    (parseNodespecContent "paragraph*" [("paragraph", newNodeType "paragraph" {})]).map
      (fun e => (e.Typ, e.Min, e.Max)) = .ok ("star", 0, -1) ∧
    (parseNodespecContent "paragraph+" [("paragraph", newNodeType "paragraph" {})]).map
      (fun e => (e.Typ, e.Min, e.Max)) = .ok ("plus", 1, -1) ∧
    (parseNodespecContent "paragraph{2}" [("paragraph", newNodeType "paragraph" {})]).map
      (fun e => (e.Typ, e.Min, e.Max)) = .ok ("range", 2, 2) ∧
    (parseNodespecContent "paragraph{2,5}" [("paragraph", newNodeType "paragraph" {})]).map
      (fun e => (e.Typ, e.Min, e.Max)) = .ok ("range", 2, 5) :=
  parse_quantifiers_single_digit [("paragraph", newNodeType "paragraph" {})] "paragraph" 2 5
    (by decide) (by decide) (by decide) (by decide) (by decide)

/-- An atom is a run of runes of `[\w\-]`: with the node type `list.item` in the table,
`parseNodespecContent` returns the error `invalid content expression` on `list.item?`,
since the match of the regular expression ends before the `.`. -/
theorem atom_stops_at_dot :
    resolveName "list.item" [("list.item", newNodeType "list.item" {})] =
      [newNodeType "list.item" {}] ∧
    errorOf (parseNodespecContent "list.item?" [("list.item", newNodeType "list.item" {})]) =
      some (.error "invalid content expression: list.item?") := by
  decide

/-- The quantifier `{n,}` and bounds of three digits: `parseQuantifier` gives `{2,}` the
bounds 2 and -1 and `{123}` the bounds 123 and 123, but the regular expression takes neither
text as a quantifier, so `parseNodespecContent` returns an error on `text{2,}`, `text{123}`
and `text{10,20}`. -/
theorem open_range_stops_at_regex :
    parseQuantifier "{2,}".toList = some (rangeExpr, 2, -1) ∧
    parseQuantifier "{123}".toList = some (rangeExpr, 123, 123) ∧
    errorOf (parseNodespecContent "text{2,}" [("text", newNodeType "text" {})]) =
      some (.error "invalid content expression: text{2,}") ∧
    errorOf (parseNodespecContent "text{123}" [("text", newNodeType "text" {})]) =
      some (.error "invalid content expression: text{123}") ∧
    errorOf (parseNodespecContent "text{10,20}" [("text", newNodeType "text" {})]) =
      some (.error "invalid content expression: text{10,20}") := by
  decide

/-- C24: the quantifier `A{n,}` is not parsed.  With the node type `paragraph` in the table
the name resolves, and `parseQuantifier` gives the quantifier text `{2,}` the bounds 2 and
-1 (unbounded); but the match of the regular expression `contentMatchRegex` on
`paragraph{2,}` is the name alone, without a quantifier, since its quantifier in braces
`\{\d?,?\d\}` asks for a digit before the closing brace, and `parseNodespecContent`
returns the error `invalid content expression` on `paragraph{2,}`, as it does on
`paragraph{0,}`.  The forms `paragraph{2}` and `paragraph{2,5}` are parsed, with the bounds
(2, 2) and (2, 5). -/
theorem C24_open_range_is_refused :
    resolveName "paragraph" [("paragraph", newNodeType "paragraph" {})] =
      [newNodeType "paragraph" {}] ∧
    parseQuantifier "{2,}".toList = some (rangeExpr, 2, -1) ∧
    regexFind "paragraph{2,}".toList = some ("paragraph".toList, "paragraph".toList, []) ∧
    errorOf (parseNodespecContent "paragraph{2,}" [("paragraph", newNodeType "paragraph" {})]) =
      some (.error "invalid content expression: paragraph{2,}") ∧
    errorOf (parseNodespecContent "paragraph{0,}" [("paragraph", newNodeType "paragraph" {})]) =
      some (.error "invalid content expression: paragraph{0,}") ∧
    (parseNodespecContent "paragraph{2}" [("paragraph", newNodeType "paragraph" {})]).map
      (fun e => (e.Typ, e.Min, e.Max)) = .ok (rangeExpr, 2, 2) ∧
    (parseNodespecContent "paragraph{2,5}" [("paragraph", newNodeType "paragraph" {})]).map
      (fun e => (e.Typ, e.Min, e.Max)) = .ok (rangeExpr, 2, 5) := by
  decide

/-- No unit of a list of children lies before its start. -/
theorem contentAtList_neg (cs : List Node) (q : Int) (hq : q < 0) :
    contentAtList cs q = false := by
  cases cs with
  | nil => rfl
  | cons c rest => rw [contentAtList, if_pos hq]

/-- No unit of a list of children lies at or after its end. -/
theorem contentAtList_end (cs : List Node) (hnn : ∀ c ∈ cs, 0 ≤ c.NodeSize) (q : Int)
    (hq : (cs.map Node.NodeSize).sum ≤ q) : contentAtList cs q = false := by
  induction cs generalizing q with
  | nil => rfl
  | cons c rest ih =>
    have h0 : 0 ≤ c.NodeSize := hnn c (List.mem_cons_self _ _)
    have hr : 0 ≤ (rest.map Node.NodeSize).sum :=
      sum_nonneg_of_forall rest (fun x hx => hnn x (List.mem_cons_of_mem _ hx))
    simp only [List.map_cons, List.sum_cons] at hq
    rw [contentAtList, if_neg (by omega), if_neg (by omega)]
    exact ih (fun x hx => hnn x (List.mem_cons_of_mem _ hx)) _ (by omega)

/-- The unit at offset `j` of child `k` of a list is the unit `j` places after the start of
that child. -/
theorem contentAtList_prefix (cs : List Node) (hnn : ∀ c ∈ cs, 0 ≤ c.NodeSize) (k : Nat)
    (c : Node) (hc : cs.get? k = some c) (j : Int) (h0 : 0 ≤ j) (h1 : j < c.NodeSize) :
    contentAtList cs (prefixSize cs k + j) = c.contentAt j := by
  induction cs generalizing k with
  | nil => simp at hc
  | cons x rest ih =>
    cases k with
    | zero =>
      simp only [List.get?_cons_zero, Option.some.injEq] at hc
      subst hc
      rw [prefixSize_zero, zero_add, contentAtList, if_neg (by omega), if_pos h1]
    | succ k =>
      have hx : 0 ≤ x.NodeSize := hnn x (List.mem_cons_self _ _)
      have hp : 0 ≤ prefixSize rest k :=
        prefixSize_nonneg rest (fun y hy => hnn y (List.mem_cons_of_mem _ hy)) k
      simp only [List.get?_cons_succ] at hc
      rw [prefixSize_succ_cons, contentAtList, if_neg (by omega), if_neg (by omega)]
      have : x.NodeSize + prefixSize rest k + j - x.NodeSize = prefixSize rest k + j := by ring
      rw [this]
      exact ih (fun y hy => hnn y (List.mem_cons_of_mem _ hy)) k hc

/-- The units of a node that is neither text nor a leaf are those of its content, one place
further. -/
theorem contentAt_composite (n : Node) (ht : n.IsText = false) (hl : n.IsLeaf = false)
    (q : Int) : n.contentAt q = n.Content.contentAt (q - 1) := by
  cases n with
  | mk typ attrs marks text content =>
    have h1 : typ.isText = false := ht
    have h2 : typ.isLeaf = false := hl
    simp [Node.contentAt, h1, h2, Node.Content]

/-- The units of a fragment are those of its list of children. -/
theorem fragment_contentAt (f : Fragment) (q : Int) :
    f.contentAt q = contentAtList f.Content q := by
  cases f
  rfl

/-- The units of the content of child `k`, which is neither text nor a leaf, seen from the
parent: they start one place after the start of the child, and the places right before and
right after them, the opening and the closing of the child, are not content. -/
theorem contentAt_child (f : Fragment) (hws : f.WellSized = true) (k : Nat) (c : Node)
    (hc : f.Content.get? k = some c) (ht : c.IsText = false) (hl : c.IsLeaf = false)
    (q : Int) (h0 : -1 ≤ q) (h1 : q ≤ c.Content.Size) :
    f.contentAt (prefixSize f.Content k + 1 + q) = c.Content.contentAt q := by
  have hnn : ∀ x ∈ f.Content, 0 ≤ x.NodeSize := fun x hx => childSize_nonneg f hws x hx
  have hsz := nodeSize_composite c ht hl
  rw [fragment_contentAt, show prefixSize f.Content k + 1 + q = prefixSize f.Content k + (1 + q)
    by ring, contentAtList_prefix f.Content hnn k c hc (1 + q) (by omega) (by omega),
    contentAt_composite c ht hl]
  congr 1
  ring

/-- The node itself is one of its subnodes. -/
theorem subnodes_self (n : Node) : n ∈ n.subnodes := by
  cases n
  simp [Node.subnodes]

/-- The subnodes of a child are subnodes of its parent. -/
theorem subnodes_child (n c : Node) (hc : c ∈ n.Content.Content) (x : Node)
    (hx : x ∈ c.subnodes) : x ∈ n.subnodes := by
  cases n with
  | mk typ attrs marks text content =>
    cases content with
    | mk size cs =>
      simp only [Node.subnodes, Fragment.subnodes, List.mem_cons, mem_subnodesList]
      exact Or.inr ⟨c, hc, hx⟩

/-- When the second loop of `contentBetween` finds no content from the node `c` on for the
distance `dist`, the distance ends inside `c` and none of the units it spans is content:
they are the openings of `c` and of the first children below it. -/
theorem descendLoop_sound (fuel : Nat) : ∀ (c : Node) (dist : Int),
    c.Content.WellSized = true →
    (∀ x ∈ c.subnodes, x.IsText = true → x.IsLeaf = true) →
    0 < dist → dist ≤ fuel → descendLoop fuel (some c) dist = false →
    dist < c.NodeSize ∧ ∀ j, 0 ≤ j → j < dist → c.contentAt j = false := by
  induction fuel with
  | zero =>
    intro c dist hws htl hd hf h
    simp at hf
    omega
  | succ fuel ih =>
    intro c dist hws htl hd hf h
    rw [descendLoop, if_pos hd] at h
    have hl : c.IsLeaf = false := by
      by_contra hl
      have hl2 : c.IsLeaf = true := by simpa using hl
      simp [hl2] at h
    have ht : c.IsText = false := by
      by_contra ht
      have ht2 : c.IsText = true := by simpa using ht
      have := htl c (subnodes_self c) ht2
      rw [hl] at this
      cases this
    simp only [hl] at h
    have h2 : descendLoop fuel c.FirstChild (dist - 1) = false := by simpa using h
    have hsz := nodeSize_composite c ht hl
    have hs0 := fragmentSize_nonneg c.Content hws
    have hnn : ∀ x ∈ c.Content.Content, 0 ≤ x.NodeSize :=
      fun x hx => childSize_nonneg c.Content hws x hx
    by_cases h1 : dist = 1
    · subst h1
      refine ⟨by omega, ?_⟩
      intro j hj0 hj1
      have hj : j = 0 := by omega
      subst hj
      rw [contentAt_composite c ht hl, fragment_contentAt]
      exact contentAtList_neg _ _ (by omega)
    · have hd1 : 0 < dist - 1 := by omega
      cases hfc : c.FirstChild with
      | none =>
        rw [hfc] at h2
        cases fuel with
        | zero => simp at hf; omega
        | succ fuel => simp [descendLoop, hd1] at h2
      | some c1 =>
        rw [hfc] at h2
        have hcs : ∃ rest, c.Content.Content = c1 :: rest := by
          unfold Node.FirstChild Fragment.firstChild at hfc
          cases hcc : c.Content.Content with
          | nil => rw [hcc] at hfc; simp at hfc
          | cons a rest =>
            rw [hcc] at hfc
            simp only [List.head?_cons, Option.some.injEq] at hfc
            exact ⟨rest, by rw [hfc]⟩
        obtain ⟨rest, hrest⟩ := hcs
        have hmem : c1 ∈ c.Content.Content := by rw [hrest]; exact List.mem_cons_self _ _
        have hih := ih c1 (dist - 1) (wellSized_mem c.Content c1 hws hmem)
          (fun x hx => htl x (subnodes_child c c1 hmem x hx)) hd1
          (by push_cast at hf ⊢; omega) h2
        have hsum : c.Content.Size = c1.NodeSize + (rest.map Node.NodeSize).sum := by
          have := wellSized_sizeOk c.Content hws
          unfold Fragment.SizeOk at this
          rw [this, hrest]
          simp
        have hr0 : 0 ≤ (rest.map Node.NodeSize).sum :=
          sum_nonneg_of_forall rest (fun x hx => hnn x (by rw [hrest]; exact List.mem_cons_of_mem _ hx))
        refine ⟨by omega, ?_⟩
        intro j hj0 hj1
        rw [contentAt_composite c ht hl, fragment_contentAt]
        by_cases hj : j = 0
        · subst hj
          exact contentAtList_neg _ _ (by omega)
        · rw [hrest, contentAtList, if_neg (by omega), if_pos (by omega)]
          exact hih.2 (j - 1) (by omega) (by omega)

/-- One round of the first loop of `contentBetween` at a depth the paths reach. -/
theorem climbNat_succ_some (path : List Node) (idxs : List Int) (t : Bool) (D d : Nat)
    (dist : Int) (n : Node) (i : Int) (h1 : path.get? (d + 1) = some n)
    (h2 : idxs.get? (d + 1) = some i) :
    climbNat path idxs t D (d + 1) dist =
      if 0 < dist ∧ (if d + 1 ≠ D ∨ t = true then i + 1 else i) = n.ChildCount then
        climbNat path idxs t D d (dist - 1)
      else (d + 1, dist) := by
  rw [climbNat, h1, h2]

/-- The first loop of `contentBetween` stops at a depth the paths do not reach. -/
theorem climbNat_succ_none (path : List Node) (idxs : List Int) (t : Bool) (D d : Nat)
    (dist : Int) (h : path.get? (d + 1) = none ∨ idxs.get? (d + 1) = none) :
    climbNat path idxs t D (d + 1) dist = (d + 1, dist) := by
  rw [climbNat]
  rcases h with h | h
  · rw [h]
  · rw [h]
    cases path.get? (d + 1) <;> rfl

/-- The first loop of `contentBetween` one level further down: it runs as it does on the
paths without their first level and, when it reaches their top with distance left and the
index after at the end of that node, climbs once more. -/
theorem climbNat_cons (n0 c : Node) (nodes : List Node) (i0 ic : Int) (idxs : List Int)
    (t : Bool) (D d : Nat) : ∀ dist : Int,
    climbNat (n0 :: c :: nodes) (i0 :: ic :: idxs) t (D + 1) (d + 1) dist =
      if (climbNat (c :: nodes) (ic :: idxs) t D d dist).1 = 0 ∧
          0 < (climbNat (c :: nodes) (ic :: idxs) t D d dist).2 ∧
          (if 0 ≠ D ∨ t = true then ic + 1 else ic) = c.ChildCount then
        (0, (climbNat (c :: nodes) (ic :: idxs) t D d dist).2 - 1)
      else ((climbNat (c :: nodes) (ic :: idxs) t D d dist).1 + 1,
        (climbNat (c :: nodes) (ic :: idxs) t D d dist).2) := by
  induction d with
  | zero =>
    intro dist
    have hD : (¬ D = 0) = (¬ 0 = D) := by
      apply propext
      constructor <;> intro h <;> omega
    simp [climbNat, hD]
  | succ d ih =>
    intro dist
    cases h1 : (c :: nodes).get? (d + 1) with
    | none =>
      rw [climbNat_succ_none _ _ _ _ _ _ (Or.inl (by rw [List.get?_cons_succ]; exact h1)),
        climbNat_succ_none _ _ _ _ _ _ (Or.inl h1)]
      simp
    | some n =>
      cases h2 : (ic :: idxs).get? (d + 1) with
      | none =>
        rw [climbNat_succ_none _ _ _ _ _ _ (Or.inr (by rw [List.get?_cons_succ]; exact h2)),
          climbNat_succ_none _ _ _ _ _ _ (Or.inr h2)]
        simp
      | some i =>
        rw [climbNat_succ_some _ _ _ _ _ _ n i (by rw [List.get?_cons_succ]; exact h1)
            (by rw [List.get?_cons_succ]; exact h2),
          climbNat_succ_some _ _ _ _ _ _ n i h1 h2]
        have hcond : (if d + 1 + 1 ≠ D + 1 ∨ t = true then i + 1 else i) =
            (if d + 1 ≠ D ∨ t = true then i + 1 else i) := by
          by_cases hx : d + 1 = D <;> simp [hx]
        rw [hcond]
        by_cases hc : 0 < dist ∧ (if d + 1 ≠ D ∨ t = true then i + 1 else i) = n.ChildCount
        · rw [if_pos hc, if_pos hc]
          exact ih (dist - 1)
        · rw [if_neg hc, if_neg hc]
          simp

/-- Where a walk steps into a child: the child is at a natural index `k`, the position lies
strictly inside it, and it is neither text nor a leaf. -/
theorem walk_step_facts (node : Node) (hws : node.Content.WellSized = true) (po i off : Int)
    (c : Node) (hfi : node.Content.findIndex po = .ok (i, off)) (hrem : po - off ≠ 0)
    (hc : node.Child i = .ok c) (ht : c.IsText = false) :
    ∃ k : Nat, i = (k : Int) ∧ off = prefixSize node.Content.Content k ∧
      node.Content.Content.get? k = some c ∧ off < po ∧ po < off + c.NodeSize ∧
      c.IsLeaf = false ∧ c.NodeSize = 2 + c.Content.Size ∧
      off + c.NodeSize ≤ node.Content.Size ∧ 0 ≤ off := by
  have hsz := wellSized_sizeOk node.Content hws
  have hnn : ∀ x ∈ node.Content.Content, 0 ≤ x.NodeSize :=
    fun x hx => childSize_nonneg node.Content hws x hx
  have hrange := findIndex_range node.Content (fragmentSize_nonneg _ hws) po _ hfi
  obtain ⟨k, off2, hfi2, hkl, hoff, hcase⟩ :=
    findIndex_spec node.Content po hsz hrange.1 hrange.2
  rw [hfi] at hfi2
  have hik : i = (k : Int) := by cases hfi2; rfl
  have hoo : off = off2 := by cases hfi2; rfl
  subst hoo
  rw [hik] at hc
  have hc0g : goIndex node.Content.Content (k : Int) = .ok c := hc
  have hg := (goIndex_ok _ _ _ hc0g).2
  simp only [Int.toNat_ofNat] at hg
  rcases hcase with heq | ⟨c2, hc2, h3, h4⟩
  · omega
  · rw [hc2] at hg
    have hcc : c2 = c := by cases hg; rfl
    subst hcc
    have hleaf : c2.IsLeaf = false := by
      by_contra hl
      have hl2 : c2.IsLeaf = true := by simpa using hl
      have : c2.NodeSize = 1 := by
        unfold Node.NodeSize
        rw [if_neg (by simp [ht]), if_pos hl2]
      omega
    have hps := prefixSize_succ node.Content.Content k c2 hc2
    have hle := prefixSize_le_total node.Content.Content hnn (k + 1)
    have h0 := prefixSize_nonneg node.Content.Content hnn k
    unfold Fragment.SizeOk at hsz
    exact ⟨k, hik, hoff, hc2, h3, h4, hleaf, nodeSize_composite c2 ht hleaf, by omega, by omega⟩

/-- The first loop of `contentBetween`, entered at the deepest level of a walk that ends on
a boundary between children: it stops at a node `n2` of the path, before the child `ia` of
that node, whose content starts at `s2` in the content of the root of the walk; the units
it passed are closings, none of them content; and the units of `n2` are those the root
sees `s2` places further. -/
theorem climb_sound (node : Node) (po start : Int) (nodes : List Node) (idxs offs : List Int)
    (fpo : Int) (hw : Walk node po start nodes idxs offs fpo)
    (hws : node.Content.WellSized = true) (hb : offs.getLast? = some (start + po))
    (dist : Int) (hd : 0 ≤ dist) (d2 : Nat) (dist2 : Int)
    (hcl : climbNat (node :: nodes) idxs false nodes.length nodes.length dist = (d2, dist2)) :
    ∃ (n2 : Node) (ia : Nat) (s2 i : Int),
      (node :: nodes).get? d2 = some n2 ∧ idxs.get? d2 = some i ∧
      (ia : Int) = (if d2 ≠ nodes.length then i + 1 else i) ∧
      ia ≤ n2.Content.Content.length ∧ n2.Content.WellSized = true ∧
      (∀ x ∈ n2.subnodes, x ∈ node.subnodes) ∧
      0 ≤ dist2 ∧ dist2 ≤ dist ∧
      po + (dist - dist2) = s2 + prefixSize n2.Content.Content ia ∧
      0 ≤ s2 ∧ s2 + n2.Content.Size ≤ node.Content.Size ∧
      (∀ j, 0 ≤ j → j < dist - dist2 → node.Content.contentAt (po + j) = false) ∧
      (∀ q, 0 ≤ q → q ≤ n2.Content.Size →
        node.Content.contentAt (s2 + q) = n2.Content.contentAt q) ∧
      (d2 = 0 → s2 = 0 ∧ n2 = node) := by
  induction hw generalizing dist d2 dist2 with
  | stop node po start i off hfi htext =>
    simp only [List.getLast?_singleton, Option.some.injEq] at hb
    have hop : off = po := by omega
    subst hop
    simp only [List.length_nil, climbNat, Prod.mk.injEq] at hcl
    obtain ⟨hd2, hdist2⟩ := hcl
    subst hd2
    subst hdist2
    obtain ⟨k, hik, hoff⟩ := findIndex_off node.Content hws off i off hfi
    have hsz := wellSized_sizeOk node.Content hws
    have hrange := findIndex_range node.Content (fragmentSize_nonneg _ hws) off _ hfi
    obtain ⟨k2, off2, hfi2, hkl, hoff2, hcase⟩ :=
      findIndex_spec node.Content off hsz hrange.1 hrange.2
    rw [hfi] at hfi2
    have hk2 : (k : Int) = (k2 : Int) := by rw [← hik]; cases hfi2; rfl
    have hkk : k = k2 := by omega
    subst hkk
    refine ⟨node, k, 0, i, rfl, rfl, ?_, hkl, hws, fun x hx => hx, hd, le_refl _, ?_,
      le_refl _, by omega, ?_, ?_, fun _ => ⟨rfl, rfl⟩⟩
    · simp [hik]
    · rw [← hoff]; ring
    · intro j hj0 hj1
      omega
    · intro q _ _
      rw [zero_add]
  | step node po start i off c nodes idxs offs fpo hfi hrem hc ht hrest ih =>
    obtain ⟨k, hik, hoff, hck, hlt, hlt2, hleaf, hcsz, hcle, hoff0⟩ :=
      walk_step_facts node hws po i off c hfi hrem hc ht
    have hcw : c.Content.WellSized = true :=
      wellSized_mem node.Content c hws (goIndex_mem _ _ _ hc)
    have hcmem : c ∈ node.Content.Content := goIndex_mem _ _ _ hc
    have hlen := walk_lengths c _ _ nodes idxs offs fpo hrest
    have hcs0 := fragmentSize_nonneg c.Content hcw
    cases idxs with
    | nil => simp at hlen
    | cons ic idxs =>
      cases offs with
      | nil => simp at hlen
      | cons o1 offs =>
        have hb2 : (o1 :: offs).getLast? = some (start + off + 1 + (po - off - 1)) := by
          rw [List.getLast?_cons_cons] at hb
          rw [hb]
          congr 1
          ring
        simp only [List.length_cons] at hcl
        rw [climbNat_cons] at hcl
        obtain ⟨n2, ia, s2, i2, hn2, hi2, hia, hial, hn2w, hsub, hd0, hdle, hpos, hs0, hsle,
          hclos, hloc, htop⟩ := ih hcw hb2 dist hd
            (climbNat (c :: nodes) (ic :: idxs) false nodes.length nodes.length dist).1
            (climbNat (c :: nodes) (ic :: idxs) false nodes.length nodes.length dist).2 rfl
        have hn2nn : ∀ x ∈ n2.Content.Content, 0 ≤ x.NodeSize :=
          fun x hx => childSize_nonneg n2.Content hn2w x hx
        have hn2sz := wellSized_sizeOk n2.Content hn2w
        unfold Fragment.SizeOk at hn2sz
        have hple := prefixSize_le_total n2.Content.Content hn2nn ia
        have hp0 := prefixSize_nonneg n2.Content.Content hn2nn ia
        -- the units of the child seen from the parent
        have hchild : ∀ q, -1 ≤ q → q ≤ c.Content.Size →
            node.Content.contentAt (off + 1 + q) = c.Content.contentAt q := by
          intro q hq0 hq1
          rw [hoff]
          exact contentAt_child node.Content hws k c hck ht hleaf q hq0 hq1
        by_cases hout : (climbNat (c :: nodes) (ic :: idxs) false nodes.length nodes.length dist).1 = 0 ∧
            0 < (climbNat (c :: nodes) (ic :: idxs) false nodes.length nodes.length dist).2 ∧
            (if 0 ≠ nodes.length ∨ false = true then ic + 1 else ic) = c.ChildCount
        · rw [if_pos hout] at hcl
          simp only [Prod.mk.injEq] at hcl
          obtain ⟨hd2, hdist2⟩ := hcl
          subst hd2
          subst hdist2
          obtain ⟨h1, h2, h3⟩ := hout
          obtain ⟨hs2, hn2c⟩ := htop h1
          subst hs2
          subst hn2c
          rw [h1] at hn2 hi2 hia
          simp only [List.get?_cons_zero, Option.some.injEq] at hi2
          subst hi2
          have hiac : (ia : Int) = n2.ChildCount := by
            rw [hia, ← h3]
            by_cases hx : nodes.length = 0
            · simp [hx]
            · have hx2 : ¬ 0 = nodes.length := fun h => hx h.symm
              simp [hx, hx2]
          have hial2 : ia = n2.Content.Content.length := by
            unfold Node.ChildCount Fragment.ChildCount at hiac
            omega
          rw [hial2, prefixSize_length, ← hn2sz] at hpos
          have hklen : k < node.Content.Content.length := by
            rcases Nat.lt_or_ge k node.Content.Content.length with h | h
            · exact h
            · rw [List.get?_eq_none.mpr h] at hck
              cases hck
          refine ⟨node, k + 1, 0, i, rfl, rfl, ?_, hklen, hws, fun x hx => hx, by omega,
            by omega, ?_, le_refl _, by omega, ?_, ?_, fun _ => ⟨rfl, rfl⟩⟩
          · simp [hik]
          · rw [prefixSize_succ node.Content.Content k n2 hck, ← hoff]
            omega
          · intro j hj0 hj1
            have hpj : po + j = off + 1 + (po - off - 1 + j) := by ring
            rw [hpj, hchild _ (by omega) (by omega)]
            by_cases hjl : j < dist - (climbNat (n2 :: nodes) (ic :: idxs) false nodes.length
                nodes.length dist).2
            · exact hclos j hj0 hjl
            · rw [fragment_contentAt]
              exact contentAtList_end _ hn2nn _ (by omega)
          · intro q _ _
            rw [zero_add]
        · rw [if_neg hout] at hcl
          simp only [Prod.mk.injEq] at hcl
          obtain ⟨hd2, hdist2⟩ := hcl
          subst hd2
          subst hdist2
          refine ⟨n2, ia, off + 1 + s2, i2, ?_, ?_, ?_, hial, hn2w,
            fun x hx => subnodes_child node c hcmem x (hsub x hx), hd0, hdle, by omega,
            by omega, by omega, ?_, ?_, ?_⟩
          · rw [List.get?_cons_succ]; exact hn2
          · rw [List.get?_cons_succ]; exact hi2
          · rw [hia]
            by_cases hx : (climbNat (c :: nodes) (ic :: idxs) false nodes.length nodes.length
                dist).1 = nodes.length
            · simp [hx]
            · simp [hx]
          · intro j hj0 hj1
            have hpj : po + j = off + 1 + (po - off - 1 + j) := by ring
            rw [hpj, hchild _ (by omega) (by omega)]
            exact hclos j hj0 hj1
          · intro q hq0 hq1
            have hpj : off + 1 + s2 + q = off + 1 + (s2 + q) := by ring
            rw [hpj, hchild _ (by omega) (by omega)]
            exact hloc q hq0 hq1
          · intro h
            omega

/-- The method `TextOffset` read off the last entry of the offset path. -/
theorem textOffset_of_paths (r : ResolvedPos) (o : Int)
    (hl : r.OffsetPath.getLast? = some o) : r.TextOffset = .ok (r.Pos - o != 0) := by
  unfold ResolvedPos.TextOffset
  have hne : r.OffsetPath ≠ [] := by
    intro h
    rw [h] at hl
    cases hl
  have hlen : 0 < r.OffsetPath.length := List.length_pos.mpr hne
  rw [List.getLast?_eq_getElem?, ← List.get?_eq_getElem?] at hl
  have hk : ((r.OffsetPath.length : Int) - 1) = ((r.OffsetPath.length - 1 : Nat) : Int) := by
    omega
  rw [hk, goIndex_natCast _ _ _ hl]
  rfl

/-- The method `Node` of a resolved position read off the node path. -/
theorem node_of_paths (r : ResolvedPos) (d : Nat) (n : Node)
    (h : r.NodePath.get? d = some n) : r.Node (d : Int) = .ok n := by
  unfold ResolvedPos.Node ResolvedPos.resolveDepth
  rw [if_neg (by omega)]
  exact goIndex_natCast _ _ _ h

/-- The method `IndexAfter` read off the index path: one past the index, except at the last
depth of a position that is on a boundary. -/
theorem indexAfter_of_paths (r : ResolvedPos) (t : Bool) (D : Nat) (hD : r.Depth = (D : Int))
    (ht : r.TextOffset = .ok t) (d : Nat) (i : Int) (hi : r.IndexPath.get? d = some i) :
    r.IndexAfter (d : Int) = .ok (if d ≠ D ∨ t = true then i + 1 else i) := by
  unfold ResolvedPos.IndexAfter ResolvedPos.Index ResolvedPos.resolveDepth
  simp only [show ¬ ((d : Int) < 0) by omega, if_false]
  rw [goIndex_natCast _ _ _ hi, hD, ht]
  by_cases hd : d = D
  · subst hd
    cases t <;> simp <;> rfl
  · have hne : ((d : Int) != (D : Int)) = true := by
      simp only [bne_iff_ne, ne_eq]
      omega
    simp [hd, hne]

/-- The depth the first loop of `contentBetween` stops at is not below the one it starts at. -/
theorem climbNat_le (path : List Node) (idxs : List Int) (t : Bool) (D d : Nat) :
    ∀ dist, (climbNat path idxs t D d dist).1 ≤ d := by
  induction d with
  | zero => intro dist; simp [climbNat]
  | succ d ih =>
    intro dist
    cases h1 : path.get? (d + 1) with
    | none => rw [climbNat_succ_none _ _ _ _ _ _ (Or.inl h1)]
    | some n =>
      cases h2 : idxs.get? (d + 1) with
      | none => rw [climbNat_succ_none _ _ _ _ _ _ (Or.inr h2)]
      | some i =>
        rw [climbNat_succ_some _ _ _ _ _ _ n i h1 h2]
        by_cases hc : 0 < dist ∧ (if d + 1 ≠ D ∨ t = true then i + 1 else i) = n.ChildCount
        · rw [if_pos hc]
          have := ih (dist - 1)
          omega
        · rw [if_neg hc]

/-- The first loop of `contentBetween` on a resolved position is the loop over its paths. -/
theorem climbLoop_eq (r : ResolvedPos) (t : Bool) (D : Nat) (hD : r.Depth = (D : Int))
    (ht : r.TextOffset = .ok t) (hlenP : D < r.NodePath.length) (hlenI : D < r.IndexPath.length)
    (d : Nat) (hd : d ≤ D) : ∀ dist,
    climbLoop r d (d : Int) dist =
      .ok (((climbNat r.NodePath r.IndexPath t D d dist).1 : Int),
        (climbNat r.NodePath r.IndexPath t D d dist).2) := by
  induction d with
  | zero => intro dist; simp [climbLoop, climbNat]
  | succ d ih =>
    intro dist
    have h1 : r.NodePath.get? (d + 1) = some (r.NodePath.get ⟨d + 1, by omega⟩) :=
      List.get?_eq_get _
    have h2 : r.IndexPath.get? (d + 1) = some (r.IndexPath.get ⟨d + 1, by omega⟩) :=
      List.get?_eq_get _
    rw [climbNat_succ_some _ _ _ _ _ _ _ _ h1 h2, climbLoop]
    by_cases hdist : 0 < dist
    · have hc : (decide (dist > 0) && decide ((((d + 1 : Nat) : Int)) > 0)) = true := by
        simp only [Bool.and_eq_true, decide_eq_true_eq]
        exact ⟨hdist, by omega⟩
      rw [if_pos hc, indexAfter_of_paths r t D hD ht (d + 1) _ h2, node_of_paths r (d + 1) _ h1]
      simp only [Except.bind, bind, pure, Except.pure]
      by_cases hia : (if d + 1 ≠ D ∨ t = true then r.IndexPath.get ⟨d + 1, by omega⟩ + 1
          else r.IndexPath.get ⟨d + 1, by omega⟩) = (r.NodePath.get ⟨d + 1, by omega⟩).ChildCount
      · rw [if_pos hia, if_pos ⟨hdist, hia⟩]
        have hdd : (((d + 1 : Nat) : Int)) - 1 = (d : Int) := by omega
        rw [hdd]
        exact ih (by omega) (dist - 1)
      · rw [if_neg hia, if_neg (fun h => hia h.2)]
    · have hc : ¬ ((decide (dist > 0) && decide ((((d + 1 : Nat) : Int)) > 0)) = true) := by
        simp only [Bool.and_eq_true, decide_eq_true_eq]
        exact fun h => hdist h.1
      rw [if_neg hc, if_neg (fun h => hdist h.1)]

/-- The function `contentBetween` at a position that resolves, read off the paths of the
resolved position: it never panics there. -/
theorem contentBetween_paths (doc : Node) (from_ to_ : Int) (r : ResolvedPos)
    (hr : doc.Resolve from_ = .ok r) (t : Bool) (ht : r.TextOffset = .ok t)
    (nodes : List Node) (hN : r.NodePath = doc :: nodes) (hD : r.Depth = (nodes.length : Int))
    (hI : r.IndexPath.length = nodes.length + 1) (d2 : Nat) (dist2 : Int)
    (hcl : climbNat (doc :: nodes) r.IndexPath t nodes.length nodes.length (to_ - from_)
      = (d2, dist2))
    (n2 : Node) (i2 : Int) (hn2 : (doc :: nodes).get? d2 = some n2)
    (hi2 : r.IndexPath.get? d2 = some i2) :
    contentBetween doc from_ to_ = .ok (if 0 < dist2 then
      descendLoop dist2.toNat
        (n2.MaybeChild (if d2 ≠ nodes.length ∨ t = true then i2 + 1 else i2)) dist2
      else false) := by
  unfold contentBetween
  rw [hr]
  simp only [pure, Except.pure, bind, Except.bind]
  rw [hD, Int.toNat_ofNat,
    climbLoop_eq r t nodes.length hD ht (by rw [hN]; simp) (by omega) nodes.length (le_refl _),
    hN, hcl]
  simp only []
  by_cases hd : 0 < dist2
  · rw [if_pos hd, if_pos hd, node_of_paths r d2 n2 (by rw [hN]; exact hn2),
      indexAfter_of_paths r t nodes.length hD ht d2 i2 hi2]
  · rw [if_neg hd, if_neg hd]

/-- The function `contentBetween` returns a verdict at every position that resolves. -/
theorem contentBetween_total (doc : Node) (from_ to_ : Int) (r : ResolvedPos)
    (hr : doc.Resolve from_ = .ok r) : ∃ b, contentBetween doc from_ to_ = .ok b := by
  obtain ⟨nodes, idxs, offs, hw, hN, hI, hO, hP, hD, _, _⟩ := resolve_walk doc from_ r hr
  obtain ⟨hli, hlo⟩ := walk_lengths _ _ _ _ _ _ _ hw
  have hol : ∃ o, r.OffsetPath.getLast? = some o := by
    rw [hO]
    cases offs with
    | nil => simp at hlo
    | cons a rest => exact ⟨_, List.getLast?_eq_getLast _ (by simp)⟩
  obtain ⟨o, ho⟩ := hol
  have ht := textOffset_of_paths r o ho
  have hle := climbNat_le (doc :: nodes) r.IndexPath (r.Pos - o != 0) nodes.length nodes.length
    (to_ - from_)
  generalize hcl : climbNat (doc :: nodes) r.IndexPath (r.Pos - o != 0) nodes.length
    nodes.length (to_ - from_) = res at hle
  obtain ⟨d2, dist2⟩ := res
  simp only at hle
  have hl1 : d2 < (doc :: nodes).length := by simp only [List.length_cons]; omega
  have hl2 : d2 < r.IndexPath.length := by rw [hI]; omega
  exact ⟨_, contentBetween_paths doc from_ to_ r hr _ ht nodes hN hD (by rw [hI]; exact hli)
    d2 dist2 hcl _ _ (List.get?_eq_get hl1) (List.get?_eq_get hl2)⟩

/-- When `contentBetween` finds nothing between a position on a boundary between nodes and
`to_`, no unit of the range is content, in a document with correct sizes whose text nodes
are leaves. -/
theorem contentBetween_sound (doc : Node) (hws : doc.Content.WellSized = true)
    (htl : ∀ x ∈ doc.subnodes, x.IsText = true → x.IsLeaf = true) (from_ to_ : Int)
    (r : ResolvedPos) (hr : doc.Resolve from_ = .ok r) (ht : r.TextOffset = .ok false)
    (hcb : contentBetween doc from_ to_ = .ok false) (q : Int) (hq0 : from_ ≤ q)
    (hq1 : q < to_) : doc.Content.contentAt q = false := by
  obtain ⟨nodes, idxs, offs, hw, hN, hI, hO, hP, hD, _, _⟩ := resolve_walk doc from_ r hr
  obtain ⟨hli, hlo⟩ := walk_lengths _ _ _ _ _ _ _ hw
  have hb : offs.getLast? = some (0 + from_) := by
    have ht2 := ht
    unfold ResolvedPos.TextOffset at ht2
    cases hg : goIndex r.OffsetPath ((r.OffsetPath.length : Int) - 1) with
    | error e => rw [hg] at ht2; cases ht2
    | ok o =>
      rw [hg] at ht2
      have hgl := goIndex_last _ _ _ rfl hg
      simp only [pure, Except.pure, bind, Except.bind, Except.ok.injEq, bne_eq_false_iff_eq]
        at ht2
      rw [← hO, hgl]
      congr 1
      omega
  obtain ⟨n2, ia, s2, i, hn2, hi2, hia, hial, hn2w, hsub, hd0, hdle, hpos, hs0, hsle, hclos,
    hloc, _⟩ := climb_sound doc from_ 0 nodes idxs offs _ hw hws hb (to_ - from_) (by omega)
      _ _ rfl
  have hpaths := contentBetween_paths doc from_ to_ r hr false ht nodes hN hD
    (by rw [hI]; exact hli) _ _ (by rw [hI]) n2 i hn2 (by rw [hI]; exact hi2)
  rw [hcb] at hpaths
  have hidx : (if (climbNat (doc :: nodes) idxs false nodes.length nodes.length
      (to_ - from_)).1 ≠ nodes.length ∨ false = true then i + 1 else i) = (ia : Int) := by
    rw [hia]
    simp
  rw [hidx] at hpaths
  by_cases hj : q - from_ < to_ - from_ - (climbNat (doc :: nodes) idxs false nodes.length
      nodes.length (to_ - from_)).2
  · have := hclos (q - from_) (by omega) hj
    rw [show from_ + (q - from_) = q by ring] at this
    exact this
  · have hd2 : 0 < (climbNat (doc :: nodes) idxs false nodes.length nodes.length
        (to_ - from_)).2 := by omega
    rw [if_pos hd2] at hpaths
    have hdl : descendLoop (climbNat (doc :: nodes) idxs false nodes.length nodes.length
        (to_ - from_)).2.toNat (n2.MaybeChild (ia : Int)) (climbNat (doc :: nodes) idxs false
        nodes.length nodes.length (to_ - from_)).2 = false := by
      exact (Except.ok.inj hpaths).symm
    have hn2nn : ∀ x ∈ n2.Content.Content, 0 ≤ x.NodeSize :=
      fun x hx => childSize_nonneg n2.Content hn2w x hx
    cases hmc : n2.MaybeChild (ia : Int) with
    | none =>
      rw [hmc] at hdl
      have hfu : ∃ f, (climbNat (doc :: nodes) idxs false nodes.length nodes.length
          (to_ - from_)).2.toNat = f + 1 := ⟨_, (Nat.succ_pred_eq_of_pos (by omega)).symm⟩
      obtain ⟨f, hf⟩ := hfu
      rw [hf, descendLoop, if_pos hd2] at hdl
      cases hdl
    | some c0 =>
      rw [hmc] at hdl
      have hget : n2.Content.Content.get? ia = some c0 := by
        unfold Node.MaybeChild Fragment.maybeChild at hmc
        split at hmc
        · cases hmc
        · simpa using hmc
      have hc0m : c0 ∈ n2.Content.Content := List.get?_mem hget
      obtain ⟨hlt, hno⟩ := descendLoop_sound _ c0 _ (wellSized_mem n2.Content c0 hn2w hc0m)
        (fun x hx => htl x (hsub x (subnodes_child n2 c0 hc0m x hx))) hd2
        (by rw [Int.toNat_of_nonneg (by omega)]) hdl
      have hps := prefixSize_succ n2.Content.Content ia c0 hget
      have hple := prefixSize_le_total n2.Content.Content hn2nn (ia + 1)
      have hp0 := prefixSize_nonneg n2.Content.Content hn2nn ia
      have hn2sz := wellSized_sizeOk n2.Content hn2w
      unfold Fragment.SizeOk at hn2sz
      have hqq : q = s2 + (prefixSize n2.Content.Content ia + (q - from_ - (to_ - from_ -
          (climbNat (doc :: nodes) idxs false nodes.length nodes.length (to_ - from_)).2))) := by
        omega
      rw [hqq, hloc _ (by omega) (by omega), fragment_contentAt,
        contentAtList_prefix _ hn2nn ia c0 hget _ (by omega) (by omega)]
      exact hno _ (by omega) (by omega)

/-- C21 (amended): for every document with correct cached sizes whose text nodes are
leaves, and every `replaceAround` step with `structure == true` whose `from` is a position
of the document: if the range `[from, gapFrom)` covers a unit of a text node or of a leaf
node and `from` is on a boundary between nodes (not inside a text node), or if `gapTo` is
such a position on a boundary and the range `[gapTo, to)` covers such a unit, then `Apply`
fails with the error `structure gap-replace would overwrite content` and returns no
document. -/
theorem C21_structure_rejection (doc : Node) (s : ReplaceAroundStep)
    (hws : doc.Content.WellSized = true)
    (htl : ∀ x ∈ doc.subnodes, x.IsText = true → x.IsLeaf = true)
    (hst : s.Structure = true) (rf : ResolvedPos) (hrf : doc.Resolve s.From = .ok rf)
    (hcov : (rf.TextOffset = .ok false ∧ doc.CoversContent s.From s.GapFrom) ∨
      (∃ rg, doc.Resolve s.GapTo = .ok rg ∧ rg.TextOffset = .ok false ∧
        doc.CoversContent s.GapTo s.To)) :
    s.Apply doc = .error (.error "structure gap-replace would overwrite content") := by
  obtain ⟨b1, hb1⟩ := contentBetween_total doc s.From s.GapFrom rf hrf
  unfold ReplaceAroundStep.Apply
  rw [hst, if_pos rfl, hb1]
  simp only [pure, Except.pure, bind, Except.bind]
  cases b1 with
  | true => simp
  | false =>
    rcases hcov with ⟨ht, q, hq0, hq1, hq⟩ | ⟨rg, hrg, ht, q, hq0, hq1, hq⟩
    · rw [contentBetween_sound doc hws htl s.From s.GapFrom rf hrf ht hb1 q hq0 hq1] at hq
      cases hq
    · obtain ⟨b2, hb2⟩ := contentBetween_total doc s.GapTo s.To rg hrg
      cases b2 with
      | true => simp [hb2]
      | false =>
        rw [contentBetween_sound doc hws htl s.GapTo s.To rg hrg ht hb2 q hq0 hq1] at hq
        cases hq

theorem C21_structure_rejection_witness :
    dropTextStep.Apply abDoc =
      .error (.error "structure gap-replace would overwrite content") :=
  C21_structure_rejection abDoc dropTextStep (by decide!) (by decide!) rfl _ rfl
    (Or.inl ⟨by decide!, 1, by decide, by decide, by decide!⟩)

/-- C21 as stated fails where `from` is inside a text node: in `doc[paragraph["ab"]]`,
whose sizes are right and whose text node is a leaf, the range `[2, 3)` is the letter `b`,
position 2 lies inside the text, `contentBetween` finds nothing there, and the structure
step over that range returns the document `doc[paragraph["a"]]` instead of the error. -/
theorem C21_counterexample :
    (dropLetterStep.Structure = true ∧
      abDoc.CoversContent dropLetterStep.From dropLetterStep.GapFrom) ∧
    abDoc.Content.WellSized = true ∧
    (abDoc.Resolve 2).bind ResolvedPos.TextOffset = .ok true ∧
    contentBetween abDoc 2 3 = .ok false ∧
    (dropLetterStep.Apply abDoc).map Node.childTexts = .ok [[ascii "a"]] ∧
    errorOf (dropLetterStep.Apply abDoc) = none :=
  ⟨⟨rfl, 2, by decide, by decide, by decide!⟩, by decide!⟩

/-! ## Evaluations of leaf types, text cuts, open slices and repeated marks -/

/-- C31, at the failing input: `NewSchema` leaves the matcher of `horizontal_rule` and of
`hard_break`, whose content expression is empty, at the zero value, whose `ValidEnd` is
false; `CheckContent` of the empty fragment then fails with `invalid end position`, and so
does `Create` with no children, where the claim has it return a node of size 1. -/
theorem C31_leaf_create_fails :
    (NewSchema DefaultSpec).map (fun s => (GoMap.get s.Nodes "horizontal_rule").map
      (fun t => (t.SpecContent, t.ContentMatch.Next, t.ContentMatch.ValidEnd))) =
      .ok (some ("", none, false)) ∧
    (NewSchema DefaultSpec).map (fun s => (GoMap.get s.Nodes "hard_break").map
      (fun t => (t.SpecContent, t.ContentMatch.Next, t.ContentMatch.ValidEnd))) =
      .ok (some ("", none, false)) ∧
    (NewSchema DefaultSpec).bind (fun s =>
      ((GoMap.get s.Nodes "horizontal_rule").getD NodeType.zero).CheckContent (NewFragment [])) =
      .error (.error "content does not match node type, invalid end position") ∧
    ((NewSchema DefaultSpec).bind (fun s =>
      ((GoMap.get s.Nodes "horizontal_rule").getD NodeType.zero).Create [] [] [])).map
        Node.NodeSize =
      .error (.error "content does not match node type, invalid end position") ∧
    ((NewSchema DefaultSpec).bind (fun s =>
      ((GoMap.get s.Nodes "hard_break").getD NodeType.zero).Create [] [] [])).map
        Node.NodeSize =
      .error (.error "content does not match node type, invalid end position") :=
  ⟨by decide!, by decide!, by decide!, by decide!, by decide!⟩

/-- C35, at the failing input: the two halves `cut` makes of the text `"éa"` at offset 1
are the fragments `[text C3]` and `[text A9]`, each with the right cached size 1; `append`
joins the two texts into `C3 A9`, the one code unit `"é"`, and caches the size 1 + 1 = 2.
`InsertAt(1, empty)` on the slice `[text "éa"]` makes this call.  On the texts `"a"` and
`"b"` the size 2 is that of the joined text. -/
theorem C35_append_adds_sizes_of_bytes :
    ((NewFragment [Text eAcuteA]).cut 0 1).map
      (fun f => (f.Size, f.Content.map Node.Text, f.WellSized)) = .ok (1, [[0xC3]], true) ∧
    ((NewFragment [Text eAcuteA]).cut 1 2).map
      (fun f => (f.Size, f.Content.map Node.Text, f.WellSized)) = .ok (1, [[0xA9]], true) ∧
    ((NewFragment [Text [0xC3]]).append (NewFragment [Text [0xA9]])).map
      (fun r => (r.Size, r.Content.map Node.Text, r.Content.map Node.NodeSize, r.WellSized)) =
      .ok (2, [[0xC3, 0xA9]], [1], false) ∧
    (Slice.InsertAt { Content := NewFragment [Text eAcuteA] } 1 Fragment.zero).map
      (Option.map (fun s => (s.Content.Size, s.Content.Content.map Node.Text,
        s.Content.WellSized))) = .ok (some (2, [[0xC3, 0xA9]], false)) ∧
    ((NewFragment [Text (ascii "a")]).append (NewFragment [Text (ascii "b")])).map
      (fun r => (r.Size, r.Content.map Node.Text, r.WellSized)) =
      .ok (2, [ascii "ab"], true) :=
  ⟨by decide!, by decide!, by decide!, by decide!, by decide!⟩

/-- C36, at the failing input: position 2 is valid in the slice `[text "ééé"]`, of content
size 3, and inside its text child; `InsertAt(2, [text "q"])` returns the content
`[text "éq" C3]` of size 3, where the claim gives the size 3 + 1; the two cuts at 2 are
the bytes `C3 A9` and the byte `C3`.  In `[text "abc"]` the size is 4 and the text
`"abqc"`. -/
theorem C36_insertAt_cuts_bytes :
    (NewFragment [Text threeEAcute]).Size = 3 ∧
    (Slice.InsertAt { Content := NewFragment [Text threeEAcute] } 2
        (NewFragment [Text (ascii "q")])).map
      (Option.map (fun s => (s.Content.Size, s.Content.Content.map Node.Text, s.OpenStart,
        s.OpenEnd))) = .ok (some (3, [[0xC3, 0xA9, 0x71, 0xC3]], 0, 0)) ∧
    ((NewFragment [Text threeEAcute]).cut 0 2).map (fun f => f.Content.map Node.Text) =
      .ok [[0xC3, 0xA9]] ∧
    ((NewFragment [Text threeEAcute]).cut 2 (-1)).map (fun f => f.Content.map Node.Text) =
      .ok [[0xC3]] ∧
    (Slice.InsertAt { Content := NewFragment [Text (ascii "abc")] } 2
        (NewFragment [Text (ascii "q")])).map
      (Option.map (fun s => (s.Content.Size, s.Content.Content.map Node.Text))) =
      .ok (some (4, [ascii "abqc"])) :=
  ⟨by decide!, by decide!, by decide!, by decide!, by decide!⟩

/-- C37, at the failing input: position 2 of `doc[paragraph["éa"]]` lies inside the text,
one code unit after its start; `NodeBefore` has the text `C3` and `NodeAfter` the text
`A9`, which together are `"é"` and not `"éa"`.  At position 2 of `doc[paragraph["ab"]]`
the two texts are `"a"` and `"b"`. -/
theorem C37_nodeBefore_nodeAfter_cut_bytes :
    (resolve (Doc [PText eAcuteA]) 2).bind ResolvedPos.TextOffset = .ok true ∧
    ((resolve (Doc [PText eAcuteA]) 2).bind ResolvedPos.NodeBefore).map
      (Option.map Node.Text) = .ok (some [0xC3]) ∧
    ((resolve (Doc [PText eAcuteA]) 2).bind ResolvedPos.NodeAfter).map
      (Option.map Node.Text) = .ok (some [0xA9]) ∧
    ((resolve abDoc 2).bind ResolvedPos.NodeBefore).map (Option.map Node.Text) =
      .ok (some (ascii "a")) ∧
    ((resolve abDoc 2).bind ResolvedPos.NodeAfter).map (Option.map Node.Text) =
      .ok (some (ascii "b")) :=
  ⟨by decide!, by decide!, by decide!, by decide!, by decide!⟩

/-- C39, at the failing input: in `doc[paragraph["ab"]]` position 1 has depth 1, so the
slice `{content: [text "x"], openStart: 1, openEnd: 1}` passes both checks of `replace`
(1 <= 1 and 1 - 1 == 1 - 1); `prepareSliceForReplace` resolves its start at depth 0, and
`joinable` reads the node path of that position at depth 1, which panics. -/
theorem C39_replace_panics_on_open_text :
    (resolve abDoc 1).map (fun r => r.Depth) = .ok 1 ∧
    ((resolve abDoc 1).bind (fun r => prepareSliceForReplace openTextSlice r)).map
      (fun p => (p.1.Depth, p.1.NodePath.length, p.2.Depth)) = .ok (0, 1, 0) ∧
    errorOf (abDoc.Replace 1 1 openTextSlice) = some (.panic "index out of range") :=
  ⟨by decide!, by decide!, by decide!⟩

/-- C40, at the failing input: `addMark{1, 3, em}` on `doc[paragraph["ab"]]` gives the
text the marks `[em]`, and applied to its own result it gives the marks `[em, em]`. -/
theorem C40_addMark_twice_doubles_mark :
    (emStep.Apply abDoc).map Node.childTextsMarks = .ok [[(ascii "ab", ["em"])]] ∧
    ((emStep.Apply abDoc).bind emStep.Apply).map Node.childTextsMarks =
      .ok [[(ascii "ab", ["em", "em"])]] :=
  ⟨by decide!, by decide!⟩

/-! ## The step decoder -/

/-- The map `transformers` after the `init` functions of the package: the four step kinds,
none registered twice. -/
theorem initTransformers_eq :
    initTransformers = .ok
      [("addMark", .mark { From := 0, To := 0, Mark := { Typ := MarkType.zero } }),
       ("removeMark",
        .mark { From := 0, To := 0, Mark := { Typ := MarkType.zero }, remove := true }),
       ("replace", .replace { From := 0, To := 0 }),
       ("replaceAround",
        .replaceAround { From := 0, To := 0, GapFrom := 0, GapTo := 0, Insert := 0 })] := by
  rfl

/-- C32: the `init` functions leave the four kinds `addMark`, `removeMark`, `replace` and
`replaceAround` in the registry.  For every envelope whose `stepType` decodes to `name`:
when `name` is none of the four, `Step.UnmarshalJSON` returns the error
`unknown step type: name` and leaves the step, its implementation included, as it was; when
it is one of them, the decoder hands the data to the value of that kind's constructor (an
empty `MarkStep`, a `MarkStep` with `remove` set, an empty `ReplaceStep`, an empty
`ReplaceAroundStep`) and stores what it decodes. -/
theorem C32_step_dispatch (jsonType : GoString → Except Err String)
    (implUnmarshal : Applier → GoString → Except Err Applier) (s : Step) (data : GoString)
    (name : String) (h : jsonType data = .ok name) :
    ∃ transformers, initTransformers = .ok transformers ∧
      transformers.map Prod.fst = ["addMark", "removeMark", "replace", "replaceAround"] ∧
      (name ∉ ["replace", "replaceAround", "addMark", "removeMark"] →
        Step.UnmarshalJSON transformers jsonType implUnmarshal s data =
          (s, some (.error ("unknown step type: " ++ name)))) ∧
      (name = "addMark" →
        Step.UnmarshalJSON transformers jsonType implUnmarshal s data =
          Step.dispatched implUnmarshal s data
            (.mark { From := 0, To := 0, Mark := { Typ := MarkType.zero } })) ∧
      (name = "removeMark" →
        Step.UnmarshalJSON transformers jsonType implUnmarshal s data =
          Step.dispatched implUnmarshal s data
            (.mark { From := 0, To := 0, Mark := { Typ := MarkType.zero }, remove := true })) ∧
      (name = "replace" →
        Step.UnmarshalJSON transformers jsonType implUnmarshal s data =
          Step.dispatched implUnmarshal s data (.replace { From := 0, To := 0 })) ∧
      (name = "replaceAround" →
        Step.UnmarshalJSON transformers jsonType implUnmarshal s data =
          Step.dispatched implUnmarshal s data
            (.replaceAround { From := 0, To := 0, GapFrom := 0, GapTo := 0, Insert := 0 })) := by
  refine ⟨_, initTransformers_eq, rfl, ?_, ?_, ?_, ?_, ?_⟩
  · intro hn
    simp only [List.mem_cons, List.mem_singleton, List.not_mem_nil, or_false, not_or] at hn
    obtain ⟨h1, h2, h3, h4⟩ := hn
    unfold Step.UnmarshalJSON
    rw [h]
    have hg : GoMap.get
        ([("addMark", Applier.mark { From := 0, To := 0, Mark := { Typ := MarkType.zero } }),
          ("removeMark",
            .mark { From := 0, To := 0, Mark := { Typ := MarkType.zero }, remove := true }),
          ("replace", .replace { From := 0, To := 0 }),
          ("replaceAround",
            .replaceAround { From := 0, To := 0, GapFrom := 0, GapTo := 0, Insert := 0 })] :
          GoMap Applier) name = none := by
      have e1 : ("addMark" == name) = false := by simpa using Ne.symm h3
      have e2 : ("removeMark" == name) = false := by simpa using Ne.symm h4
      have e3 : ("replace" == name) = false := by simpa using Ne.symm h1
      have e4 : ("replaceAround" == name) = false := by simpa using Ne.symm h2
      unfold GoMap.get
      simp only [List.find?, e1, e2, e3, e4, Option.map_none']
    simp only [wrapErr, hg]
  all_goals
    intro hn
    subst hn
    unfold Step.UnmarshalJSON Step.dispatched
    rw [h]
    rfl

theorem C32_step_dispatch_witness :
    Step.UnmarshalJSON
        [("addMark", .mark { From := 0, To := 0, Mark := { Typ := MarkType.zero } }),
         ("removeMark",
          .mark { From := 0, To := 0, Mark := { Typ := MarkType.zero }, remove := true }),
         ("replace", .replace { From := 0, To := 0 }),
         ("replaceAround",
          .replaceAround { From := 0, To := 0, GapFrom := 0, GapTo := 0, Insert := 0 })]
        (fun _ => .ok "split") (fun f _ => .ok f) {} (ascii "\x7b\x7d") =
      ({}, some (.error "unknown step type: split")) := by
  obtain ⟨t, ht, _, hu, _⟩ :=
    C32_step_dispatch (fun _ => .ok "split") (fun f _ => .ok f) {} (ascii "\x7b\x7d") "split" rfl
  rw [initTransformers_eq] at ht
  cases ht
  exact hu (by decide)

/-! ## Totality of `cut`, `Slice` and `InsertAt` -/

/-- A rune that takes two code units is decoded from four bytes. -/
theorem decodeRune_wide (s : GoString) :
    (decodeRune s).1 < 0x10000 ∨ (decodeRune s).2 = 4 := by
  rcases s with _ | ⟨b0, _ | ⟨b1, _ | ⟨b2, _ | ⟨b3, t⟩⟩⟩⟩ <;>
    simp only [decodeRune, RuneError, isCont] <;>
    (try split_ifs) <;>
    (try simp only [Bool.and_eq_true, decide_eq_true_eq] at *) <;>
    first | omega | (right; trivial)

/-- One step of the decoder consumes no more bytes than there are. -/
theorem decodeRune_width_le (s : GoString) : (decodeRune s).2 ≤ s.length := by
  rcases s with _ | ⟨b0, _ | ⟨b1, _ | ⟨b2, _ | ⟨b3, t⟩⟩⟩⟩ <;>
    simp only [decodeRune, RuneError, isCont, List.length_cons, List.length_nil] <;>
    (try split_ifs) <;>
    omega

/-- The loop of `utf16Len` counts at most one code unit per byte. -/
theorem utf16LenLoop_le (fuel : Nat) : ∀ (s : GoString) (l : Int),
    utf16LenLoop fuel s l ≤ l + s.length := by
  induction fuel with
  | zero =>
    intro s l
    simp only [utf16LenLoop]
    omega
  | succ fuel ih =>
    intro s l
    cases s with
    | nil => simp [utf16LenLoop]
    | cons b t =>
      have h1 := decodeRune_wide (b :: t)
      have h2 := decodeRune_width_le (b :: t)
      have hw := decodeRune_width_pos b t
      have hlen : ((b :: t).drop (decodeRune (b :: t)).2).length =
          (b :: t).length - (decodeRune (b :: t)).2 := List.length_drop _ _
      simp only [utf16LenLoop]
      by_cases hr : (decodeRune (b :: t)).1 ≥ surrSelf
      · rw [if_pos hr]
        have := ih ((b :: t).drop (decodeRune (b :: t)).2) (l + 2)
        simp only [surrSelf] at hr
        omega
      · rw [if_neg hr]
        have := ih ((b :: t).drop (decodeRune (b :: t)).2) (l + 1)
        omega

/-- A text has at most as many UTF-16 code units as bytes. -/
theorem utf16Len_le_length (s : GoString) : utf16Len s ≤ s.length := by
  have := utf16LenLoop_le s.length s 0
  unfold utf16Len
  omega

/-- The loop of `cut` returns, given that the cuts of the content of the children return:
it never runs past the children when `to_` is within them, and the size it returns is the
sum of the sizes of the nodes it returns. -/
theorem cutLoop_total (cs : List Node)
    (hws : ∀ c ∈ cs, c.Content.WellSized = true)
    (hch : ∀ c ∈ cs, ∀ lo hi : Int, (hi = -1 ∨ hi ≤ c.Content.Size) →
      ∃ r, c.Content.cut lo hi = .ok r)
    (pos from_ to_ : Int) (hft : from_ < to_)
    (hto : to_ ≤ pos + (cs.map Node.NodeSize).sum) :
    ∃ res sz, cutLoop cs pos from_ to_ = .ok (res, sz) ∧ sz = (res.map Node.NodeSize).sum := by
  induction cs generalizing pos with
  | nil =>
    unfold cutLoop
    simp only [List.map_nil, List.sum_nil] at hto
    rw [if_neg (by omega)]
    exact ⟨[], 0, rfl, by simp⟩
  | cons child rest ih =>
    have hrestw : ∀ c ∈ rest, c.Content.WellSized = true :=
      fun c hc => hws c (List.mem_cons_of_mem _ hc)
    have hrestc : ∀ c ∈ rest, ∀ lo hi : Int, (hi = -1 ∨ hi ≤ c.Content.Size) →
        ∃ r, c.Content.cut lo hi = .ok r :=
      fun c hc => hch c (List.mem_cons_of_mem _ hc)
    simp only [List.map_cons, List.sum_cons] at hto
    unfold cutLoop
    by_cases hlt : pos < to_
    · rw [if_pos hlt]
      dsimp only
      by_cases hskip : pos + child.NodeSize ≤ from_
      · rw [if_pos hskip]
        exact ih hrestw hrestc (pos + child.NodeSize) (by omega)
      · rw [if_neg hskip]
        obtain ⟨res, sz, hr, hsz⟩ := ih hrestw hrestc (pos + child.NodeSize) (by omega)
        have hT : child.IsText = true →
            ∃ c2, child.cut (max 0 (from_ - pos)) (min child.textLen (to_ - pos)) = .ok c2 := by
          intro htext
          cases child with
          | mk typ attrs marks text content =>
            have hns : (Node.mk typ attrs marks text content).NodeSize
                = (Node.mk typ attrs marks text content).textLen := by
              unfold Node.NodeSize; rw [if_pos htext]
            rw [hns] at hskip
            have hl0 := utf16Len_nonneg text
            have hl1 := utf16Len_le_length text
            have htl : (Node.mk typ attrs marks text content).textLen = utf16Len text := rfl
            rw [htl] at hskip ⊢
            unfold Node.cut
            simp only [htext, if_true]
            have hne : ¬ (min (utf16Len text) (to_ - pos) = -1) := by omega
            rw [if_neg hne]
            split
            · exact ⟨_, rfl⟩
            · have hg : goSlice text (max 0 (from_ - pos)) (min (utf16Len text) (to_ - pos))
                  = .ok ((text.take (min (utf16Len text) (to_ - pos)).toNat).drop
                      (max 0 (from_ - pos)).toNat) := by
                unfold goSlice
                rw [if_neg]
                simp only [Bool.or_eq_true, decide_eq_true_eq, not_or, not_lt]
                refine ⟨⟨by omega, by omega⟩, by omega⟩
              rw [hg]
              exact ⟨_, rfl⟩
        have hN : ¬ child.IsText = true →
            ∃ c2, child.cut (max 0 (from_ - pos - 1))
              (min child.Content.Size (to_ - pos - 1)) = .ok c2 := by
          intro htext
          have hcw := hws _ (List.mem_cons_self _ _)
          have hs0 := fragmentSize_nonneg child.Content hcw
          obtain ⟨r, hr⟩ := hch _ (List.mem_cons_self _ _)
            (max 0 (from_ - pos - 1)) (min child.Content.Size (to_ - pos - 1))
            (Or.inr (by omega))
          cases child with
          | mk typ attrs marks text content =>
            have hcc : (Node.mk typ attrs marks text content).Content = content := rfl
            rw [hcc] at hr hs0 ⊢
            unfold Node.cut
            simp only [htext, Bool.false_eq_true, if_false]
            have hne : ¬ (min content.Size (to_ - pos - 1) = -1) := by omega
            rw [if_neg hne]
            split
            · exact ⟨_, rfl⟩
            · rw [hr]
              exact ⟨_, rfl⟩
        by_cases hcond : (decide (pos < from_) || decide (pos + child.NodeSize > to_)) = true
        · rw [if_pos hcond]
          by_cases htext : child.IsText = true
          · rw [if_pos htext]
            obtain ⟨c2, hc2⟩ := hT htext
            rw [hc2, hr]
            exact ⟨c2 :: res, c2.NodeSize + sz, rfl, by simp [hsz]⟩
          · rw [if_neg htext]
            obtain ⟨c2, hc2⟩ := hN htext
            rw [hc2, hr]
            exact ⟨c2 :: res, c2.NodeSize + sz, rfl, by simp [hsz]⟩
        · rw [if_neg hcond, hr]
          exact ⟨child :: res, child.NodeSize + sz, rfl, by simp [hsz]⟩
    · rw [if_neg hlt]
      exact ⟨[], 0, rfl, by simp⟩

/-- The method `Fragment.cut` returns on a fragment with correct sizes, for every start and
every end that is -1 or within the fragment, by induction on the height. -/
theorem cut_total_aux (h : Nat) : ∀ f : Fragment, f.height < h → f.WellSized = true →
    ∀ from_ to_ : Int, (to_ = -1 ∨ to_ ≤ f.Size) →
    ∃ r, f.cut from_ to_ = .ok r ∧ r.SizeOk := by
  induction h with
  | zero => intro f hf; omega
  | succ h ih =>
    intro f hf hws from_ to_ hto
    have hsz := wellSized_sizeOk f hws
    have hch : ∀ c ∈ f.Content, ∀ lo hi : Int, (hi = -1 ∨ hi ≤ c.Content.Size) →
        ∃ r, c.Content.cut lo hi = .ok r := by
      intro c hc lo hi hhi
      have h1 := fragmentHeight_mem f c hc
      have h2 := nodeHeight_eq c
      obtain ⟨r, hr, _⟩ := ih c.Content (by omega) (wellSized_mem f c hws hc) lo hi hhi
      exact ⟨r, hr⟩
    cases f with
    | mk size cs =>
      unfold Fragment.SizeOk at hsz
      change size = (cs.map Node.NodeSize).sum at hsz
      change to_ = -1 ∨ to_ ≤ size at hto
      unfold Fragment.cut
      dsimp only
      have ht : (if to_ = -1 then size else to_) ≤ size := by
        split
        · exact le_refl _
        · rcases hto with h1 | h1
          · contradiction
          · exact h1
      generalize (if to_ = -1 then size else to_) = t at ht
      by_cases hall : (decide (from_ = 0) && decide (t = size)) = true
      · rw [if_pos hall]
        exact ⟨_, rfl, hsz⟩
      · rw [if_neg hall]
        by_cases hle : t ≤ from_
        · rw [if_pos hle]
          exact ⟨_, rfl, rfl⟩
        · rw [if_neg hle]
          obtain ⟨res, sz, hr, hs⟩ := cutLoop_total cs
            (fun c hc => wellSized_mem (.mk size cs) c hws hc) hch 0 from_ t (by omega)
            (by omega)
          rw [hr]
          exact ⟨_, rfl, hs⟩

/-- The method `Fragment.cut` returns on a fragment with correct sizes, and the size it
caches is the sum of the sizes of the children it returns. -/
theorem cut_total (f : Fragment) (hws : f.WellSized = true) (from_ to_ : Int)
    (hto : to_ = -1 ∨ to_ ≤ f.Size) : ∃ r, f.cut from_ to_ = .ok r ∧ r.SizeOk :=
  cut_total_aux (f.height + 1) f (by omega) hws from_ to_ hto

/-- A fragment whose cached size is the sum of the sizes of its children has children when
its size is not 0. -/
theorem sizeOk_nonempty (f : Fragment) (h : f.SizeOk) : f.Size ≠ 0 → f.Content ≠ [] := by
  intro hs hc
  unfold Fragment.SizeOk at h
  rw [hc] at h
  simp at h
  exact hs h

/-- The method `Fragment.append` returns when each fragment of size other than 0 has a
child, and so has its result. -/
theorem append_total (f other : Fragment) (hf : f.Size ≠ 0 → f.Content ≠ [])
    (ho : other.Size ≠ 0 → other.Content ≠ []) :
    ∃ r, f.append other = .ok r ∧ (r.Size ≠ 0 → r.Content ≠ []) := by
  unfold Fragment.append
  by_cases h1 : other.Size = 0
  · rw [if_pos h1]
    exact ⟨f, rfl, hf⟩
  · rw [if_neg h1]
    by_cases h2 : f.Size = 0
    · rw [if_pos h2]
      exact ⟨other, rfl, ho⟩
    · rw [if_neg h2]
      have hfc := hf h2
      have hoc := ho h1
      obtain ⟨last, hl⟩ : ∃ last, f.lastChild = some last := by
        unfold Fragment.lastChild
        exact ⟨_, List.getLast?_eq_getLast _ hfc⟩
      obtain ⟨first, hfi⟩ : ∃ first, other.firstChild = some first := by
        unfold Fragment.firstChild
        cases hcc : other.Content with
        | nil => exact absurd hcc hoc
        | cons a t => exact ⟨a, rfl⟩
      rw [hl, hfi]
      dsimp only
      split
      · refine ⟨_, rfl, ?_⟩
        intro _
        change f.Content.dropLast ++ [last.withText (last.Text ++ first.Text)]
          ++ other.Content.drop 1 ≠ []
        simp
      · refine ⟨_, rfl, ?_⟩
        intro _
        change f.Content ++ other.Content ≠ []
        simp [hfc]

/-- The method `Fragment.replaceChild` returns at the index of a child. -/
theorem replaceChild_total (f : Fragment) (k : Nat) (c n : Node)
    (hc : f.Content.get? k = some c) : ∃ r, f.replaceChild (k : Int) n = .ok r := by
  unfold Fragment.replaceChild
  rw [goIndex_natCast _ _ _ hc]
  simp only [bind, Except.bind, pure, Except.pure]
  split
  · exact ⟨_, rfl⟩
  · exact ⟨_, rfl⟩

/-- The function `insertInto` without a parent returns a fragment at every position of a
content with correct sizes, when the inserted fragment has a child unless its size is 0. -/
theorem insertIntoLoop_total (fuel : Nat) : ∀ (content : Fragment) (dist : Int)
    (insert : Fragment), content.height < fuel → content.WellSized = true →
    0 ≤ dist → dist ≤ content.Size → (insert.Size ≠ 0 → insert.Content ≠ []) →
    ∃ r, insertIntoLoop fuel content dist insert none = .ok (some r) := by
  induction fuel with
  | zero => intro content dist insert hh; omega
  | succ fuel ih =>
    intro content dist insert hh hws h0 h1 hins
    have hsz := wellSized_sizeOk content hws
    obtain ⟨i, off, hfi, hil, hoff, hcase⟩ := findIndex_spec content dist hsz h0 h1
    unfold insertIntoLoop
    rw [hfi]
    simp only [bind, Except.bind, pure, Except.pure]
    have hcut : ∃ r, (do
        let c ← content.cut 0 dist
        let c ← c.append insert
        let subc ← content.cut dist (-1)
        let c ← c.append subc
        (pure (some c) : Except Err (Option Fragment))) = .ok (some r) := by
      obtain ⟨c1, hc1, hs1⟩ := cut_total content hws 0 dist (Or.inr h1)
      obtain ⟨c2, hc2, hs2⟩ := append_total c1 insert (sizeOk_nonempty c1 hs1) hins
      obtain ⟨c3, hc3, hs3⟩ := cut_total content hws dist (-1) (Or.inl rfl)
      obtain ⟨c4, hc4, _⟩ := append_total c2 c3 hs2 (sizeOk_nonempty c3 hs3)
      refine ⟨c4, ?_⟩
      simp only [bind, Except.bind, pure, Except.pure, hc1, hc2, hc3, hc4]
    simp only [bind, Except.bind, pure, Except.pure] at hcut
    split
    · simp only [Bool.false_eq_true, if_false]
      exact hcut
    · rename_i hb
      simp only [Bool.or_eq_true, decide_eq_true_eq, not_or] at hb
      obtain ⟨hne, hnt⟩ := hb
      rcases hcase with heq | ⟨c, hc, hlo, hhi⟩
      · exact absurd heq hne
      · have hmc : content.maybeChild (i : Int) = some c := by
          unfold Fragment.maybeChild
          have hlt : i < content.Content.length := by
            rcases Nat.lt_or_ge i content.Content.length with h | h
            · exact h
            · rw [List.get?_eq_none.mpr h] at hc
              cases hc
          rw [if_neg (by simp; omega)]
          simpa using hc
        rw [hmc] at hnt ⊢
        have hct : c.IsText = false := by simpa using hnt
        have hcm : c ∈ content.Content := List.get?_mem hc
        have hcw := wellSized_mem content c hws hcm
        have hcs0 := fragmentSize_nonneg c.Content hcw
        have hleaf : c.IsLeaf = false := by
          by_contra hl
          have hl2 : c.IsLeaf = true := by simpa using hl
          have : c.NodeSize = 1 := by
            unfold Node.NodeSize
            rw [if_neg (by simp [hct]), if_pos hl2]
          omega
        have hns := nodeSize_composite c hct hleaf
        have hh2 := fragmentHeight_mem content c hcm
        have hh3 := nodeHeight_eq c
        obtain ⟨inner, hinner⟩ := ih c.Content (dist - off - 1) insert (by omega) hcw
          (by omega) (by omega) hins
        obtain ⟨r, hr⟩ := replaceChild_total content i c (c.copy inner) hc
        simp only [derefNode, hinner, hr]
        exact ⟨r, rfl⟩

/-- The method `Slice.InsertAt` returns a slice at every position of a content with correct
sizes, when the inserted fragment has a child unless its size is 0. -/
theorem insertAt_total (s : Slice) (pos : Int) (frag : Fragment)
    (hws : s.Content.WellSized = true) (h0 : 0 ≤ pos + s.OpenStart)
    (h1 : pos + s.OpenStart ≤ s.Content.Size) (hins : frag.Size ≠ 0 → frag.Content ≠ []) :
    ∃ r, s.InsertAt pos frag = .ok (some r) := by
  obtain ⟨c, hc⟩ := insertIntoLoop_total (s.Content.height + 1) s.Content (pos + s.OpenStart)
    frag (by omega) hws h0 h1 hins
  unfold Slice.InsertAt insertInto
  rw [hc]
  exact ⟨_, rfl⟩

/-- The method `Start` returns at every depth from 1 up to the depth of a resolved
position, whatever the depth. -/
theorem start_below (r : ResolvedPos) (doc : Node) (ht : r.Traces doc) (d : Int)
    (hd : 0 < d) (hdd : d ≤ r.Depth) : ∃ s, r.Start d = .ok s := by
  obtain ⟨nodes, idxs, offs, hN, hI, hO, hD, hw⟩ := ht
  have hl := (walk_lengths _ _ _ _ _ _ _ hw).2
  unfold ResolvedPos.Start ResolvedPos.resolveDepth
  rw [if_neg (by omega)]
  dsimp only
  rw [hO]
  have hlt : ((offs.length : Int) - 1 - 1).toNat < offs.length := by omega
  have hg : goIndex offs ((offs.length : Int) - 1 - 1) = .ok (offs.get ⟨_, hlt⟩) := by
    unfold goIndex
    rw [if_neg (by omega), List.get?_eq_get hlt]
  rw [hg]
  exact ⟨_, rfl⟩

/-- The loop of `SharedDepth` returns a depth between 0 and the depth it starts at, and at
a depth other than 0 the position is between `Start` and `End`. -/
theorem sharedDepthLoop_total (r : ResolvedPos) (doc : Node) (ht : r.Traces doc) (pos : Int)
    (fuel : Nat) : ∀ depth : Int, 0 ≤ depth → depth ≤ r.Depth →
    ∃ d, sharedDepthLoop r pos fuel depth = .ok d ∧ 0 ≤ d ∧ d ≤ r.Depth ∧
      (0 < d → ∃ s n, r.Start d = .ok s ∧ r.Node d = .ok n ∧ s ≤ pos ∧
        pos ≤ s + n.Content.Size) := by
  induction fuel with
  | zero =>
    intro depth h0 h1
    exact ⟨0, rfl, le_refl _, by omega, fun h => absurd h (by omega)⟩
  | succ fuel ih =>
    intro depth h0 h1
    unfold sharedDepthLoop
    by_cases hd : depth > 0
    · rw [if_pos hd]
      obtain ⟨s, hs⟩ := start_below r doc ht depth hd h1
      obtain ⟨n, hn⟩ := path_node_exists r doc ht depth h0 h1
      have he : r.End depth = .ok (s + n.Content.Size) := by
        unfold ResolvedPos.End
        have : r.resolveDepth depth = depth := by
          unfold ResolvedPos.resolveDepth
          rw [if_neg (by omega)]
        simp only [this, hs, hn, bind, Except.bind, pure, Except.pure]
      simp only [hs, he, bind, Except.bind, pure, Except.pure]
      by_cases h2 : s ≤ pos
      · rw [if_pos h2]
        by_cases h3 : s + n.Content.Size ≥ pos
        · rw [if_pos h3]
          exact ⟨depth, rfl, h0, h1, fun _ => ⟨s, n, hs, hn, h2, h3⟩⟩
        · rw [if_neg h3]
          exact ih (depth - 1) (by omega) (by omega)
      · rw [if_neg h2]
        exact ih (depth - 1) (by omega) (by omega)
    · rw [if_neg hd]
      exact ⟨0, rfl, le_refl _, by omega, fun h => absurd h (by omega)⟩

/-- The method `Node.Slice` without parents returns a slice between any two positions of a
document with correct sizes, the end -1 standing for the end of the document, and the
content of the slice caches the sum of the sizes of its children. -/
theorem slice_total (doc : Node) (hws : doc.Content.WellSized = true) (from_ to_ : Int)
    (hf0 : 0 ≤ from_) (hf1 : from_ ≤ doc.Content.Size)
    (ht0 : 0 ≤ (if to_ = -1 then doc.Content.Size else to_))
    (ht1 : (if to_ = -1 then doc.Content.Size else to_) ≤ doc.Content.Size) :
    ∃ sl, doc.Slice from_ to_ false = .ok sl ∧ sl.Content.SizeOk := by
  unfold Node.Slice
  generalize (if to_ = -1 then doc.Content.Size else to_) = t at ht0 ht1
  dsimp only
  by_cases heq : from_ = t
  · rw [if_pos heq]
    exact ⟨{}, rfl, rfl⟩
  · rw [if_neg heq]
    obtain ⟨rf, hrf⟩ := (C3_resolve_bounds doc from_ hws).2 hf0 hf1
    obtain ⟨rt, hrt⟩ := (C3_resolve_bounds doc t hws).2 ht0 ht1
    have htf := traces_of_resolve doc from_ rf hrf
    obtain ⟨_, _, _, _, _, _, _, hpf, hDf, _, _⟩ := resolve_walk doc from_ rf hrf
    obtain ⟨_, _, _, _, _, _, _, hpt, _, _, _⟩ := resolve_walk doc t rt hrt
    obtain ⟨d, hd, hd0, hd1, hdp⟩ := sharedDepthLoop_total rf doc htf t rf.Depth.toNat
      rf.Depth (by omega) (le_refl _)
    have hsd : rf.SharedDepth t = .ok d := hd
    unfold Node.Resolve
    simp only [hrf, hrt, hsd, bind, Except.bind, pure, Except.pure, Bool.not_false, if_true]
    by_cases hdz : d = 0
    · subst hdz
      obtain ⟨n, hn⟩ := path_node_exists rf doc htf 0 (le_refl _) (by omega)
      have hnd := path_root rf doc htf n hn
      subst hnd
      have hs : rf.Start 0 = .ok 0 := by
        unfold ResolvedPos.Start ResolvedPos.resolveDepth
        simp
      obtain ⟨c, hc, hcs⟩ := cut_total n.Content hws (rf.Pos - 0) (rt.Pos - 0)
        (Or.inr (by rw [hpt]; omega))
      simp only [hs, hn, hc]
      exact ⟨_, rfl, hcs⟩
    · obtain ⟨s, n, hs, hn, h1, h2⟩ := hdp (by omega)
      have hnw := path_node_wellSized rf doc htf hws d hd0 n hn
      obtain ⟨c, hc, hcs⟩ := cut_total n.Content hnw (rf.Pos - s) (rt.Pos - s)
        (Or.inr (by rw [hpt]; omega))
      simp only [hs, hn, hc]
      exact ⟨_, rfl, hcs⟩

/-- The method `Node.Slice` returns an error between two different positions one of which
is outside the document. -/
theorem slice_out_of_bounds (doc : Node) (hws : doc.Content.WellSized = true)
    (from_ to_ : Int) (hne : from_ ≠ (if to_ = -1 then doc.Content.Size else to_))
    (hoob : ¬ (0 ≤ from_ ∧ from_ ≤ doc.Content.Size) ∨
      ¬ (0 ≤ (if to_ = -1 then doc.Content.Size else to_) ∧
        (if to_ = -1 then doc.Content.Size else to_) ≤ doc.Content.Size)) :
    ∃ msg, doc.Slice from_ to_ false = .error (.error msg) := by
  unfold Node.Slice
  generalize (if to_ = -1 then doc.Content.Size else to_) = t at hne hoob
  dsimp only
  rw [if_neg hne]
  unfold Node.Resolve
  by_cases hfb : 0 ≤ from_ ∧ from_ ≤ doc.Content.Size
  · obtain ⟨rf, hrf⟩ := (C3_resolve_bounds doc from_ hws).2 hfb.1 hfb.2
    have htb : ¬ (0 ≤ t ∧ t ≤ doc.Content.Size) := by
      rcases hoob with h | h
      · exact absurd hfb h
      · exact h
    have hrt := (C3_resolve_bounds doc t hws).1.mpr (by omega)
    simp only [hrf, hrt, bind, Except.bind]
    exact ⟨_, rfl⟩
  · have hrf := (C3_resolve_bounds doc from_ hws).1.mpr (by omega)
    simp only [hrf, bind, Except.bind]
    exact ⟨_, rfl⟩

/-! ## Positions outside the document in a `replaceAround` step -/

/-- The method `Node.Replace` returns an error when one of its positions is outside the
document. -/
theorem replace_out_of_bounds (doc : Node) (hws : doc.Content.WellSized = true)
    (from_ to_ : Int) (sl : Slice)
    (hoob : ¬ doc.InBounds from_ ∨ ¬ doc.InBounds to_) :
    ∃ msg, doc.Replace from_ to_ sl = .error (.error msg) := by
  unfold Node.InBounds at hoob
  unfold Node.Replace
  by_cases hfb : 0 ≤ from_ ∧ from_ ≤ doc.Content.Size
  · obtain ⟨rf, hrf⟩ := (C3_resolve_bounds doc from_ hws).2 hfb.1 hfb.2
    have htb : ¬ (0 ≤ to_ ∧ to_ ≤ doc.Content.Size) := by
      rcases hoob with h | h
      · exact absurd hfb h
      · exact h
    have hrt := (C3_resolve_bounds doc to_ hws).1.mpr (by omega)
    simp only [hrf, hrt, wrapErr, bind, Except.bind]
    exact ⟨_, rfl⟩
  · have hrf := (C3_resolve_bounds doc from_ hws).1.mpr (by omega)
    simp only [hrf, wrapErr, bind, Except.bind]
    exact ⟨_, rfl⟩

/-- A `replaceAround` step on a document with correct cached sizes, whose slice has
correct cached sizes and takes the insertion at `insert` (the position `insert + openStart`
is within its content), and which, when `structure` is true, has `from` and `gapTo` within
the document: if `from` or `to` is outside the document, or if the gap is not empty and
`gapFrom` or its end is outside the document (a `gapTo` of -1 being read as the end of the
document), then `Apply` returns an error, not a document and not a panic. -/
theorem out_of_bounds_is_error (doc : Node) (s : ReplaceAroundStep)
    (hws : doc.Content.WellSized = true) (hss : s.Slice.Content.WellSized = true)
    (hins : 0 ≤ s.Insert + s.Slice.OpenStart ∧
      s.Insert + s.Slice.OpenStart ≤ s.Slice.Content.Size)
    (hst : s.Structure = true → doc.InBounds s.From ∧ doc.InBounds s.GapTo)
    (hoob : ¬ doc.InBounds s.From ∨ ¬ doc.InBounds s.To ∨
      (s.GapFrom ≠ s.gapEnd doc ∧
        (¬ doc.InBounds s.GapFrom ∨ ¬ doc.InBounds (s.gapEnd doc)))) :
    ∃ msg, s.Apply doc = .error (.error msg) := by
  have hmain : ∃ msg, (do
        let gap ← wrapErr "failed to slice gap" (doc.Slice s.GapFrom s.GapTo false)
        if (decide (gap.OpenStart ≠ 0) || decide (gap.OpenEnd ≠ 0)) = true then
            (Except.error (Err.error "gap is not a flat range") : Except Err Node)
          else do
            let inserted ← s.Slice.InsertAt s.Insert gap.Content
            match inserted with
              | none => Except.error (Err.error "failed to insert slice")
              | some ins => doc.Replace s.From s.To ins) = .error (.error msg) := by
    simp only [bind, Except.bind]
    have hgap : (∃ msg, doc.Slice s.GapFrom s.GapTo false = .error (.error msg)) ∨
        (∃ sl, doc.Slice s.GapFrom s.GapTo false = .ok sl ∧ sl.Content.SizeOk ∧
          (¬ doc.InBounds s.From ∨ ¬ doc.InBounds s.To)) := by
      unfold ReplaceAroundStep.gapEnd Node.InBounds at hoob
      by_cases hne : s.GapFrom = (if s.GapTo = -1 then doc.Content.Size else s.GapTo)
      · right
        have hsl : doc.Slice s.GapFrom s.GapTo false = .ok {} := by
          unfold Node.Slice
          dsimp only
          rw [if_pos hne]
        refine ⟨{}, hsl, rfl, ?_⟩
        unfold Node.InBounds
        rcases hoob with h | h | h
        · exact Or.inl h
        · exact Or.inr h
        · exact absurd hne h.1
      · by_cases hin : (0 ≤ s.GapFrom ∧ s.GapFrom ≤ doc.Content.Size) ∧
            (0 ≤ (if s.GapTo = -1 then doc.Content.Size else s.GapTo) ∧
              (if s.GapTo = -1 then doc.Content.Size else s.GapTo) ≤ doc.Content.Size)
        · right
          obtain ⟨sl, hsl, hsz⟩ := slice_total doc hws s.GapFrom s.GapTo hin.1.1 hin.1.2
            hin.2.1 hin.2.2
          refine ⟨sl, hsl, hsz, ?_⟩
          unfold Node.InBounds
          rcases hoob with h | h | h
          · exact Or.inl h
          · exact Or.inr h
          · rcases h.2 with h2 | h2
            · exact absurd hin.1 h2
            · exact absurd hin.2 h2
        · left
          apply slice_out_of_bounds doc hws s.GapFrom s.GapTo hne
          by_cases h1 : 0 ≤ s.GapFrom ∧ s.GapFrom ≤ doc.Content.Size
          · right
            intro h2
            exact hin ⟨h1, h2⟩
          · exact Or.inl h1
    rcases hgap with ⟨msg, hsl⟩ | ⟨sl, hsl, hsz, hft⟩
    · rw [hsl]
      exact ⟨_, rfl⟩
    · rw [hsl]
      simp only [wrapErr]
      split
      · exact ⟨_, rfl⟩
      · obtain ⟨ins, hi⟩ := insertAt_total s.Slice s.Insert sl.Content hss hins.1 hins.2
          (sizeOk_nonempty sl.Content hsz)
        rw [hi]
        exact replace_out_of_bounds doc hws s.From s.To ins hft
  have hjp : ∀ b : Bool, ∃ msg,
      (if b = true then
          (Except.error (Err.error "structure gap-replace would overwrite content") :
            Except Err Node)
        else do
          let gap ← wrapErr "failed to slice gap" (doc.Slice s.GapFrom s.GapTo false)
          if (decide (gap.OpenStart ≠ 0) || decide (gap.OpenEnd ≠ 0)) = true then
              Except.error (Err.error "gap is not a flat range")
            else do
              let inserted ← s.Slice.InsertAt s.Insert gap.Content
              match inserted with
                | none => Except.error (Err.error "failed to insert slice")
                | some ins => doc.Replace s.From s.To ins) = .error (.error msg) := by
    intro b
    cases b with
    | true => exact ⟨_, rfl⟩
    | false =>
      simp only [Bool.false_eq_true, if_false]
      exact hmain
  unfold ReplaceAroundStep.Apply
  by_cases hs : s.Structure = true
  · obtain ⟨⟨hf0, hf1⟩, ⟨hg0, hg1⟩⟩ := hst hs
    obtain ⟨rf, hrf⟩ := (C3_resolve_bounds doc s.From hws).2 hf0 hf1
    obtain ⟨rg, hrg⟩ := (C3_resolve_bounds doc s.GapTo hws).2 hg0 hg1
    obtain ⟨b1, hb1⟩ := contentBetween_total doc s.From s.GapFrom rf hrf
    obtain ⟨b2, hb2⟩ := contentBetween_total doc s.GapTo s.To rg hrg
    simp only [hs, if_true, hb1, hb2, bind, Except.bind, pure, Except.pure]
    cases b1
    · simpa [bind, Except.bind] using hjp b2
    · simp [bind, Except.bind]
  · simp only [hs, if_false, bind, Except.bind, pure, Except.pure]
    simpa [bind, Except.bind] using hjp false

/-- A position that `resolve` accepts is within the document. -/
theorem resolve_ok_inBounds (doc : Node) (pos : Int) (r : ResolvedPos)
    (h : resolve doc pos = .ok r) : doc.InBounds pos := by
  unfold resolve at h
  unfold Node.InBounds
  by_cases hb : (decide (pos < 0) || decide (pos > doc.Content.Size)) = true
  · rw [if_pos hb] at h
    cases h
  · simp only [Bool.or_eq_true, decide_eq_true_eq, not_or, not_lt] at hb
    omega

/-- The positions of a `Node.Replace` that returns a document are within the document. -/
theorem replace_ok_inBounds (doc : Node) (from_ to_ : Int) (sl : Slice) (r : Node)
    (h : doc.Replace from_ to_ sl = .ok r) : doc.InBounds from_ ∧ doc.InBounds to_ := by
  unfold Node.Replace at h
  cases hf : resolve doc from_ with
  | error e =>
    rw [hf] at h
    cases e <;> cases h
  | ok rf =>
    cases ht : resolve doc to_ with
    | error e =>
      rw [hf, ht] at h
      cases e <;> cases h
    | ok rt => exact ⟨resolve_ok_inBounds doc from_ rf hf, resolve_ok_inBounds doc to_ rt ht⟩

/-- The two ends of a `Node.Slice` that returns a slice are within the document, unless they
are equal, the end -1 standing for the end of the document. -/
theorem slice_ok_inBounds (doc : Node) (from_ to_ : Int) (sl : Slice)
    (h : doc.Slice from_ to_ false = .ok sl)
    (hne : from_ ≠ (if to_ = -1 then doc.Content.Size else to_)) :
    doc.InBounds from_ ∧ doc.InBounds (if to_ = -1 then doc.Content.Size else to_) := by
  unfold Node.Slice at h
  generalize (if to_ = -1 then doc.Content.Size else to_) = t at hne h ⊢
  dsimp only at h
  rw [if_neg hne] at h
  unfold Node.Resolve at h
  cases hf : resolve doc from_ with
  | error e =>
    rw [hf] at h
    cases h
  | ok rf =>
    cases ht : resolve doc t with
    | error e =>
      rw [hf, ht] at h
      cases h
    | ok rt => exact ⟨resolve_ok_inBounds doc from_ rf hf, resolve_ok_inBounds doc t rt ht⟩

/-- A `replaceAround` step that returns a document has `from` and `to` within the document,
and the two ends of its gap as well unless the gap is empty. -/
theorem apply_ok_inBounds (doc : Node) (s : ReplaceAroundStep) (r : Node)
    (h : s.Apply doc = .ok r) :
    doc.InBounds s.From ∧ doc.InBounds s.To ∧
      (s.GapFrom ≠ s.gapEnd doc → doc.InBounds s.GapFrom ∧ doc.InBounds (s.gapEnd doc)) := by
  have hbody : (do
        let gap ← wrapErr "failed to slice gap" (doc.Slice s.GapFrom s.GapTo false)
        if (decide (gap.OpenStart ≠ 0) || decide (gap.OpenEnd ≠ 0)) = true then
            (Except.error (Err.error "gap is not a flat range") : Except Err Node)
          else do
            let inserted ← s.Slice.InsertAt s.Insert gap.Content
            match inserted with
              | none => Except.error (Err.error "failed to insert slice")
              | some ins => doc.Replace s.From s.To ins) = .ok r →
      doc.InBounds s.From ∧ doc.InBounds s.To ∧
        (s.GapFrom ≠ s.gapEnd doc → doc.InBounds s.GapFrom ∧ doc.InBounds (s.gapEnd doc)) := by
    intro hb
    cases hsl : doc.Slice s.GapFrom s.GapTo false with
    | error e =>
      rw [hsl] at hb
      cases e <;> cases hb
    | ok gap =>
      rw [hsl] at hb
      simp only [wrapErr, bind, Except.bind] at hb
      split at hb
      · cases hb
      · cases hi : s.Slice.InsertAt s.Insert gap.Content with
        | error e =>
          rw [hi] at hb
          cases hb
        | ok inserted =>
          rw [hi] at hb
          cases inserted with
          | none => cases hb
          | some ins =>
            have hr := replace_ok_inBounds doc s.From s.To ins r hb
            exact ⟨hr.1, hr.2, fun hne => slice_ok_inBounds doc s.GapFrom s.GapTo gap hsl hne⟩
  have hjp : ∀ b : Bool,
      (if b = true then
          (Except.error (Err.error "structure gap-replace would overwrite content") :
            Except Err Node)
        else do
          let gap ← wrapErr "failed to slice gap" (doc.Slice s.GapFrom s.GapTo false)
          if (decide (gap.OpenStart ≠ 0) || decide (gap.OpenEnd ≠ 0)) = true then
              Except.error (Err.error "gap is not a flat range")
            else do
              let inserted ← s.Slice.InsertAt s.Insert gap.Content
              match inserted with
                | none => Except.error (Err.error "failed to insert slice")
                | some ins => doc.Replace s.From s.To ins) = .ok r →
      doc.InBounds s.From ∧ doc.InBounds s.To ∧
        (s.GapFrom ≠ s.gapEnd doc → doc.InBounds s.GapFrom ∧ doc.InBounds (s.gapEnd doc)) := by
    intro b hb
    cases b with
    | true => cases hb
    | false =>
      simp only [Bool.false_eq_true, if_false] at hb
      exact hbody hb
  unfold ReplaceAroundStep.Apply at h
  dsimp only at h
  by_cases hs : s.Structure = true
  · rw [if_pos hs] at h
    cases hb1 : contentBetween doc s.From s.GapFrom with
    | error e =>
      rw [hb1] at h
      cases h
    | ok b1 =>
      rw [hb1] at h
      cases b1 with
      | true => exact hjp true h
      | false =>
        cases hb2 : contentBetween doc s.GapTo s.To with
        | error e =>
          simp only [hb2, bind, Except.bind] at h
          cases h
        | ok b2 =>
          simp only [hb2, bind, Except.bind] at h
          exact hjp b2 h
  · rw [if_neg hs] at h
    exact hjp false h

/-- With `structure` true and `from` before the document, `contentBetween` drops the error
of `Resolve` and reads the node path of the zero `ResolvedPos`: on `doc[paragraph["ab"]]`
the step `{from: -1, to: 2, gapFrom: 1, gapTo: 2, insert: 0, structure: true}` ends in the
panic `index out of range`, where the same step with `structure` false returns the error
of `Replace`. -/
theorem structure_step_before_start_panics :
    errorOf (contentBetween abDoc (-1) 1) = some (.panic "index out of range") ∧
    errorOf (structureBeforeStartStep.Apply abDoc) = some (.panic "index out of range") ∧
    errorOf (beforeStartStep.Apply abDoc) =
      some (.error "error resolving from: position out of bounds") :=
  ⟨by decide!, by decide!, by decide!⟩

/-! ## The size law of `replace`: tidy nodes -/

/-- A node is tidy when it is as `Node.Local` asks and its children are tidy. -/
theorem tidy_iff (T : String → NodeType) (n : Node) :
    n.Tidy T ↔ n.Local T ∧ ∀ c ∈ n.Content.Content, c.Tidy T := by
  cases n with
  | mk typ attrs marks text content =>
    cases content with
    | mk size cs =>
      unfold Node.Tidy
      simp only [Node.subnodes, Fragment.subnodes, List.mem_cons, forall_eq_or_imp,
        mem_subnodesList, Node.Content, Fragment.Content]
      constructor
      · rintro ⟨h1, h2⟩
        exact ⟨h1, fun c hc m hm => h2 m ⟨c, hc, hm⟩⟩
      · rintro ⟨h1, h2⟩
        exact ⟨h1, fun m ⟨c, hc, hm⟩ => h2 c hc m hm⟩

theorem tidy_local (T : String → NodeType) (n : Node) (h : n.Tidy T) : n.Local T :=
  ((tidy_iff T n).mp h).1

theorem tidy_child (T : String → NodeType) (n c : Node) (h : n.Tidy T)
    (hc : c ∈ n.Content.Content) : c.Tidy T :=
  ((tidy_iff T n).mp h).2 c hc

/-- A fragment is well sized when it caches the sum of the sizes of its children and the
content of every child is well sized. -/
theorem wellSized_of_parts (f : Fragment) (hsz : f.SizeOk)
    (hc : ∀ c ∈ f.Content, c.Content.WellSized = true) : f.WellSized = true := by
  cases f with
  | mk size cs =>
    unfold Fragment.SizeOk at hsz
    simp only [Fragment.Size, Fragment.Content] at hsz hc
    unfold Fragment.WellSized
    have h1 : size = sumSizes cs 0 := by rw [sumSizes_eq]; omega
    have h2 : wellSizedList cs = true := by
      clear hsz h1
      induction cs with
      | nil => rfl
      | cons a rest ih =>
        unfold wellSizedList
        have ha := hc a (List.mem_cons_self _ _)
        have hr := ih (fun c hcm => hc c (List.mem_cons_of_mem _ hcm))
        have : a.WellSized = true := by
          cases a with
          | mk _ _ _ _ c => exact ha
        simp [this, hr]
    simp [h1, h2]

theorem tidy_wellSized_aux (T : String → NodeType) (h : Nat) :
    ∀ n : Node, n.height ≤ h → n.Tidy T → n.Content.WellSized = true := by
  induction h with
  | zero =>
    intro n hn
    rw [nodeHeight_eq] at hn
    omega
  | succ k ih =>
    intro n hn ht
    apply wellSized_of_parts _ (tidy_local T n ht).2.2
    intro c hc
    have hh := fragmentHeight_mem n.Content c hc
    rw [nodeHeight_eq] at hn
    exact ih c (by omega) (tidy_child T n c ht hc)

/-- The content of a tidy node is well sized. -/
theorem tidy_wellSized (T : String → NodeType) (n : Node) (h : n.Tidy T) :
    n.Content.WellSized = true :=
  tidy_wellSized_aux T n.height n (le_refl _) h

theorem tidy_of_wellSized_aux (T : String → NodeType) (h : Nat) :
    ∀ n : Node, n.height ≤ h → n.Content.WellSized = true →
      (∀ m ∈ n.subnodes, m.Typ = T m.Typ.Name ∧ (m.IsText = true → ∀ b ∈ m.Text, b < 128)) →
      n.Tidy T := by
  induction h with
  | zero =>
    intro n hn
    rw [nodeHeight_eq] at hn
    omega
  | succ k ih =>
    intro n hn hws hall
    rw [tidy_iff]
    have hself := hall n (subnodes_self n)
    refine ⟨⟨hself.1, hself.2, wellSized_sizeOk _ hws⟩, ?_⟩
    intro c hc
    have hh := fragmentHeight_mem n.Content c hc
    rw [nodeHeight_eq] at hn
    exact ih c (by omega) (wellSized_mem _ c hws hc)
      (fun m hm => hall m (subnodes_child n c hc m hm))

/-- A node with well-sized content, the node types of one table and ASCII text is tidy. -/
theorem tidy_of_wellSized (T : String → NodeType) (n : Node)
    (hws : n.Content.WellSized = true)
    (hall : ∀ m ∈ n.subnodes, m.Typ = T m.Typ.Name ∧
      (m.IsText = true → ∀ b ∈ m.Text, b < 128)) : n.Tidy T :=
  tidy_of_wellSized_aux T n.height n (le_refl _) hws hall

/-- Nodes of one schema have their node types in one table, by name. -/
theorem sameSchema_table (L : List Node) (h : SameSchema L) :
    ∃ T : String → NodeType, ∀ a ∈ L, a.Typ = T a.Typ.Name := by
  refine ⟨fun name =>
    match L.find? (fun n => n.Typ.Name == name) with
    | some n => n.Typ
    | none => NodeType.zero, ?_⟩
  intro a ha
  cases hf : L.find? (fun n => n.Typ.Name == a.Typ.Name) with
  | none =>
    have := List.find?_eq_none.mp hf a ha
    simp at this
  | some b =>
    have hb := List.mem_of_find?_eq_some hf
    have hn := List.find?_some hf
    simp only [beq_iff_eq] at hn
    simp only [hf]
    exact h a ha b hb hn.symm

/-- The sizes of all the children add up to the total. -/
theorem prefixSize_past (cs : List Node) (k : Nat) (hk : cs.length ≤ k) :
    prefixSize cs k = totalSize cs := by
  unfold prefixSize totalSize
  rw [List.take_of_length_le hk]

/-- The size cached by a fragment that caches the right size is the total of its
children. -/
theorem sizeOk_total (f : Fragment) (h : f.SizeOk) : f.Size = totalSize f.Content := h

/-- The size of text made of two ASCII texts. -/
theorem utf16Len_append (s t : GoString) (hs : ∀ b ∈ s, b < 128) (ht : ∀ b ∈ t, b < 128) :
    utf16Len (s ++ t) = utf16Len s + utf16Len t := by
  rw [utf16Len_ascii s hs, utf16Len_ascii t ht, utf16Len_ascii (s ++ t)]
  · simp
  · intro b hb
    rcases List.mem_append.mp hb with h | h
    · exact hs b h
    · exact ht b h

/-! ## The size law of `replace`: the levels of a resolved position -/

/-- The walk from the node at depth `d` of a walk: it is a walk on the rest of the lists,
it starts at the position the offset path gives, and the position keeps its absolute
value. -/
theorem walk_drop (T : String → NodeType) (node : Node) (po start : Int) (nodes : List Node)
    (idxs offs : List Int) (fpo : Int) (hw : Walk node po start nodes idxs offs fpo)
    (ht : node.Tidy T) (d : Nat) (hd : d ≤ nodes.length) :
    ∃ (N : Node) (pd sd : Int), (node :: nodes).get? d = some N ∧ N.Tidy T ∧
      Walk N pd sd (nodes.drop d) (idxs.drop d) (offs.drop d) fpo ∧ sd + pd = start + po ∧
      sd = (if d = 0 then start else offs.getD (d - 1) 0 + 1) := by
  induction hw generalizing d with
  | stop node po start i off hfi htext =>
    have hd0 : d = 0 := by simpa using hd
    subst hd0
    exact ⟨node, po, start, rfl, ht, Walk.stop node po start i off hfi htext, rfl, rfl⟩
  | step node po start i off c nodes idxs offs fpo hfi hrem hc htx hrest ih =>
    cases d with
    | zero =>
      exact ⟨node, po, start, rfl, ht,
        Walk.step node po start i off c nodes idxs offs fpo hfi hrem hc htx hrest, rfl, rfl⟩
    | succ e =>
      have hct : c.Tidy T := tidy_child T node c ht (goIndex_mem _ _ _ hc)
      obtain ⟨N, pd, sd, h1, h2, h3, h4, h5⟩ := ih hct e (by simpa using hd)
      refine ⟨N, pd, sd, by simpa using h1, h2, by simpa using h3, by omega, ?_⟩
      rw [h5]
      cases e with
      | zero => simp
      | succ e2 => simp

/-- A walk that visits a node has taken a step. -/
theorem walk_cons_inv (N : Node) (pd sd : Int) (c : Node) (rest : List Node)
    (il ol : List Int) (fpo : Int) (hw : Walk N pd sd (c :: rest) il ol fpo) :
    ∃ (i off : Int) (idxs2 offs2 : List Int), il = i :: idxs2 ∧ ol = (sd + off) :: offs2 ∧
      N.Content.findIndex pd = .ok (i, off) ∧ pd - off ≠ 0 ∧ N.Child i = .ok c ∧
      c.IsText = false := by
  cases hw with
  | step _ _ _ i off _ _ idxs2 offs2 _ hfi hrem hc htx hrest =>
    exact ⟨i, off, idxs2, offs2, rfl, rfl, hfi, hrem, hc, htx⟩

/-- A walk that visits no node has stopped. -/
theorem walk_nil_inv (N : Node) (pd sd : Int) (il ol : List Int) (fpo : Int)
    (hw : Walk N pd sd [] il ol fpo) :
    ∃ (i off : Int), il = [i] ∧ ol = [sd + off] ∧ fpo = pd ∧
      N.Content.findIndex pd = .ok (i, off) ∧
      (pd - off ≠ 0 → ∃ c, N.Child i = .ok c ∧ c.IsText = true) := by
  cases hw with
  | stop _ _ _ i off hfi htext => exact ⟨i, off, rfl, rfl, rfl, hfi, htext⟩

/-- Reading a list at an index at which the rest of the list starts. -/
theorem get_of_drop {α : Type} (xs : List α) (d : Nat) (x : α) (rest : List α)
    (h : xs.drop d = x :: rest) : xs.get? d = some x := by
  have := congrArg List.head? h
  simpa [List.head?_drop] using this

/-- The size after the position at a depth at which the path has a node. -/
theorem after_eq (r : ResolvedPos) (d : Nat) (N : Node) (h : r.NodePath.get? d = some N) :
    r.after (d : Int) = N.Content.Size - r.before (d : Int) := by
  unfold ResolvedPos.after
  simp only [Int.toNat_ofNat, h]

/-- The start of the content at a depth, read off the offset path. -/
theorem startOf_eq (r : ResolvedPos) (offs : List Int) (hO : r.OffsetPath = offs) (d : Nat)
    (sd : Int) (h : sd = (if d = 0 then 0 else offs.getD (d - 1) 0 + 1)) :
    r.startOf d = sd := by
  rw [h, ← hO]
  cases d with
  | zero => rfl
  | succ e => simp [ResolvedPos.startOf]

/-- A level of the path of a resolved position above its last: the position is inside the
child at the index of the level, which is neither text nor a leaf and is the node of the
next level. -/
theorem level_inner (T : String → NodeType) (r : ResolvedPos) (root : Node)
    (ht : r.Traces root) (htidy : root.Tidy T) (d : Nat) (hd : (d : Int) < r.Depth) :
    ∃ (N C : Node) (k : Nat), r.NodePath.get? d = some N ∧ r.NodePath.get? (d + 1) = some C ∧
      r.IndexPath.get? d = some (k : Int) ∧ N.Tidy T ∧ C.Tidy T ∧
      N.Content.Content.get? k = some C ∧ C.IsText = false ∧ C.IsLeaf = false ∧
      r.before (d : Int) = prefixSize N.Content.Content k + 1 + r.before ((d : Int) + 1) ∧
      0 ≤ r.before ((d : Int) + 1) ∧ r.before ((d : Int) + 1) ≤ C.Content.Size ∧
      prefixSize N.Content.Content (k + 1) ≤ N.Content.Size ∧
      0 ≤ prefixSize N.Content.Content k := by
  obtain ⟨nodes, idxs, offs, hN, hI, hO, hD, hw⟩ := ht
  have hdl : d < nodes.length := by omega
  obtain ⟨N, pd, sd, h1, h2, h3, h4, h5⟩ :=
    walk_drop T root r.Pos 0 nodes idxs offs r.ParentOffset hw htidy d (by omega)
  have hb : r.before (d : Int) = pd := by
    unfold ResolvedPos.before
    simp only [Int.toNat_ofNat]
    rw [startOf_eq r offs hO d sd h5]
    omega
  obtain ⟨c, rest, hdrop⟩ : ∃ c rest, nodes.drop d = c :: rest := by
    cases hdr : nodes.drop d with
    | nil =>
      have := congrArg List.length hdr
      simp at this
      omega
    | cons c rest => exact ⟨c, rest, rfl⟩
  rw [hdrop] at h3
  obtain ⟨i, off, idxs2, offs2, hidx, hoff, hfi, hrem, hc, htx⟩ :=
    walk_cons_inv _ _ _ _ _ _ _ _ h3
  obtain ⟨k, hik, hoffk, hget, hlt1, hlt2, hleaf, hsize, hle, h0⟩ :=
    walk_step_facts N (tidy_wellSized T N h2) pd i off c hfi hrem hc htx
  have hCget : r.NodePath.get? (d + 1) = some c := by
    rw [hN, List.get?_cons_succ]
    exact get_of_drop nodes d c rest hdrop
  have hb2 : r.before ((d : Int) + 1) = pd - off - 1 := by
    unfold ResolvedPos.before
    have e : ((d : Int) + 1).toNat = d + 1 := by omega
    have hg : offs.get? d = some (sd + off) := get_of_drop offs d _ _ hoff
    have hgd : offs.getD d 0 = sd + off := by
      rw [List.getD_eq_getElem?_getD, ← List.get?_eq_getElem?, hg]
      rfl
    rw [e, startOf_eq r offs hO (d + 1) (sd + off + 1) (by simp [← hgd])]
    omega
  refine ⟨N, c, k, by rw [hN]; exact h1, hCget, ?_, h2,
    tidy_child T N c h2 (List.get?_mem hget), hget, htx, hleaf, ?_, ?_, ?_, ?_, ?_⟩
  · rw [hI, ← hik]
    exact get_of_drop idxs d i _ hidx
  · rw [hb, hb2, ← hoffk]; ring
  · rw [hb2]; omega
  · rw [hb2]; omega
  · rw [prefixSize_succ _ k c hget, ← hoffk]; exact hle
  · rw [← hoffk]; exact h0

/-- The last level of the path of a resolved position: the position is on a boundary
between the children of the parent, or inside a text child at the text offset. -/
theorem level_last (T : String → NodeType) (r : ResolvedPos) (root : Node)
    (ht : r.Traces root) (htidy : root.Tidy T) :
    ∃ (D : Nat) (N : Node) (k : Nat) (o : Int), r.Depth = (D : Int) ∧
      r.NodePath.get? D = some N ∧ r.IndexPath.get? D = some (k : Int) ∧ N.Tidy T ∧
      r.OffsetPath.getLast? = some o ∧
      r.before (D : Int) = prefixSize N.Content.Content k + (r.Pos - o) ∧ 0 ≤ r.Pos - o ∧
      k ≤ N.Content.Content.length ∧ r.before (D : Int) ≤ N.Content.Size ∧
      r.ParentOffset = r.before (D : Int) ∧ 0 ≤ prefixSize N.Content.Content k ∧
      (r.Pos - o ≠ 0 → ∃ c, N.Content.Content.get? k = some c ∧ c.IsText = true ∧
        r.Pos - o < c.NodeSize) := by
  obtain ⟨nodes, idxs, offs, hN, hI, hO, hD, hw⟩ := ht
  obtain ⟨N, pd, sd, h1, h2, h3, h4, h5⟩ :=
    walk_drop T root r.Pos 0 nodes idxs offs r.ParentOffset hw htidy nodes.length (le_refl _)
  have hb : r.before (nodes.length : Int) = pd := by
    unfold ResolvedPos.before
    simp only [Int.toNat_ofNat]
    rw [startOf_eq r offs hO nodes.length sd h5]
    omega
  rw [List.drop_length] at h3
  have hlens := walk_lengths _ _ _ _ _ _ _ hw
  obtain ⟨i, off, hidx, hoff, hfpo, hfi, htext⟩ := walk_nil_inv _ _ _ _ _ _ h3
  have hws := tidy_wellSized T N h2
  have hrange := findIndex_range N.Content (fragmentSize_nonneg _ hws) _ _ hfi
  obtain ⟨k, off2, hfi2, hkl, hoffk, hcase⟩ :=
    findIndex_spec N.Content pd (wellSized_sizeOk _ hws) hrange.1 hrange.2
  rw [hfi] at hfi2
  have hik : i = (k : Int) := by cases hfi2; rfl
  have hoo : off = off2 := by cases hfi2; rfl
  subst hoo
  have hol : offs.getLast? = some (sd + off) := by
    have hne : offs ≠ [] := by
      intro h
      rw [h] at hlens
      simp at hlens
    have h1 := List.getLast?_drop (l := offs) (n := nodes.length)
    rw [hoff] at h1
    rw [if_neg (by omega)] at h1
    simpa using h1.symm
  have hpo : r.Pos - (sd + off) = pd - off := by omega
  have hnn : ∀ x ∈ N.Content.Content, 0 ≤ x.NodeSize :=
    fun x hx => childSize_nonneg N.Content hws x hx
  refine ⟨nodes.length, N, k, sd + off, hD, by rw [hN]; exact h1, ?_, h2,
    by rw [hO]; exact hol, ?_, ?_, hkl, ?_, ?_, ?_, ?_⟩
  · rw [hI, ← hik]
    exact get_of_drop idxs nodes.length i [] hidx
  · rw [hb, hpo, ← hoffk]; ring
  · rw [hpo]
    rcases hcase with h | ⟨c, _, h, _⟩ <;> omega
  · rw [hb]; exact hrange.2
  · rw [hb, hfpo]
  · exact prefixSize_nonneg _ hnn k
  · intro hne
    rw [hpo] at hne ⊢
    rcases hcase with h | ⟨c, hcg, hlt1, hlt2⟩
    · omega
    · obtain ⟨c2, hc2, hc2t⟩ := htext hne
      rw [hik] at hc2
      have hg :=
        (goIndex_ok _ _ _ (show goIndex N.Content.Content (k : Int) = .ok c2 from hc2)).2
      simp only [Int.toNat_ofNat] at hg
      rw [hcg] at hg
      cases hg
      exact ⟨c, hcg, hc2t, by omega⟩

/-! ## The size law of `replace`: the nodes `appendRange` collects -/

theorem totalSize_append (a b : List Node) : totalSize (a ++ b) = totalSize a + totalSize b := by
  simp [totalSize]

theorem totalSize_nil : totalSize [] = 0 := rfl

/-- The size of a text node is the length of its text in UTF-16 code units. -/
theorem nodeSize_text (n : Node) (h : n.IsText = true) : n.NodeSize = utf16Len n.Text := by
  unfold Node.NodeSize
  rw [if_pos h]
  rfl

/-- A tidy text node given another ASCII text is tidy and has the size of that text. -/
theorem withText_tidy (T : String → NodeType) (n : Node) (s : GoString) (h : n.Tidy T)
    (ht : n.IsText = true) (hs : ∀ b ∈ s, b < 128) :
    (n.withText s).Tidy T ∧ (n.withText s).NodeSize = utf16Len s ∧
      (n.withText s).IsText = true := by
  rw [withText_eq_setText]
  cases n with
  | mk typ attrs marks text content =>
    have hl := tidy_local T _ h
    have hch := ((tidy_iff T _).mp h).2
    refine ⟨?_, ?_, ht⟩
    · rw [tidy_iff]
      exact ⟨⟨hl.1, fun _ => hs, hl.2.2⟩, hch⟩
    · exact nodeSize_text _ ht

/-- The function `appendNode` adds the size of the child to the total, and keeps the nodes
tidy. -/
theorem appendNode_size (T : String → NodeType) (content : List Node) (child : Node)
    (hc : ∀ c ∈ content, c.Tidy T) (hch : child.Tidy T) :
    (∀ c ∈ appendNode content child, c.Tidy T) ∧
      totalSize (appendNode content child) = totalSize content + child.NodeSize := by
  have hplain : (∀ c ∈ content ++ [child], c.Tidy T) ∧
      totalSize (content ++ [child]) = totalSize content + child.NodeSize := by
    refine ⟨?_, by simp [totalSize]⟩
    intro c hcm
    rcases List.mem_append.mp hcm with h | h
    · exact hc c h
    · simp only [List.mem_singleton] at h
      rw [h]; exact hch
  unfold appendNode
  cases hl : content.getLast? with
  | none => exact hplain
  | some last =>
    simp only
    by_cases hcond : (child.IsText && child.sameMarkup last) = true
    · rw [if_pos hcond]
      simp only [Bool.and_eq_true] at hcond
      obtain ⟨hct, hsm⟩ := hcond
      have hsplit : content = content.dropLast ++ [last] :=
        (List.dropLast_append_getLast? last hl).symm
      have hlast : last.Tidy T := hc last (List.mem_of_mem_getLast? hl)
      have hname : child.Typ.Name = last.Typ.Name := ((sameMarkup_iff _ _).mp hsm).1
      have htyp : last.Typ = child.Typ := by
        rw [(tidy_local T _ hlast).1, (tidy_local T _ hch).1, hname]
      have hlt : last.IsText = true := by
        unfold Node.IsText at hct ⊢
        rw [htyp]; exact hct
      have ha1 := (tidy_local T _ hlast).2.1 hlt
      have ha2 := (tidy_local T _ hch).2.1 hct
      have hasc : ∀ b ∈ last.Text ++ child.Text, b < 128 := by
        intro b hb
        rcases List.mem_append.mp hb with h | h
        · exact ha1 b h
        · exact ha2 b h
      obtain ⟨hm1, hm2, _⟩ := withText_tidy T child (last.Text ++ child.Text) hch hct hasc
      refine ⟨?_, ?_⟩
      · intro c hcm
        rcases List.mem_append.mp hcm with h | h
        · exact hc c (List.mem_of_mem_dropLast h)
        · simp only [List.mem_singleton] at h
          rw [h]; exact hm1
      · rw [totalSize_append]
        have : totalSize content = totalSize content.dropLast + last.NodeSize := by
          conv_lhs => rw [hsplit]
          simp [totalSize]
        rw [this]
        simp only [totalSize, List.map_cons, List.map_nil, List.sum_cons, List.sum_nil, add_zero]
        rw [hm2, utf16Len_append _ _ ha1 ha2, nodeSize_text last hlt, nodeSize_text child hct]
        ring
    · rw [if_neg hcond]
      exact hplain

/-- The loop of `appendRange` adds the sizes of the children from `i` up to `j`. -/
theorem appendRangeLoop_size (T : String → NodeType) (node : Node) (hn : node.Tidy T)
    (fuel : Nat) (content : List Node) (i j : Nat) (hfuel : j - i ≤ fuel)
    (hc : ∀ c ∈ content, c.Tidy T) (res : List Node)
    (h : appendRangeLoop node fuel content (i : Int) (j : Int) = .ok res) :
    (∀ c ∈ res, c.Tidy T) ∧
      totalSize res = totalSize content +
        (prefixSize node.Content.Content (max i j) - prefixSize node.Content.Content i) := by
  induction fuel generalizing content i with
  | zero =>
    unfold appendRangeLoop at h
    cases h
    have : max i j = i := by omega
    rw [this]
    exact ⟨hc, by ring⟩
  | succ fuel ih =>
    unfold appendRangeLoop at h
    by_cases hij : (i : Int) < (j : Int)
    · rw [if_pos hij] at h
      obtain ⟨c, hcg, h⟩ := bind_ok _ _ _ h
      have hget := (goIndex_ok _ _ _ (show goIndex node.Content.Content (i : Int) = .ok c from hcg)).2
      simp only [Int.toNat_ofNat] at hget
      have hct : c.Tidy T := tidy_child T node c hn (List.get?_mem hget)
      obtain ⟨ha1, ha2⟩ := appendNode_size T content c hc hct
      have h2 : appendRangeLoop node fuel (appendNode content c) ((i + 1 : Nat) : Int) (j : Int)
          = .ok res := by
        push_cast
        exact h
      obtain ⟨hr1, hr2⟩ := ih (appendNode content c) (i + 1) (by omega) ha1 h2
      refine ⟨hr1, ?_⟩
      rw [hr2, ha2]
      have e1 : max (i + 1) j = max i j := by omega
      rw [e1, prefixSize_succ _ i c hget]
      ring
    · rw [if_neg hij] at h
      cases h
      have : max i j = i := by omega
      rw [this]
      exact ⟨hc, by ring⟩

/-- Cutting an ASCII text node keeps the bytes between the two offsets. -/
theorem text_cut_gen (c : Node) (ht : c.IsText = true) (ha : ∀ b ∈ c.Text, b < 128)
    (lo hi : Int) (h0 : 0 ≤ lo) (h1 : lo ≤ hi) (h2 : hi ≤ c.NodeSize) :
    c.cut lo hi = .ok (c.setText ((c.Text.take hi.toNat).drop lo.toNat)) := by
  have hsz : c.NodeSize = c.Text.length := text_size c ht ha
  have htl : c.textLen = c.Text.length := by
    unfold Node.textLen; exact utf16Len_ascii _ ha
  cases c with
  | mk typ attrs marks text content =>
    simp only [Node.Text] at hsz htl ⊢
    unfold Node.cut
    simp only [ht, if_true]
    have hne1 : ¬ hi = -1 := by omega
    simp only [hne1, if_false]
    by_cases hall : lo = 0 ∧ hi = (Node.mk typ attrs marks text content).textLen
    · rw [if_pos (by simp [hall.1, hall.2])]
      obtain ⟨hlo, hhi⟩ := hall
      rw [hlo, hhi, htl]
      simp [Node.setText, Node.Typ, Node.Attrs, Node.Marks, Node.Content]
    · rw [if_neg (by simpa using hall)]
      unfold goSlice
      rw [if_neg (by simp; omega)]
      simp only [bind, Except.bind, pure, Except.pure]
      rw [withText_eq_setText]

/-- Cutting a text node up to -1 cuts it up to its end. -/
theorem text_cut_end (c : Node) (ht : c.IsText = true) (lo : Int) :
    c.cut lo (-1) = c.cut lo c.textLen := by
  cases c with
  | mk typ attrs marks text content =>
    unfold Node.cut
    simp only [ht, if_true]
    by_cases h : (Node.mk typ attrs marks text content).textLen = -1
    · simp [h]
    · simp [h]

/-- Cutting a tidy text node from its start up to a text offset, and from a text offset up
to its end. -/
theorem text_cut_size (T : String → NodeType) (c : Node) (hc : c.Tidy T)
    (ht : c.IsText = true) (t : Int) (h0 : 0 < t) (h1 : t < c.NodeSize) :
    (∃ x, c.cut 0 t = .ok x ∧ x.Tidy T ∧ x.NodeSize = t) ∧
    (∃ y, c.cut t (-1) = .ok y ∧ y.Tidy T ∧ y.NodeSize = c.NodeSize - t) := by
  have hasc := (tidy_local T _ hc).2.1 ht
  have hsz : c.NodeSize = c.Text.length := text_size c ht hasc
  have hlen : c.textLen = c.Text.length := by
    unfold Node.textLen
    exact utf16Len_ascii _ hasc
  have hsub : ∀ (a b : Nat), ∀ x ∈ (c.Text.take b).drop a, x < 128 :=
    fun a b x hx => hasc x (List.mem_of_mem_take (List.mem_of_mem_drop hx))
  constructor
  · obtain ⟨w1, w2, _⟩ := withText_tidy T c _ hc ht (hsub (0 : Int).toNat t.toNat)
    rw [withText_eq_setText] at w1 w2
    refine ⟨_, text_cut_gen c ht hasc 0 t (le_refl _) (by omega) (by omega), w1, ?_⟩
    rw [w2, utf16Len_ascii _ (hsub _ _)]
    simp
    omega
  · obtain ⟨w1, w2, _⟩ := withText_tidy T c _ hc ht (hsub t.toNat c.textLen.toNat)
    rw [withText_eq_setText] at w1 w2
    rw [text_cut_end c ht]
    refine ⟨_, text_cut_gen c ht hasc t c.textLen (by omega) (by omega) (by omega), w1, ?_⟩
    rw [w2, utf16Len_ascii _ (hsub _ _), hsz, hlen]
    simp
    omega

/-! ## The size law of `replace`: `appendRange` -/

/-- The method `Index` read off the index path. -/
theorem index_of_paths (r : ResolvedPos) (d : Nat) (i : Int)
    (h : r.IndexPath.get? d = some i) : r.Index (d : Int) = .ok i := by
  unfold ResolvedPos.Index ResolvedPos.resolveDepth
  rw [if_neg (by omega)]
  exact goIndex_natCast _ _ _ h

/-- Reading the last entry of a list that has one. -/
theorem goIndex_getLast {α : Type} (xs : List α) (o : α) (hl : xs.getLast? = some o) :
    goIndex xs ((xs.length : Int) - 1) = .ok o := by
  have hne : xs ≠ [] := by
    intro h
    rw [h] at hl
    cases hl
  have hlen : 0 < xs.length := List.length_pos.mpr hne
  rw [List.getLast?_eq_getElem?, ← List.get?_eq_getElem?] at hl
  have hk : ((xs.length : Int) - 1) = ((xs.length - 1 : Nat) : Int) := by omega
  rw [hk, goIndex_natCast _ _ _ hl]

/-- Inside a text node, `NodeAfter` is the rest of the text node and `NodeBefore` its
start, of the sizes the text offset gives. -/
theorem nodeAfter_before_size (T : String → NodeType) (r : ResolvedPos) (D : Nat) (N c : Node)
    (k : Nat) (o : Int) (hD : r.Depth = (D : Int)) (hN : r.NodePath.get? D = some N)
    (hI : r.IndexPath.get? D = some (k : Int)) (ho : r.OffsetPath.getLast? = some o)
    (hc : N.Content.Content.get? k = some c) (hct : c.Tidy T) (htx : c.IsText = true)
    (h0 : 0 < r.Pos - o) (h1 : r.Pos - o < c.NodeSize) :
    (∃ y, r.NodeAfter = .ok (some y) ∧ y.Tidy T ∧ y.NodeSize = c.NodeSize - (r.Pos - o)) ∧
    (∃ x, r.NodeBefore = .ok (some x) ∧ x.Tidy T ∧ x.NodeSize = r.Pos - o) := by
  obtain ⟨⟨x, hx, hxt, hxs⟩, ⟨y, hy, hyt, hys⟩⟩ := text_cut_size T c hct htx (r.Pos - o) h0 h1
  have hpar : r.Parent = .ok N := by
    unfold ResolvedPos.Parent
    rw [hD]
    exact node_of_paths r D N hN
  have hidx : r.Index r.Depth = .ok (k : Int) := by
    rw [hD]
    exact index_of_paths r D _ hI
  have hoff := goIndex_getLast r.OffsetPath o ho
  have hchild : N.Child (k : Int) = .ok c := by
    unfold Node.Child Fragment.Child
    exact goIndex_natCast _ _ _ hc
  have hlt : k < N.Content.Content.length := by
    by_contra hge
    rw [List.get?_eq_none.mpr (by omega)] at hc
    cases hc
  constructor
  · refine ⟨y, ?_, hyt, hys⟩
    unfold ResolvedPos.NodeAfter
    simp only [hpar, hidx, bind, Except.bind, hoff]
    rw [if_neg (by unfold Node.ChildCount Fragment.ChildCount; omega)]
    rw [if_pos (by omega)]
    simp only [hchild, hy]
    rfl
  · refine ⟨x, ?_, hxt, hxs⟩
    unfold ResolvedPos.NodeBefore
    simp only [hidx, bind, Except.bind, hoff]
    rw [if_pos (by omega)]
    simp only [hpar, hchild, hx]
    rfl

/-- The first part of `appendRange` with a start position: the content and the index the
rest of the function goes on with. -/
theorem appendRange_start_size (T : String → NodeType) (s : ResolvedPos) (root : Node)
    (hts : s.Traces root) (htidy : root.Tidy T) (d : Nat) (hd : (d : Int) ≤ s.Depth)
    (N : Node) (hN : s.NodePath.get? d = some N)
    (content : List Node) (hc : ∀ n ∈ content, n.Tidy T)
    (jp : List Node × Int → Except Err (List Node)) (res : List Node)
    (h : (do
      let startIndex ← s.Index (d : Int)
      if s.Depth > (d : Int) then do
          let y ← pure (content, startIndex + 1)
          jp y
        else do
          let t ← s.TextOffset
          if t = true then do
              let after ← s.NodeAfter
              let n ← derefNode after
              let y ← pure (appendNode content n, startIndex + 1)
              jp y
            else do
              let y ← pure (content, startIndex)
              jp y) = .ok res) :
    ∃ (y : List Node × Int) (j : Nat), jp y = .ok res ∧ y.2 = (j : Int) ∧
      (∀ n ∈ y.1, n.Tidy T) ∧ j ≤ N.Content.Content.length ∧
      ((d : Int) < s.Depth → y.1 = content ∧
        prefixSize N.Content.Content j = s.before (d : Int) + 1 + s.after ((d : Int) + 1)) ∧
      ((d : Int) = s.Depth → totalSize y.1 =
        totalSize content + prefixSize N.Content.Content j - s.before (d : Int)) ∧
      ∃ ks : Nat, s.IndexPath.get? d = some (ks : Int) ∧ ((d : Int) < s.Depth → j = ks + 1) ∧
        ((d : Int) = s.Depth → prefixSize N.Content.Content ks = s.before (d : Int) →
          j = ks) := by
  obtain ⟨si, hsi, h⟩ := bind_ok _ _ _ h
  by_cases hdep : s.Depth > (d : Int)
  · rw [if_pos hdep] at h
    obtain ⟨N2, C, k, g1, g2, g3, g4, g5, g6, g7, g8, g9, g10, g11, g12, g13⟩ :=
      level_inner T s root hts htidy d hdep
    rw [hN] at g1
    cases g1
    rw [index_of_paths s d _ g3] at hsi
    cases hsi
    have hlt : k < N.Content.Content.length := by
      by_contra hge
      rw [List.get?_eq_none.mpr (by omega)] at g6
      cases g6
    refine ⟨(content, (k : Int) + 1), k + 1, pure_bind_ok _ _ _ h, by push_cast; rfl, hc,
      by omega, ?_, ?_, ⟨k, g3, fun _ => rfl, fun he => by omega⟩⟩
    · intro _
      refine ⟨rfl, ?_⟩
      have ha := after_eq s (d + 1) C g2
      push_cast at ha
      rw [prefixSize_succ _ k C g6, nodeSize_composite C g7 g8, ha, g9]
      ring
    · intro he
      omega
  · rw [if_neg hdep] at h
    obtain ⟨D, N2, k, o, l1, l2, l3, l4, l5, l6, l7, l8, l9, l10, l11, l12⟩ :=
      level_last T s root hts htidy
    have hdD : d = D := by omega
    subst hdD
    rw [hN] at l2
    cases l2
    rw [index_of_paths s d _ l3] at hsi
    cases hsi
    rw [textOffset_of_paths s o l5] at h
    have h := pure_bind_ok _ _ _ h
    by_cases htt : (s.Pos - o != 0) = true
    · rw [if_pos htt] at h
      have hne : s.Pos - o ≠ 0 := by simpa using htt
      obtain ⟨c, hcg, hctx, hclt⟩ := l12 hne
      have hct : c.Tidy T := tidy_child T N c l4 (List.get?_mem hcg)
      obtain ⟨⟨y, hy, hyt, hys⟩, _⟩ := nodeAfter_before_size T s d N c k o l1 hN l3 l5 hcg hct
        hctx (by omega) hclt
      rw [hy] at h
      have h := pure_bind_ok _ _ _ h
      have h : (do
          let y2 ← pure (appendNode content y, (k : Int) + 1)
          jp y2) = .ok res := h
      have hlt : k < N.Content.Content.length := by
        by_contra hge
        rw [List.get?_eq_none.mpr (by omega)] at hcg
        cases hcg
      obtain ⟨a1, a2⟩ := appendNode_size T content y hc hyt
      refine ⟨(appendNode content y, (k : Int) + 1), k + 1, pure_bind_ok _ _ _ h,
        by push_cast; rfl, a1, by omega, ?_, ?_,
        ⟨k, l3, fun hlt2 => by omega, fun _ hp => by omega⟩⟩
      · intro hlt2
        omega
      · intro _
        simp only
        rw [a2, hys, prefixSize_succ _ k c hcg, l6]
        ring
    · rw [if_neg htt] at h
      have heq : s.Pos - o = 0 := by simpa using htt
      refine ⟨(content, (k : Int)), k, pure_bind_ok _ _ _ h, rfl, hc, l8, ?_, ?_,
        ⟨k, l3, fun hlt2 => by omega, fun _ _ => rfl⟩⟩
      · intro hlt2
        omega
      · intro _
        simp only
        rw [l6, heq]
        ring

/-- The last part of `appendRange` with an end position. -/
theorem appendRange_tail_some_size (T : String → NodeType) (e : ResolvedPos) (root : Node)
    (hte : e.Traces root) (htidy : root.Tidy T) (d : Nat) (hd : (d : Int) ≤ e.Depth)
    (node : Node) (hN : e.NodePath.get? d = some node)
    (y : List Node × Int) (j : Nat) (hj : y.2 = (j : Int)) (res : List Node)
    (hc : ∀ n ∈ y.1, n.Tidy T) (ei : Int) (hei : e.Index (d : Int) = .ok ei)
    (h2 : (do
      let content ← appendRangeLoop node (ei - y.2).toNat y.1 y.2 ei
      if e.Depth = (d : Int) then do
          let t ← e.TextOffset
          if t = true then do
              let before ← e.NodeBefore
              let n ← derefNode before
              pure (appendNode content n)
            else pure content
        else pure content) = .ok res) :
    ∃ k : Nat, e.IndexPath.get? d = some (k : Int) ∧ (∀ n ∈ res, n.Tidy T) ∧
      ((d : Int) < e.Depth →
        totalSize res = totalSize y.1 +
          (prefixSize node.Content.Content (max j k) - prefixSize node.Content.Content j) ∧
        prefixSize node.Content.Content k =
          e.before (d : Int) - 1 - e.before ((d : Int) + 1)) ∧
      ((d : Int) = e.Depth →
        totalSize res = totalSize y.1 +
          (prefixSize node.Content.Content (max j k) - prefixSize node.Content.Content j) +
          (e.before (d : Int) - prefixSize node.Content.Content k)) := by
  obtain ⟨c3, hloop, h⟩ := bind_ok _ _ _ h2
  clear h2
  rw [hj] at hloop
  by_cases hdep : e.Depth = (d : Int)
  · rw [if_pos hdep] at h
    obtain ⟨D, N2, k, o, l1, l2, l3, l4, l5, l6, l7, l8, l9, l10, l11, l12⟩ :=
      level_last T e root hte htidy
    have hdD : d = D := by omega
    subst hdD
    rw [hN] at l2
    cases l2
    rw [index_of_paths e d _ l3] at hei
    cases hei
    obtain ⟨q1, q2⟩ := appendRangeLoop_size T node l4 _ y.1 j k (by omega) hc c3 hloop
    rw [textOffset_of_paths e o l5] at h
    have h := pure_bind_ok _ _ _ h
    refine ⟨k, l3, ?_⟩
    by_cases htt : (e.Pos - o != 0) = true
    · rw [if_pos htt] at h
      have hne : e.Pos - o ≠ 0 := by simpa using htt
      obtain ⟨c, hcg, hctx, hclt⟩ := l12 hne
      have hct : c.Tidy T := tidy_child T node c l4 (List.get?_mem hcg)
      obtain ⟨_, ⟨x, hx, hxt, hxs⟩⟩ := nodeAfter_before_size T e d node c k o l1 hN l3 l5 hcg
        hct hctx (by omega) hclt
      rw [hx] at h
      have h := pure_bind_ok _ _ _ h
      have hres : appendNode c3 x = res := by cases h; rfl
      obtain ⟨a1, a2⟩ := appendNode_size T c3 x q1 hxt
      rw [← hres]
      refine ⟨a1, fun hlt => by omega, fun _ => ?_⟩
      rw [a2, q2, hxs, l6]
      ring
    · rw [if_neg htt] at h
      have heq : e.Pos - o = 0 := by simpa using htt
      have hres : c3 = res := by cases h; rfl
      rw [← hres]
      refine ⟨q1, fun hlt => by omega, fun _ => ?_⟩
      rw [q2, l6, heq]
      ring
  · rw [if_neg hdep] at h
    have hres : c3 = res := by cases h; rfl
    have hlt : (d : Int) < e.Depth := by omega
    obtain ⟨N2, C, k, g1, g2, g3, g4, g5, g6, g7, g8, g9, g10, g11, g12, g13⟩ :=
      level_inner T e root hte htidy d hlt
    rw [hN] at g1
    cases g1
    rw [index_of_paths e d _ g3] at hei
    cases hei
    obtain ⟨q1, q2⟩ := appendRangeLoop_size T node g4 _ y.1 j k (by omega) hc c3 hloop
    rw [← hres]
    refine ⟨k, g3, q1, fun _ => ⟨q2, ?_⟩, fun he => by omega⟩
    rw [g9]
    ring

/-- The last part of `appendRange` without an end position: the children from the index
on. -/
theorem appendRange_tail_none_size (T : String → NodeType) (node : Node) (hn : node.Tidy T)
    (y : List Node × Int) (j : Nat) (hj : y.2 = (j : Int))
    (hjl : j ≤ node.Content.Content.length) (res : List Node)
    (hc : ∀ n ∈ y.1, n.Tidy T)
    (h : (do
      let content ← appendRangeLoop node (node.ChildCount - y.2).toNat y.1 y.2 node.ChildCount
      pure content) = .ok res) :
    (∀ n ∈ res, n.Tidy T) ∧
      totalSize res = totalSize y.1 + (node.Content.Size - prefixSize node.Content.Content j) := by
  obtain ⟨c3, hloop, h⟩ := bind_ok _ _ _ h
  have hres : c3 = res := by cases h; rfl
  rw [hj] at hloop
  have hcc : node.ChildCount = ((node.Content.Content.length : Nat) : Int) := rfl
  rw [hcc] at hloop
  obtain ⟨q1, q2⟩ := appendRangeLoop_size T node hn _ y.1 j node.Content.Content.length
    (by omega) hc c3 hloop
  rw [← hres]
  refine ⟨q1, ?_⟩
  rw [q2, max_eq_right hjl, prefixSize_length]
  have := (tidy_local T node hn).2.2
  unfold Fragment.SizeOk at this
  rw [this]

/-! ## The size law of `replace`: `replaceTwoWay` -/

/-- The children `prefixSize` counts up to the later of two indices. -/
theorem prefixSize_max (cs : List Node) (hnn : ∀ c ∈ cs, 0 ≤ c.NodeSize) (j k : Nat) :
    prefixSize cs (max j k) = max (prefixSize cs j) (prefixSize cs k) := by
  rcases Nat.le_total j k with h | h
  · rw [max_eq_right h, max_eq_right (prefixSize_mono cs hnn j k h)]
  · rw [max_eq_left h, max_eq_left (prefixSize_mono cs hnn k j h)]

/-- The call `appendRange(content, nil, end, depth)`: the children before the position. -/
theorem appendRange_end_size (T : String → NodeType) (e : ResolvedPos) (root : Node)
    (hte : e.Traces root) (htidy : root.Tidy T) (d : Nat) (hd : (d : Int) ≤ e.Depth)
    (content : List Node) (hc : ∀ n ∈ content, n.Tidy T) (res : List Node)
    (h : appendRange content none (some e) (d : Int) = .ok res) :
    (∀ n ∈ res, n.Tidy T) ∧
      ((d : Int) < e.Depth →
        totalSize res = totalSize content + e.before (d : Int) - 1 - e.before ((d : Int) + 1)) ∧
      ((d : Int) = e.Depth → totalSize res = totalSize content + e.before (d : Int)) := by
  unfold appendRange at h
  dsimp only at h
  obtain ⟨node, hn, h⟩ := bind_ok _ _ _ h
  obtain ⟨ei, hei, h⟩ := bind_ok _ _ _ h
  have h3 := pure_bind_ok _ _ _ h
  have hN := path_node_get e (d : Int) node (by omega) hn
  simp only [Int.toNat_ofNat] at hN
  obtain ⟨k, hk, q1, q2, q3⟩ := appendRange_tail_some_size T e root hte htidy d hd node hN
    (content, 0) 0 rfl res hc ei hei h3
  refine ⟨q1, fun hlt => ?_, fun heq => ?_⟩
  · obtain ⟨a1, a2⟩ := q2 hlt
    rw [a1, Nat.zero_max, prefixSize_zero, a2]
    ring
  · rw [q3 heq, Nat.zero_max, prefixSize_zero]
    ring

/-- The call `appendRange(content, start, nil, depth)`: the children after the position. -/
theorem appendRange_start_none_size (T : String → NodeType) (s : ResolvedPos) (root : Node)
    (hts : s.Traces root) (htidy : root.Tidy T) (d : Nat) (hd : (d : Int) ≤ s.Depth)
    (content : List Node) (hc : ∀ n ∈ content, n.Tidy T) (res : List Node)
    (h : appendRange content (some s) none (d : Int) = .ok res) :
    (∀ n ∈ res, n.Tidy T) ∧
      ((d : Int) < s.Depth →
        totalSize res = totalSize content + s.after (d : Int) - 1 - s.after ((d : Int) + 1)) ∧
      ((d : Int) = s.Depth → totalSize res = totalSize content + s.after (d : Int)) := by
  unfold appendRange at h
  dsimp only at h
  obtain ⟨node, hn, h⟩ := bind_ok _ _ _ h
  have h1 := pure_bind_ok _ _ _ h
  have hN := path_node_get s (d : Int) node (by omega) hn
  simp only [Int.toNat_ofNat] at hN
  have hnt : node.Tidy T := by
    obtain ⟨nodes, idxs, offs, hNP, hI, hO, hD, hw⟩ := hts
    obtain ⟨N, pd, sd, g1, g2, _⟩ :=
      walk_drop T root s.Pos 0 nodes idxs offs s.ParentOffset hw htidy d (by omega)
    rw [hNP] at hN
    rw [hN] at g1
    cases g1
    exact g2
  obtain ⟨y, j, hjp, hj, hy, hjl, p1, p2, _⟩ :=
    appendRange_start_size T s root hts htidy d hd node hN content hc _ res h1
  obtain ⟨q1, q2⟩ := appendRange_tail_none_size T node hnt y j hj hjl res hy hjp
  have ha := after_eq s d node hN
  refine ⟨q1, fun hlt => ?_, fun heq => ?_⟩
  · obtain ⟨a1, a2⟩ := p1 hlt
    rw [q2, a1, a2, ha]
    ring
  · rw [q2, p2 heq, ha]
    ring

/-- The node `close` returns: the node with the fragment as its content. -/
theorem close_size (T : String → NodeType) (n m : Node) (f : Fragment)
    (h : n.close f = .ok m) (hn : n.Tidy T) (hf : f.SizeOk) (hfc : ∀ c ∈ f.Content, c.Tidy T) :
    m.Tidy T ∧ m.Content = f ∧ m.Typ = n.Typ ∧
      (n.IsText = false → n.IsLeaf = false → m.NodeSize = 2 + f.Size) := by
  unfold Node.close at h
  obtain ⟨_, _, h⟩ := bind_ok _ _ _ h
  have hm : m = n.copy f := by cases h; rfl
  cases n with
  | mk typ attrs marks text content =>
    have hl := tidy_local T _ hn
    rw [hm]
    refine ⟨?_, rfl, rfl, ?_⟩
    · rw [tidy_iff]
      exact ⟨⟨hl.1, hl.2.1, hf⟩, hfc⟩
    · intro ht hlf
      exact nodeSize_composite _ ht hlf

/-- The fragment `NewFragment` builds caches the total size of the nodes. -/
theorem newFragment_size (l : List Node) :
    (NewFragment l).SizeOk ∧ (NewFragment l).Size = totalSize l ∧
      (NewFragment l).Content = l := by
  rw [newFragment_eq]
  exact ⟨rfl, rfl, rfl⟩

/-- The node of a tidy tree at a depth of the path of a position is tidy. -/
theorem path_node_tidy (T : String → NodeType) (r : ResolvedPos) (root : Node)
    (ht : r.Traces root) (htidy : root.Tidy T) (d : Nat) (N : Node)
    (hN : r.NodePath.get? d = some N) : N.Tidy T := by
  obtain ⟨nodes, idxs, offs, hNP, hI, hO, hD, hw⟩ := ht
  rw [hNP] at hN
  have hlt : d < (root :: nodes).length := by
    by_contra hge
    rw [List.get?_eq_none.mpr (by omega)] at hN
    cases hN
  obtain ⟨N2, pd, sd, g1, g2, _⟩ :=
    walk_drop T root r.Pos 0 nodes idxs offs r.ParentOffset hw htidy d
      (by simp at hlt; omega)
  rw [hN] at g1
  cases g1
  exact g2

/-- The size of the fragment `replaceTwoWay` returns at a depth: what lies before the first
position and what lies after the second, in their nodes at that depth. -/
theorem replaceTwoWayLoop_size (T : String → NodeType) (fuel : Nat) (a b : ResolvedPos)
    (ra rb : Node) (hta : a.Traces ra) (htb : b.Traces rb) (hra : ra.Tidy T)
    (hrb : rb.Tidy T) (hdep : a.Depth = b.Depth) (d : Nat) (hd : (d : Int) ≤ a.Depth)
    (res : Fragment) (h : replaceTwoWayLoop fuel a b (d : Int) = .ok res) :
    res.SizeOk ∧ (∀ c ∈ res.Content, c.Tidy T) ∧
      res.Size = a.before (d : Int) + b.after (d : Int) := by
  induction fuel generalizing d res with
  | zero => unfold replaceTwoWayLoop at h; cases h
  | succ fuel ih =>
    unfold replaceTwoWayLoop at h
    obtain ⟨c1, hc1, h⟩ := bind_ok _ _ _ h
    obtain ⟨e1, e2, e3⟩ := appendRange_end_size T a ra hta hra d hd [] (by simp) c1 hc1
    have htail : ∀ c2 : List Node, (∀ n ∈ c2, n.Tidy T) →
        (do
          let content ← appendRange c2 (some b) none (d : Int)
          pure (NewFragment content)) = Except.ok res →
        res.SizeOk ∧ (∀ c ∈ res.Content, c.Tidy T) ∧
          (a.Depth > (d : Int) →
            res.Size = totalSize c2 + b.after (d : Int) - 1 - b.after ((d : Int) + 1)) ∧
          (¬ a.Depth > (d : Int) → res.Size = totalSize c2 + b.after (d : Int)) := by
      intro c2 a1 h
      obtain ⟨c3, hc3, h⟩ := bind_ok _ _ _ h
      have hres : res = NewFragment c3 := by cases h; rfl
      obtain ⟨n1, n2, n3⟩ := newFragment_size c3
      obtain ⟨s1, s2, s3⟩ :=
        appendRange_start_none_size T b rb htb hrb d (by omega) c2 a1 c3 hc3
      rw [hres]
      refine ⟨n1, by rw [n3]; exact s1, fun hdeep => ?_, fun hdeep => ?_⟩
      · rw [n2, s2 (by omega)]
      · rw [n2, s3 (by omega)]
    dsimp only at h
    by_cases hdeep : a.Depth > (d : Int)
    · rw [if_pos hdeep] at h
      obtain ⟨nodeType, hjoin, h⟩ := bind_ok _ _ _ h
      obtain ⟨r, hr, h⟩ := bind_ok _ _ _ h
      obtain ⟨node, hclose, h⟩ := bind_ok _ _ _ h
      obtain ⟨N, C, k, g1, g2, g3, g4, g5, g6, g7, g8, g9, g10, g11, g12, g13⟩ :=
        level_inner T a ra hta hra d hdeep
      have hnt : nodeType = C := by
        unfold joinable at hjoin
        obtain ⟨x, hx, hjoin⟩ := bind_ok _ _ _ hjoin
        obtain ⟨_, _, hjoin⟩ := bind_ok _ _ _ hjoin
        obtain ⟨_, _, hjoin⟩ := bind_ok _ _ _ hjoin
        have hx2 := node_of_paths a (d + 1) C g2
        push_cast at hx2
        rw [hx2] at hx
        cases hx
        cases hjoin
        rfl
      subst hnt
      have hr2 : replaceTwoWayLoop fuel a b ((d + 1 : Nat) : Int) = .ok r := by
        push_cast
        exact hr
      obtain ⟨i1, i2, i3⟩ := ih (d + 1) (by push_cast; omega) r hr2
      obtain ⟨k1, k2, k3, k4⟩ := close_size T nodeType node r hclose g5 i1 i2
      obtain ⟨a1, a2⟩ := appendNode_size T c1 node e1 k1
      obtain ⟨t1, t2, t3, _⟩ := htail _ a1 (pure_bind_ok _ _ _ h)
      refine ⟨t1, t2, ?_⟩
      rw [t3 hdeep, a2, e2 hdeep, totalSize_nil, k4 g7 g8, i3]
      push_cast
      ring
    · rw [if_neg hdeep] at h
      obtain ⟨t1, t2, _, t4⟩ := htail _ e1 (pure_bind_ok _ _ _ h)
      refine ⟨t1, t2, ?_⟩
      rw [t4 hdeep, e3 (by omega), totalSize_nil]
      ring

/-! ## The size law of `replace`: `replaceThreeWay` -/

/-- Two natural numbers that are equal as integers in an option are equal. -/
theorem some_cast_inj (a b : Nat) (h : some (a : Int) = some (b : Int)) : a = b := by
  cases h
  rfl

/-- The call `appendRange(content, start, end, depth)` for the two ends of the slice in the
node `prepareSliceForReplace` builds: `start` has nothing before it and `end_` nothing
after it at any depth, and they are in different children of their node at this depth
when both are deeper.  It adds what lies between the two positions at this depth, less the
children they are inside of. -/
theorem appendRange_mid_size (T : String → NodeType) (s e : ResolvedPos) (root : Node)
    (hts : s.Traces root) (hte : e.Traces root) (htidy : root.Tidy T) (d : Nat)
    (hds : (d : Int) ≤ s.Depth) (hde : (d : Int) ≤ e.Depth) (N : Node)
    (hNs : s.NodePath.get? d = some N) (hNe : e.NodePath.get? d = some N)
    (hS : s.before (d : Int) = s.Depth - d)
    (hS2 : (d : Int) < s.Depth → s.before ((d : Int) + 1) = s.Depth - d - 1)
    (hE : e.after (d : Int) = e.Depth - d)
    (hne : (d : Int) < s.Depth → (d : Int) < e.Depth →
      s.IndexPath.get? d ≠ e.IndexPath.get? d)
    (content : List Node) (hc : ∀ n ∈ content, n.Tidy T) (res : List Node)
    (h : appendRange content (some s) (some e) (d : Int) = .ok res) :
    (∀ n ∈ res, n.Tidy T) ∧
      totalSize res = totalSize content +
        (if (d : Int) < e.Depth then e.before (d : Int) - 1 - e.before ((d : Int) + 1)
          else e.before (d : Int)) -
        (if (d : Int) < s.Depth then s.before (d : Int) + 1 + s.after ((d : Int) + 1)
          else s.before (d : Int)) := by
  unfold appendRange at h
  dsimp only at h
  obtain ⟨node, hn, h⟩ := bind_ok _ _ _ h
  rw [node_of_paths s d N hNs] at hn
  have hnN : node = N := by cases hn; rfl
  rw [hnN] at h
  clear hn hnN node
  obtain ⟨ei, hei, h⟩ := bind_ok _ _ _ h
  obtain ⟨y, j, hjp, hj, hy, hjl, p1, p2, ks, hks, p3, p4⟩ :=
    appendRange_start_size T s root hts htidy d hds N hNs content hc _ res h
  obtain ⟨k, hk, q1, q2, q3⟩ :=
    appendRange_tail_some_size T e root hte htidy d hde N hNe y j hj res hy ei hei hjp
  have hNt : N.Tidy T := path_node_tidy T s root hts htidy d N hNs
  have hws := tidy_wellSized T N hNt
  have hnn : ∀ x ∈ N.Content.Content, 0 ≤ x.NodeSize :=
    fun x hx => childSize_nonneg N.Content hws x hx
  have hsz : N.Content.Size = (N.Content.Content.map Node.NodeSize).sum :=
    (tidy_local T N hNt).2.2
  have hae := after_eq e d N hNe
  have hle : prefixSize N.Content.Content j ≤ prefixSize N.Content.Content k := by
    by_cases hsd : (d : Int) < s.Depth
    · obtain ⟨N2, Cs, ks2, g1, g2, g3, g4, g5, g6, g7, g8, g9, g10, g11, g12, g13⟩ :=
        level_inner T s root hts htidy d hsd
      rw [hNs] at g1
      cases g1
      rw [hks] at g3
      have hkk := some_cast_inj _ _ g3
      subst hkk
      have hj1 := p3 hsd
      have hp0 : prefixSize N.Content.Content ks = 0 := by
        have := hS2 hsd
        omega
      have hsucc := prefixSize_succ _ ks Cs g6
      have hcs := nodeSize_composite Cs g7 g8
      have hcs0 := fragmentSize_nonneg _ (tidy_wellSized T Cs g5)
      by_cases hed : (d : Int) < e.Depth
      · obtain ⟨N3, Ce, ke, f1, f2, f3, f4, f5, f6, f7, f8, f9, f10, f11, f12, f13⟩ :=
          level_inner T e root hte htidy d hed
        rw [hNe] at f1
        cases f1
        rw [hk] at f3
        have hkk := some_cast_inj _ _ f3
        subst hkk
        have hne2 : ks ≠ k := by
          intro heq
          apply hne hsd hed
          rw [hks, hk, heq]
        rcases Nat.lt_or_gt_of_ne hne2 with hlt | hgt
        · rw [hj1]
          exact prefixSize_mono _ hnn (ks + 1) k (by omega)
        · exfalso
          have hm := prefixSize_mono _ hnn (k + 1) ks (by omega)
          have hsucc2 := prefixSize_succ _ k Ce f6
          have hce := nodeSize_composite Ce f7 f8
          have hce0 := fragmentSize_nonneg _ (tidy_wellSized T Ce f5)
          omega
      · obtain ⟨D, N3, ke, o, l1, l2, l3, l4, l5, l6, l7, l8, l9, l10, l11, l12⟩ :=
          level_last T e root hte htidy
        have hdD : d = D := by omega
        subst hdD
        rw [hNe] at l2
        cases l2
        rw [hk] at l3
        have hkk := some_cast_inj _ _ l3
        subst hkk
        have hlt0 := prefixSize_le_total _ hnn (ks + 1)
        have ht0 : e.Pos - o = 0 := by
          by_contra hne0
          obtain ⟨c, hcg, _, hclt⟩ := l12 hne0
          have hsucc2 := prefixSize_succ _ k c hcg
          have hlt := prefixSize_le_total _ hnn (k + 1)
          omega
        rw [hj1]
        omega
    · obtain ⟨D, N3, ks2, o, l1, l2, l3, l4, l5, l6, l7, l8, l9, l10, l11, l12⟩ :=
        level_last T s root hts htidy
      have hdD : d = D := by omega
      subst hdD
      rw [hNs] at l2
      cases l2
      rw [hks] at l3
      have hkk := some_cast_inj _ _ l3
      subst hkk
      have hj0 := p4 (by omega) (by omega)
      rw [hj0]
      have := prefixSize_nonneg _ hnn k
      omega
  have hmax : prefixSize N.Content.Content (max j k) = prefixSize N.Content.Content k := by
    rw [prefixSize_max _ hnn, max_eq_right hle]
  refine ⟨q1, ?_⟩
  by_cases hsd : (d : Int) < s.Depth
  · obtain ⟨a1, a2⟩ := p1 hsd
    rw [if_pos hsd]
    by_cases hed : (d : Int) < e.Depth
    · obtain ⟨b1, b2⟩ := q2 hed
      rw [if_pos hed, b1, hmax, a1, a2, b2]
      ring
    · rw [if_neg hed, q3 (by omega), hmax, a1, a2]
      ring
  · have a3 := p2 (by omega)
    rw [if_neg hsd]
    by_cases hed : (d : Int) < e.Depth
    · obtain ⟨b1, b2⟩ := q2 hed
      rw [if_pos hed, b1, hmax, a3, b2]
      ring
    · rw [if_neg hed, q3 (by omega), hmax, a3]
      ring

/-- The node `joinable` returns is the node of the first position at the depth. -/
theorem joinable_node (a b : ResolvedPos) (d : Nat) (C n : Node)
    (hC : a.NodePath.get? d = some C) (h : joinable a b (d : Int) = .ok n) : n = C := by
  unfold joinable at h
  obtain ⟨x, hx, h⟩ := bind_ok _ _ _ h
  obtain ⟨_, _, h⟩ := bind_ok _ _ _ h
  obtain ⟨_, _, h⟩ := bind_ok _ _ _ h
  rw [node_of_paths a d C hC] at hx
  cases hx
  cases h
  rfl

/-- The size of the fragment `replaceThreeWay` returns at a depth: what lies before `from_`
and after `to_` in their nodes at that depth, and what lies between `start` and `end_`. -/
theorem replaceThreeWayLoop_size (T : String → NodeType) (fuel : Nat)
    (f s e t : ResolvedPos) (doc root : Node) (htf : f.Traces doc) (htt : t.Traces doc)
    (hts : s.Traces root) (hte : e.Traces root) (hdoc : doc.Tidy T) (hroot : root.Tidy T)
    (hfs : f.Depth = s.Depth) (het : e.Depth = t.Depth)
    (hS : ∀ x : Nat, (x : Int) ≤ s.Depth → s.before (x : Int) = s.Depth - x)
    (hE : ∀ x : Nat, (x : Int) ≤ e.Depth → e.after (x : Int) = e.Depth - x)
    (d : Nat) (hdf : (d : Int) ≤ f.Depth) (hdt : (d : Int) ≤ t.Depth)
    (hsame : ∃ N, s.NodePath.get? d = some N ∧ e.NodePath.get? d = some N)
    (res : Fragment) (h : replaceThreeWayLoop fuel f s e t (d : Int) = .ok res) :
    res.SizeOk ∧ (∀ c ∈ res.Content, c.Tidy T) ∧
      res.Size = f.before (d : Int) + (e.before (d : Int) - s.before (d : Int)) +
        t.after (d : Int) := by
  induction fuel generalizing d res with
  | zero => unfold replaceThreeWayLoop at h; cases h
  | succ fuel ih =>
    obtain ⟨N, hNs, hNe⟩ := hsame
    have hD : ∀ content : List Node, (∀ n ∈ content, n.Tidy T) →
        (do
          let content ← appendRange content (some t) none (d : Int)
          pure (NewFragment content)) = Except.ok res →
        res.SizeOk ∧ (∀ c ∈ res.Content, c.Tidy T) ∧
          ((d : Int) < t.Depth →
            res.Size = totalSize content + t.after (d : Int) - 1 - t.after ((d : Int) + 1)) ∧
          ((d : Int) = t.Depth → res.Size = totalSize content + t.after (d : Int)) := by
      intro c2 a1 h
      obtain ⟨c3, hc3, h⟩ := bind_ok _ _ _ h
      have hres : res = NewFragment c3 := by cases h; rfl
      obtain ⟨n1, n2, n3⟩ := newFragment_size c3
      obtain ⟨s1, s2, s3⟩ :=
        appendRange_start_none_size T t doc htt hdoc d hdt c2 a1 c3 hc3
      rw [hres]
      refine ⟨n1, by rw [n3]; exact s1, fun hdeep => ?_, fun hdeep => ?_⟩
      · rw [n2, s2 hdeep]
      · rw [n2, s3 hdeep]
    have hA : ∀ (os : Node) (content : List Node) (r : Fragment) (node : Node),
        (d : Int) < f.Depth → joinable f s ((d : Int) + 1) = .ok os →
        (∀ n ∈ content, n.Tidy T) → replaceTwoWay f s ((d : Int) + 1) = .ok r →
        os.close r = .ok node → (∀ n ∈ appendNode content node, n.Tidy T) ∧
          totalSize (appendNode content node) =
            totalSize content + 2 + f.before ((d : Int) + 1) + s.after ((d : Int) + 1) := by
      intro os content r node hlt hjoin hc hr hn
      obtain ⟨Nf, C, k, g1, g2, g3, g4, g5, g6, g7, g8, _⟩ := level_inner T f doc htf hdoc d hlt
      have hj2 : joinable f s ((d + 1 : Nat) : Int) = .ok os := by push_cast; exact hjoin
      have hos := joinable_node f s (d + 1) C os g2 hj2
      subst hos
      unfold replaceTwoWay at hr
      have hr2 : replaceTwoWayLoop (f.NodePath.length + 1) f s ((d + 1 : Nat) : Int) = .ok r := by
        push_cast; exact hr
      obtain ⟨i1, i2, i3⟩ := replaceTwoWayLoop_size T _ f s doc root htf hts hdoc hroot hfs
        (d + 1) (by push_cast; omega) r hr2
      obtain ⟨k1, k2, k3, k4⟩ := close_size T os node r hn g5 i1 i2
      obtain ⟨a1, a2⟩ := appendNode_size T content node hc k1
      refine ⟨a1, ?_⟩
      rw [a2, k4 g7 g8, i3]
      push_cast
      ring
    have hC : ∀ (oe : Node) (content : List Node) (r : Fragment) (node : Node),
        (d : Int) < t.Depth → joinable e t ((d : Int) + 1) = .ok oe →
        (∀ n ∈ content, n.Tidy T) → replaceTwoWay e t ((d : Int) + 1) = .ok r →
        oe.close r = .ok node → (∀ n ∈ appendNode content node, n.Tidy T) ∧
          totalSize (appendNode content node) =
            totalSize content + 2 + e.before ((d : Int) + 1) + t.after ((d : Int) + 1) := by
      intro oe content r node hlt hjoin hc hr hn
      obtain ⟨Ne, C, k, g1, g2, g3, g4, g5, g6, g7, g8, _⟩ :=
        level_inner T e root hte hroot d (by omega)
      have hj2 : joinable e t ((d + 1 : Nat) : Int) = .ok oe := by push_cast; exact hjoin
      have hoe := joinable_node e t (d + 1) C oe g2 hj2
      subst hoe
      unfold replaceTwoWay at hr
      have hr2 : replaceTwoWayLoop (e.NodePath.length + 1) e t ((d + 1 : Nat) : Int) = .ok r := by
        push_cast; exact hr
      obtain ⟨i1, i2, i3⟩ := replaceTwoWayLoop_size T _ e t root doc hte htt hroot hdoc het
        (d + 1) (by push_cast; omega) r hr2
      obtain ⟨k1, k2, k3, k4⟩ := close_size T oe node r hn g5 i1 i2
      obtain ⟨a1, a2⟩ := appendNode_size T content node hc k1
      refine ⟨a1, ?_⟩
      rw [a2, k4 g7 g8, i3]
      push_cast
      ring
    have hB : ∀ (content c2 : List Node), (∀ n ∈ content, n.Tidy T) →
        ((d : Int) < s.Depth → (d : Int) < e.Depth →
          s.IndexPath.get? d ≠ e.IndexPath.get? d) →
        appendRange content (some s) (some e) (d : Int) = .ok c2 →
        (∀ n ∈ c2, n.Tidy T) ∧
          totalSize c2 = totalSize content +
            (if (d : Int) < e.Depth then e.before (d : Int) - 1 - e.before ((d : Int) + 1)
              else e.before (d : Int)) -
            (if (d : Int) < s.Depth then s.before (d : Int) + 1 + s.after ((d : Int) + 1)
              else s.before (d : Int)) := by
      intro content c2 hc hne hr
      exact appendRange_mid_size T s e root hts hte hroot d (by omega) (by omega) N hNs hNe
        (hS d (by omega))
        (fun hlt => by
          have := hS (d + 1) (by push_cast; omega)
          push_cast at this
          omega)
        (hE d (by omega)) hne content hc c2 hr
    have h1sz : ∀ c1, appendRange [] none (some f) (d : Int) = .ok c1 →
        (∀ n ∈ c1, n.Tidy T) ∧
          ((d : Int) < f.Depth →
            totalSize c1 = f.before (d : Int) - 1 - f.before ((d : Int) + 1)) ∧
          ((d : Int) = f.Depth → totalSize c1 = f.before (d : Int)) := by
      intro c1 h1
      obtain ⟨e1, e2, e3⟩ := appendRange_end_size T f doc htf hdoc d hdf [] (by simp) c1 h1
      refine ⟨e1, fun hlt => ?_, fun heq => ?_⟩
      · rw [e2 hlt, totalSize_nil]; ring
      · rw [e3 heq, totalSize_nil]; ring
    have hthin : ∀ (os oe : Node) (content : List Node), (d : Int) < f.Depth →
        (d : Int) < t.Depth → s.IndexPath.get? d = e.IndexPath.get? d →
        joinable f s ((d : Int) + 1) = .ok os → (∀ n ∈ content, n.Tidy T) →
        (do
          checkJoin os oe
          let r ← replaceThreeWayLoop fuel f s e t ((d : Int) + 1)
          let node ← os.close r
          let content ← appendRange (appendNode content node) (some t) none (d : Int)
          pure (NewFragment content)) = Except.ok res →
        res.SizeOk ∧ (∀ c ∈ res.Content, c.Tidy T) ∧
          res.Size = totalSize content + 2 + (f.before ((d : Int) + 1) +
            (e.before (d : Int) - s.before (d : Int)) + t.after ((d : Int) + 1)) +
            (t.after (d : Int) - 1 - t.after ((d : Int) + 1)) := by
      intro os oe content hlf hlt hidx hjoin hc h
      obtain ⟨_, _, h⟩ := bind_ok _ _ _ h
      obtain ⟨r, hr, h⟩ := bind_ok _ _ _ h
      obtain ⟨node, hn, h⟩ := bind_ok _ _ _ h
      obtain ⟨Nf, C, k, g1, g2, g3, g4, g5, g6, g7, g8, _⟩ := level_inner T f doc htf hdoc d hlf
      have hj2 : joinable f s ((d + 1 : Nat) : Int) = .ok os := by push_cast; exact hjoin
      have hos := joinable_node f s (d + 1) C os g2 hj2
      subst hos
      obtain ⟨N2, Cs, ks, u1, u2, u3, u4, u5, u6, u7, u8, u9, _⟩ :=
        level_inner T s root hts hroot d (by omega)
      obtain ⟨N3, Ce, ke, v1, v2, v3, v4, v5, v6, v7, v8, v9, _⟩ :=
        level_inner T e root hte hroot d (by omega)
      rw [hNs] at u1
      cases u1
      rw [hNe] at v1
      cases v1
      rw [u3, v3] at hidx
      have hkk := some_cast_inj _ _ hidx
      subst hkk
      rw [u6] at v6
      cases v6
      have hr2 : replaceThreeWayLoop fuel f s e t ((d + 1 : Nat) : Int) = .ok r := by
        push_cast; exact hr
      obtain ⟨i1, i2, i3⟩ := ih (d + 1) (by push_cast; omega) (by push_cast; omega)
        ⟨Cs, u2, v2⟩ r hr2
      obtain ⟨k1, k2, k3, k4⟩ := close_size T os node r hn g5 i1 i2
      obtain ⟨a1, a2⟩ := appendNode_size T content node hc k1
      obtain ⟨t1, t2, t3, _⟩ := hD _ a1 h
      refine ⟨t1, t2, ?_⟩
      rw [t3 hlt, a2, k4 g7 g8, i3]
      push_cast
      rw [u9, v9]
      ring
    unfold replaceThreeWayLoop at h
    try dsimp only at h
    by_cases hf : f.Depth > (d : Int)
    · rw [if_pos hf] at h
      obtain ⟨os, hos, h⟩ := bind_ok _ _ _ h
      have h := pure_bind_ok _ _ _ h
      try dsimp only at h
      by_cases ht : t.Depth > (d : Int)
      · rw [if_pos ht] at h
        obtain ⟨oe, hoe, h⟩ := bind_ok _ _ _ h
        have h := pure_bind_ok _ _ _ h
        try dsimp only at h
        obtain ⟨c1, h1, h⟩ := bind_ok _ _ _ h
        obtain ⟨w1, w2, w3⟩ := h1sz c1 h1
        try dsimp only at h
        obtain ⟨si, hsi, h⟩ := bind_ok _ _ _ h
        obtain ⟨ei, hei, h⟩ := bind_ok _ _ _ h
        have h := pure_bind_ok _ _ _ h
        try dsimp only at h
        have hsi2 := path_index_get s (d : Int) si (by omega) hsi
        have hei2 := path_index_get e (d : Int) ei (by omega) hei
        simp only [Int.toNat_ofNat] at hsi2 hei2
        by_cases hse : si = ei
        · simp only [hse, decide_True] at h
          obtain ⟨t1, t2, t3⟩ := hthin os oe c1 hf ht (by rw [hsi2, hei2, hse]) hos w1 h
          refine ⟨t1, t2, ?_⟩
          rw [t3, w2 hf]
          ring
        · simp only [hse, decide_False] at h
          obtain ⟨r, hr, h⟩ := bind_ok _ _ _ h
          obtain ⟨node, hn, h⟩ := bind_ok _ _ _ h
          have h := pure_bind_ok _ _ _ h
          try dsimp only at h
          obtain ⟨x1, x2⟩ := hA os c1 r node hf hos w1 hr hn
          obtain ⟨c3, h3, h⟩ := bind_ok _ _ _ h
          obtain ⟨y1, y2⟩ := hB _ c3 x1 (fun _ _ => by
            rw [hsi2, hei2]
            intro hcon
            cases hcon
            exact hse rfl) h3
          obtain ⟨r2, hr2, h⟩ := bind_ok _ _ _ h
          obtain ⟨node2, hn2, h⟩ := bind_ok _ _ _ h
          have h := pure_bind_ok _ _ _ h
          try dsimp only at h
          obtain ⟨z1, z2⟩ := hC oe c3 r2 node2 ht hoe y1 hr2 hn2
          obtain ⟨t1, t2, t3, _⟩ := hD _ z1 h
          refine ⟨t1, t2, ?_⟩
          rw [t3 ht, z2, y2, x2, w2 hf, if_pos (by omega), if_pos (by omega)]
          ring
      · rw [if_neg ht] at h
        have h := pure_bind_ok _ _ _ h
        try dsimp only at h
        obtain ⟨c1, h1, h⟩ := bind_ok _ _ _ h
        obtain ⟨w1, w2, w3⟩ := h1sz c1 h1
        try dsimp only at h
        have h := pure_bind_ok _ _ _ h
        try dsimp only at h
        try dsimp only at h
        obtain ⟨r, hr, h⟩ := bind_ok _ _ _ h
        obtain ⟨node, hn, h⟩ := bind_ok _ _ _ h
        have h := pure_bind_ok _ _ _ h
        try dsimp only at h
        obtain ⟨x1, x2⟩ := hA os c1 r node hf hos w1 hr hn
        obtain ⟨c3, h3, h⟩ := bind_ok _ _ _ h
        obtain ⟨y1, y2⟩ := hB _ c3 x1 (fun _ hlt => by omega) h3
        have h := pure_bind_ok _ _ _ h
        try dsimp only at h
        obtain ⟨t1, t2, _, t4⟩ := hD _ y1 h
        refine ⟨t1, t2, ?_⟩
        rw [t4 (by omega), y2, x2, w2 hf, if_neg (by omega), if_pos (by omega)]
        ring
    · rw [if_neg hf] at h
      have h := pure_bind_ok _ _ _ h
      try dsimp only at h
      by_cases ht : t.Depth > (d : Int)
      · rw [if_pos ht] at h
        obtain ⟨oe, hoe, h⟩ := bind_ok _ _ _ h
        have h := pure_bind_ok _ _ _ h
        try dsimp only at h
        obtain ⟨c1, h1, h⟩ := bind_ok _ _ _ h
        obtain ⟨w1, w2, w3⟩ := h1sz c1 h1
        try dsimp only at h
        have h := pure_bind_ok _ _ _ h
        try dsimp only at h
        try dsimp only at h
        have h := pure_bind_ok _ _ _ h
        try dsimp only at h
        obtain ⟨c3, h3, h⟩ := bind_ok _ _ _ h
        obtain ⟨y1, y2⟩ := hB _ c3 w1 (fun hlt _ => by omega) h3
        obtain ⟨r2, hr2, h⟩ := bind_ok _ _ _ h
        obtain ⟨node2, hn2, h⟩ := bind_ok _ _ _ h
        have h := pure_bind_ok _ _ _ h
        try dsimp only at h
        obtain ⟨z1, z2⟩ := hC oe c3 r2 node2 ht hoe y1 hr2 hn2
        obtain ⟨t1, t2, t3, _⟩ := hD _ z1 h
        refine ⟨t1, t2, ?_⟩
        rw [t3 ht, z2, y2, w3 (by omega), if_pos (by omega), if_neg (by omega)]
        ring
      · rw [if_neg ht] at h
        have h := pure_bind_ok _ _ _ h
        try dsimp only at h
        obtain ⟨c1, h1, h⟩ := bind_ok _ _ _ h
        obtain ⟨w1, w2, w3⟩ := h1sz c1 h1
        try dsimp only at h
        have h := pure_bind_ok _ _ _ h
        try dsimp only at h
        try dsimp only at h
        have h := pure_bind_ok _ _ _ h
        try dsimp only at h
        obtain ⟨c3, h3, h⟩ := bind_ok _ _ _ h
        obtain ⟨y1, y2⟩ := hB _ c3 w1 (fun hlt _ => by omega) h3
        have h := pure_bind_ok _ _ _ h
        try dsimp only at h
        obtain ⟨t1, t2, _, t4⟩ := hD _ y1 h
        refine ⟨t1, t2, ?_⟩
        rw [t4 (by omega), y2, w3 (by omega), if_neg (by omega), if_neg (by omega)]
        ring

/-! ## The size law of `replace`: positions at the open ends of a fragment -/

/-- The size of a list of nodes of sizes that are not negative is at least the size of its
first and at least the size of its last node. -/
theorem totalSize_ge_head (cs : List Node) (hnn : ∀ c ∈ cs, 0 ≤ c.NodeSize) (c : Node)
    (h : cs.head? = some c) : c.NodeSize ≤ totalSize cs := by
  cases cs with
  | nil => cases h
  | cons x rest =>
    simp only [List.head?_cons, Option.some.injEq] at h
    subst h
    have : 0 ≤ totalSize rest := by
      unfold totalSize
      apply List.sum_nonneg
      intro y hy
      obtain ⟨z, hz, rfl⟩ := List.mem_map.mp hy
      exact hnn z (List.mem_cons_of_mem _ hz)
    rw [totalSize_cons]
    omega

/-- A fragment open to depth `k` at its start has size at least `2 * k`. -/
theorem openAtStart_size (k : Nat) : ∀ f : Fragment, f.WellSized = true →
    openAtStart k f = true → 2 * (k : Int) ≤ f.Size := by
  induction k with
  | zero =>
    intro f hw _
    have := fragmentSize_nonneg f hw
    simpa using this
  | succ k ih =>
    intro f hw ho
    unfold openAtStart at ho
    cases hh : f.Content.head? with
    | none => rw [hh] at ho; cases ho
    | some c =>
      rw [hh] at ho
      simp only [Bool.and_eq_true, Bool.not_eq_true', ] at ho
      obtain ⟨⟨hct, hcl⟩, hco⟩ := ho
      have hmem : c ∈ f.Content := List.mem_of_mem_head? hh
      have hcw := wellSized_mem f c hw hmem
      have hc2 := ih c.Content hcw hco
      have hsz := nodeSize_composite c hct hcl
      have hge := totalSize_ge_head f.Content
        (fun x hx => childSize_nonneg f hw x hx) c hh
      have hfs : f.Size = totalSize f.Content := wellSized_sizeOk f hw
      push_cast
      omega

/-- A fragment open to depth `k` at its end has size at least `2 * k`. -/
theorem openAtEnd_size (k : Nat) : ∀ f : Fragment, f.WellSized = true →
    openAtEnd k f = true → 2 * (k : Int) ≤ f.Size := by
  induction k with
  | zero =>
    intro f hw _
    have := fragmentSize_nonneg f hw
    simpa using this
  | succ k ih =>
    intro f hw ho
    unfold openAtEnd at ho
    cases hh : f.Content.getLast? with
    | none => rw [hh] at ho; cases ho
    | some c =>
      rw [hh] at ho
      simp only [Bool.and_eq_true, Bool.not_eq_true', ] at ho
      obtain ⟨⟨hct, hcl⟩, hco⟩ := ho
      have hmem : c ∈ f.Content := List.mem_of_mem_getLast? hh
      have hcw := wellSized_mem f c hw hmem
      have hc2 := ih c.Content hcw hco
      have hsz := nodeSize_composite c hct hcl
      have hnn : ∀ x ∈ f.Content, 0 ≤ x.NodeSize := fun x hx => childSize_nonneg f hw x hx
      have hfs : f.Size = totalSize f.Content := wellSized_sizeOk f hw
      have hsplit : f.Content = f.Content.dropLast ++ [c] :=
        (List.dropLast_append_getLast? c hh).symm
      have hge : c.NodeSize ≤ totalSize f.Content := by
        have h0 : 0 ≤ totalSize f.Content.dropLast := by
          unfold totalSize
          apply List.sum_nonneg
          intro y hy
          obtain ⟨z, hz, rfl⟩ := List.mem_map.mp hy
          exact hnn z (List.mem_of_mem_dropLast hz)
        have h1 : totalSize f.Content = totalSize f.Content.dropLast + c.NodeSize := by
          conv_lhs => rw [hsplit]
          simp [totalSize]
        omega
      push_cast
      omega

/-- A walk to position `k` in content that is open to depth `k` at its start steps into `k`
nodes. -/
theorem walk_open_start (k : Nat) : ∀ (node : Node) (po start : Int) (nodes : List Node)
    (idxs offs : List Int) (fpo : Int), Walk node po start nodes idxs offs fpo →
    node.Content.WellSized = true → openAtStart k node.Content = true → po = (k : Int) →
    nodes.length = k := by
  induction k with
  | zero =>
    intro node po start nodes idxs offs fpo hw hws _ hpo
    cases hw with
    | stop => rfl
    | step _ _ _ i off c nodes2 idxs2 offs2 _ hfi hrem hc htx hrest =>
      exfalso
      rw [hpo] at hfi
      unfold Fragment.findIndex at hfi
      simp only [Nat.cast_zero, if_true] at hfi
      cases hfi
      apply hrem
      rw [hpo]
      simp
  | succ k ih =>
    intro node po start nodes idxs offs fpo hw hws ho hpo
    have ho2 := ho
    unfold openAtStart at ho
    cases hh : node.Content.Content.head? with
    | none => rw [hh] at ho; cases ho
    | some c =>
      rw [hh] at ho
      simp only [Bool.and_eq_true, Bool.not_eq_true'] at ho
      obtain ⟨⟨hct, hcl⟩, hco⟩ := ho
      have hmem : c ∈ node.Content.Content := List.mem_of_mem_head? hh
      have hcw := wellSized_mem node.Content c hws hmem
      have hcsz := openAtStart_size k c.Content hcw hco
      have hsz := nodeSize_composite c hct hcl
      have hnn : ∀ x ∈ node.Content.Content, 0 ≤ x.NodeSize :=
        fun x hx => childSize_nonneg node.Content hws x hx
      have hget0 : node.Content.Content.get? 0 = some c := by
        cases hcc : node.Content.Content with
        | nil => rw [hcc] at hh; cases hh
        | cons x rest =>
          rw [hcc] at hh
          simpa using hh
      have hfsz := openAtStart_size (k + 1) node.Content hws ho2
      obtain ⟨i, off, hfi, hil, hoff, hcase⟩ := findIndex_spec node.Content po
        (wellSized_sizeOk _ hws) (by omega) (by push_cast at hfsz; omega)
      have hp1 : prefixSize node.Content.Content 1 = c.NodeSize := by
        rw [prefixSize_succ _ 0 c hget0, prefixSize_zero]
        ring
      have hi0 : i = 0 := by
        by_contra hne
        have hm := prefixSize_mono _ hnn 1 i (by omega)
        rcases hcase with h | ⟨c2, _, h, _⟩ <;> omega
      subst hi0
      rw [prefixSize_zero] at hoff
      subst hoff
      have hchild : node.Child ((0 : Nat) : Int) = .ok c := by
        unfold Node.Child Fragment.Child
        exact goIndex_natCast _ _ _ hget0
      cases hw with
      | stop _ _ _ i2 off2 hfi2 htext =>
        exfalso
        rw [hfi] at hfi2
        cases hfi2
        obtain ⟨c2, hc2, hc2t⟩ := htext (by omega)
        rw [hchild] at hc2
        cases hc2
        rw [hct] at hc2t
        cases hc2t
      | step _ _ _ i2 off2 c2 nodes2 idxs2 offs2 _ hfi2 hrem hc2 htx hrest =>
        rw [hfi] at hfi2
        cases hfi2
        rw [hchild] at hc2
        cases hc2
        have := ih c (po - 0 - 1) (start + 0 + 1) nodes2 idxs2 offs2 fpo hrest hcw hco
          (by omega)
        simp [this]

/-- A walk to the position `k` before the end of content that is open to depth `k` at its
end steps into `k` nodes. -/
theorem walk_open_end (k : Nat) : ∀ (node : Node) (po start : Int) (nodes : List Node)
    (idxs offs : List Int) (fpo : Int), Walk node po start nodes idxs offs fpo →
    node.Content.WellSized = true → openAtEnd k node.Content = true →
    po = node.Content.Size - (k : Int) → nodes.length = k := by
  induction k with
  | zero =>
    intro node po start nodes idxs offs fpo hw hws _ hpo
    cases hw with
    | stop => rfl
    | step _ _ _ i off c nodes2 idxs2 offs2 _ hfi hrem hc htx hrest =>
      exfalso
      have hs0 := fragmentSize_nonneg _ hws
      obtain ⟨i2, off2, hfi2, hil, hoff, hcase⟩ := findIndex_spec node.Content po
        (wellSized_sizeOk _ hws) (by simp at hpo; omega) (by simp at hpo; omega)
      rw [hfi] at hfi2
      have hoo : off = off2 := by cases hfi2; rfl
      subst hoo
      have hnn : ∀ x ∈ node.Content.Content, 0 ≤ x.NodeSize :=
        fun x hx => childSize_nonneg node.Content hws x hx
      rcases hcase with h | ⟨c2, hc2, h1, h2⟩
      · omega
      · have hsucc := prefixSize_succ _ i2 c2 hc2
        have hle := prefixSize_le_total _ hnn (i2 + 1)
        have hfs : node.Content.Size = (node.Content.Content.map Node.NodeSize).sum :=
          wellSized_sizeOk _ hws
        simp at hpo
        omega
  | succ k ih =>
    intro node po start nodes idxs offs fpo hw hws ho hpo
    have ho2 := ho
    unfold openAtEnd at ho
    cases hh : node.Content.Content.getLast? with
    | none => rw [hh] at ho; cases ho
    | some c =>
      rw [hh] at ho
      simp only [Bool.and_eq_true, Bool.not_eq_true'] at ho
      obtain ⟨⟨hct, hcl⟩, hco⟩ := ho
      have hmem : c ∈ node.Content.Content := List.mem_of_mem_getLast? hh
      have hcw := wellSized_mem node.Content c hws hmem
      have hcsz := openAtEnd_size k c.Content hcw hco
      have hsz := nodeSize_composite c hct hcl
      have hnn : ∀ x ∈ node.Content.Content, 0 ≤ x.NodeSize :=
        fun x hx => childSize_nonneg node.Content hws x hx
      have hfs : node.Content.Size = (node.Content.Content.map Node.NodeSize).sum :=
        wellSized_sizeOk _ hws
      have hne : node.Content.Content ≠ [] := by
        intro h
        rw [h] at hh
        cases hh
      have hlen : 0 < node.Content.Content.length := List.length_pos.mpr hne
      have hgetL : node.Content.Content.get? (node.Content.Content.length - 1) = some c := by
        rw [List.getLast?_eq_getElem?, ← List.get?_eq_getElem?] at hh
        exact hh
      have hpl := prefixSize_succ _ (node.Content.Content.length - 1) c hgetL
      have hlast : node.Content.Content.length - 1 + 1 = node.Content.Content.length := by omega
      rw [hlast, prefixSize_length] at hpl
      have hfsz := openAtEnd_size (k + 1) node.Content hws ho2
      push_cast at hfsz hpo
      obtain ⟨i, off, hfi, hil, hoff, hcase⟩ := findIndex_spec node.Content po
        (wellSized_sizeOk _ hws) (by omega) (by omega)
      have hiL : i = node.Content.Content.length - 1 := by
        by_contra hne2
        rcases Nat.lt_or_ge i (node.Content.Content.length - 1) with hlt | hge
        · have hm := prefixSize_mono _ hnn (i + 1) (node.Content.Content.length - 1) (by omega)
          have hm2 := prefixSize_mono _ hnn i (node.Content.Content.length - 1) (by omega)
          rcases hcase with h | ⟨c2, hc2, h1, h2⟩
          · omega
          · have hsucc := prefixSize_succ _ i c2 hc2
            omega
        · have hiL2 : i = node.Content.Content.length := by omega
          rw [hiL2, prefixSize_length] at hoff
          rcases hcase with h | ⟨c2, hc2, h1, h2⟩
          · omega
          · rw [hiL2, List.get?_eq_none.mpr (le_refl _)] at hc2
            cases hc2
      subst hiL
      have hchild : node.Child ((node.Content.Content.length - 1 : Nat) : Int) = .ok c := by
        unfold Node.Child Fragment.Child
        exact goIndex_natCast _ _ _ hgetL
      cases hw with
      | stop _ _ _ i2 off2 hfi2 htext =>
        exfalso
        rw [hfi] at hfi2
        cases hfi2
        obtain ⟨c2, hc2, hc2t⟩ := htext (by omega)
        rw [hchild] at hc2
        cases hc2
        rw [hct] at hc2t
        cases hc2t
      | step _ _ _ i2 off2 c2 nodes2 idxs2 offs2 _ hfi2 hrem hc2 htx hrest =>
        rw [hfi] at hfi2
        cases hfi2
        rw [hchild] at hc2
        cases hc2
        have := ih c (po - off - 1) (start + off + 1) nodes2 idxs2 offs2 fpo hrest hcw hco
          (by omega)
        simp [this]

/-! ## The size law of `replace`: the positions `prepareSliceForReplace` resolves -/

/-- The size before a position at depth 0 is the position. -/
theorem before_zero (r : ResolvedPos) : r.before ((0 : Nat) : Int) = r.Pos := by
  unfold ResolvedPos.before ResolvedPos.startOf
  simp

/-- A position as deep as it is far from the start of the document has, at every depth,
only the openings of the nodes it is inside of before it. -/
theorem before_exact (T : String → NodeType) (r : ResolvedPos) (root : Node)
    (ht : r.Traces root) (htidy : root.Tidy T) (hPD : r.Pos = r.Depth) :
    ∀ x : Nat, (x : Int) ≤ r.Depth → r.before (x : Int) = r.Depth - x := by
  have hup : ∀ x : Nat, (x : Int) ≤ r.Depth → r.before (x : Int) ≤ r.Pos - x := by
    intro x
    induction x with
    | zero =>
      intro _
      rw [before_zero]
      simp
    | succ x ih =>
      intro hx
      obtain ⟨N, C, k, g1, g2, g3, g4, g5, g6, g7, g8, g9, g10, g11, g12, g13⟩ :=
        level_inner T r root ht htidy x (by push_cast at hx; omega)
      have := ih (by push_cast at hx; omega)
      push_cast
      omega
  have hdown : ∀ n x : Nat, (x : Int) + n = r.Depth → r.Depth - x ≤ r.before (x : Int) := by
    intro n
    induction n with
    | zero =>
      intro x hx
      obtain ⟨D, N, k, o, l1, l2, l3, l4, l5, l6, l7, l8, l9, l10, l11, l12⟩ :=
        level_last T r root ht htidy
      have hxD : x = D := by push_cast at hx; omega
      subst hxD
      omega
    | succ n ih =>
      intro x hx
      obtain ⟨N, C, k, g1, g2, g3, g4, g5, g6, g7, g8, g9, g10, g11, g12, g13⟩ :=
        level_inner T r root ht htidy x (by push_cast at hx; omega)
      have := ih (x + 1) (by push_cast at hx ⊢; omega)
      push_cast at this
      omega
  intro x hx
  have h1 := hup x hx
  obtain ⟨n, hn⟩ : ∃ n : Nat, (x : Int) + n = r.Depth := ⟨(r.Depth - x).toNat, by omega⟩
  have h2 := hdown n x hn
  omega

/-- A position as deep as it is far from the end of the document has, at every depth, only
the closings of the nodes it is inside of after it. -/
theorem after_exact (T : String → NodeType) (r : ResolvedPos) (root : Node)
    (ht : r.Traces root) (htidy : root.Tidy T)
    (hPD : root.Content.Size - r.Pos = r.Depth) :
    ∀ x : Nat, (x : Int) ≤ r.Depth → r.after (x : Int) = r.Depth - x := by
  have hroot : r.NodePath.get? 0 = some root := by
    obtain ⟨nodes, idxs, offs, hN, _⟩ := ht
    rw [hN]
    rfl
  have hup : ∀ x : Nat, (x : Int) ≤ r.Depth →
      r.after (x : Int) ≤ root.Content.Size - r.Pos - x := by
    intro x
    induction x with
    | zero =>
      intro _
      rw [after_eq r 0 root hroot, before_zero]
      simp
    | succ x ih =>
      intro hx
      obtain ⟨N, C, k, g1, g2, g3, g4, g5, g6, g7, g8, g9, g10, g11, g12, g13⟩ :=
        level_inner T r root ht htidy x (by push_cast at hx; omega)
      have := ih (by push_cast at hx; omega)
      have ha1 := after_eq r x N g1
      have ha2 := after_eq r (x + 1) C g2
      have hsucc := prefixSize_succ _ k C g6
      have hcs := nodeSize_composite C g7 g8
      push_cast at ha2 ⊢
      omega
  have hdown : ∀ n x : Nat, (x : Int) + n = r.Depth → r.Depth - x ≤ r.after (x : Int) := by
    intro n
    induction n with
    | zero =>
      intro x hx
      obtain ⟨D, N, k, o, l1, l2, l3, l4, l5, l6, l7, l8, l9, l10, l11, l12⟩ :=
        level_last T r root ht htidy
      have hxD : x = D := by push_cast at hx; omega
      subst hxD
      have ha1 := after_eq r x N l2
      omega
    | succ n ih =>
      intro x hx
      obtain ⟨N, C, k, g1, g2, g3, g4, g5, g6, g7, g8, g9, g10, g11, g12, g13⟩ :=
        level_inner T r root ht htidy x (by push_cast at hx; omega)
      have := ih (x + 1) (by push_cast at hx ⊢; omega)
      have ha1 := after_eq r x N g1
      have ha2 := after_eq r (x + 1) C g2
      have hsucc := prefixSize_succ _ k C g6
      have hcs := nodeSize_composite C g7 g8
      push_cast at this ha2
      omega
  intro x hx
  have h1 := hup x hx
  obtain ⟨n, hn⟩ : ∃ n : Nat, (x : Int) + n = r.Depth := ⟨(r.Depth - x).toNat, by omega⟩
  have h2 := hdown n x hn
  omega

/-- The node `prepareSliceForReplace` builds by wrapping `inner` in copies of `k` nodes of
the path of `along`: it is tidy, its content is open as deep as the content of `inner` and
`k` more, it is `2 * k` larger, and the path of every position in it goes through the same
node at every depth up to `k`, where it reaches `inner`. -/
theorem wrap_facts (T : String → NodeType) (along : ResolvedPos) (k : Nat) :
    ∀ (inner root : Node), wrapLoop along k ((k : Int) - 1) inner = .ok root →
    (∀ i : Nat, 1 ≤ i → ∀ n, along.Node (i : Int) = .ok n →
      n.IsText = false ∧ n.IsLeaf = false) →
    (∀ (i : Nat) n, along.Node (i : Int) = .ok n → n.Tidy T) →
    (1 ≤ k → inner.IsText = false ∧ inner.IsLeaf = false) → inner.Tidy T →
    root.Tidy T ∧
    (∀ m : Nat, openAtStart m inner.Content = true → openAtStart (k + m) root.Content = true) ∧
    (∀ m : Nat, openAtEnd m inner.Content = true → openAtEnd (k + m) root.Content = true) ∧
    root.Content.Size = 2 * (k : Int) + inner.Content.Size ∧
    ∃ W : Nat → Node, ∀ r : ResolvedPos, r.Traces root → ∀ d : Nat, d ≤ k →
      (d : Int) ≤ r.Depth → r.NodePath.get? d = some (W d) ∧
        (W d).Content.Size = inner.Content.Size + 2 * ((k : Int) - d) ∧ W k = inner := by
  induction k with
  | zero =>
    intro inner root hwrap _ _ _ hin
    unfold wrapLoop at hwrap
    cases hwrap
    refine ⟨hin, fun m h => by simpa using h, fun m h => by simpa using h, by simp,
      fun _ => inner, ?_⟩
    intro r ht d hd _
    have hd0 : d = 0 := by omega
    subst hd0
    obtain ⟨nodes, idxs, offs, hN, _⟩ := ht
    refine ⟨by rw [hN]; rfl, by simp, rfl⟩
  | succ k ih =>
    intro inner root hwrap hcomp htid hinner hin
    unfold wrapLoop at hwrap
    have hk0 : ((k + 1 : Nat) : Int) - 1 ≥ 0 := by omega
    rw [if_pos hk0] at hwrap
    obtain ⟨a, ha, hwrap⟩ := bind_ok _ _ _ hwrap
    have hkk : ((k + 1 : Nat) : Int) - 1 = (k : Int) := by omega
    rw [hkk] at ha hwrap
    obtain ⟨hit, hil⟩ := hinner (by omega)
    have hins : inner.NodeSize = 2 + inner.Content.Size := nodeSize_composite inner hit hil
    have hat := htid k a ha
    have hmidT : (a.copy (NewFragment [inner])).Tidy T := by
      have hl := tidy_local T a hat
      cases a with
      | mk typ attrs marks text content =>
        rw [tidy_iff]
        refine ⟨⟨hl.1, hl.2.1, ?_⟩, ?_⟩
        · exact (newFragment_size [inner]).1
        · intro c hc
          have : c = inner := by
            simpa [Node.copy, Node.Content, NewFragment, Fragment.Content] using hc
          rw [this]
          exact hin
    have hmidC : (a.copy (NewFragment [inner])).Content = NewFragment [inner] := by
      cases a; rfl
    have hmidS : (a.copy (NewFragment [inner])).Content.Size = 2 + inner.Content.Size := by
      rw [hmidC, (newFragment_size [inner]).2.1]
      simp [totalSize, hins]
    have hmidL : (a.copy (NewFragment [inner])).Content.Content = [inner] := by
      rw [hmidC, (newFragment_size [inner]).2.2]
    have hmidK : 1 ≤ k → (a.copy (NewFragment [inner])).IsText = false ∧
        (a.copy (NewFragment [inner])).IsLeaf = false := by
      intro hk1
      have := hcomp k hk1 a ha
      cases a
      exact this
    obtain ⟨r1, r2, r3, r4, W, r5⟩ :=
      ih (a.copy (NewFragment [inner])) root hwrap hcomp htid hmidK hmidT
    refine ⟨r1, ?_, ?_, ?_, ?_⟩
    · intro m hm
      have := r2 (m + 1) (by
        unfold openAtStart
        rw [hmidL]
        simp [hit, hil, hm])
      have e : k + 1 + m = k + (m + 1) := by omega
      rw [e]
      exact this
    · intro m hm
      have := r3 (m + 1) (by
        unfold openAtEnd
        rw [hmidL]
        simp [hit, hil, hm])
      have e : k + 1 + m = k + (m + 1) := by omega
      rw [e]
      exact this
    · rw [r4, hmidS]
      push_cast
      ring
    · refine ⟨fun d => if d ≤ k then W d else inner, ?_⟩
      intro r ht d hd hdr
      by_cases hdk : d ≤ k
      · obtain ⟨w1, w2, w3⟩ := r5 r ht d hdk hdr
        simp only [hdk, if_true]
        refine ⟨w1, ?_, by simp⟩
        rw [w2, hmidS]
        push_cast
        ring
      · have hdk1 : d = k + 1 := by omega
        subst hdk1
        obtain ⟨w1, w2, w3⟩ := r5 r ht k (le_refl _) (by push_cast at hdr; omega)
        obtain ⟨N, C, kk, g1, g2, g3, g4, g5, g6, _⟩ :=
          level_inner T r root ht r1 k (by push_cast at hdr; omega)
        rw [w1, w3] at g1
        cases g1
        rw [hmidL] at g6
        have hC : C = inner := by
          cases kk with
          | zero => simpa using g6.symm
          | succ j => simp at g6
        subst hC
        simp only [show ¬ (k + 1 ≤ k) by omega, if_false]
        exact ⟨g2, by push_cast; ring, trivial⟩

/-- A successful `orPanic` passes on a successful call. -/
theorem orPanic_ok {α : Type} (x : Except Err α) (a : α) (h : orPanic x = .ok a) :
    x = .ok a := by
  cases x with
  | error e => cases e <;> cases h
  | ok v => cases h; rfl

/-- The two positions `prepareSliceForReplace` returns for a slice whose open depths count
nodes of its content: they are positions in one tidy node, as deep as the positions of the
replaced range, with only openings before the first and only closings after the second,
and down to the depth at which the slice is inserted their paths share their nodes, with
the content of the slice less its open depths between them. -/
theorem prepareSlice_size (T : String → NodeType) (slice : Slice)
    (along start end_ : ResolvedPos) (doc : Node) (hta : along.Traces doc)
    (hdoc : doc.Tidy T) (hst : ∀ c ∈ slice.Content.Content, c.Tidy T)
    (hssz : slice.Content.SizeOk) (hop : slice.OpenOk)
    (hx : slice.OpenStart ≤ along.Depth)
    (h : prepareSliceForReplace slice along = .ok (start, end_)) :
    ∃ root : Node, root.Tidy T ∧ start.Traces root ∧ end_.Traces root ∧
      start.Depth = along.Depth ∧
      end_.Depth = slice.OpenEnd + (along.Depth - slice.OpenStart) ∧
      (∀ x : Nat, (x : Int) ≤ start.Depth → start.before (x : Int) = start.Depth - x) ∧
      (∀ x : Nat, (x : Int) ≤ end_.Depth → end_.after (x : Int) = end_.Depth - x) ∧
      ∀ d : Nat, (d : Int) ≤ along.Depth - slice.OpenStart →
        (∃ N, start.NodePath.get? d = some N ∧ end_.NodePath.get? d = some N) ∧
        end_.before (d : Int) - start.before (d : Int) =
          slice.Content.Size - slice.OpenStart - slice.OpenEnd := by
  obtain ⟨hos0, hoe0, hos, hoe⟩ := hop
  unfold prepareSliceForReplace at h
  dsimp only at h
  obtain ⟨parent, hp, h⟩ := bind_ok _ _ _ h
  obtain ⟨root, hroot, h⟩ := bind_ok _ _ _ h
  obtain ⟨s, hs, h⟩ := bind_ok _ _ _ h
  obtain ⟨e, he, h⟩ := bind_ok _ _ _ h
  have hse : s = start ∧ e = end_ := by cases h; exact ⟨rfl, rfl⟩
  rw [hse.1] at hs
  rw [hse.2] at he
  obtain ⟨k, hk⟩ : ∃ k : Nat, along.Depth - slice.OpenStart = (k : Int) :=
    ⟨(along.Depth - slice.OpenStart).toNat, by omega⟩
  obtain ⟨ms, hms⟩ : ∃ m : Nat, slice.OpenStart = (m : Int) := ⟨slice.OpenStart.toNat, by omega⟩
  obtain ⟨me, hme⟩ : ∃ m : Nat, slice.OpenEnd = (m : Int) := ⟨slice.OpenEnd.toNat, by omega⟩
  rw [hk] at hp hroot hs he ⊢
  rw [hms] at hos hs
  rw [hme] at hoe he
  simp only [Int.toNat_ofNat] at hroot hos hoe
  have hnode_get : ∀ (i : Nat) n, along.Node (i : Int) = .ok n →
      along.NodePath.get? i = some n := by
    intro i n hn
    have := path_node_get along (i : Int) n (by omega) hn
    simpa using this
  have htid : ∀ (i : Nat) n, along.Node (i : Int) = .ok n → n.Tidy T :=
    fun i n hn => path_node_tidy T along doc hta hdoc i n (hnode_get i n hn)
  have hcomp : ∀ i : Nat, 1 ≤ i → ∀ n, along.Node (i : Int) = .ok n →
      n.IsText = false ∧ n.IsLeaf = false := by
    intro i hi n hn
    have hdep := path_node_depth along doc hta (i : Int) (by omega) n hn
    obtain ⟨j, hj⟩ : ∃ j, i = j + 1 := ⟨i - 1, by omega⟩
    subst hj
    obtain ⟨N, C, kk, g1, g2, g3, g4, g5, g6, g7, g8, _⟩ :=
      level_inner T along doc hta hdoc j (by push_cast at hdep; omega)
    rw [hnode_get (j + 1) n hn] at g2
    cases g2
    exact ⟨g7, g8⟩
  have hpt := htid k parent hp
  have hinnerT : (parent.copy slice.Content).Tidy T := by
    have hl := tidy_local T parent hpt
    cases parent with
    | mk typ attrs marks text content =>
      rw [tidy_iff]
      exact ⟨⟨hl.1, hl.2.1, hssz⟩, hst⟩
  have hinnerC : (parent.copy slice.Content).Content = slice.Content := by
    cases parent; rfl
  have hinnerK : 1 ≤ k → (parent.copy slice.Content).IsText = false ∧
      (parent.copy slice.Content).IsLeaf = false := by
    intro hk1
    have := hcomp k hk1 parent hp
    cases parent
    exact this
  obtain ⟨r1, r2, r3, r4, W, r5⟩ := wrap_facts T along k (parent.copy slice.Content) root
    hroot hcomp htid hinnerK hinnerT
  rw [hinnerC] at r2 r3 r4 r5
  have hrw := tidy_wellSized T root r1
  have hsres := orPanic_ok _ _ hs
  have heres := orPanic_ok _ _ he
  obtain ⟨nodesS, idxsS, offsS, hwS, hNS, hIS, hOS, hPS, hDS, _, _⟩ :=
    resolve_walk root _ start hsres
  obtain ⟨nodesE, idxsE, offsE, hwE, hNE, hIE, hOE, hPE, hDE, _, _⟩ :=
    resolve_walk root _ end_ heres
  have hlenS := walk_open_start (k + ms) root _ 0 nodesS idxsS offsS _ hwS hrw (r2 ms hos)
    (by push_cast; ring)
  have hlenE := walk_open_end (k + me) root _ 0 nodesE idxsE offsE _ hwE hrw (r3 me hoe)
    (by push_cast; ring)
  have htS := traces_of_resolve root _ start hsres
  have htE := traces_of_resolve root _ end_ heres
  have hdS : start.Depth = (k : Int) + ms := by rw [hDS, hlenS]; push_cast; ring
  have hdE : end_.Depth = (k : Int) + me := by rw [hDE, hlenE]; push_cast; ring
  have hbS := before_exact T start root htS r1 (by rw [hPS, hdS]; ring)
  have haE := after_exact T end_ root htE r1 (by rw [hPE, hdE]; ring)
  refine ⟨root, r1, htS, htE, by omega, by omega, hbS, haE, ?_⟩
  intro d hd
  obtain ⟨w1, w2, _⟩ := r5 start htS d (by omega) (by omega)
  obtain ⟨v1, _, _⟩ := r5 end_ htE d (by omega) (by omega)
  refine ⟨⟨W d, w1, v1⟩, ?_⟩
  have h1 := hbS d (by omega)
  have h2 := haE d (by omega)
  have h3 := after_eq end_ d (W d) v1
  omega

/-! ## The size law of `replace`: cuts and `append` -/

/-- A tidy node has a size that is not negative. -/
theorem tidy_size_nonneg (T : String → NodeType) (c : Node) (h : c.Tidy T) :
    0 ≤ c.NodeSize := by
  unfold Node.NodeSize
  split
  · exact utf16Len_nonneg _
  · split
    · omega
    · have := fragmentSize_nonneg _ (tidy_wellSized T c h)
      omega

/-- The loop of `cut` keeps what lies between the two cut points, when both fall on
boundaries or inside text. -/
theorem cutLoop_size (T : String → NodeType) (cs : List Node) (pos from_ to_ : Int)
    (res : List Node × Int) (hv : ∀ n ∈ cs, n.Tidy T)
    (hf : AtomicAt cs (from_ - pos)) (ht : AtomicAt cs (to_ - pos))
    (hft : from_ ≤ to_) (hto : to_ ≤ pos + totalSize cs)
    (h : cutLoop cs pos from_ to_ = .ok res) :
    (∀ n ∈ res.1, n.Tidy T) ∧ res.2 = totalSize res.1 ∧
      res.2 = (if pos < to_ then to_ - max from_ pos else 0) := by
  induction cs generalizing pos res with
  | nil =>
    unfold cutLoop at h
    split at h
    · cases h
    · rename_i hlt
      cases h
      simp [totalSize, hlt]
  | cons child rest ih =>
    have hrest : ∀ n ∈ rest, n.Tidy T := fun n hn => hv n (List.mem_cons_of_mem _ hn)
    have hchild : child.Tidy T := hv child (List.mem_cons_self _ _)
    have hcnn := tidy_size_nonneg T child hchild
    have hf2 : AtomicAt rest (from_ - (pos + child.NodeSize)) := by
      have := atomicAt_tail child rest _ hf
      have e : from_ - pos - child.NodeSize = from_ - (pos + child.NodeSize) := by ring
      rw [e] at this; exact this
    have ht2 : AtomicAt rest (to_ - (pos + child.NodeSize)) := by
      have := atomicAt_tail child rest _ ht
      have e : to_ - pos - child.NodeSize = to_ - (pos + child.NodeSize) := by ring
      rw [e] at this; exact this
    have hto2 : to_ ≤ pos + child.NodeSize + totalSize rest := by
      rw [totalSize_cons] at hto
      omega
    unfold cutLoop at h
    by_cases hlt : pos < to_
    · rw [if_pos hlt] at h
      dsimp only at h
      rw [if_pos hlt]
      by_cases hskip : pos + child.NodeSize ≤ from_
      · rw [if_pos hskip] at h
        obtain ⟨i1, i2, i3⟩ := ih _ _ hrest hf2 ht2 hto2 h
        refine ⟨i1, i2, ?_⟩
        rw [i3]
        split <;> omega
      · rw [if_neg hskip] at h
        have htailv : ∀ child2 : Node, child2.Tidy T →
            (do
              let d ← cutLoop rest (pos + child.NodeSize) from_ to_
              pure (child2 :: d.1, child2.NodeSize + d.2)) = Except.ok res →
            (∀ n ∈ res.1, n.Tidy T) ∧ res.2 = totalSize res.1 ∧
              res.2 = child2.NodeSize +
                (if pos + child.NodeSize < to_ then to_ - max from_ (pos + child.NodeSize)
                  else 0) := by
          intro child2 hc2v h
          obtain ⟨d, hr, h⟩ := bind_ok _ _ _ h
          have hres : res = (child2 :: d.1, child2.NodeSize + d.2) := by cases h; rfl
          obtain ⟨i1, i2, i3⟩ := ih _ _ hrest hf2 ht2 hto2 hr
          rw [hres]
          refine ⟨?_, ?_, ?_⟩
          · intro n hn
            rcases List.mem_cons.mp hn with hn | hn
            · rw [hn]; exact hc2v
            · exact i1 n hn
          · simp only [totalSize_cons]
            rw [i2]
          · simp only
            rw [i3]
        by_cases hcond : (decide (pos < from_) || decide (pos + child.NodeSize > to_)) = true
        · rw [if_pos hcond] at h
          have htext : child.IsText = true := by
            simp only [Bool.or_eq_true, decide_eq_true_eq] at hcond
            rcases hcond with hc | hc
            · exact hf 0 child rfl (by rw [prefixSize_zero]; omega)
                (by rw [prefixSize_succ_cons, prefixSize_zero]; omega)
            · exact ht 0 child rfl (by rw [prefixSize_zero]; omega)
                (by rw [prefixSize_succ_cons, prefixSize_zero]; omega)
          rw [if_pos htext] at h
          obtain ⟨child2, hc2, h⟩ := bind_ok _ _ _ h
          have hasc := (tidy_local T _ hchild).2.1 htext
          have hlen : child.textLen = child.NodeSize := (nodeSize_text child htext).symm
          rw [hlen] at hc2
          have hcut := text_cut_gen child htext hasc (max 0 (from_ - pos))
            (min child.NodeSize (to_ - pos)) (by omega) (by omega) (by omega)
          rw [hcut] at hc2
          have hc2e : child2 = child.setText
              ((child.Text.take (min child.NodeSize (to_ - pos)).toNat).drop
                (max 0 (from_ - pos)).toNat) := by
            cases hc2; rfl
          have hsub : ∀ x ∈ (child.Text.take (min child.NodeSize (to_ - pos)).toNat).drop
              (max 0 (from_ - pos)).toNat, x < 128 :=
            fun x hx => hasc x (List.mem_of_mem_take (List.mem_of_mem_drop hx))
          obtain ⟨w1, w2, _⟩ := withText_tidy T child _ hchild htext hsub
          rw [withText_eq_setText, ← hc2e] at w1 w2
          obtain ⟨t1, t2, t3⟩ := htailv child2 w1 h
          refine ⟨t1, t2, ?_⟩
          rw [t3, w2, utf16Len_ascii _ hsub]
          have hsz : child.NodeSize = child.Text.length := text_size child htext hasc
          simp only [List.length_drop, List.length_take]
          split <;> omega
        · rw [if_neg hcond] at h
          obtain ⟨t1, t2, t3⟩ := htailv child hchild (pure_bind_ok _ _ _ h)
          refine ⟨t1, t2, ?_⟩
          rw [t3]
          simp only [Bool.or_eq_true, decide_eq_true_eq, not_or, not_lt] at hcond
          split <;> omega
    · rw [if_neg hlt] at h
      cases h
      simp [totalSize, hlt]

/-- A cut of a tidy fragment at points that fall on boundaries or inside text has the size
of what lies between the points. -/
theorem cut_size (T : String → NodeType) (f g : Fragment) (from_ to_ : Int)
    (hsz : f.SizeOk) (hv : ∀ n ∈ f.Content, n.Tidy T)
    (hf : AtomicAt f.Content from_)
    (ht : AtomicAt f.Content (if to_ = -1 then f.Size else to_))
    (h0 : 0 ≤ from_) (hft : from_ ≤ (if to_ = -1 then f.Size else to_))
    (hts : (if to_ = -1 then f.Size else to_) ≤ f.Size)
    (h : f.cut from_ to_ = .ok g) :
    g.SizeOk ∧ (∀ n ∈ g.Content, n.Tidy T) ∧
      g.Size = (if to_ = -1 then f.Size else to_) - from_ := by
  cases f with
  | mk size cs =>
    unfold Fragment.cut at h
    dsimp only at h
    change AtomicAt cs from_ at hf
    change AtomicAt cs (if to_ = -1 then size else to_) at ht
    change from_ ≤ (if to_ = -1 then size else to_) at hft
    change (if to_ = -1 then size else to_) ≤ size at hts
    change (∀ n ∈ cs, n.Tidy T) at hv
    change size = totalSize cs at hsz
    show g.SizeOk ∧ (∀ n ∈ g.Content, n.Tidy T) ∧
      g.Size = (if to_ = -1 then size else to_) - from_
    generalize (if to_ = -1 then size else to_) = t at h ht hft hts ⊢
    by_cases hall : (decide (from_ = 0) && decide (t = size)) = true
    · rw [if_pos hall] at h
      simp only [Bool.and_eq_true, decide_eq_true_eq] at hall
      cases h
      refine ⟨hsz, hv, ?_⟩
      show size = t - from_
      omega
    · rw [if_neg hall] at h
      by_cases hle : t ≤ from_
      · rw [if_pos hle] at h
        cases h
        refine ⟨rfl, by simp [Fragment.zero, Fragment.Content], ?_⟩
        show (0 : Int) = t - from_
        omega
      · rw [if_neg hle] at h
        obtain ⟨⟨result, sz⟩, hr, h⟩ := bind_ok _ _ _ h
        have hres : g = .mk sz result := by cases h; rfl
        rw [hres]
        obtain ⟨c1, c2, c3⟩ := cutLoop_size T cs 0 from_ t (result, sz) hv
          (by simpa using hf) (by simpa using ht) hft (by omega) hr
        refine ⟨c2, c1, ?_⟩
        show sz = t - from_
        simp only at c3
        rw [c3]
        split <;> omega

/-- The method `append` on tidy fragments returns a tidy fragment of the two sizes
together. -/
theorem append_size (T : String → NodeType) (f g r : Fragment)
    (hfs : f.SizeOk) (hfv : ∀ n ∈ f.Content, n.Tidy T)
    (hgs : g.SizeOk) (hgv : ∀ n ∈ g.Content, n.Tidy T)
    (h : f.append g = .ok r) :
    r.SizeOk ∧ (∀ n ∈ r.Content, n.Tidy T) ∧ r.Size = f.Size + g.Size := by
  unfold Fragment.append at h
  by_cases hg0 : g.Size = 0
  · rw [if_pos hg0] at h
    cases h
    exact ⟨hfs, hfv, by omega⟩
  · rw [if_neg hg0] at h
    by_cases hf0 : f.Size = 0
    · rw [if_pos hf0] at h
      cases h
      exact ⟨hgs, hgv, by omega⟩
    · rw [if_neg hf0] at h
      cases hl : f.lastChild with
      | none => rw [hl] at h; cases h
      | some last =>
        cases hfc : g.firstChild with
        | none => rw [hl, hfc] at h; cases h
        | some first =>
          rw [hl, hfc] at h
          dsimp only at h
          unfold Fragment.lastChild at hl
          unfold Fragment.firstChild at hfc
          have hlm : last ∈ f.Content := List.mem_of_mem_getLast? hl
          have hfm : first ∈ g.Content := List.mem_of_mem_head? hfc
          have hfsplit : f.Content = f.Content.dropLast ++ [last] :=
            (List.dropLast_append_getLast? last hl).symm
          have hgsplit : g.Content = first :: g.Content.drop 1 := by
            cases hgc : g.Content with
            | nil => rw [hgc] at hfc; cases hfc
            | cons x rest =>
              rw [hgc] at hfc
              simp only [List.head?_cons, Option.some.injEq] at hfc
              rw [hfc]
              rfl
          have hft : totalSize f.Content = totalSize f.Content.dropLast + last.NodeSize := by
            conv_lhs => rw [hfsplit]
            simp [totalSize]
          have hgt : totalSize g.Content = first.NodeSize + totalSize (g.Content.drop 1) := by
            conv_lhs => rw [hgsplit]
            simp [totalSize]
          have hfs2 : f.Size = totalSize f.Content := hfs
          have hgs2 : g.Size = totalSize g.Content := hgs
          by_cases hcond : (last.IsText && last.sameMarkup first) = true
          · rw [if_pos hcond] at h
            cases h
            simp only [Bool.and_eq_true] at hcond
            obtain ⟨hlt, hsm⟩ := hcond
            have hname : last.Typ.Name = first.Typ.Name := ((sameMarkup_iff _ _).mp hsm).1
            have htyp : first.Typ = last.Typ := by
              rw [(tidy_local T _ (hgv first hfm)).1, (tidy_local T _ (hfv last hlm)).1, hname]
            have hftx : first.IsText = true := by
              unfold Node.IsText at hlt ⊢
              rw [htyp]; exact hlt
            have ha1 := (tidy_local T _ (hfv last hlm)).2.1 hlt
            have ha2 := (tidy_local T _ (hgv first hfm)).2.1 hftx
            have hasc : ∀ b ∈ last.Text ++ first.Text, b < 128 := by
              intro b hb
              rcases List.mem_append.mp hb with h | h
              · exact ha1 b h
              · exact ha2 b h
            obtain ⟨hm1, hm2, _⟩ :=
              withText_tidy T last (last.Text ++ first.Text) (hfv last hlm) hlt hasc
            refine ⟨?_, ?_, rfl⟩
            · show f.Size + g.Size = totalSize
                (f.Content.dropLast ++ [last.withText (last.Text ++ first.Text)] ++
                  g.Content.drop 1)
              rw [totalSize_append, totalSize_append]
              simp only [totalSize_cons, totalSize_nil, add_zero]
              rw [hm2, utf16Len_append _ _ ha1 ha2, ← nodeSize_text last hlt,
                ← nodeSize_text first hftx]
              omega
            · intro n hn
              change n ∈ f.Content.dropLast ++ [last.withText (last.Text ++ first.Text)] ++
                g.Content.drop 1 at hn
              rcases List.mem_append.mp hn with hn | hn
              · rcases List.mem_append.mp hn with hn | hn
                · exact hfv n (List.mem_of_mem_dropLast hn)
                · simp only [List.mem_singleton] at hn
                  rw [hn]; exact hm1
              · exact hgv n (List.mem_of_mem_drop hn)
          · rw [if_neg hcond] at h
            cases h
            refine ⟨?_, ?_, rfl⟩
            · show f.Size + g.Size = totalSize (f.Content ++ g.Content)
              rw [totalSize_append]
              omega
            · intro n hn
              change n ∈ f.Content ++ g.Content at hn
              rcases List.mem_append.mp hn with hn | hn
              · exact hfv n hn
              · exact hgv n hn

/-! ## The size law of `replace` -/

/-- Two tidy nodes with types of the same name have the same type. -/
theorem tidy_typ_eq (T : String → NodeType) (a b : Node) (ha : a.Tidy T) (hb : b.Tidy T)
    (h : a.Typ.Name = b.Typ.Name) : a.Typ = b.Typ := by
  rw [(tidy_local T _ ha).1, (tidy_local T _ hb).1, h]

theorem eq_size_aux (T : String → NodeType) (h : Nat) :
    ∀ a b : Node, a.height ≤ h → a.Tidy T → b.Tidy T → a.eq b = true →
      a.NodeSize = b.NodeSize := by
  induction h with
  | zero =>
    intro a b hh
    rw [nodeHeight_eq] at hh
    omega
  | succ k ih =>
    intro a b hh ha hb he
    have hlist : ∀ (xs ys : List Node), (∀ x ∈ xs, x.height ≤ k) → (∀ x ∈ xs, x.Tidy T) →
        (∀ y ∈ ys, y.Tidy T) → eqList xs ys = true → totalSize xs = totalSize ys := by
      intro xs
      induction xs with
      | nil =>
        intro ys _ _ _ hl
        cases ys with
        | nil => rfl
        | cons y ys => simp [eqList] at hl
      | cons x xs ihx =>
        intro ys hxh hxt hyt hl
        cases ys with
        | nil => simp [eqList] at hl
        | cons y ys =>
          simp only [eqList, Bool.and_eq_true] at hl
          rw [totalSize_cons, totalSize_cons]
          rw [ih x y (hxh x (List.mem_cons_self _ _)) (hxt x (List.mem_cons_self _ _))
            (hyt y (List.mem_cons_self _ _)) hl.1]
          rw [ihx ys (fun z hz => hxh z (List.mem_cons_of_mem _ hz))
            (fun z hz => hxt z (List.mem_cons_of_mem _ hz))
            (fun z hz => hyt z (List.mem_cons_of_mem _ hz)) hl.2]
    cases a with
    | mk typ attrs marks text content =>
      unfold Node.eq at he
      dsimp only at he
      by_cases htx : typ.isText = true
      · simp only [Node.Typ, htx, if_true, Bool.and_eq_true, decide_eq_true_eq] at he
        obtain ⟨hsm, htxt⟩ := he
        have hname := ((sameMarkup_iff _ _).mp hsm).1
        have htyp := tidy_typ_eq T _ _ ha hb hname
        have hbt : b.IsText = true := by
          unfold Node.IsText
          rw [← htyp]
          exact htx
        rw [nodeSize_text _ (show (Node.mk typ attrs marks text content).IsText = true from htx),
          nodeSize_text b hbt, htxt]
      · rw [if_neg (by simpa [Node.Typ] using htx)] at he
        rw [Bool.and_eq_true, Bool.and_eq_true, Bool.and_eq_true, Bool.and_eq_true] at he
        obtain ⟨⟨⟨⟨hte, _⟩, _⟩, _⟩, hch⟩ := he
        have hname : typ.Name = b.Typ.Name := by
          simpa [NodeType.Eq] using hte
        have htyp : typ = b.Typ := tidy_typ_eq T _ _ ha hb hname
        have hbt : b.IsText = false := by
          unfold Node.IsText
          rw [← htyp]
          simpa using htx
        have hat : (Node.mk typ attrs marks text content).IsText = false := by
          simpa [Node.IsText] using htx
        by_cases hlf : typ.isLeaf = true
        · have h1 : (Node.mk typ attrs marks text content).NodeSize = 1 := by
            unfold Node.NodeSize
            rw [if_neg (by simp [hat]),
              if_pos (show (Node.mk typ attrs marks text content).IsLeaf = true from hlf)]
          have h2 : b.NodeSize = 1 := by
            unfold Node.NodeSize
            rw [if_neg (by simp [hbt]), if_pos (by unfold Node.IsLeaf; rw [← htyp]; exact hlf)]
          rw [h1, h2]
        · have hal : (Node.mk typ attrs marks text content).IsLeaf = false := by
            simpa [Node.IsLeaf] using hlf
          have hbl : b.IsLeaf = false := by
            unfold Node.IsLeaf
            rw [← htyp]
            simpa using hlf
          rw [nodeSize_composite _ hat hal, nodeSize_composite _ hbt hbl]
          have hs1 : content.Size = totalSize content.Content := (tidy_local T _ ha).2.2
          have hs2 : b.Content.Size = totalSize b.Content.Content := (tidy_local T _ hb).2.2
          show 2 + content.Size = 2 + b.Content.Size
          rw [hs1, hs2]
          have hl : eqList content.Content b.Content.Content = true := by
            cases content with
            | mk sz cs => exact hch
          rw [hlist content.Content b.Content.Content
            (fun x hx => by
              have := fragmentHeight_mem content x hx
              rw [nodeHeight_eq] at hh
              show x.height ≤ k
              have e : (Node.mk typ attrs marks text content).Content = content := rfl
              rw [e] at hh
              omega)
            (fun x hx => tidy_child T _ x ha hx)
            (fun y hy => tidy_child T _ y hb hy) hl]

/-- Tidy nodes that `Node.eq` finds equal have the same size. -/
theorem eq_size (T : String → NodeType) (a b : Node) (ha : a.Tidy T) (hb : b.Tidy T)
    (h : a.eq b = true) : a.NodeSize = b.NodeSize :=
  eq_size_aux T a.height a b (le_refl _) ha hb h

/-- The size of a list with one node replaced. -/
theorem totalSize_set (l : List Node) (k : Nat) (c x : Node) (h : l.get? k = some c) :
    totalSize (l.set k x) = totalSize l - c.NodeSize + x.NodeSize := by
  induction l generalizing k with
  | nil => simp at h
  | cons y rest ih =>
    cases k with
    | zero =>
      simp only [List.get?_cons_zero, Option.some.injEq] at h
      subst h
      simp only [List.set_cons_zero, totalSize_cons]
      ring
    | succ j =>
      simp only [List.get?_cons_succ] at h
      simp only [List.set_cons_succ, totalSize_cons]
      rw [ih j h]
      ring

/-- The method `replaceChild` on a tidy fragment: the size changes by the difference of
the sizes of the two nodes. -/
theorem replaceChild_size (T : String → NodeType) (f : Fragment) (k : Nat) (C inner : Node)
    (c : Fragment) (hfs : f.SizeOk) (hfv : ∀ n ∈ f.Content, n.Tidy T)
    (hget : f.Content.get? k = some C) (hin : inner.Tidy T)
    (h : f.replaceChild (k : Int) inner = .ok c) :
    c.SizeOk ∧ (∀ n ∈ c.Content, n.Tidy T) ∧
      c.Size = f.Size - C.NodeSize + inner.NodeSize := by
  unfold Fragment.replaceChild at h
  rw [goIndex_natCast _ _ _ hget] at h
  have h := pure_bind_ok _ _ _ h
  by_cases heq : C.eq inner = true
  · rw [if_pos heq] at h
    cases h
    have := eq_size T C inner (hfv C (List.get?_mem hget)) hin heq
    exact ⟨hfs, hfv, by omega⟩
  · rw [if_neg heq] at h
    cases h
    have hfs2 : f.Size = totalSize f.Content := hfs
    refine ⟨?_, ?_, rfl⟩
    · show f.Size - C.NodeSize + inner.NodeSize = totalSize (f.Content.set (k : Int).toNat inner)
      simp only [Int.toNat_ofNat]
      rw [totalSize_set _ k C inner hget, hfs2]
    · intro n hn
      change n ∈ f.Content.set (k : Int).toNat inner at hn
      rcases List.mem_or_eq_of_mem_set hn with hn | hn
      · exact hfv n hn
      · rw [hn]; exact hin

/-- The size before a position at a depth, in terms of the start of the content there. -/
theorem before_nat (r : ResolvedPos) (d : Nat) : r.before (d : Int) = r.Pos - r.startOf d := by
  unfold ResolvedPos.before
  simp

theorem before_succ (r : ResolvedPos) (d : Nat) :
    r.before ((d : Int) + 1) = r.Pos - r.startOf (d + 1) := by
  have := before_nat r (d + 1)
  push_cast at this
  exact this

/-- A slice without content whose open depths count nodes of its content is closed. -/
theorem openOk_empty (slice : Slice) (hop : slice.OpenOk)
    (hws : slice.Content.WellSized = true) (h0 : slice.Content.Size = 0) :
    slice.OpenStart = 0 ∧ slice.OpenEnd = 0 := by
  obtain ⟨h1, h2, h3, h4⟩ := hop
  have a := openAtStart_size _ _ hws h3
  have b := openAtEnd_size _ _ hws h4
  constructor <;> omega

/-- The node `replaceOuter` returns at a depth at which both positions are in the same
node: it is tidy, has the type of that node, and its content is as large as the content of
that node, less the replaced range, with the content of the slice less its open depths. -/
theorem replaceOuterLoop_size (T : String → NodeType) (fuel : Nat) (f t : ResolvedPos)
    (slice : Slice) (doc : Node) (htf : f.Traces doc) (htt : t.Traces doc)
    (hdoc : doc.Tidy T) (hst : ∀ c ∈ slice.Content.Content, c.Tidy T)
    (hssz : slice.Content.SizeOk) (hop : slice.OpenOk)
    (hg1 : slice.OpenStart ≤ f.Depth)
    (hg2 : f.Depth - slice.OpenStart = t.Depth - slice.OpenEnd)
    (d : Nat) (hd : (d : Int) ≤ f.Depth - slice.OpenStart) (N : Node)
    (hNf : f.NodePath.get? d = some N) (hNt : t.NodePath.get? d = some N)
    (hstart : f.startOf d = t.startOf d)
    (res : Node) (h : replaceOuterLoop fuel f t slice (d : Int) = .ok res) :
    res.Tidy T ∧ res.Typ = N.Typ ∧
      res.Content.Size = N.Content.Size - (t.Pos - f.Pos) + slice.Content.Size -
        slice.OpenStart - slice.OpenEnd := by
  induction fuel generalizing d N res with
  | zero => unfold replaceOuterLoop at h; cases h
  | succ fuel ih =>
    have hop2 := hop
    obtain ⟨hos0, hoe0, _, _⟩ := hop2
    have hNtidy := path_node_tidy T f doc htf hdoc d N hNf
    have hNl := tidy_local T N hNtidy
    have hsws : slice.Content.WellSized = true :=
      wellSized_of_parts _ hssz (fun c hc => tidy_wellSized T c (hst c hc))
    have hbf := before_nat f d
    have hbt := before_nat t d
    have hat := after_eq t d N hNt
    have hclose : ∀ (r : Fragment), r.SizeOk → (∀ c ∈ r.Content, c.Tidy T) →
        N.close r = .ok res → res.Tidy T ∧ res.Typ = N.Typ ∧ res.Content.Size = r.Size := by
      intro r hr1 hr2 hcl
      obtain ⟨k1, k2, k3, _⟩ := close_size T N res r hcl hNtidy hr1 hr2
      exact ⟨k1, k3, by rw [k2]⟩
    unfold replaceOuterLoop at h
    obtain ⟨index, hindex, h1⟩ := bind_ok _ _ _ h
    clear h
    obtain ⟨node, hnode, h2⟩ := bind_ok _ _ _ h1
    clear h1
    obtain ⟨toIndex, htoIndex, h⟩ := bind_ok _ _ _ h2
    clear h2
    rw [node_of_paths f d N hNf] at hnode
    have hnN : node = N := by cases hnode; rfl
    rw [hnN] at h
    clear hnode hnN node
    by_cases hc1 : (decide (index = toIndex) &&
        decide ((d : Int) < f.Depth - slice.OpenStart)) = true
    · rw [if_pos hc1] at h
      simp only [Bool.and_eq_true, decide_eq_true_eq] at hc1
      obtain ⟨hidx, hdep⟩ := hc1
      obtain ⟨inner, hinner, h⟩ := bind_ok _ _ _ h
      obtain ⟨c, hc, h⟩ := bind_ok _ _ _ h
      have hres : res = N.copy c := by cases h; rfl
      obtain ⟨N1, C, k, g1, g2, g3, g4, g5, g6, g7, g8, g9, g10, g11, g12, g13⟩ :=
        level_inner T f doc htf hdoc d (by omega)
      obtain ⟨N2, C2, k2, f1, f2, f3, f4, f5, f6, f7, f8, f9, f10, f11, f12, f13⟩ :=
        level_inner T t doc htt hdoc d (by omega)
      rw [hNf] at g1
      cases g1
      rw [hNt] at f1
      cases f1
      rw [index_of_paths f d _ g3] at hindex
      rw [index_of_paths t d _ f3] at htoIndex
      have hkk : k = k2 := by
        have : (k : Int) = (k2 : Int) := by
          cases hindex
          cases htoIndex
          exact hidx
        omega
      subst hkk
      rw [g6] at f6
      cases f6
      have hi1 : index = (k : Int) := by cases hindex; rfl
      rw [hi1] at hc
      have hinner2 : replaceOuterLoop fuel f t slice ((d + 1 : Nat) : Int) = .ok inner := by
        push_cast; exact hinner
      have hst2 : f.startOf (d + 1) = t.startOf (d + 1) := by
        have a1 := before_succ f d
        have a2 := before_succ t d
        omega
      obtain ⟨i1, i2, i3⟩ := ih (d + 1) (by push_cast; omega) C g2 f2 hst2 inner hinner2
      obtain ⟨r1, r2, r3⟩ := replaceChild_size T N.Content k C inner c hNl.2.2
        (fun n hn => tidy_child T N n hNtidy hn) g6 i1 hc
      have hit : inner.IsText = false := by
        unfold Node.IsText at g7 ⊢
        rw [i2]; exact g7
      have hil : inner.IsLeaf = false := by
        unfold Node.IsLeaf at g8 ⊢
        rw [i2]; exact g8
      have hsz1 := nodeSize_composite C g7 g8
      have hsz2 := nodeSize_composite inner hit hil
      rw [hres]
      cases N with
      | mk typ attrs marks text content =>
        refine ⟨?_, rfl, ?_⟩
        · rw [tidy_iff]
          exact ⟨⟨hNl.1, hNl.2.1, r1⟩, r2⟩
        · show c.Size = _
          rw [r3, hsz1, hsz2, i3]
          show content.Size - (2 + C.Content.Size) + _ = content.Size - _ + _ - _ - _
          ring
    · rw [if_neg hc1] at h
      by_cases hc2 : slice.Content.Size = 0
      · rw [if_pos hc2] at h
        obtain ⟨r, hr, h⟩ := bind_ok _ _ _ h
        obtain ⟨z1, z2⟩ := openOk_empty slice hop hsws hc2
        unfold replaceTwoWay at hr
        obtain ⟨q1, q2, q3⟩ := replaceTwoWayLoop_size T _ f t doc doc htf htt hdoc hdoc
          (by omega) d (by omega) r hr
        obtain ⟨k1, k2, k3⟩ := hclose r q1 q2 h
        refine ⟨k1, k2, ?_⟩
        rw [k3, q3]
        omega
      · rw [if_neg hc2] at h
        by_cases hc3 : (decide (slice.OpenStart = 0) && decide (slice.OpenEnd = 0) &&
            decide (f.Depth = (d : Int)) && decide (t.Depth = (d : Int))) = true
        · rw [if_pos hc3] at h
          simp only [Bool.and_eq_true, decide_eq_true_eq] at hc3
          obtain ⟨⟨⟨hs0, he0⟩, hfd⟩, htd⟩ := hc3
          obtain ⟨parent, hparent, h⟩ := bind_ok _ _ _ h
          dsimp only at h
          obtain ⟨cut1, hcut1, h⟩ := bind_ok _ _ _ h
          obtain ⟨app1, happ1, h⟩ := bind_ok _ _ _ h
          obtain ⟨cut2, hcut2, h⟩ := bind_ok _ _ _ h
          obtain ⟨app2, happ2, h⟩ := bind_ok _ _ _ h
          have hpn : parent = N := by
            unfold ResolvedPos.Parent at hparent
            rw [hfd, node_of_paths f d N hNf] at hparent
            cases hparent; rfl
          subst hpn
          have hdws := tidy_wellSized T doc hdoc
          have hpw := tidy_wellSized T parent hNtidy
          obtain ⟨hat1, hpo1⟩ := path_atomic f doc htf hdws parent hparent
          have htparent : t.Parent = .ok parent := by
            unfold ResolvedPos.Parent
            rw [htd]
            exact node_of_paths t d parent hNt
          obtain ⟨hat2, hpo2⟩ := path_atomic t doc htt hdws parent htparent
          obtain ⟨he0a, hes⟩ := atomicAt_ends parent.Content hpw
          obtain ⟨D1, N1, k1, o1, l1, l2, l3, l4, l5, l6, l7, l8, l9, l10, l11, l12⟩ :=
            level_last T f doc htf hdoc
          obtain ⟨D2, N2, k2, o2, m1, m2, m3, m4, m5, m6, m7, m8, m9, m10, m11, m12⟩ :=
            level_last T t doc htt hdoc
          have hD1 : D1 = d := by omega
          have hD2 : D2 = d := by omega
          subst hD1
          subst hD2
          rw [hNf] at l2
          cases l2
          rw [hNt] at m2
          cases m2
          have hchild : ∀ n ∈ parent.Content.Content, n.Tidy T :=
            fun n hn => tidy_child T parent n hNtidy hn
          have hne1 : ¬ f.ParentOffset = -1 := by omega
          obtain ⟨c1, c2, c3⟩ := cut_size T parent.Content cut1 0 f.ParentOffset hNl.2.2 hchild
            he0a (by rw [if_neg hne1]; exact hat1) (le_refl _) (by rw [if_neg hne1]; exact hpo1)
            (by rw [if_neg hne1, l10]; exact l9) hcut1
          rw [if_neg hne1] at c3
          obtain ⟨a1, a2, a3⟩ := append_size T cut1 slice.Content app1 c1 c2 hssz hst happ1
          obtain ⟨d1, d2, d3⟩ := cut_size T parent.Content cut2 t.ParentOffset (-1) hNl.2.2
            hchild hat2 (by rw [if_pos rfl]; exact hes) hpo2
            (by rw [if_pos rfl, m10]; exact m9) (by rw [if_pos rfl]) hcut2
          rw [if_pos rfl] at d3
          obtain ⟨b1, b2, b3⟩ := append_size T app1 cut2 app2 a1 a2 d1 d2 happ2
          obtain ⟨k1, k2, k3⟩ := hclose app2 b1 b2 h
          refine ⟨k1, k2, ?_⟩
          rw [k3, b3, a3, c3, d3, l10, m10]
          omega
        · rw [if_neg hc3] at h
          obtain ⟨⟨start, end_⟩, hprep, h⟩ := bind_ok _ _ _ h
          dsimp only at h
          obtain ⟨r, hr, h⟩ := bind_ok _ _ _ h
          obtain ⟨root, p1, p2, p3, p4, p5, p6, p7, p8⟩ :=
            prepareSlice_size T slice f start end_ doc htf hdoc hst hssz hop hg1 hprep
          obtain ⟨hsame, hdiff⟩ := p8 d hd
          unfold replaceThreeWay at hr
          obtain ⟨q1, q2, q3⟩ := replaceThreeWayLoop_size T _ f start end_ t doc root htf htt
            p2 p3 hdoc p1 p4.symm (by omega) p6 p7 d (by omega) (by omega) hsame r hr
          obtain ⟨k1, k2, k3⟩ := hclose r q1 q2 h
          refine ⟨k1, k2, ?_⟩
          rw [k3, q3]
          omega

/-- C38 (amended): for every document `doc` with correct cached sizes, every slice `s` with
correct cached sizes whose open depths count nodes of its content (`OpenStart` composite
first children and `OpenEnd` composite last children, one inside the other), text that is
ASCII and node types that come from one schema, and for all positions: if
`doc.Replace(from, to, s)` succeeds with result `r`, then
`r.Content.Size == doc.Content.Size - (to - from) + s.Content.Size - s.OpenStart -
s.OpenEnd` and every cached fragment size inside `r` is the sum of the sizes of its
children. -/
theorem C38_replace_size_law (doc : Node) (s : Slice) (from_ to_ : Int) (r : Node)
    (hws : doc.Content.WellSized = true) (hss : s.Content.WellSized = true)
    (hascii : AsciiText (doc.subnodes ++ s.Content.subnodes))
    (hschema : SameSchema (doc.subnodes ++ s.Content.subnodes))
    (hopen : s.OpenOk)
    (h : doc.Replace from_ to_ s = .ok r) :
    r.Content.Size =
        doc.Content.Size - (to_ - from_) + s.Content.Size - s.OpenStart - s.OpenEnd ∧
      r.Content.WellSized = true := by
  obtain ⟨T, hT⟩ := sameSchema_table _ hschema
  have hdoc : doc.Tidy T := tidy_of_wellSized T doc hws (fun m hm =>
    ⟨hT m (List.mem_append_left _ hm), hascii m (List.mem_append_left _ hm)⟩)
  have hsub : ∀ c ∈ s.Content.Content, ∀ m ∈ c.subnodes, m ∈ s.Content.subnodes := by
    intro c hc m hm
    cases hsc : s.Content with
    | mk sz cs =>
      rw [hsc] at hc
      exact (mem_subnodesList cs m).mpr ⟨c, hc, hm⟩
  have hst : ∀ c ∈ s.Content.Content, c.Tidy T := fun c hc =>
    tidy_of_wellSized T c (wellSized_mem _ c hss hc) (fun m hm =>
      ⟨hT m (List.mem_append_right _ (hsub c hc m hm)),
        hascii m (List.mem_append_right _ (hsub c hc m hm))⟩)
  unfold Node.Replace at h
  obtain ⟨fromNode, hf, h⟩ := bind_ok _ _ _ h
  obtain ⟨toNode, ht, h⟩ := bind_ok _ _ _ h
  have hf2 : resolve doc from_ = .ok fromNode := by
    cases hr : resolve doc from_ with
    | error e => rw [hr] at hf; cases e <;> cases hf
    | ok v => rw [hr] at hf; cases hf; rfl
  have ht2 : resolve doc to_ = .ok toNode := by
    cases hr : resolve doc to_ with
    | error e => rw [hr] at ht; cases e <;> cases ht
    | ok v => rw [hr] at ht; cases ht; rfl
  unfold replace at h
  by_cases hg1 : s.OpenStart > fromNode.Depth
  · rw [if_pos hg1] at h; cases h
  · rw [if_neg hg1] at h
    by_cases hg2 : fromNode.Depth - s.OpenStart ≠ toNode.Depth - s.OpenEnd
    · rw [if_pos hg2] at h; cases h
    · rw [if_neg hg2] at h
      have htf := traces_of_resolve doc from_ fromNode hf2
      have htt := traces_of_resolve doc to_ toNode ht2
      obtain ⟨_, _, _, _, hNf, _, _, hPf, _⟩ := resolve_walk doc from_ fromNode hf2
      obtain ⟨_, _, _, _, hNt, _, _, hPt, _⟩ := resolve_walk doc to_ toNode ht2
      unfold replaceOuter at h
      obtain ⟨q1, q2, q3⟩ := replaceOuterLoop_size T _ fromNode toNode s doc htf htt hdoc hst
        (wellSized_sizeOk _ hss) hopen (by omega) (by simpa using hg2) 0
        (by simp; omega) doc (by rw [hNf]; rfl) (by rw [hNt]; rfl) rfl r h
      refine ⟨?_, tidy_wellSized T r q1⟩
      rw [q3, hPf, hPt]

theorem C38_replace_size_law_witness :
    ∃ r, crazyQDoc.Replace 4 4 splitSlice = .ok r ∧
      r.Content.Size = crazyQDoc.Content.Size - (4 - 4) + splitSlice.Content.Size -
        splitSlice.OpenStart - splitSlice.OpenEnd ∧
      r.Content.WellSized = true ∧ r.childTexts = [[ascii "Cra"], [ascii "zy?"]] :=
  match hrep : crazyQDoc.Replace 4 4 splitSlice with
  | .ok r =>
    ⟨r, rfl,
      (C38_replace_size_law crazyQDoc splitSlice 4 4 r (by decide) (by decide) (by decide)
        (by decide) (by decide) hrep).1,
      (C38_replace_size_law crazyQDoc splitSlice 4 4 r (by decide) (by decide) (by decide)
        (by decide) (by decide) hrep).2,
      by
        have h2 : (crazyQDoc.Replace 4 4 splitSlice).map Node.childTexts
            = .ok [[ascii "Cra"], [ascii "zy?"]] := by decide!
        rw [hrep] at h2
        simpa [Except.map] using h2⟩
  | .error e => by
    have h2 : errorOf (crazyQDoc.Replace 4 4 splitSlice) = none := by decide!
    rw [hrep] at h2
    cases h2

/-- C38 as stated fails on slices whose open depths count nodes their content does not
have.  On the valid document `doc[paragraph["ab"]]`, of content size 4, replacing the empty
range at position 1 by the slice without content and with open depths 1 and 1 returns the
document unchanged, of content size 4, where the formula gives 4 - 0 + 0 - 1 - 1 = 2:
`replaceOuter` takes the branch for a slice without content whatever its open depths are.
On the valid document `doc[blockquote[paragraph["ab"], paragraph["cd"]]]`, of content size
10, replacing the range 0..2 by the slice `[blockquote[horizontal_rule]]` with open depths
0 and 2 returns `doc[blockquote[paragraph["cd"]]]`, of content size 6, where the formula
gives 10 - 2 + 3 - 0 - 2 = 9. -/
theorem C38_counterexample :
    (abDoc.Valid = true ∧ abDoc.Content.WellSized = true ∧ abDoc.Content.Size = 4 ∧
      emptyOpenSlice.Content.Size = 0 ∧
      (abDoc.Replace 1 1 emptyOpenSlice).map (fun r => (r.Content.Size, r.childTexts)) =
        .ok (4, [[ascii "ab"]]) ∧
      abDoc.Content.Size - (1 - 1) + emptyOpenSlice.Content.Size -
        emptyOpenSlice.OpenStart - emptyOpenSlice.OpenEnd = 2) ∧
    (quotedPair.Valid = true ∧ quotedPair.Content.WellSized = true ∧
      quotedPair.Content.Size = 10 ∧ ruleQuoteSlice.Content.Size = 3 ∧
      ruleQuoteSlice.Content.WellSized = true ∧
      (quotedPair.Replace 0 2 ruleQuoteSlice).map
        (fun r => (r.Content.Size, r.Content.Content.map Node.childTexts)) =
        .ok (6, [[[ascii "cd"]]]) ∧
      quotedPair.Content.Size - (2 - 0) + ruleQuoteSlice.Content.Size -
        ruleQuoteSlice.OpenStart - ruleQuoteSlice.OpenEnd = 9) :=
  ⟨⟨by decide!, by decide!, by decide!, by decide!, by decide!, by decide!⟩,
    ⟨by decide!, by decide!, by decide!, by decide!, by decide!, by decide!, by decide!⟩⟩

/-! ## The steps leave the memory of the document as it is: the heap -/

namespace Mem

theorem heap_le_refl (h : Heap) : h.le h :=
  ⟨⟨[], List.append_nil _⟩, ⟨[], List.append_nil _⟩, ⟨[], List.append_nil _⟩⟩

theorem fresh_zero (n : Nat) : Fresh n {} := Or.inl ⟨rfl, rfl⟩

theorem store_set_keeps {α : Type} (b s : List α) (l : Nat) (x : α) (hp : b <+: s)
    (hl : b.length ≤ l) : b <+: s.set l x := by
  obtain ⟨t, rfl⟩ := hp
  rw [List.set_append_right _ _ hl]
  exact ⟨_, rfl⟩

theorem store_write_keeps {α : Type} (b s : Store α) (l i : Nat) (x : α) (hp : b <+: s)
    (hl : b.length ≤ l) : b <+: s.write l i x := by
  unfold Store.write
  split
  · exact store_set_keeps _ _ _ _ hp hl
  · exact hp

theorem store_writeCells_keeps {α : Type} (b s : Store α) (l : Nat) (xs : List α) (hp : b <+: s)
    (hl : b.length ≤ l) : b <+: s.writeCells l xs := by
  unfold Store.writeCells
  split
  · exact store_set_keeps _ _ _ _ hp hl
  · exact hp

theorem store_push_keeps {α : Type} (b s : List α) (x : α) (hp : b <+: s) : b <+: s ++ [x] :=
  hp.trans ⟨[x], rfl⟩

theorem store_append_keeps {α : Type} (b s : Store α) (zero : α) (grow : Nat → Nat → Nat)
    (r : Ref) (x : α) (hp : b <+: s) (hr : Fresh b.length r) :
    b <+: (s.append zero grow r x).2 ∧ Fresh b.length (s.append zero grow r x).1 := by
  unfold Store.append
  split
  · have hl : b.length ≤ r.loc := by
      rcases hr with ⟨h1, h2⟩ | h
      · omega
      · exact h
    exact ⟨store_write_keeps _ _ _ _ _ hp hl, Or.inr hl⟩
  · exact ⟨store_push_keeps _ _ _ hp, Or.inr hp.length_le⟩

theorem store_clone_keeps {α : Type} (b s : Store α) (zero : α) (grow : Nat → Nat → Nat)
    (r : Ref) (hp : b <+: s) :
    b <+: (s.clone zero grow r).2 ∧ Fresh b.length (s.clone zero grow r).1 := by
  unfold Store.clone
  split
  · exact ⟨hp, Or.inl ⟨rfl, rfl⟩⟩
  · exact ⟨store_push_keeps _ _ _ hp, Or.inr hp.length_le⟩

/-! ### Rules -/

theorem keeps_pure {b : Heap} {α : Type} {a : α} {Q : α → Prop} (hq : Q a) :
    Keeps b (pure a : M α) Q := by
  intro h hle
  exact ⟨hle, fun a2 h2 => by cases h2; exact hq⟩

theorem keeps_fail {b : Heap} {α : Type} {e : Err} {Q : α → Prop} :
    Keeps b (fail e : M α) Q := by
  intro h hle
  exact ⟨hle, fun a2 h2 => by cases h2⟩

theorem keeps_read {b : Heap} {α : Type} {x : R α} :
    Keeps b (M.read x) (fun _ => True) := by
  intro h hle
  exact ⟨hle, fun _ _ => trivial⟩

theorem keeps_bind {b : Heap} {α β : Type} {m : M α} {f : α → M β} {Q : β → Prop}
    (P : α → Prop) (hm : Keeps b m P) (hf : ∀ a, P a → Keeps b (f a) Q) :
    Keeps b (m >>= f) Q := by
  intro h hle
  have h1 := hm h hle
  show b.le (M.bind m f h).2 ∧ ∀ a, (M.bind m f h).1 = .ok a → Q a
  unfold M.bind
  rcases hmh : m h with ⟨r, h2⟩
  rw [hmh] at h1
  cases r with
  | error e => exact ⟨h1.1, fun a ha => by cases ha⟩
  | ok a => exact hf a (h1.2 a rfl) h2 h1.1

theorem keeps_mono {b : Heap} {α : Type} {m : M α} {P Q : α → Prop} (hm : Keeps b m P)
    (hpq : ∀ a, P a → Q a) : Keeps b m Q := by
  intro h hle
  exact ⟨(hm h hle).1, fun a ha => hpq a ((hm h hle).2 a ha)⟩

theorem keeps_true {b : Heap} {α : Type} {m : M α} {P : α → Prop} (hm : Keeps b m P) :
    Keeps b m (fun _ => True) :=
  keeps_mono hm (fun _ _ => trivial)

theorem keeps_tbind {b : Heap} {α β : Type} {m : M α} {f : α → M β} {Q : β → Prop}
    (hm : Keeps b m (fun _ => True)) (hf : ∀ a, Keeps b (f a) Q) :
    Keeps b (m >>= f) Q :=
  keeps_bind _ hm (fun a _ => hf a)

theorem keeps_rbind {b : Heap} {α β : Type} {x : R α} {f : α → M β} {Q : β → Prop}
    (hf : ∀ a, Keeps b (f a) Q) : Keeps b (M.read x >>= f) Q :=
  keeps_tbind keeps_read hf

theorem keeps_pbind {b : Heap} {α β : Type} {a : α} {f : α → M β} {Q : β → Prop}
    (hf : Keeps b (f a) Q) : Keeps b (pure a >>= f) Q := hf

theorem keeps_ite {b : Heap} {α : Type} {c : Prop} [Decidable c] {m1 m2 : M α}
    {Q : α → Prop} (h1 : c → Keeps b m1 Q) (h2 : ¬ c → Keeps b m2 Q) :
    Keeps b (if c then m1 else m2) Q := by
  by_cases hc : c
  · rw [if_pos hc]; exact h1 hc
  · rw [if_neg hc]; exact h2 hc

theorem wrapErr_keeps {b : Heap} {α : Type} {m : M α} {Q : α → Prop} (pfx : String)
    (hm : Keeps b m Q) : Keeps b (wrapErr pfx m) Q := by
  intro h hle
  refine ⟨(hm h hle).1, fun a ha => (hm h hle).2 a ?_⟩
  unfold wrapErr at ha
  dsimp only at ha
  rcases hmh : (m h).1 with e | a2
  · rw [hmh] at ha
    cases e <;> cases ha
  · rw [hmh] at ha
    exact ha

theorem orPanic_keeps {b : Heap} {α : Type} {m : M α} {Q : α → Prop}
    (hm : Keeps b m Q) : Keeps b (orPanic m) Q := by
  intro h hle
  refine ⟨(hm h hle).1, fun a ha => (hm h hle).2 a ?_⟩
  unfold orPanic at ha
  dsimp only at ha
  rcases hmh : (m h).1 with e | a2
  · rw [hmh] at ha
    cases e <;> cases ha
  · rw [hmh] at ha
    exact ha

theorem orZero_keeps {b : Heap} {m : M ResolvedPos} {Q : ResolvedPos → Prop}
    (hm : Keeps b m Q) : Keeps b (orZero m) (fun _ => True) := by
  intro h hle
  have h1 := (hm h hle).1
  unfold orZero
  rcases hmh : m h with ⟨r, h2⟩
  rw [hmh] at h1
  refine ⟨?_, fun _ _ => trivial⟩
  cases r with
  | ok a => exact h1
  | error e => cases e <;> exact h1

/-! ### Primitives -/

theorem cloneNodes_keeps (b : Heap) (r : Ref) :
    Keeps b (cloneNodes r) (Fresh b.nodes.length) := by
  intro h hle
  have := store_clone_keeps b.nodes h.nodes {} h.grow r hle.1
  exact ⟨⟨this.1, hle.2.1, hle.2.2⟩, fun a ha => by cases ha; exact this.2⟩

theorem cloneMarks_keeps (b : Heap) (r : Ref) :
    Keeps b (cloneMarks r) (Fresh b.marks.length) := by
  intro h hle
  have := store_clone_keeps b.marks h.marks zeroMark h.grow r hle.2.1
  exact ⟨⟨hle.1, this.1, hle.2.2⟩, fun a ha => by cases ha; exact this.2⟩

theorem goAppendNode_keeps (b : Heap) (r : Ref) (x : Node) (hr : Fresh b.nodes.length r) :
    Keeps b (goAppendNode r x) (Fresh b.nodes.length) := by
  intro h hle
  have := store_append_keeps b.nodes h.nodes {} h.grow r x hle.1 hr
  exact ⟨⟨this.1, hle.2.1, hle.2.2⟩, fun a ha => by cases ha; exact this.2⟩

theorem goAppendMark_keeps (b : Heap) (r : Ref) (x : Mark) (hr : Fresh b.marks.length r) :
    Keeps b (goAppendMark r x) (Fresh b.marks.length) := by
  intro h hle
  have := store_append_keeps b.marks h.marks zeroMark h.grow r x hle.2.1 hr
  exact ⟨⟨hle.1, this.1, hle.2.2⟩, fun a ha => by cases ha; exact this.2⟩

theorem goAppendInt_keeps (b : Heap) (r : Ref) (x : Int) (hr : Fresh b.ints.length r) :
    Keeps b (goAppendInt r x) (Fresh b.ints.length) := by
  intro h hle
  have := store_append_keeps b.ints h.ints 0 h.grow r x hle.2.2 hr
  exact ⟨⟨hle.1, hle.2.1, this.1⟩, fun a ha => by cases ha; exact this.2⟩

theorem assignNode_keeps (b : Heap) (r : Ref) (i : Int) (x : Node)
    (hr : Fresh b.nodes.length r) : Keeps b (assignNode r i x) (fun _ => True) := by
  intro h hle
  unfold assignNode
  split
  · exact ⟨hle, fun _ _ => trivial⟩
  · rename_i hi
    have hl : b.nodes.length ≤ r.loc := by
      rcases hr with ⟨h1, _⟩ | h
      · exfalso; apply hi; right; rw [h1]; simp; omega
      · exact h
    exact ⟨⟨store_write_keeps _ _ _ _ _ hle.1 hl, hle.2.1, hle.2.2⟩, fun _ _ => trivial⟩

theorem cells_length {α : Type} (s : Store α) (r : Ref) : (s.cells r).length ≤ r.len := by
  unfold Store.cells
  simp

theorem deleteFuncMarks_keeps (b : Heap) (r : Ref) (del : Mark → Bool)
    (hr : Fresh b.marks.length r) :
    Keeps b (deleteFuncMarks r del) (Fresh b.marks.length) := by
  intro h hle
  unfold deleteFuncMarks
  dsimp only
  split
  · exact ⟨hle, fun a ha => by cases ha; exact hr⟩
  · rename_i hne
    have hl : b.marks.length ≤ r.loc := by
      rcases hr with ⟨h1, _⟩ | h
      · exfalso
        apply hne
        have h2 := cells_length h.marks r
        have h3 : h.marks.cells r = [] := by
          apply List.eq_nil_of_length_eq_zero
          omega
        rw [h3]
        rfl
      · exact h
    exact ⟨⟨hle.1, store_writeCells_keeps _ _ _ _ hle.2.1 hl, hle.2.2⟩,
      fun a ha => by cases ha; exact Or.inr hl⟩

theorem boxNode_keeps (b : Heap) (x : Node) : Keeps b (boxNode x) (fun _ => True) := by
  intro h hle
  exact ⟨⟨store_push_keeps _ _ _ hle.1, hle.2.1, hle.2.2⟩, fun _ _ => trivial⟩

theorem oneNode_keeps (b : Heap) (x : Node) : Keeps b (oneNode x) (fun _ => True) := by
  intro h hle
  exact ⟨⟨store_push_keeps _ _ _ hle.1, hle.2.1, hle.2.2⟩, fun _ _ => trivial⟩

/-! ### `node.go` and `fragment.go` -/

theorem clone_keeps (b : Heap) (f : Fragment) : Keeps b f.clone (fun _ => True) := by
  unfold Fragment.clone
  exact keeps_bind _ (cloneNodes_keeps b _) (fun c _ => keeps_pure trivial)

theorem withText_keeps (b : Heap) (n : Node) (s : GoString) :
    Keeps b (n.withText s) (fun _ => True) := by
  unfold Node.withText
  refine keeps_ite (fun _ => keeps_pure trivial) fun _ => ?_
  refine keeps_bind _ (cloneMarks_keeps b _) fun m _ => ?_
  refine keeps_tbind (clone_keeps b _) fun c => ?_
  exact keeps_pure trivial

theorem copy_keeps (b : Heap) (n : Node) (f : Fragment) :
    Keeps b (n.copy f) (fun _ => True) := by
  unfold Node.copy
  refine keeps_bind _ (cloneMarks_keeps b _) fun m _ => ?_
  refine keeps_tbind (clone_keeps b _) fun c => ?_
  exact keeps_pure trivial

theorem nodeClone_keeps (b : Heap) (n : Node) :
    Keeps b n.Clone (fun c => Fresh b.marks.length c.Marks) := by
  unfold Node.Clone
  refine keeps_bind _ (cloneMarks_keeps b _) fun m hm => ?_
  refine keeps_tbind (clone_keeps b _) fun c => ?_
  exact keeps_pure hm

theorem withMarks_keeps (b : Heap) (n : Node) (m : Ref) :
    Keeps b (n.WithMarks m) (fun _ => True) := by
  unfold Node.WithMarks
  refine keeps_bind _ (nodeClone_keeps b _) fun c _ => ?_
  exact keeps_pure trivial

theorem replaceChild_keeps (b : Heap) (fuel : Nat) (f : Fragment) (i : Int) (n : Node) :
    Keeps b (f.replaceChild fuel i n) (fun _ => True) := by
  unfold Fragment.replaceChild
  refine keeps_rbind fun curr => ?_
  refine keeps_rbind fun same => ?_
  refine keeps_ite (fun _ => keeps_pure trivial) fun _ => ?_
  refine keeps_bind _ (cloneNodes_keeps b _) fun c hc => ?_
  refine keeps_tbind (assignNode_keeps b _ _ _ hc) fun _ => ?_
  exact keeps_pure trivial

theorem cutLoop_keeps (b : Heap) (cutNode : Node → Int → Int → M Node) (f : Fragment)
    (from_ to_ : Int) (hc : ∀ n x y, Keeps b (cutNode n x y) (fun _ => True)) :
    ∀ (k : Nat) (i pos : Int) (result : Ref) (size : Int), Fresh b.nodes.length result →
      Keeps b (cutLoop cutNode f from_ to_ k i pos result size) (fun _ => True) := by
  intro k
  induction k with
  | zero =>
    intro i pos result size _
    unfold cutLoop
    exact keeps_ite (fun _ => keeps_fail) (fun _ => keeps_pure trivial)
  | succ k ih =>
    intro i pos result size hr
    unfold cutLoop
    refine keeps_ite (fun _ => ?_) (fun _ => keeps_pure trivial)
    refine keeps_rbind fun child => ?_
    dsimp only
    refine keeps_ite (fun _ => ih _ _ _ _ hr) fun _ => ?_
    refine keeps_tbind ?_ fun child2 => ?_
    · exact keeps_ite (fun _ => keeps_ite (fun _ => hc _ _ _) (fun _ => hc _ _ _))
        (fun _ => keeps_pure trivial)
    · exact keeps_bind _ (goAppendNode_keeps b _ _ hr) fun r2 hr2 => ih _ _ _ _ hr2

theorem fragCutWith_keeps (b : Heap) (cutNode : Node → Int → Int → M Node) (f : Fragment)
    (from_ to_ : Int) (hc : ∀ n x y, Keeps b (cutNode n x y) (fun _ => True)) :
    Keeps b (f.cutWith cutNode from_ to_) (fun _ => True) := by
  unfold Fragment.cutWith
  dsimp only
  refine keeps_ite (fun _ => keeps_pure trivial) fun _ => ?_
  refine keeps_ite (fun _ => keeps_pure trivial) fun _ => ?_
  refine keeps_tbind (cutLoop_keeps b _ _ _ _ hc _ _ _ _ _ (fresh_zero _)) fun res => ?_
  exact keeps_pure trivial

theorem nodeCutWith_keeps (b : Heap) (cutFrag : Fragment → Int → Int → M Fragment) (n : Node)
    (from_ to_ : Int) (hc : ∀ f x y, Keeps b (cutFrag f x y) (fun _ => True)) :
    Keeps b (n.cutWith cutFrag from_ to_) (fun _ => True) := by
  unfold Node.cutWith
  refine keeps_ite (fun _ => ?_) (fun _ => ?_)
  · dsimp only
    refine keeps_ite (fun _ => keeps_pure trivial) fun _ => ?_
    refine keeps_rbind fun s => ?_
    exact withText_keeps b _ _
  · dsimp only
    refine keeps_ite (fun _ => keeps_pure trivial) fun _ => ?_
    refine keeps_tbind (hc _ _ _) fun c => ?_
    exact copy_keeps b _ _

theorem fragCut_keeps (b : Heap) : ∀ (fuel : Nat) (f : Fragment) (from_ to_ : Int),
    Keeps b (f.cut fuel from_ to_) (fun _ => True) := by
  intro fuel
  induction fuel with
  | zero =>
    intro f from_ to_
    unfold Fragment.cut
    exact keeps_fail
  | succ fuel ih =>
    intro f from_ to_
    unfold Fragment.cut
    exact fragCutWith_keeps b _ _ _ _ (fun n x y => nodeCutWith_keeps b _ _ _ _ ih)

theorem nodeCut_keeps (b : Heap) (fuel : Nat) (n : Node) (from_ to_ : Int) :
    Keeps b (n.cut fuel from_ to_) (fun _ => True) := by
  unfold Node.cut
  exact nodeCutWith_keeps b _ _ _ _ (fragCut_keeps b fuel)

theorem appendLoop_keeps (b : Heap) (other : Fragment) :
    ∀ (k : Nat) (i : Int) (content : Ref), Fresh b.nodes.length content →
      Keeps b (appendLoop other k i content) (fun _ => True) := by
  intro k
  induction k with
  | zero =>
    intro i content _
    unfold appendLoop
    exact keeps_pure trivial
  | succ k ih =>
    intro i content hc
    unfold appendLoop
    refine keeps_ite (fun _ => ?_) (fun _ => keeps_pure trivial)
    refine keeps_rbind fun x => ?_
    refine keeps_bind _ (goAppendNode_keeps b _ _ hc) fun c2 hc2 => ?_
    exact ih _ _ hc2

theorem fragAppend_keeps (b : Heap) (f other : Fragment) :
    Keeps b (f.append other) (fun _ => True) := by
  unfold Fragment.append
  refine keeps_ite (fun _ => keeps_pure trivial) fun _ => ?_
  refine keeps_ite (fun _ => keeps_pure trivial) fun _ => ?_
  refine keeps_rbind fun last => ?_
  refine keeps_rbind fun first => ?_
  refine keeps_bind _ (cloneNodes_keeps b _) fun content hc => ?_
  refine keeps_rbind fun merge => ?_
  refine keeps_ite (fun _ => ?_) (fun _ => ?_)
  · refine keeps_tbind (withText_keeps b _ _) fun n => ?_
    refine keeps_tbind (assignNode_keeps b _ _ _ hc) fun _ => ?_
    refine keeps_tbind (appendLoop_keeps b _ _ _ _ hc) fun c => ?_
    exact keeps_pure trivial
  · refine keeps_tbind (appendLoop_keeps b _ _ _ _ hc) fun c => ?_
    exact keeps_pure trivial

theorem close_keeps (b : Heap) (n : Node) (f : Fragment) :
    Keeps b (n.close f) (fun _ => True) := by
  unfold Node.close
  refine keeps_rbind fun _ => ?_
  exact copy_keeps b _ _

/-! ### `resolvepos.go` -/

theorem resolveLoop_keeps (b : Heap) : ∀ (fuel : Nat) (node : Node) (r : ResolvedPos)
    (start : Int), Fresh b.nodes.length r.NodePath → Fresh b.ints.length r.IndexPath →
      Fresh b.ints.length r.OffsetPath →
      Keeps b (resolveLoop fuel node r start) (fun _ => True) := by
  intro fuel
  induction fuel with
  | zero =>
    intro node r start _ _ _
    unfold resolveLoop
    exact keeps_fail
  | succ fuel ih =>
    intro node r start h1 h2 h3
    unfold resolveLoop
    refine keeps_rbind fun found => ?_
    refine keeps_bind _ (goAppendNode_keeps b _ _ h1) fun np hnp => ?_
    refine keeps_bind _ (goAppendInt_keeps b _ _ h2) fun ip hip => ?_
    refine keeps_bind _ (goAppendInt_keeps b _ _ h3) fun op hop => ?_
    dsimp only
    refine keeps_ite (fun _ => keeps_pure trivial) fun _ => ?_
    refine keeps_rbind fun p => ?_
    refine keeps_rbind fun child => ?_
    refine keeps_ite (fun _ => keeps_pure trivial) fun _ => ?_
    exact ih _ _ _ hnp hip hop

theorem resolve_keeps (b : Heap) (fuel : Nat) (doc : Node) (pos : Int) :
    Keeps b (resolve fuel doc pos) (fun _ => True) := by
  unfold resolve
  refine keeps_ite (fun _ => keeps_fail) fun _ => ?_
  refine keeps_tbind
    (resolveLoop_keeps b _ _ _ _ (fresh_zero _) (fresh_zero _) (fresh_zero _)) fun r => ?_
  exact keeps_pure trivial

theorem nodeAfter_keeps (b : Heap) (fuel : Nat) (r : ResolvedPos) :
    Keeps b (r.NodeAfter fuel) (fun _ => True) := by
  unfold ResolvedPos.NodeAfter
  refine keeps_rbind fun parent => ?_
  refine keeps_rbind fun index => ?_
  refine keeps_ite (fun _ => keeps_pure trivial) fun _ => ?_
  refine keeps_rbind fun o => ?_
  dsimp only
  refine keeps_ite (fun _ => ?_) (fun _ => ?_)
  · refine keeps_rbind fun p => ?_
    refine keeps_rbind fun c => ?_
    refine keeps_tbind (nodeCut_keeps b _ _ _ _) fun n => ?_
    exact boxNode_keeps b _
  · refine keeps_rbind fun p => ?_
    exact keeps_pure trivial

theorem nodeBefore_keeps (b : Heap) (fuel : Nat) (r : ResolvedPos) :
    Keeps b (r.NodeBefore fuel) (fun _ => True) := by
  unfold ResolvedPos.NodeBefore
  refine keeps_rbind fun index => ?_
  refine keeps_rbind fun o => ?_
  dsimp only
  refine keeps_ite (fun _ => ?_) (fun _ => ?_)
  · refine keeps_rbind fun parent => ?_
    refine keeps_rbind fun p => ?_
    refine keeps_rbind fun c => ?_
    refine keeps_tbind (nodeCut_keeps b _ _ _ _) fun n => ?_
    exact boxNode_keeps b _
  · refine keeps_ite (fun _ => keeps_pure trivial) fun _ => ?_
    refine keeps_rbind fun parent => ?_
    refine keeps_rbind fun p => ?_
    exact keeps_pure trivial

theorem joinable_keeps (b : Heap) (before after : ResolvedPos) (depth : Int) :
    Keeps b (joinable before after depth) (fun _ => True) := by
  unfold joinable
  refine keeps_rbind fun node => ?_
  refine keeps_rbind fun sub => ?_
  refine keeps_rbind fun _ => ?_
  exact boxNode_keeps b _

theorem slice_keeps (b : Heap) (fuel : Nat) (n : Node) (from_ to_ : Int)
    (includeParents : Bool) :
    Keeps b (n.Slice fuel from_ to_ includeParents) (fun _ => True) := by
  unfold Node.Slice
  dsimp only
  refine keeps_ite (fun _ => keeps_pure trivial) fun _ => ?_
  refine keeps_tbind (wrapErr_keeps _ (resolve_keeps b _ _ _)) fun fromNode => ?_
  refine keeps_tbind (wrapErr_keeps _ (resolve_keeps b _ _ _)) fun toNode => ?_
  refine keeps_rbind fun depth => ?_
  refine keeps_rbind fun start => ?_
  refine keeps_rbind fun node => ?_
  refine keeps_tbind (fragCut_keeps b _ _ _ _) fun content => ?_
  exact keeps_pure trivial

/-! ### `replace.go` -/

theorem appendNode_keeps (b : Heap) (content : Ref) (child : Node)
    (hc : Fresh b.nodes.length content) :
    Keeps b (appendNode content child) (Fresh b.nodes.length) := by
  unfold appendNode
  dsimp only
  refine keeps_rbind fun merge => ?_
  refine keeps_ite (fun _ => ?_) (fun _ => goAppendNode_keeps b _ _ hc)
  refine keeps_rbind fun l2 => ?_
  refine keeps_tbind (withText_keeps b _ _) fun n => ?_
  refine keeps_tbind (assignNode_keeps b _ _ _ hc) fun _ => ?_
  exact keeps_pure hc

theorem appendRangeLoop_keeps (b : Heap) (node : Node) :
    ∀ (k : Nat) (content : Ref) (i endIndex : Int), Fresh b.nodes.length content →
      Keeps b (appendRangeLoop node k content i endIndex) (Fresh b.nodes.length) := by
  intro k
  induction k with
  | zero =>
    intro content i endIndex hc
    unfold appendRangeLoop
    exact keeps_pure hc
  | succ k ih =>
    intro content i endIndex hc
    unfold appendRangeLoop
    refine keeps_ite (fun _ => ?_) (fun _ => keeps_pure hc)
    refine keeps_rbind fun p => ?_
    refine keeps_rbind fun c => ?_
    refine keeps_bind _ (appendNode_keeps b _ _ hc) fun c2 hc2 => ?_
    exact ih _ _ _ hc2

theorem appendRangeStart_keeps (b : Heap) (fuel : Nat) (content : Ref)
    (start : Option ResolvedPos) (depth : Int) (hc : Fresh b.nodes.length content) :
    Keeps b (appendRangeStart fuel content start depth)
      (fun res => Fresh b.nodes.length res.1) := by
  unfold appendRangeStart
  cases start with
  | none => exact keeps_pure hc
  | some s =>
    dsimp only
    refine keeps_rbind fun startIndex => ?_
    refine keeps_ite (fun _ => keeps_pure hc) fun _ => ?_
    refine keeps_rbind fun t => ?_
    refine keeps_ite (fun _ => ?_) (fun _ => keeps_pure hc)
    refine keeps_tbind (nodeAfter_keeps b _ _) fun after => ?_
    refine keeps_rbind fun n => ?_
    refine keeps_bind _ (appendNode_keeps b _ _ hc) fun c2 hc2 => ?_
    exact keeps_pure hc2

theorem appendRangeEnd_keeps (b : Heap) (fuel : Nat) (content : Ref)
    (end_ : Option ResolvedPos) (depth : Int) (hc : Fresh b.nodes.length content) :
    Keeps b (appendRangeEnd fuel content end_ depth) (Fresh b.nodes.length) := by
  unfold appendRangeEnd
  cases end_ with
  | none => exact keeps_pure hc
  | some e =>
    dsimp only
    refine keeps_ite (fun _ => ?_) (fun _ => keeps_pure hc)
    refine keeps_rbind fun t => ?_
    refine keeps_ite (fun _ => ?_) (fun _ => keeps_pure hc)
    refine keeps_tbind (nodeBefore_keeps b _ _) fun before => ?_
    refine keeps_rbind fun n => ?_
    exact appendNode_keeps b _ _ hc

theorem appendRange_keeps (b : Heap) (fuel : Nat) (content : Ref)
    (start end_ : Option ResolvedPos) (depth : Int) (hc : Fresh b.nodes.length content) :
    Keeps b (appendRange fuel content start end_ depth) (Fresh b.nodes.length) := by
  unfold appendRange
  refine keeps_rbind fun node => ?_
  refine keeps_rbind fun endIndex => ?_
  refine keeps_bind _ (appendRangeStart_keeps b _ _ _ _ hc) fun started hs => ?_
  refine keeps_bind _ (appendRangeLoop_keeps b _ _ _ _ _ hs) fun c2 hc2 => ?_
  exact appendRangeEnd_keeps b _ _ _ _ hc2

theorem replaceTwoWay_keeps (b : Heap) : ∀ (fuel : Nat) (from_ to_ : ResolvedPos)
    (depth : Int), Keeps b (replaceTwoWay fuel from_ to_ depth) (fun _ => True) := by
  intro fuel
  induction fuel with
  | zero =>
    intro from_ to_ depth
    unfold replaceTwoWay
    exact keeps_fail
  | succ fuel ih =>
    intro from_ to_ depth
    unfold replaceTwoWay
    refine keeps_bind _ (appendRange_keeps b _ _ _ _ _ (fresh_zero _)) fun c1 h1 => ?_
    refine keeps_bind (Fresh b.nodes.length) ?_ fun c2 h2 => ?_
    · refine keeps_ite (fun _ => ?_) (fun _ => keeps_pure h1)
      refine keeps_tbind (joinable_keeps b _ _ _) fun nodeType => ?_
      refine keeps_tbind (ih _ _ _) fun r => ?_
      refine keeps_rbind fun t => ?_
      refine keeps_tbind (close_keeps b _ _) fun node => ?_
      exact appendNode_keeps b _ _ h1
    · refine keeps_bind _ (appendRange_keeps b _ _ _ _ _ h2) fun c3 _ => ?_
      exact keeps_read

theorem replaceThreeWayWide_keeps (b : Heap) (fuel : Nat) (from_ start end_ to_ : ResolvedPos)
    (depth : Int) (openStart openEnd : Option Ptr) (content : Ref)
    (hc : Fresh b.nodes.length content) :
    Keeps b (replaceThreeWayWide fuel from_ start end_ to_ depth openStart openEnd content)
      (fun _ => True) := by
  unfold replaceThreeWayWide
  refine keeps_bind (Fresh b.nodes.length) ?_ fun c1 h1 => ?_
  · cases openStart with
    | none => exact keeps_pure hc
    | some p =>
      dsimp only
      refine keeps_tbind (replaceTwoWay_keeps b _ _ _ _) fun r => ?_
      refine keeps_rbind fun os => ?_
      refine keeps_tbind (close_keeps b _ _) fun node => ?_
      exact appendNode_keeps b _ _ hc
  · refine keeps_bind _ (appendRange_keeps b _ _ _ _ _ h1) fun c2 h2 => ?_
    refine keeps_bind (Fresh b.nodes.length) ?_ fun c3 h3 => ?_
    · cases openEnd with
      | none => exact keeps_pure h2
      | some p =>
        dsimp only
        refine keeps_tbind (replaceTwoWay_keeps b _ _ _ _) fun r => ?_
        refine keeps_rbind fun oe => ?_
        refine keeps_tbind (close_keeps b _ _) fun node => ?_
        exact appendNode_keeps b _ _ h2
    · refine keeps_bind _ (appendRange_keeps b _ _ _ _ _ h3) fun c4 _ => ?_
      exact keeps_read

theorem replaceThreeWay_keeps (b : Heap) : ∀ (fuel : Nat) (from_ start end_ to_ : ResolvedPos)
    (depth : Int), Keeps b (replaceThreeWay fuel from_ start end_ to_ depth) (fun _ => True) := by
  intro fuel
  induction fuel with
  | zero =>
    intro from_ start end_ to_ depth
    unfold replaceThreeWay
    exact keeps_fail
  | succ fuel ih =>
    intro from_ start end_ to_ depth
    unfold replaceThreeWay
    refine keeps_tbind ?_ fun openStart => ?_
    · exact keeps_ite (fun _ => joinable_keeps b _ _ _) (fun _ => keeps_pure trivial)
    refine keeps_tbind ?_ fun openEnd => ?_
    · exact keeps_ite (fun _ => joinable_keeps b _ _ _) (fun _ => keeps_pure trivial)
    refine keeps_bind _ (appendRange_keeps b _ _ _ _ _ (fresh_zero _)) fun c1 h1 => ?_
    refine keeps_rbind fun thin => ?_
    refine keeps_ite (fun _ => ?_) (fun _ => ?_)
    · refine keeps_rbind fun os => ?_
      refine keeps_rbind fun oe => ?_
      refine keeps_rbind fun _ => ?_
      refine keeps_tbind (ih _ _ _ _ _) fun r => ?_
      refine keeps_rbind fun os2 => ?_
      refine keeps_tbind (close_keeps b _ _) fun node => ?_
      refine keeps_bind _ (appendNode_keeps b _ _ h1) fun c2 h2 => ?_
      refine keeps_bind _ (appendRange_keeps b _ _ _ _ _ h2) fun c3 _ => ?_
      exact keeps_read
    · exact replaceThreeWayWide_keeps b _ _ _ _ _ _ _ _ _ h1

theorem wrapLoop_keeps (b : Heap) (along : ResolvedPos) : ∀ (k : Nat) (i : Int) (node : Node),
    Keeps b (wrapLoop along k i node) (fun _ => True) := by
  intro k
  induction k with
  | zero =>
    intro i node
    unfold wrapLoop
    exact keeps_pure trivial
  | succ k ih =>
    intro i node
    unfold wrapLoop
    refine keeps_ite (fun _ => ?_) (fun _ => keeps_pure trivial)
    refine keeps_rbind fun a => ?_
    refine keeps_tbind (oneNode_keeps b _) fun args => ?_
    refine keeps_rbind fun f => ?_
    refine keeps_tbind (copy_keeps b _ _) fun node2 => ?_
    exact ih _ _

theorem prepareSlice_keeps (b : Heap) (fuel : Nat) (slice : Slice) (along : ResolvedPos) :
    Keeps b (prepareSliceForReplace fuel slice along) (fun _ => True) := by
  unfold prepareSliceForReplace
  dsimp only
  refine keeps_rbind fun parent => ?_
  refine keeps_tbind (copy_keeps b _ _) fun node => ?_
  refine keeps_tbind (wrapLoop_keeps b _ _ _ _) fun node2 => ?_
  refine keeps_tbind (orPanic_keeps (resolve_keeps b _ _ _)) fun start => ?_
  refine keeps_tbind (orPanic_keeps (resolve_keeps b _ _ _)) fun end_ => ?_
  exact keeps_pure trivial

theorem replaceOuter_keeps (b : Heap) : ∀ (fuel : Nat) (from_ to_ : ResolvedPos)
    (slice : Slice) (depth : Int),
    Keeps b (replaceOuter fuel from_ to_ slice depth) (fun _ => True) := by
  intro fuel
  induction fuel with
  | zero =>
    intro from_ to_ slice depth
    unfold replaceOuter
    exact keeps_fail
  | succ fuel ih =>
    intro from_ to_ slice depth
    unfold replaceOuter
    refine keeps_rbind fun index => ?_
    refine keeps_rbind fun node => ?_
    refine keeps_rbind fun toIndex => ?_
    refine keeps_ite (fun _ => ?_) (fun _ => keeps_ite (fun _ => ?_)
      (fun _ => keeps_ite (fun _ => ?_) (fun _ => ?_)))
    · refine keeps_tbind (ih _ _ _ _) fun inner => ?_
      refine keeps_tbind (replaceChild_keeps b _ _ _ _) fun c => ?_
      exact copy_keeps b _ _
    · refine keeps_tbind (replaceTwoWay_keeps b _ _ _ _) fun r => ?_
      exact close_keeps b _ _
    · refine keeps_rbind fun parent => ?_
      dsimp only
      refine keeps_tbind (fragCut_keeps b _ _ _ _) fun cut1 => ?_
      refine keeps_tbind (fragAppend_keeps b _ _) fun append1 => ?_
      refine keeps_tbind (fragCut_keeps b _ _ _ _) fun cut2 => ?_
      refine keeps_tbind (fragAppend_keeps b _ _) fun append2 => ?_
      exact close_keeps b _ _
    · refine keeps_tbind (prepareSlice_keeps b _ _ _) fun ends => ?_
      refine keeps_tbind (replaceThreeWay_keeps b _ _ _ _ _ _) fun r => ?_
      exact close_keeps b _ _

theorem replace_keeps (b : Heap) (fuel : Nat) (from_ to_ : ResolvedPos) (slice : Slice) :
    Keeps b (replace fuel from_ to_ slice) (fun _ => True) := by
  unfold replace
  exact keeps_ite (fun _ => keeps_fail)
    (fun _ => keeps_ite (fun _ => keeps_fail) (fun _ => replaceOuter_keeps b _ _ _ _ _))

theorem nodeReplace_keeps (b : Heap) (fuel : Nat) (n : Node) (from_ to_ : Int) (s : Slice) :
    Keeps b (n.Replace fuel from_ to_ s) (fun _ => True) := by
  unfold Node.Replace
  refine keeps_tbind (wrapErr_keeps _ (resolve_keeps b _ _ _)) fun fromNode => ?_
  refine keeps_tbind (wrapErr_keeps _ (resolve_keeps b _ _ _)) fun toNode => ?_
  exact replace_keeps b _ _ _ _

/-! ### `slice.go` -/

theorem insertInto_keeps (b : Heap) : ∀ (fuel : Nat) (content : Fragment) (dist : Int)
    (insert : Fragment) (parent : Option Ptr),
    Keeps b (insertInto fuel content dist insert parent) (fun _ => True) := by
  intro fuel
  induction fuel with
  | zero =>
    intro content dist insert parent
    unfold insertInto
    exact keeps_fail
  | succ fuel ih =>
    intro content dist insert parent
    unfold insertInto
    refine keeps_rbind fun found => ?_
    dsimp only
    refine keeps_rbind fun here => ?_
    refine keeps_ite (fun _ => ?_) (fun _ => ?_)
    · refine keeps_rbind fun refused => ?_
      refine keeps_ite (fun _ => keeps_pure trivial) fun _ => ?_
      refine keeps_tbind (fragCut_keeps b _ _ _ _) fun c1 => ?_
      refine keeps_tbind (fragAppend_keeps b _ _) fun c2 => ?_
      refine keeps_tbind (fragCut_keeps b _ _ _ _) fun subc => ?_
      refine keeps_tbind (fragAppend_keeps b _ _) fun c3 => ?_
      exact keeps_pure trivial
    · refine keeps_rbind fun ch => ?_
      refine keeps_tbind (ih _ _ _ _) fun inner => ?_
      cases inner with
      | none => exact keeps_pure trivial
      | some i =>
        dsimp only
        refine keeps_rbind fun ch2 => ?_
        refine keeps_tbind (copy_keeps b _ _) fun copied => ?_
        refine keeps_tbind (replaceChild_keeps b _ _ _ _) fun r => ?_
        exact keeps_pure trivial

theorem insertAt_keeps (b : Heap) (fuel : Nat) (s : Slice) (pos : Int) (frag : Fragment) :
    Keeps b (s.InsertAt fuel pos frag) (fun _ => True) := by
  unfold Slice.InsertAt
  refine keeps_tbind (insertInto_keeps b _ _ _ _ _) fun content => ?_
  cases content with
  | none => exact keeps_pure trivial
  | some c => exact keeps_pure trivial

/-! ### The package `transform` -/

theorem mapLoop_keeps (b : Heap) (mapFrag : Fragment → Node → M Fragment)
    (fn : Node → Node → Int → M Node) (f : Fragment) (parent : Node)
    (hmap : ∀ g p, Keeps b (mapFrag g p) (fun _ => True))
    (hfn : ∀ node p i, Fresh b.marks.length node.Marks →
      Keeps b (fn node p i) (fun _ => True)) :
    ∀ (k : Nat) (i : Int) (content : Ref), Fresh b.nodes.length content →
      Keeps b (mapLoop mapFrag fn f parent k i content) (fun _ => True) := by
  intro k
  induction k with
  | zero =>
    intro i content _
    unfold mapLoop
    exact keeps_pure trivial
  | succ k ih =>
    intro i content hc
    unfold mapLoop
    refine keeps_ite (fun _ => ?_) (fun _ => keeps_pure trivial)
    refine keeps_rbind fun p => ?_
    refine keeps_rbind fun c => ?_
    refine keeps_bind _ (nodeClone_keeps b _) fun child h1 => ?_
    refine keeps_bind (fun x : Node => Fresh b.marks.length x.Marks) ?_ fun child2 h2 => ?_
    · refine keeps_ite (fun _ => ?_) (fun _ => keeps_pure h1)
      refine keeps_tbind (hmap _ _) fun inner => ?_
      exact keeps_pure h1
    · refine keeps_tbind ?_ fun child3 => ?_
      · exact keeps_ite (fun _ => hfn _ _ _ h2) (fun _ => keeps_pure trivial)
      · refine keeps_bind _ (goAppendNode_keeps b _ _ hc) fun c2 hc2 => ?_
        exact ih _ _ hc2

theorem mapFragments_keeps (b : Heap) (fn : Node → Node → Int → M Node)
    (hfn : ∀ node p i, Fresh b.marks.length node.Marks →
      Keeps b (fn node p i) (fun _ => True)) :
    ∀ (fuel : Nat) (f : Fragment) (parent : Node),
      Keeps b (mapFragments fn fuel f parent) (fun _ => True) := by
  intro fuel
  induction fuel with
  | zero =>
    intro f parent
    unfold mapFragments
    exact keeps_fail
  | succ fuel ih =>
    intro f parent
    unfold mapFragments
    refine keeps_tbind (mapLoop_keeps b _ _ _ _ ih hfn _ _ _ (fresh_zero _)) fun c => ?_
    exact keeps_read

theorem addMarkTo_keeps (b : Heap) (s : MarkStep) (node parent : Node) (i : Int)
    (hm : Fresh b.marks.length node.Marks) :
    Keeps b (s.addMarkTo node parent i) (fun _ => True) := by
  unfold MarkStep.addMarkTo
  refine keeps_ite (fun _ => keeps_pure trivial) fun _ => ?_
  refine keeps_bind _ (goAppendMark_keeps b _ _ hm) fun marks _ => ?_
  exact withMarks_keeps b _ _

theorem removeMarkFrom_keeps (b : Heap) (s : MarkStep) (node parent : Node) (i : Int)
    (hm : Fresh b.marks.length node.Marks) :
    Keeps b (s.removeMarkFrom node parent i) (fun _ => True) := by
  unfold MarkStep.removeMarkFrom
  refine keeps_bind _ (deleteFuncMarks_keeps b _ _ hm) fun marks _ => ?_
  exact withMarks_keeps b _ _

theorem addMark_keeps (b : Heap) (fuel : Nat) (s : MarkStep) (doc : Node) :
    Keeps b (s.addMark fuel doc) (fun _ => True) := by
  unfold MarkStep.addMark
  refine keeps_tbind (wrapErr_keeps _ (slice_keeps b _ _ _ _ _)) fun oldSlice => ?_
  refine keeps_tbind (wrapErr_keeps _ (resolve_keeps b _ _ _)) fun from_ => ?_
  refine keeps_rbind fun depth => ?_
  refine keeps_rbind fun parent => ?_
  refine keeps_tbind (mapFragments_keeps b _ (addMarkTo_keeps b s) _ _ _) fun slice => ?_
  exact nodeReplace_keeps b _ _ _ _ _

theorem removeMark_keeps (b : Heap) (fuel : Nat) (s : MarkStep) (doc : Node) :
    Keeps b (s.removeMark fuel doc) (fun _ => True) := by
  unfold MarkStep.removeMark
  refine keeps_tbind (wrapErr_keeps _ (slice_keeps b _ _ _ _ _)) fun oldSlice => ?_
  refine keeps_tbind (mapFragments_keeps b _ (removeMarkFrom_keeps b s) _ _ _) fun slice => ?_
  exact nodeReplace_keeps b _ _ _ _ _

theorem contentBetween_keeps (b : Heap) (fuel : Nat) (doc : Node) (from_ to_ : Int) :
    Keeps b (contentBetween fuel doc from_ to_) (fun _ => True) := by
  unfold contentBetween
  refine keeps_tbind (orZero_keeps (resolve_keeps b _ _ _)) fun fromNode => ?_
  dsimp only
  refine keeps_rbind fun climbed => ?_
  refine keeps_ite (fun _ => ?_) (fun _ => keeps_pure trivial)
  refine keeps_rbind fun n => ?_
  refine keeps_rbind fun ia => ?_
  exact keeps_read

theorem replaceAround_keeps (b : Heap) (fuel : Nat) (s : ReplaceAroundStep) (doc : Node) :
    Keeps b (s.Apply fuel doc) (fun _ => True) := by
  unfold ReplaceAroundStep.Apply
  refine keeps_tbind ?_ fun overwrite => ?_
  · refine keeps_ite (fun _ => ?_) (fun _ => keeps_pure trivial)
    refine keeps_tbind (contentBetween_keeps b _ _ _ _) fun before => ?_
    exact keeps_ite (fun _ => keeps_pure trivial) (fun _ => contentBetween_keeps b _ _ _ _)
  · refine keeps_ite (fun _ => keeps_fail) fun _ => ?_
    refine keeps_tbind (wrapErr_keeps _ (slice_keeps b _ _ _ _ _)) fun gap => ?_
    refine keeps_ite (fun _ => keeps_fail) fun _ => ?_
    refine keeps_tbind (insertAt_keeps b _ _ _ _) fun inserted => ?_
    cases inserted with
    | none => exact keeps_fail
    | some ins => exact nodeReplace_keeps b _ _ _ _ _

theorem apply_keeps (b : Heap) (fuel : Nat) (a : Applier) (doc : Node) :
    Keeps b (a.Apply fuel doc) (fun _ => True) := by
  cases a with
  | replace s =>
    unfold Applier.Apply ReplaceStep.Apply
    exact wrapErr_keeps _ (nodeReplace_keeps b _ _ _ _ _)
  | replaceAround s =>
    unfold Applier.Apply
    exact replaceAround_keeps b _ _ _
  | mark s =>
    unfold Applier.Apply MarkStep.Apply
    exact keeps_ite (fun _ => removeMark_keeps b _ _ _) (fun _ => addMark_keeps b _ _ _)

/-! ### Values in memory -/

theorem load_mono {α : Type} (b s : Store α) (r : Ref) (xs : List α) (hp : b <+: s)
    (h : b.load r = some xs) : s.load r = some xs := by
  unfold Store.load at h ⊢
  by_cases h0 : r.len = 0
  · rw [if_pos h0] at h ⊢
    exact h
  · rw [if_neg h0] at h ⊢
    obtain ⟨t, rfl⟩ := hp
    cases hb : b.get? r.loc with
    | none => rw [hb] at h; cases h
    | some arr =>
      rw [hb] at h
      have : (b ++ t).get? r.loc = some arr := by
        rw [List.get?_eq_getElem?] at hb ⊢
        exact List.getElem?_append_left (List.getElem?_eq_some.mp hb).1 ▸ hb
      rw [this]
      exact h

theorem loadList_mono (f g : Node → Option Prosemirror.Node)
    (hfg : ∀ n v, f n = some v → g n = some v) :
    ∀ (cs : List Node) (vs : List Prosemirror.Node),
      loadList f cs = some vs → loadList g cs = some vs := by
  intro cs
  induction cs with
  | nil => intro vs h; exact h
  | cons c cs ih =>
    intro vs h
    unfold loadList at h ⊢
    cases hf : f c with
    | none => rw [hf] at h; cases h
    | some v =>
      cases hl : loadList f cs with
      | none => rw [hf, hl] at h; cases h
      | some ws =>
        rw [hf, hl] at h
        rw [hfg c v hf, ih ws hl]
        exact h

theorem value_mono (b h : Heap) (hle : b.le h) :
    ∀ (depth : Nat) (n : Node) (v : Prosemirror.Node),
      b.value depth n = some v → h.value depth n = some v := by
  intro depth
  induction depth with
  | zero => intro n v hv; cases hv
  | succ depth ih =>
    intro n v hv
    unfold Heap.value at hv ⊢
    cases hm : b.marks.load n.Marks with
    | none => rw [hm] at hv; cases hv
    | some marks =>
      cases hc : b.nodes.load n.Content.Content with
      | none => rw [hm, hc] at hv; cases hv
      | some cs =>
        rw [hm, hc] at hv
        rw [load_mono _ _ _ _ hle.2.1 hm, load_mono _ _ _ _ hle.1 hc]
        dsimp only at hv ⊢
        cases hl : loadList (b.value depth) cs with
        | none => rw [hl] at hv; cases hv
        | some vs =>
          rw [hl] at hv
          rw [loadList_mono _ _ ih cs vs hl]
          exact hv

end Mem

/-! ## The steps leave the memory of the document as it is: the statement -/

/-- C33 (immutability): for every step (replace, replaceAround, addMark or removeMark), every
document `doc` held in memory with value `v`, every growth policy of `append` and every
amount of fuel: after `step.Apply(doc)`, whether it returned a new document or failed, every
array that was in memory before the call is there with the same cells, and the value of `doc`
(the tree that its slices spell out, which is what encoding it writes) is still `v`. -/
theorem C33_apply_keeps_doc (step : Mem.Applier) (fuel : Nat) (doc : Mem.Node) (h : Mem.Heap)
    (depth : Nat) (v : Node) (hv : h.value depth doc = some v) :
    h.le ((step.Apply fuel doc) h).2 ∧
      ((step.Apply fuel doc) h).2.value depth doc = some v := by
  have hk := (Mem.apply_keeps h fuel step doc h (Mem.heap_le_refl h)).1
  exact ⟨hk, Mem.value_mono _ _ hk _ _ _ hv⟩

/-- Witness of C33: removing `em` from `doc(p(em("ab"), "cd"))` returns a document without the
mark, and the document passed in still has it. -/
theorem C33_apply_keeps_doc_witness :
    emDocMem.2.value 3 emDocMem.1 = some emDoc ∧
      (Mem.resultValue (removeEmStep.Apply 6 emDocMem.1) emDocMem.2 3).map Node.childTextsMarks
          = some [[(ascii "ab", []), (ascii "cd", [])]] ∧
      emDocMem.2.le ((removeEmStep.Apply 6 emDocMem.1) emDocMem.2).2 ∧
      ((removeEmStep.Apply 6 emDocMem.1) emDocMem.2).2.value 3 emDocMem.1 = some emDoc :=
  ⟨rfl, by decide!, C33_apply_keeps_doc removeEmStep 6 emDocMem.1 emDocMem.2 3 emDoc rfl⟩

end Prosemirror
